import Mathlib

/-! Verification of lrupintool: the indexed LRU page list, the set-associative cache and the
CU-tier engine.

Shallow embedding of `source/tools/lru_policy/hashll.h` and
`source/tools/lru_policy/lru_policy.cpp`.

Modelling conventions.

* A `HashLL` is the sequence of its linked nodes from `head` (MRU) to `tail` (LRU);
  `head` is the first element of the sequence and `tail` the last.  The `prev`/`next`
  fields of a node are its neighbours in the sequence, so `unlink_node` removes an element
  and `insert_at_head` puts one in front.
* A node keeps its heap address (`addr`), the value of the `hash_node*` that the
  `unordered_map` stores; the map is an association list from page number to address.
* `size` (`uint32_t`) and `age` (`uint32_t`) wrap modulo `2^32` as in the source, and the
  64-bit counters (`access_count`, `unclist_access`, `acc`, `miss`, the epochs, the
  `StatPack` fields, `globalIns`) wrap modulo `2^64`.
* `operator new` is an address supply: `touch` receives the address of the node it may
  allocate, and the engine state carries the next unused address (`brk`).
* The callbacks handed to `SimpleCache::Access` act on other objects than the cache itself;
  an access returns the list of callback invocations it makes, in order, and the caller runs
  them.
-/

set_option autoImplicit false

/-- Source `++x` on a `uint64_t`. -/
def incr64 (x : Nat) : Nat := (x + 1) % 2 ^ 64

namespace HASHLL

/-- Value of a `hash_node*`. -/
abbrev Ptr := Nat

/-- Source `HashLL::addr_to_num`: `vp_addr >> 12`. -/
def addr_to_num (vp_addr : Nat) : Nat := vp_addr >>> 12

/-- Source `struct hash_node`; `next`/`prev` are given by the position in `HashLL.nodes`. -/
structure hash_node where
  addr : Ptr
  vp_num : Nat
  access_count : Nat
deriving DecidableEq, Repr

/-- Source `hash_node(uint64_t vp_addr)` placed at address `p`. -/
def hash_node.create (p : Ptr) (vp_addr : Nat) : hash_node :=
  { addr := p, vp_num := addr_to_num vp_addr, access_count := 1 }

/-- Source `++access_count` on a node. -/
def hash_node.bumped (x : hash_node) : hash_node :=
  { x with access_count := incr64 x.access_count }

/-- Source `++x` on a `uint32_t`. -/
def incr32 (x : Nat) : Nat := (x + 1) % 2 ^ 32

/-- Source `--x` on a `uint32_t` value `x`: `x - 1`, and `2^32 - 1` from `0`. -/
def decr32 (x : Nat) : Nat := if x = 0 then 2 ^ 32 - 1 else x - 1

/-- Source `table.find(k)`: the mapped pointer, `none` for `table.end()`. -/
def table_find (t : List (Nat × Ptr)) (k : Nat) : Option Ptr :=
  match t with
  | [] => none
  | e :: rest => if e.1 = k then some e.2 else table_find rest k

/-- Source `table.erase(k)`. -/
def table_erase (t : List (Nat × Ptr)) (k : Nat) : List (Nat × Ptr) :=
  t.filter (fun e => decide (e.1 ≠ k))

/-- Source `table[k] = p`. -/
def table_set (t : List (Nat × Ptr)) (k : Nat) (p : Ptr) : List (Nat × Ptr) :=
  (k, p) :: table_erase t k

/-- Source `class HashLL`: `cap`, `size`, the linked list `head ... tail`, and `table`. -/
structure HashLL where
  cap : Nat
  size : Nat
  nodes : List hash_node
  table : List (Nat × Ptr)
deriving DecidableEq, Repr

/-- Source `HashLL(uint32_t capacity)`. -/
def HashLL.create (capacity : Nat) : HashLL :=
  { cap := capacity, size := 0, nodes := [], table := [] }

/-- The `head` pointer. -/
def HashLL.head (l : HashLL) : Option Ptr := l.nodes.head?.map hash_node.addr

/-- The `tail` pointer. -/
def HashLL.tail (l : HashLL) : Option Ptr := l.nodes.getLast?.map hash_node.addr

/-- Dereference of a node pointer of this list. -/
def HashLL.deref (l : HashLL) (p : Ptr) : Option hash_node :=
  l.nodes.find? (fun n => decide (n.addr = p))

/-- Source `unlink_node(n)`. -/
def HashLL.unlink_node (l : HashLL) (n : Ptr) : HashLL :=
  { l with nodes := l.nodes.filter (fun x => decide (x.addr ≠ n)) }

/-- Source `insert_at_head(n)`. -/
def HashLL.insert_at_head (l : HashLL) (n : hash_node) : HashLL :=
  { l with nodes := n :: l.nodes }

/-- Source `++n->access_count` for the node at address `n`. -/
def HashLL.bump (l : HashLL) (n : Ptr) : HashLL :=
  { l with nodes := l.nodes.map (fun x => if x.addr = n then x.bumped else x) }

/-- Source `lru_node()`: the tail. -/
def HashLL.lru_node (l : HashLL) : Option hash_node := l.nodes.getLast?

/-- Source `touch(vp_addr)`; `fresh` is the address that `new hash_node` returns when it is
called. -/
def HashLL.touch (l : HashLL) (vp_addr : Nat) (fresh : Ptr) : HashLL :=
  let vp_num := addr_to_num vp_addr
  match table_find l.table vp_num with
  | some n =>
    let l1 := l.bump n
    if l1.head ≠ some n then
      match l1.deref n with
      | some node => (l1.unlink_node n).insert_at_head node
      | none => l1
    else l1
  | none =>
    let n := hash_node.create fresh vp_addr
    let l1 := { l with table := table_set l.table vp_num fresh }
    let l2 := l1.insert_at_head n
    if l2.size < l2.cap then
      { l2 with size := incr32 l2.size }
    else
      match l2.lru_node with
      | some ev =>
        let l3 := l2.unlink_node ev.addr
        { l3 with table := table_erase l3.table ev.vp_num }
      | none => l2

/-- Source `get_size()`. -/
def HashLL.get_size (l : HashLL) : Nat := l.size

/-- Source `get_cap()`. -/
def HashLL.get_cap (l : HashLL) : Nat := l.cap

/-- Source `make_recent(vp_addr)`; a page that is not found is reported and nothing changes.
The node is unlinked and put in front by the statements of the function itself. -/
def HashLL.make_recent (l : HashLL) (vp_addr : Nat) : HashLL :=
  match table_find l.table (addr_to_num vp_addr) with
  | none => l
  | some n =>
    let l1 := l.bump n
    if l1.head = some n then l1
    else
      match l1.deref n with
      | some node =>
        { l1 with nodes := node :: l1.nodes.filter (fun x => decide (x.addr ≠ n)) }
      | none => l1

/-- The loop of `hottest_node()`, with `best` and `maxc` as loop state. -/
def hottest_loop : List hash_node → Option hash_node → Nat → Option hash_node
  | [], best, _ => best
  | cur :: rest, best, maxc =>
    if cur.access_count > maxc then hottest_loop rest (some cur) cur.access_count
    else hottest_loop rest best maxc

/-- Source `hottest_node()`. -/
def HashLL.hottest_node (l : HashLL) : Option hash_node := hottest_loop l.nodes none 0

/-- Source `insert_lru(vp_addr)`; `fresh` is the address that `new hash_node` returns when it is
called. -/
def HashLL.insert_lru (l : HashLL) (vp_addr : Nat) (fresh : Ptr) : HashLL :=
  let vp_num := addr_to_num vp_addr
  match table_find l.table vp_num with
  | some _ => l
  | none =>
    let n := hash_node.create fresh vp_addr
    { l with table := table_set l.table vp_num fresh, nodes := l.nodes ++ [n],
             size := incr32 l.size }

/-- Source `remove(vp_addr)`; a page that is not found is reported and nothing changes. -/
def HashLL.remove (l : HashLL) (vp_addr : Nat) : HashLL :=
  let vp_num := addr_to_num vp_addr
  match table_find l.table vp_num with
  | none => l
  | some n =>
    let l1 := l.unlink_node n
    { l1 with table := table_erase l1.table vp_num, size := decr32 l1.size }

/-- Source `increment_count(vp_addr)`; a page that is not found is reported and nothing
changes. -/
def HashLL.increment_count (l : HashLL) (vp_addr : Nat) : HashLL :=
  match table_find l.table (addr_to_num vp_addr) with
  | none => l
  | some n => l.bump n

/-- Source `reset_counters()`. -/
def HashLL.reset_counters (l : HashLL) : HashLL :=
  { l with nodes := l.nodes.map (fun x => { x with access_count := 0 }) }

/-- Source `isFull()`. -/
def HashLL.isFull (l : HashLL) : Bool := decide (l.size ≥ l.cap)

/-- Source `find_node(vp_addr)`: the pointer stored in the table, `none` for `nullptr`. -/
def HashLL.find_node (l : HashLL) (vp_addr : Nat) : Option Ptr :=
  table_find l.table (addr_to_num vp_addr)

/-- Source `get_nodes()`: the page numbers from head to tail. -/
def HashLL.get_nodes (l : HashLL) : List Nat := l.nodes.map hash_node.vp_num

/-- Source `insert_mru_node(n)`. -/
def HashLL.insert_mru_node (l : HashLL) (n : hash_node) : HashLL :=
  { l with nodes := n :: l.nodes, size := incr32 l.size,
           table := table_set l.table n.vp_num n.addr }

/-- Source `insert_lru_node(n)`. -/
def HashLL.insert_lru_node (l : HashLL) (n : hash_node) : HashLL :=
  { l with nodes := l.nodes ++ [n], size := incr32 l.size,
           table := table_set l.table n.vp_num n.addr }

/-- Source `this->swap_with(other)` for two distinct objects; the result is `(this, other)`. -/
def HashLL.swap_with (this other : HashLL) : HashLL × HashLL :=
  match this.hottest_node, other.lru_node with
  | some hot, some cold =>
    let t1 := this.unlink_node hot.addr
    let t2 := { t1 with table := table_erase t1.table hot.vp_num, size := decr32 t1.size }
    let o1 := other.unlink_node cold.addr
    let o2 := { o1 with table := table_erase o1.table cold.vp_num, size := decr32 o1.size }
    (t2.insert_lru_node cold, o2.insert_mru_node hot)
  | _, _ => (this, other)

end HASHLL

open HASHLL

/-! ## The set-associative cache of `lru_policy.cpp` -/

/-- Source `63 - __builtin_clzll(x)` for a non-zero 64-bit `x`: the position of its highest set
bit, computed by at most `fuel` halvings. -/
def highest_bit : Nat → Nat → Nat
  | 0, _ => 0
  | fuel + 1, x => if 2 ≤ x then highest_bit fuel (x / 2) + 1 else 0

/-- Source `struct SimpleCacheConfig`. -/
structure SimpleCacheConfig where
  sizeBytes : Nat
  blockBytes : Nat
  ways : Nat
deriving DecidableEq, Repr

/-- Source `sets()`: `static_cast<uint32_t>(sizeBytes / (blockBytes * ways))`, the product being
a `uint32_t` product. -/
def SimpleCacheConfig.sets (c : SimpleCacheConfig) : Nat :=
  (c.sizeBytes / ((c.blockBytes * c.ways) % 2 ^ 32)) % 2 ^ 32

/-- Source `blockLog2()`. -/
def SimpleCacheConfig.blockLog2 (c : SimpleCacheConfig) : Nat := highest_bit 64 c.blockBytes

/-- Source `setBits()`. -/
def SimpleCacheConfig.setBits (c : SimpleCacheConfig) : Nat := highest_bit 64 c.sets

/-- Source `struct Line`. -/
structure Line where
  tag : Nat
  age : Nat
  valid : Bool
  dirty : Bool
deriving DecidableEq, Repr

/-- A default-constructed `Line`. -/
def Line.empty : Line := { tag := 0, age := 0, valid := false, dirty := false }

/-- The loop `for (auto& l : w) if (l.valid && l.age < a) ++l.age` of `TouchLRU`. -/
def age_younger (w : List Line) (a : Nat) : List Line :=
  w.map (fun l => if l.valid && decide (l.age < a) then { l with age := incr32 l.age } else l)

/-- Source `TouchLRU(w, hit)`. -/
def TouchLRU (w : List Line) (hit : Nat) : List Line :=
  let a := (w.getD hit Line.empty).age
  let w1 := age_younger w a
  w1.set hit { (w1.getD hit Line.empty) with age := 0 }

/-- The loop of `PickVictim`, at way `i` with `idx` and `maxAge` as loop state. -/
def PickVictim_loop : List Line → Nat → Nat → Nat → Nat
  | [], _, idx, _ => idx
  | l :: rest, i, idx, maxAge =>
    if !l.valid then i
    else if l.age ≥ maxAge then PickVictim_loop rest (i + 1) i l.age
    else PickVictim_loop rest (i + 1) idx maxAge

/-- Source `PickVictim(w)`. -/
def PickVictim (w : List Line) : Nat := PickVictim_loop w 0 0 0

/-- The lookup loop of `Access`: the first way from `i` on that is valid and holds `tag`. -/
def lookup_way : List Line → Nat → Nat → Option Nat
  | [], _, _ => none
  | l :: rest, tag, i =>
    if l.valid && decide (l.tag = tag) then some i else lookup_way rest tag (i + 1)

/-- The loop `for (auto& l : w) if (l.valid) ++l.age`. -/
def age_all (w : List Line) : List Line :=
  w.map (fun l => if l.valid then { l with age := incr32 l.age } else l)

/-- An invocation of one of the callbacks of a cache. -/
inductive Callback where
  | up (addr : Nat) (dirty : Bool)
  | wb (addr : Nat)
  | wbInstall (addr : Nat)
deriving DecidableEq, Repr

/-- Source `class SimpleCache`; `hasWbInstall` says whether `SetWBInstall` has stored a
function. -/
structure SimpleCache where
  cfg : SimpleCacheConfig
  mask : Nat
  sets : List (List Line)
  acc : Nat
  miss : Nat
  hasWbInstall : Bool
deriving DecidableEq, Repr

/-- Source `SimpleCache(const SimpleCacheConfig&)`. -/
def SimpleCache.create (c : SimpleCacheConfig) : SimpleCache :=
  { cfg := c, mask := decr32 c.sets,
    sets := List.replicate c.sets (List.replicate c.ways Line.empty),
    acc := 0, miss := 0, hasWbInstall := false }

/-- Source `Decode(a)`: `(static_cast<uint32_t>(blk & mask), blk >> setBits)`. -/
def SimpleCache.Decode (c : SimpleCache) (a : Nat) : Nat × Nat :=
  let blk := a >>> c.cfg.blockLog2
  ((blk &&& c.mask) % 2 ^ 32, blk >>> c.cfg.setBits)

/-- Source `Reconstruct(s, tag)` on 64-bit words. -/
def SimpleCache.Reconstruct (c : SimpleCache) (s : Nat) (tag : Nat) : Nat :=
  ((((tag <<< c.cfg.setBits) % 2 ^ 64) ||| s) <<< c.cfg.blockLog2) % 2 ^ 64

/-- Source `Access(addr, isWrite, up, wb)`; `hasUp` / `hasWB` say whether the callback argument
is a function (not `nullptr`).  The result is the hit flag, the cache afterwards and the callback
invocations made. -/
def SimpleCache.Access (c : SimpleCache) (addr : Nat) (isWrite : Bool) (hasUp hasWB : Bool) :
    Bool × SimpleCache × List Callback :=
  let c1 := { c with acc := incr64 c.acc }
  let st := c.Decode addr
  let w := c.sets.getD st.1 []
  match lookup_way w st.2 0 with
  | some i =>
    let w1 := TouchLRU w i
    let w2 := if isWrite then w1.set i { (w1.getD i Line.empty) with dirty := true } else w1
    (true, { c1 with sets := c1.sets.set st.1 w2 }, [])
  | none =>
    let c2 := { c1 with miss := incr64 c1.miss }
    let v := PickVictim w
    let ev := w.getD v Line.empty
    let calls :=
      if ev.valid then
        (if hasUp then [Callback.up (c.Reconstruct st.1 ev.tag) ev.dirty] else []) ++
        (if hasWB && ev.dirty then [Callback.wb (c.Reconstruct st.1 ev.tag)] else [])
      else []
    let w1 := age_all w
    let w2 := w1.set v { tag := st.2, age := 0, valid := true, dirty := isWrite }
    (false, { c2 with sets := c2.sets.set st.1 w2 }, calls)

/-- Source `Install(addr, dirty)`. -/
def SimpleCache.Install (c : SimpleCache) (addr : Nat) (dirty : Bool) :
    SimpleCache × List Callback :=
  let st := c.Decode addr
  let w := c.sets.getD st.1 []
  let v := PickVictim w
  let ev := w.getD v Line.empty
  let calls :=
    if ev.valid && ev.dirty && c.hasWbInstall then
      [Callback.wbInstall (c.Reconstruct st.1 ev.tag)]
    else []
  let w1 := age_all w
  let w2 := w1.set v { tag := st.2, age := 0, valid := true, dirty := dirty }
  ({ c with sets := c.sets.set st.1 w2 }, calls)

/-- Source `Accesses()`. -/
def SimpleCache.Accesses (c : SimpleCache) : Nat := c.acc

/-- Source `Misses()`. -/
def SimpleCache.Misses (c : SimpleCache) : Nat := c.miss

/-- Source `ResetStats()`. -/
def SimpleCache.ResetStats (c : SimpleCache) : SimpleCache := { c with acc := 0, miss := 0 }

/-! ## The engine: `CacheCall`, `RecordMemRead`, `RecordMemWrite` for one thread -/

/-- Source `READ_OP`. -/
def READ_OP : Nat := 0

/-- Source `WRITE_OP`. -/
def WRITE_OP : Nat := 1

/-- The knobs read by `main`. -/
structure Knobs where
  l1size : Nat
  l1assoc : Nat
  l2size : Nat
  l2assoc : Nat
  blk : Nat
  unclsize : Nat
  clsize : Nat
  unclfreq : Nat
  clfreq : Nat
  exfreq : Nat
deriving DecidableEq, Repr

/-- Source `struct StatPack`. -/
structure StatPack where
  ins : Nat
  memIns : Nat
  reads : Nat
  writes : Nat
deriving DecidableEq, Repr

/-- The global variables of `lru_policy.cpp`, with the `L1` cache and the `StatPack` of the
one running thread, and the next unused node address `brk`. -/
structure State where
  blk : Nat
  l1 : SimpleCache
  L2 : SimpleCache
  stats : StatPack
  clist : HashLL
  unclist : HashLL
  clist_access : Nat
  unclist_access : Nat
  cpage_access : Nat
  clist_freq : Nat
  unclist_freq : Nat
  expansionFrequency : Nat
  uc_epoch : Nat
  cl_epoch : Nat
  brk : Ptr
deriving DecidableEq, Repr

/-- The state `main` sets up, after `ThreadStart` of the one thread. -/
def State.init (k : Knobs) : State :=
  { blk := k.blk,
    l1 := SimpleCache.create { sizeBytes := k.l1size, blockBytes := k.blk, ways := k.l1assoc },
    L2 := SimpleCache.create { sizeBytes := k.l2size, blockBytes := k.blk, ways := k.l2assoc },
    stats := { ins := 0, memIns := 0, reads := 0, writes := 0 },
    clist := HashLL.create k.clsize,
    unclist := HashLL.create k.unclsize,
    clist_access := 0, unclist_access := 0, cpage_access := 0,
    clist_freq := k.clfreq, unclist_freq := k.unclfreq, expansionFrequency := k.exfreq,
    uc_epoch := 0, cl_epoch := 0, brk := 1 }

/-- The promotion gate of `CacheCall` ("Step 0 : lists are full -- do we swap?"), entered
with `unc_lock` and `c_lock` held. -/
def promotion_gate (s : State) : State :=
  if s.uc_epoch ≥ s.expansionFrequency then
    let r := s.clist.swap_with s.unclist
    { s with clist := r.1, unclist := r.2, uc_epoch := 0 }
  else s

/-- The rest of `CacheCall` after the promotion gate: "Step 3" (page already in `unclist`),
"Step 4" (page already in `clist`, or insert it there) and "Step 5" (compressed-page miss). -/
def hit_checks (s : State) (vp_addr : Nat) : State :=
  match s.unclist.find_node vp_addr with
  | some _ =>
    let s2 := { s with unclist_access := incr64 s.unclist_access }
    if s2.uc_epoch ≥ s2.unclist_freq then
      { s2 with unclist := s2.unclist.touch vp_addr s2.brk, brk := s2.brk + 1, uc_epoch := 0 }
    else
      { s2 with unclist := s2.unclist.increment_count vp_addr }
  | none =>
    match s.clist.find_node vp_addr with
    | some _ =>
      let s2 := { s with clist_access := incr64 s.clist_access }
      if s2.cl_epoch ≥ s2.clist_freq then
        { s2 with clist := s2.clist.touch vp_addr s2.brk, brk := s2.brk + 1, cl_epoch := 0 }
      else
        { s2 with clist := s2.clist.increment_count vp_addr }
    | none =>
      if s.cl_epoch ≥ s.clist_freq then
        { s with clist := s.clist.touch vp_addr s.brk, brk := s.brk + 1,
                 cpage_access := incr64 s.cpage_access, cl_epoch := 0 }
      else
        { s with cpage_access := incr64 s.cpage_access }

/-- The body of `if (!l2Hit)` in `CacheCall`: the two warm-up fills, then the promotion
gate and the hit checks. -/
def cu_tier (s : State) (vp_addr : Nat) : State :=
  if !s.unclist.isFull then
    { s with unclist := s.unclist.touch vp_addr s.brk, brk := s.brk + 1,
             unclist_access := incr64 s.unclist_access }
  else if !s.clist.isFull then
    { s with clist := s.clist.touch vp_addr s.brk, brk := s.brk + 1,
             clist_access := incr64 s.clist_access }
  else
    hit_checks (promotion_gate s) vp_addr

/-- Runs the callbacks of the `L2` access of `CacheCall` on the thread's `L1`: the installer is
`l1.Install(a, d)`, the write-back sink does nothing. -/
def run_L2_callbacks (l1 : SimpleCache) : List Callback → SimpleCache
  | [] => l1
  | Callback.up a d :: rest => run_L2_callbacks (l1.Install a d).1 rest
  | _ :: rest => run_L2_callbacks l1 rest

/-- Source `CacheCall(tid, op, _, _, blkAddr, _, _, _, vp_addr)` for the one thread. -/
def CacheCall (s : State) (op : Nat) (blkAddr : Nat) (vp_addr : Nat) : State :=
  let r1 := s.l1.Access blkAddr (decide (op = WRITE_OP)) false false
  let s1 := { s with l1 := r1.2.1 }
  if r1.1 then s1
  else
    let r2 := s1.L2.Access blkAddr (decide (op = WRITE_OP)) true true
    let s2 := { s1 with L2 := r2.2.1, l1 := run_L2_callbacks s1.l1 r2.2.2 }
    if !r2.1 then cu_tier s2 vp_addr else s2

/-- Source `(addr + CACHELINE_OFFSET) & DATA_BLOCK_FLOOR_ADDR_MASK` with
`DATA_BLOCK_FLOOR_ADDR_MASK = ~(static_cast<UINT64>(KnobBlkBytes.Value()-1))`. -/
def block_floor (blk : Nat) (addr : Nat) : Nat :=
  (addr % 2 ^ 64) &&& (2 ^ 64 - 1 - decr32 blk)

/-- Source `RecordMemRead(ip, addr, ...)`. -/
def RecordMemRead (s : State) (addr : Nat) : State :=
  let s1 := { s with uc_epoch := incr64 s.uc_epoch, cl_epoch := incr64 s.cl_epoch,
                     stats := { s.stats with memIns := incr64 s.stats.memIns,
                                             reads := incr64 s.stats.reads } }
  CacheCall s1 READ_OP (block_floor s1.blk addr) addr

/-- Source `RecordMemWrite(ip, addr, ...)`. -/
def RecordMemWrite (s : State) (addr : Nat) : State :=
  let s1 := { s with uc_epoch := incr64 s.uc_epoch, cl_epoch := incr64 s.cl_epoch,
                     stats := { s.stats with memIns := incr64 s.stats.memIns,
                                             writes := incr64 s.stats.writes } }
  CacheCall s1 WRITE_OP (block_floor s1.blk addr) addr

/-- A memory event of the instrumented program. -/
inductive MemEvent where
  | read (addr : Nat)
  | write (addr : Nat)
deriving DecidableEq, Repr

/-- One memory event. -/
def step (s : State) : MemEvent → State
  | MemEvent.read a => RecordMemRead s a
  | MemEvent.write a => RecordMemWrite s a

/-- A stream of memory events, in program order. -/
def run (s : State) (evs : List MemEvent) : State := evs.foldl step s

/-! ## The locks of `CacheCall` -/

/-- The locks that `CacheCall` uses. -/
inductive Lock where
  | l2Lock
  | unc_lock
  | c_lock
  | cpage_lock
deriving DecidableEq, Repr

/-- A call of `PIN_GetLock` or of `PIN_ReleaseLock`. -/
inductive LockOp where
  | get (l : Lock)
  | release (l : Lock)
deriving DecidableEq, Repr

/-- The lock calls of "Step 0", the promotion gate. -/
def gate_locks : List LockOp :=
  [LockOp.get Lock.unc_lock, LockOp.get Lock.c_lock,
   LockOp.release Lock.c_lock, LockOp.release Lock.unc_lock]

/-- The lock calls of "Step 3" to "Step 5" of `CacheCall`, in order, on the branches of
`hit_checks`. -/
def hit_checks_locks (s : State) (vp_addr : Nat) : List LockOp :=
  match s.unclist.find_node vp_addr with
  | some _ => [LockOp.get Lock.unc_lock, LockOp.release Lock.unc_lock]
  | none =>
    [LockOp.get Lock.unc_lock, LockOp.release Lock.unc_lock, LockOp.get Lock.c_lock] ++
    match s.clist.find_node vp_addr with
    | some _ => [LockOp.release Lock.c_lock]
    | none =>
      if s.cl_epoch ≥ s.clist_freq then [LockOp.release Lock.c_lock]
      else [LockOp.release Lock.c_lock, LockOp.get Lock.cpage_lock,
            LockOp.release Lock.cpage_lock]

/-- The lock calls of the body of `if (!l2Hit)` in `CacheCall`, in order, on the branches of
`cu_tier`. -/
def cu_tier_locks (s : State) (vp_addr : Nat) : List LockOp :=
  if !s.unclist.isFull then [LockOp.get Lock.unc_lock, LockOp.release Lock.unc_lock]
  else
    [LockOp.get Lock.unc_lock, LockOp.release Lock.unc_lock, LockOp.get Lock.c_lock] ++
    if !s.clist.isFull then [LockOp.release Lock.c_lock]
    else
      [LockOp.release Lock.c_lock] ++ gate_locks ++ hit_checks_locks (promotion_gate s) vp_addr

/-- The lock calls of `CacheCall`, in order, on the branches of `CacheCall`. -/
def CacheCall_locks (s : State) (op : Nat) (blkAddr : Nat) (vp_addr : Nat) : List LockOp :=
  let r1 := s.l1.Access blkAddr (decide (op = WRITE_OP)) false false
  let s1 := { s with l1 := r1.2.1 }
  if r1.1 then []
  else
    let r2 := s1.L2.Access blkAddr (decide (op = WRITE_OP)) true true
    let s2 := { s1 with L2 := r2.2.1, l1 := run_L2_callbacks s1.l1 r2.2.2 }
    [LockOp.get Lock.l2Lock, LockOp.release Lock.l2Lock] ++
    if !r2.1 then cu_tier_locks s2 vp_addr else []

/-- One lock call of the one thread on the locks it holds (latest first): there is no result
when it requests a lock it holds or releases a lock it does not hold. -/
def lock_step (held : List Lock) : LockOp → Option (List Lock)
  | LockOp.get l => if l ∈ held then none else some (l :: held)
  | LockOp.release l => if l ∈ held then some (held.erase l) else none

/-- A sequence of lock calls, from the locks held. -/
def run_locks (held : List Lock) : List LockOp → Option (List Lock)
  | [] => some held
  | o :: rest => (lock_step held o).bind (fun h => run_locks h rest)

/-- The lock calls of `CacheCall` before the promotion gate takes its second lock. -/
def gate_entry : List LockOp :=
  [LockOp.get Lock.l2Lock, LockOp.release Lock.l2Lock,
   LockOp.get Lock.unc_lock, LockOp.release Lock.unc_lock,
   LockOp.get Lock.c_lock, LockOp.release Lock.c_lock,
   LockOp.get Lock.unc_lock, LockOp.get Lock.c_lock]

/-- Whenever the sequence of lock calls `t` requests `unc_lock`, `c_lock` is not held. -/
def unc_before_c (t : List LockOp) : Prop :=
  ∀ n, n ≤ t.length → t.get? n = some (LockOp.get Lock.unc_lock) →
    ∀ held ∈ run_locks [] (t.take n), Lock.c_lock ∉ held

instance (t : List LockOp) : Decidable (unc_before_c t) := by
  unfold unc_before_c
  infer_instance

/-- Whenever both list locks are held during the sequence of lock calls `t`, the calls so far
are those up to the second lock of the promotion gate (`unc_lock` taken first, `c_lock`
second) and the next two calls release `c_lock` and `unc_lock`. -/
def both_only_in_gate (t : List LockOp) : Prop :=
  ∀ n, n ≤ t.length → ∀ held ∈ run_locks [] (t.take n),
    Lock.unc_lock ∈ held → Lock.c_lock ∈ held →
      held = [Lock.c_lock, Lock.unc_lock] ∧ t.take n = gate_entry ∧
      (t.drop n).take 2 = [LockOp.release Lock.c_lock, LockOp.release Lock.unc_lock]

instance (t : List LockOp) : Decidable (both_only_in_gate t) := by
  unfold both_only_in_gate
  infer_instance

/-- The lock discipline of a sequence of lock calls: all of it runs (no lock is requested
while held, none released while not held) and it ends with no lock held; `unc_lock` is never
requested while `c_lock` is held; both list locks are held together only in the promotion
gate. -/
def LockDiscipline (t : List LockOp) : Prop :=
  run_locks [] t = some [] ∧ unc_before_c t ∧ both_only_in_gate t

instance (t : List LockOp) : Decidable (LockDiscipline t) := by
  unfold LockDiscipline
  infer_instance

/-- The lock-call sequences of the control paths of `CacheCall`. -/
def lock_paths : List (List LockOp) :=
  let l2 := [LockOp.get Lock.l2Lock, LockOp.release Lock.l2Lock]
  let unc := [LockOp.get Lock.unc_lock, LockOp.release Lock.unc_lock]
  let c := [LockOp.get Lock.c_lock, LockOp.release Lock.c_lock]
  let cpage := [LockOp.get Lock.cpage_lock, LockOp.release Lock.cpage_lock]
  [[], l2, l2 ++ unc, l2 ++ unc ++ c,
   l2 ++ unc ++ c ++ gate_locks ++ unc,
   l2 ++ unc ++ c ++ gate_locks ++ unc ++ c,
   l2 ++ unc ++ c ++ gate_locks ++ unc ++ c ++ cpage]

/-! ## The per-instruction call and `main` -/

/-- Source `MAXVAL`: `std::numeric_limits<uint64_t>::max()`. -/
def MAXVAL : Nat := 2 ^ 64 - 1

/-- Source `REPORT_INTERVAL`. -/
def REPORT_INTERVAL : Nat := 1000000000

/-- Source `MAX_INTERVAL`. -/
def MAX_INTERVAL : Nat := MAXVAL

/-- Source `x - y` on `uint64_t` values `x`, `y`. -/
def sub64 (x y : Nat) : Nat := if y ≤ x then x - y else 2 ^ 64 - (y - x)

/-- Source `obj.compare_exchange_strong(expected, desired)` with no other thread running: the
result flag, the value of `obj` afterwards and the value of `expected` afterwards. -/
def compare_exchange_strong (obj expected desired : Nat) : Bool × Nat × Nat :=
  if obj = expected then (true, desired, expected) else (false, obj, obj)

/-- The engine state with the process-wide instruction counters `globalIns` and
`lastReportIns`, and the reports written to `Out`, each given by the instruction count in its
header. -/
structure Process where
  st : State
  globalIns : Nat
  lastReportIns : Nat
  reports : List Nat
deriving DecidableEq, Repr

/-- The statistics reset of the `MAX_INTERVAL` branch, under `reset_lock`. -/
def full_reset (s : State) : State :=
  { s with l1 := s.l1.ResetStats, L2 := s.L2.ResetStats,
           unclist := s.unclist.reset_counters, clist := s.clist.reset_counters,
           clist_access := 0, unclist_access := 0, cpage_access := 0,
           stats := { ins := 0, memIns := 0, reads := 0, writes := 0 } }

/-- Source: the call that `Instruction` inserts before every instruction, for the one
thread. -/
def instruction_call (p : Process) : Process :=
  let st1 := { p.st with stats := { p.st.stats with ins := incr64 p.st.stats.ins } }
  let cur := incr64 p.globalIns
  if sub64 cur p.lastReportIns > MAX_INTERVAL then
    let r := compare_exchange_strong p.lastReportIns cur cur
    if r.1 then
      { st := full_reset st1, globalIns := cur, lastReportIns := r.2.1,
        reports := p.reports ++ [r.2.2] }
    else { st := st1, globalIns := cur, lastReportIns := r.2.1, reports := p.reports }
  else if sub64 cur p.lastReportIns > REPORT_INTERVAL then
    let r := compare_exchange_strong p.lastReportIns cur cur
    if r.1 then
      { st := st1, globalIns := cur, lastReportIns := r.2.1, reports := p.reports ++ [r.2.2] }
    else { st := st1, globalIns := cur, lastReportIns := r.2.1, reports := p.reports }
  else { st := st1, globalIns := cur, lastReportIns := p.lastReportIns, reports := p.reports }

/-- How `main` ends: it returns an exit code; or `cfgL2.sets()` divides by zero while `L2` is
constructed, after both lists have been constructed; or it starts the program, in which the one
thread starts (its `L1` constructed by `ThreadStart`) in the state `s`. -/
inductive Startup where
  | exit (code : Nat)
  | division_by_zero (clist unclist : HashLL)
  | started (s : State)
deriving DecidableEq, Repr

/-- Source `main` (the name `main` is reserved in Lean); `pin_init_failed` is the result of
`PIN_Init`. -/
def tool_main (pin_init_failed : Bool) (k : Knobs) : Startup :=
  if pin_init_failed then Startup.exit 1
  else
    let clist := HashLL.create k.clsize
    let unclist := HashLL.create k.unclsize
    if (k.blk * k.l2assoc) % 2 ^ 32 = 0 then Startup.division_by_zero clist unclist
    else Startup.started (State.init k)

/-! ## Concrete configurations and streams -/

/-- The knobs of scenario 1: two lists of capacity 2, all frequencies `10^9`, 64-byte blocks,
a 128-byte direct-mapped `L1` and a 256-byte direct-mapped `L2`. -/
def scenario1_knobs : Knobs :=
  { l1size := 128, l1assoc := 1, l2size := 256, l2assoc := 1, blk := 64,
    unclsize := 2, clsize := 2, unclfreq := 10 ^ 9, clfreq := 10 ^ 9, exfreq := 10 ^ 9 }

/-- The reads of scenario 1. -/
def scenario1_reads : List MemEvent :=
  [MemEvent.read 0x0000, MemEvent.read 0x1000, MemEvent.read 0x2000, MemEvent.read 0x3000,
   MemEvent.read 0x0000]

/-- Scenario 1 with both list capacities set to 1. -/
def tiny_knobs : Knobs := { scenario1_knobs with unclsize := 1, clsize := 1 }

/-- Two reads of different cache blocks of page 0. -/
def same_page_reads : List MemEvent := [MemEvent.read 0x0000, MemEvent.read 0x0040]

/-! ## Well-formed lists, address supply and the reference model -/

/-- The table is the index of the nodes: the nodes have pairwise different addresses, the table
has one entry per key, and it maps page `k` to address `p` exactly when the node at `p` is one
of the nodes and holds page `k`. -/
def HASHLL.Indexed (ns : List hash_node) (t : List (Nat × Ptr)) : Prop :=
  (ns.map hash_node.addr).Nodup ∧ (t.map Prod.fst).Nodup ∧
  ∀ k p, table_find t k = some p ↔ ∃ n ∈ ns, n.addr = p ∧ n.vp_num = k

/-- A well-formed `HashLL`: the table is the index of the linked nodes, `size` is the number of
nodes, and `cap` and `size` are `uint32_t` values. -/
structure HASHLL.HashLL.WF (l : HashLL) : Prop where
  indexed : Indexed l.nodes l.table
  size_eq : l.size = l.nodes.length
  cap_u32 : l.cap < 2 ^ 32
  size_u32 : l.size < 2 ^ 32

/-- A list of capacity 3 that holds pages 7 (head) and 5 (tail). -/
def two_pages : HashLL := ((HashLL.create 3).touch 0x5000 1).touch 0x7000 2

/-- A full list of capacity 2 that holds pages 7 (head) and 5 (tail). -/
def full_two_pages : HashLL := ((HashLL.create 2).touch 0x5000 1).touch 0x7000 2

/-- The bounds on the two list sizes: the capacities are the knobs, each `size` is at most its
`cap`, and each `size` is a `uint32_t` value. -/
def SizeInv (k : Knobs) (s : State) : Prop :=
  s.unclist.cap = k.unclsize ∧ s.clist.cap = k.clsize ∧
  s.unclist.size ≤ s.unclist.cap ∧ s.clist.size ≤ s.clist.cap ∧
  s.unclist.size < 2 ^ 32 ∧ s.clist.size < 2 ^ 32

/-- The first four reads of scenario 1, which fill both lists. -/
def scenario1_warmup : List MemEvent :=
  [MemEvent.read 0x0000, MemEvent.read 0x1000, MemEvent.read 0x2000, MemEvent.read 0x3000]

/-- The knobs of scenario 2: scenario 1 with `exfreq = 4`. -/
def scenario2_knobs : Knobs := { scenario1_knobs with exfreq := 4 }

/-- Scenario 2 after the four warm-up reads and a fifth memory event that hit in a cache:
both lists are full and `uc_epoch = 5 ≥ exfreq`. -/
def gate_open_state : State :=
  { run (State.init scenario2_knobs) scenario1_warmup with uc_epoch := 5, cl_epoch := 5 }

/-- Scenario 1 after the four warm-up reads, with both refresh frequencies set to 1. -/
def refresh_state : State :=
  { run (State.init scenario1_knobs) scenario1_warmup with unclist_freq := 1, clist_freq := 1 }

/-- Runs `touch` for each address of a list in order; the nodes that `new` creates are at the
addresses `brk`, `brk + 1`, ... -/
def HASHLL.HashLL.touch_all (l : HashLL) (brk : Ptr) : List Nat → HashLL
  | [] => l
  | a :: rest => HASHLL.HashLL.touch_all (l.touch a brk) (brk + 1) rest

/-- The distinct elements of a list, each at its first occurrence. -/
def distinct_first : List Nat → List Nat
  | [] => []
  | x :: xs => x :: (distinct_first xs).filter (fun y => decide (y ≠ x))

/-- The LRU reference model, from the wording of the claim: the distinct page numbers
(`addr >> 12`) of the touched addresses, ordered from the most recently touched to the least
recently touched, truncated to the first `C`. -/
def lru_reference (C : Nat) (addrs : List Nat) : List Nat :=
  (distinct_first (addrs.map addr_to_num).reverse).take C

/-- The addresses `diffbucket.touch(i * 4096)`, `i = 1, ..., 19`, of `hashll_test.cpp`. -/
def diffbucket_addrs : List Nat := (List.range 19).map (fun i => (i + 1) * 4096)

/-- The addresses `samebucket.touch(0x1000 + i)`, `i = 0, ..., 10`, of `hashll_test.cpp`. -/
def samebucket_addrs : List Nat := (List.range 11).map (fun i => 0x1000 + i)

/-- A call of one of the public operations of `HashLL` that change the list. -/
inductive ListOp where
  | touch (vp_addr : Nat)
  | insert_lru (vp_addr : Nat)
  | remove (vp_addr : Nat)
  | make_recent (vp_addr : Nat)
  | increment_count (vp_addr : Nat)
  | reset_counters
deriving DecidableEq, Repr

/-- One call; `brk` is the address `new` returns if the call allocates a node. -/
def apply_op (l : HashLL) (brk : Ptr) : ListOp → HashLL
  | ListOp.touch a => l.touch a brk
  | ListOp.insert_lru a => l.insert_lru a brk
  | ListOp.remove a => l.remove a
  | ListOp.make_recent a => l.make_recent a
  | ListOp.increment_count a => l.increment_count a
  | ListOp.reset_counters => l.reset_counters

/-- A sequence of calls in order; the nodes that `new` creates are at the addresses `brk`,
`brk + 1`, ... -/
def run_ops (l : HashLL) (brk : Ptr) : List ListOp → HashLL
  | [] => l
  | op :: rest => run_ops (apply_op l brk op) (brk + 1) rest

/-- The list after `touch(0x1000)` and `reset_counters()` on a new list of capacity 2. -/
def reset_one_page : HashLL := ((HashLL.create 2).touch 0x1000 1).reset_counters

/-- A list of capacity 3 with pages 9, 7, 5 from the head and access counts 1, 2, 2. -/
def tied_counts : HashLL :=
  ((((HashLL.create 3).touch 0x5000 1).touch 0x5000 2).touch 0x7000 2).increment_count 0x7000
    |>.touch 0x9000 3

/-- A full list of capacity 2 that holds pages 3 (head) and 2 (tail), at other addresses than
`full_two_pages`. -/
def other_two_pages : HashLL := ((HashLL.create 2).touch 0x2000 3).touch 0x3000 4

/-- The agreement of a list with its index for any number of nodes: the table is the index of
the linked nodes, and the `uint32_t` counter `size` is the number of nodes modulo `2^32`. -/
def HASHLL.HashLL.Agree (l : HashLL) : Prop :=
  Indexed l.nodes l.table ∧ l.size = l.nodes.length % 2 ^ 32

/-- The relation of a list `l` to the list `next` after one call that may allocate a node at
`fresh`: `next` agrees with its index, has at most one node more, and its nodes are at
addresses of nodes of `l` or at `fresh`. -/
def HASHLL.HashLL.StepOk (l next : HashLL) (fresh : Ptr) : Prop :=
  next.Agree ∧ next.nodes.length ≤ l.nodes.length + 1 ∧
  ∀ p ∈ next.nodes.map hash_node.addr, p = fresh ∨ p ∈ l.nodes.map hash_node.addr

/-- A sequence with each of the six operations, on five pages. -/
def mixed_ops : List ListOp :=
  [ListOp.touch 0x1000, ListOp.insert_lru 0x2000, ListOp.insert_lru 0x3000,
   ListOp.touch 0x5000, ListOp.remove 0x1000, ListOp.make_recent 0x2000,
   ListOp.increment_count 0x5000, ListOp.reset_counters, ListOp.insert_lru 0x4010]

/-- The knobs of scenario 3: a 64-byte direct-mapped `L1`, a 128-byte direct-mapped `L2`,
64-byte blocks; the list knobs are those of scenario 1. -/
def scenario3_knobs : Knobs :=
  { scenario1_knobs with l1size := 64, l1assoc := 1, l2size := 128, l2assoc := 1, blk := 64 }

/-- The writes of scenario 3. -/
def scenario3_writes : List MemEvent :=
  [MemEvent.write 0x0, MemEvent.write 0x40, MemEvent.write 0x80]

/-- Two calls of `insert_lru` for different pages. -/
def two_inserts : List ListOp := [ListOp.insert_lru 0x1000, ListOp.insert_lru 0x2000]

/-- A sequence without `insert_lru`: four touches of three pages, a removal, and the three
calls that keep the set of pages. -/
def no_insert_ops : List ListOp :=
  [ListOp.touch 0x1000, ListOp.touch 0x2000, ListOp.touch 0x3000, ListOp.touch 0x1000,
   ListOp.remove 0x3000, ListOp.make_recent 0x1000, ListOp.increment_count 0x1000,
   ListOp.reset_counters, ListOp.touch 0x4000, ListOp.touch 0x5000]

/-- Power-of-two geometry of a cache: the block size is `2^B`, a `uint32_t`, the number of
sets `cfg.sets()` is `2^K`, and `mask` is `cfg.sets() - 1` as the constructor sets it. -/
structure SimpleCache.Geom (c : SimpleCache) (B K : Nat) : Prop where
  block : c.cfg.blockBytes = 2 ^ B
  nsets : c.cfg.sets = 2 ^ K
  mask_eq : c.mask = decr32 c.cfg.sets
  hB : B < 32

/-- The configuration of scenario 1 for `L2`: 256 bytes, 64-byte blocks, one way, so 4 sets. -/
def l2_config : SimpleCacheConfig := { sizeBytes := 256, blockBytes := 64, ways := 1 }

/-- Two valid lines of the same age 1, then a valid line of age 0. -/
def tied_ages : List Line :=
  [{ tag := 10, age := 1, valid := true, dirty := false },
   { tag := 11, age := 1, valid := true, dirty := false },
   { tag := 12, age := 0, valid := true, dirty := false }]

/-- A valid line of age 3, an invalid line, a second invalid line. -/
def with_invalid : List Line :=
  [{ tag := 10, age := 3, valid := true, dirty := false }, Line.empty, Line.empty]

/-- A call `Access(addr, isWrite, up, wb)`; `hasUp` / `hasWB` say whether the callback
argument is a function. -/
structure CacheReq where
  addr : Nat
  isWrite : Bool
  hasUp : Bool
  hasWB : Bool
deriving DecidableEq, Repr

/-- A sequence of `Access` calls in order on one cache, whose callbacks act on other
objects. -/
def SimpleCache.access_all (c : SimpleCache) (reqs : List CacheReq) : SimpleCache :=
  reqs.foldl (fun c r => (c.Access r.addr r.isWrite r.hasUp r.hasWB).2.1) c

/-- A call of one of the public operations of `SimpleCache` that change the cache. -/
inductive CacheOp where
  | Access (r : CacheReq)
  | Install (addr : Nat) (dirty : Bool)
  | ResetStats
deriving DecidableEq, Repr

/-- One call on a cache; its callbacks act on other objects. -/
def apply_cache_op (c : SimpleCache) : CacheOp → SimpleCache
  | CacheOp.Access r => (c.Access r.addr r.isWrite r.hasUp r.hasWB).2.1
  | CacheOp.Install a d => (c.Install a d).1
  | CacheOp.ResetStats => c.ResetStats

/-- A sequence of calls in order on one cache. -/
def run_cache_ops (c : SimpleCache) (ops : List CacheOp) : SimpleCache :=
  ops.foldl apply_cache_op c

/-- A configuration with two sets of two ways: 256 bytes, 64-byte blocks. -/
def two_way_config : SimpleCacheConfig := { sizeBytes := 256, blockBytes := 64, ways := 2 }

/-- A read with both callbacks supplied. -/
def read_req (a : Nat) : CacheReq := { addr := a, isWrite := false, hasUp := true, hasWB := true }

/-- A write with both callbacks supplied. -/
def write_req (a : Nat) : CacheReq := { addr := a, isWrite := true, hasUp := true, hasWB := true }

/-- The two-way cache after a write of block `0x0` and a read of block `0x80`, both of set 0:
way 0 holds tag 0 (age 1, dirty), way 1 holds tag 1 (age 0). -/
def warm_cache : SimpleCache :=
  (SimpleCache.create two_way_config).access_all [write_req 0x0, read_req 0x80]

/-- A sequence with four accesses (one of them a hit), two installs and a reset followed by
one more access. -/
def mixed_cache_ops : List CacheOp :=
  [CacheOp.Access (write_req 0x0), CacheOp.Access (read_req 0x80), CacheOp.Install 0x100 true,
   CacheOp.Access (read_req 0x100), CacheOp.Access (read_req 0x40), CacheOp.ResetStats,
   CacheOp.Install 0x140 false, CacheOp.Access (write_req 0x0)]

/-- The set `w` holds the LRU stack `S` (tags, most recently used first): the tags of `S` are
pairwise different; the valid lines are the first `S.length` ways; the ages of the valid lines
are the positions `0, ..., S.length - 1`, each exactly once; and the line of age `a` holds the
tag at position `a` of `S`. -/
structure SetInv (w : List Line) (S : List Nat) : Prop where
  nodup : S.Nodup
  len_le : S.length ≤ w.length
  valid_iff : ∀ j, (w.getD j Line.empty).valid = true ↔ j < S.length
  age_lt : ∀ j, j < S.length → (w.getD j Line.empty).age < S.length
  tag_eq : ∀ j, j < S.length → S.getD (w.getD j Line.empty).age 0 = (w.getD j Line.empty).tag
  inj : ∀ j j', j < S.length → j' < S.length →
    (w.getD j Line.empty).age = (w.getD j' Line.empty).age → j = j'
  surj : ∀ a, a < S.length → ∃ j, j < S.length ∧ (w.getD j Line.empty).age = a

/-- The set index of a block address, from the wording of the spec (`block = addr >>
block_log2`, `set_index = block & (sets - 1)` for powers of two): the block number modulo the
number of sets. -/
def set_index_ref (cfg : SimpleCacheConfig) (a : Nat) : Nat := (a / cfg.blockBytes) % cfg.sets

/-- The LRU reference model of a cache, from the wording of the claim: among the earlier
accesses, the block addresses that map to the same set as `a`, each once, from the most
recently accessed to the least recently accessed, the first `ways` of them. -/
def cache_lru_reference (cfg : SimpleCacheConfig) (earlier : List Nat) (a : Nat) : List Nat :=
  (distinct_first
    ((earlier.filter (fun b => decide (set_index_ref cfg b = set_index_ref cfg a))).reverse)).take
    cfg.ways

/-- The tags that `Decode` gives the addresses of `hist` that it sends to set `s`, each once,
from the most recent to the least recent, the first `ways` of them. -/
def tag_stack (c : SimpleCache) (hist : List Nat) (s : Nat) : List Nat :=
  (distinct_first
    (((hist.filter (fun b => decide ((c.Decode b).1 = s))).map
      (fun b => (c.Decode b).2)).reverse)).take c.cfg.ways

/-- The cache `c` has the geometry of the new cache `c0`, and each of its sets has `ways` lines
that hold the LRU stack of the accesses `hist` to that set. -/
structure CacheInv (c0 c : SimpleCache) (hist : List Nat) : Prop where
  cfg_eq : c.cfg = c0.cfg
  mask_eq : c.mask = c0.mask
  nsets : c.sets.length = c0.cfg.sets
  sets_ok : ∀ s, s < c0.cfg.sets →
    (c.sets.getD s []).length = c0.cfg.ways ∧ SetInv (c.sets.getD s []) (tag_stack c0 hist s)

/-- Three accesses to set 0 of the two-way cache: blocks `0x0`, `0x80`, `0x100`. -/
def set0_reqs : List CacheReq := [write_req 0x0, read_req 0x80, read_req 0x100]

/-- The line at the way that `PickVictim` chooses in set 0 of `warm_cache`: tag 0, age 1,
dirty. -/
def warm_victim : Line :=
  (warm_cache.sets.getD 0 []).getD (PickVictim (warm_cache.sets.getD 0 [])) Line.empty

/-- The `access_count` of the entry for page `vp_num`, read as the source reads it: through
the pointer that the table gives (`find_node(...)->access_count`); `none` when the table has no
entry for the page. -/
def HASHLL.HashLL.count_at (l : HashLL) (vp_num : Nat) : Option Nat :=
  ((table_find l.table vp_num).bind l.deref).map hash_node.access_count

/-- The sum of the three CU-tier access counters. -/
def State.tier_total (s : State) : Nat := s.unclist_access + s.clist_access + s.cpage_access

/-- Exactly one of the three CU-tier access counters of `t` is one more than in `s`, the other
two are the same. -/
def counted_once (s t : State) : Prop :=
  (t.unclist_access = s.unclist_access + 1 ∧ t.clist_access = s.clist_access ∧
    t.cpage_access = s.cpage_access) ∨
  (t.unclist_access = s.unclist_access ∧ t.clist_access = s.clist_access + 1 ∧
    t.cpage_access = s.cpage_access) ∨
  (t.unclist_access = s.unclist_access ∧ t.clist_access = s.clist_access ∧
    t.cpage_access = s.cpage_access + 1)

/-- None of the three CU-tier access counters differs between `s` and `t`. -/
def counters_same (s t : State) : Prop :=
  t.unclist_access = s.unclist_access ∧ t.clist_access = s.clist_access ∧
  t.cpage_access = s.cpage_access

/-- The knobs of scenario 2 with `unclfreq = 4`: the refresh of `unclist` would be due at the
same epoch as the promotion. -/
def starved_knobs : Knobs := { scenario2_knobs with unclfreq := 4 }

/-- The state of `starved_knobs` after the four warm-up reads, with `uc_epoch = 5`: both lists
are full, the promotion and the refresh of `unclist` are both due. -/
def starved_state : State :=
  { run (State.init starved_knobs) scenario1_warmup with uc_epoch := 5, cl_epoch := 5 }

/-- One thread, `10^9` instructions executed so far, no report yet. -/
def report_due : Process :=
  { st := State.init scenario1_knobs, globalIns := 1000000000, lastReportIns := 0,
    reports := [] }

/-- A configuration with sizes that are no powers of two, a block size that is no power of two,
lists of capacity zero and frequencies zero. -/
def unchecked_knobs : Knobs :=
  { l1size := 100, l1assoc := 3, l2size := 1000, l2assoc := 5, blk := 48,
    unclsize := 0, clsize := 0, unclfreq := 0, clfreq := 0, exfreq := 0 }

/-- A configuration with block size zero. -/
def zero_block_knobs : Knobs := { scenario1_knobs with blk := 0 }

/-- The age invariant of a set `w` with `k` valid lines: the valid lines are the first `k`
ways, and their ages are the numbers `0, ..., k - 1`, each exactly once. -/
structure AgeInv (w : List Line) (k : Nat) : Prop where
  len_le : k ≤ w.length
  valid_iff : ∀ j, (w.getD j Line.empty).valid = true ↔ j < k
  age_lt : ∀ j, j < k → (w.getD j Line.empty).age < k
  inj : ∀ j j', j < k → j' < k →
    (w.getD j Line.empty).age = (w.getD j' Line.empty).age → j = j'
  surj : ∀ a, a < k → ∃ j, j < k ∧ (w.getD j Line.empty).age = a

/-- Every set of the cache `c` has `ways` lines and satisfies the age invariant. -/
def SimpleCache.AgeOk (c : SimpleCache) (ways : Nat) : Prop :=
  ∀ w ∈ c.sets, w.length = ways ∧ ∃ k, AgeInv w k

/-- The block of address `a` is valid in the cache `c`: the lookup loop of `Access` finds its
tag in its set. -/
def SimpleCache.holds (c : SimpleCache) (a : Nat) : Bool :=
  (lookup_way (c.sets.getD (c.Decode a).1 []) (c.Decode a).2 0).isSome

/-- A configuration with four sets of three ways: 768 bytes, 64-byte blocks. -/
def three_way_config : SimpleCacheConfig := { sizeBytes := 768, blockBytes := 64, ways := 3 }

/-- Accesses and installs that fill set 0 of the three-way cache, hit in it and replace in
it. -/
def aging_ops : List CacheOp :=
  [CacheOp.Access (write_req 0x0), CacheOp.Install 0x100 true, CacheOp.Access (read_req 0x200),
   CacheOp.Access (read_req 0x0), CacheOp.Install 0x100 false, CacheOp.Access (read_req 0x300),
   CacheOp.Access (read_req 0x40)]

/-- The byte address of a memory event. -/
def MemEvent.addr : MemEvent → Nat
  | MemEvent.read a => a
  | MemEvent.write a => a

/-- The `op` argument with which the event reaches `CacheCall`. -/
def MemEvent.op : MemEvent → Nat
  | MemEvent.read _ => READ_OP
  | MemEvent.write _ => WRITE_OP

/-- The cache `c` has the `mask` and the `n` sets of `ways` lines that the constructor gives
it, and every set has the age invariant. -/
structure SimpleCache.Shaped (c : SimpleCache) (n ways : Nat) : Prop where
  mask_eq : c.mask = decr32 n
  nsets : c.sets.length = n
  ages : c.AgeOk ways

/-- The set `w` has a valid line with tag `t` at way `p`. -/
def has_line (w : List Line) (t p : Nat) : Prop :=
  p < w.length ∧ (w.getD p Line.empty).valid = true ∧ (w.getD p Line.empty).tag = t

/-- The configuration that `ThreadStart` gives `L1`. -/
def Knobs.cfgL1 (k : Knobs) : SimpleCacheConfig :=
  { sizeBytes := k.l1size, blockBytes := k.blk, ways := k.l1assoc }

/-- The configuration that `main` gives `L2`. -/
def Knobs.cfgL2 (k : Knobs) : SimpleCacheConfig :=
  { sizeBytes := k.l2size, blockBytes := k.blk, ways := k.l2assoc }

/-- Scenario 3 with a two-way `L1` of one set: 128 bytes. -/
def two_way_l1_knobs : Knobs := { scenario3_knobs with l1size := 128, l1assoc := 2 }

/-! ## Theorems -/

theorem incr64_small (x : Nat) (h : x + 1 < 2 ^ 64) : incr64 x = x + 1 := by
  unfold incr64
  exact Nat.mod_eq_of_lt h

theorem incr64_le (x : Nat) : incr64 x ≤ x + 1 := by
  unfold incr64
  exact Nat.mod_le _ _

/-! ### The table -/

theorem table_find_erase_self (t : List (Nat × Ptr)) (k : Nat) :
    table_find (table_erase t k) k = none := by
  induction t with
  | nil => rfl
  | cons e rest ih =>
    by_cases h : e.1 = k
    · simpa [table_erase, h] using ih
    · simpa [table_erase, h, table_find] using ih

theorem table_find_erase_ne (t : List (Nat × Ptr)) (k k' : Nat) (hk : k' ≠ k) :
    table_find (table_erase t k) k' = table_find t k' := by
  induction t with
  | nil => rfl
  | cons e rest ih =>
    unfold table_erase at ih ⊢
    rw [List.filter_cons]
    by_cases h : e.1 = k
    · have h' : ¬ e.1 = k' := fun h2 => hk (h2.symm.trans h)
      simp only [h, ne_eq, not_true_eq_false, decide_False, Bool.false_eq_true, if_false]
      rw [ih]
      conv_rhs => unfold table_find
      rw [if_neg (by rw [h]; exact fun h3 => hk h3.symm)]
    · simp only [ne_eq, h, not_false_eq_true, decide_True, if_true]
      unfold table_find
      by_cases h2 : e.1 = k'
      · simp only [h2, if_true]
      · simp only [h2, if_false]
        exact ih

theorem table_find_set_self (t : List (Nat × Ptr)) (k : Nat) (p : Ptr) :
    table_find (table_set t k p) k = some p := by
  simp [table_set, table_find]

theorem table_find_set_ne (t : List (Nat × Ptr)) (k k' : Nat) (p : Ptr) (hk : k' ≠ k) :
    table_find (table_set t k p) k' = table_find t k' := by
  have h : ¬ k = k' := fun h => hk h.symm
  simp [table_set, table_find, h, table_find_erase_ne t k k' hk]

theorem table_erase_keys_nodup (t : List (Nat × Ptr)) (k : Nat)
    (h : (t.map Prod.fst).Nodup) : ((table_erase t k).map Prod.fst).Nodup := by
  unfold table_erase
  exact (List.Nodup.sublist (List.Sublist.map _ (List.filter_sublist _)) h)

theorem table_erase_key_not_mem (t : List (Nat × Ptr)) (k : Nat) :
    k ∉ (table_erase t k).map Prod.fst := by
  simp [table_erase]

theorem table_set_keys_nodup (t : List (Nat × Ptr)) (k : Nat) (p : Ptr)
    (h : (t.map Prod.fst).Nodup) : ((table_set t k p).map Prod.fst).Nodup := by
  unfold table_set
  rw [List.map_cons, List.nodup_cons]
  exact ⟨table_erase_key_not_mem t k, table_erase_keys_nodup t k h⟩

/-! ### Nodes of a list -/

theorem map_bump_of_not_mem (ns : List hash_node) (p : Ptr) (h : p ∉ ns.map hash_node.addr) :
    ns.map (fun x => if x.addr = p then x.bumped else x) = ns := by
  induction ns with
  | nil => rfl
  | cons x rest ih =>
    simp only [List.map_cons, List.mem_cons, not_or] at h
    have hx : ¬ x.addr = p := fun e => h.1 e.symm
    simp only [List.map_cons, if_neg hx, ih h.2]

theorem filter_addr_of_not_mem (ns : List hash_node) (p : Ptr) (h : p ∉ ns.map hash_node.addr) :
    ns.filter (fun x => decide (x.addr ≠ p)) = ns := by
  induction ns with
  | nil => rfl
  | cons x rest ih =>
    simp only [List.map_cons, List.mem_cons, not_or] at h
    have hx : ¬ x.addr = p := fun e => h.1 e.symm
    rw [List.filter_cons, if_pos (by simpa using hx), ih h.2]

theorem filter_map_bump (ns : List hash_node) (p : Ptr) :
    (ns.map (fun x => if x.addr = p then x.bumped else x)).filter
      (fun x => decide (x.addr ≠ p)) = ns.filter (fun x => decide (x.addr ≠ p)) := by
  induction ns with
  | nil => rfl
  | cons x rest ih =>
    by_cases hx : x.addr = p
    · simp [List.filter_cons, hx, hash_node.bumped] at ih ⊢
      exact ih
    · simp [List.filter_cons, hx] at ih ⊢
      exact ih

theorem find_map_bump (ns : List hash_node) (n : hash_node) (hn : n ∈ ns)
    (hnd : (ns.map hash_node.addr).Nodup) :
    (ns.map (fun x => if x.addr = n.addr then x.bumped else x)).find?
      (fun x => decide (x.addr = n.addr)) = some n.bumped := by
  induction ns with
  | nil => cases hn
  | cons x rest ih =>
    simp only [List.map_cons, List.nodup_cons] at hnd
    rcases List.mem_cons.1 hn with h | h
    · subst h
      simp [hash_node.bumped]
    · have hx : ¬ x.addr = n.addr := fun e => hnd.1 (e ▸ List.mem_map_of_mem _ h)
      have hd : decide (x.addr = n.addr) = false := by simpa using hx
      rw [List.map_cons, if_neg hx, List.find?_cons, hd]
      exact ih h hnd.2

theorem find_addr_of_mem (ns : List hash_node) (n : hash_node) (hn : n ∈ ns)
    (hnd : (ns.map hash_node.addr).Nodup) :
    ns.find? (fun x => decide (x.addr = n.addr)) = some n := by
  induction ns with
  | nil => cases hn
  | cons x rest ih =>
    simp only [List.map_cons, List.nodup_cons] at hnd
    rcases List.mem_cons.1 hn with h | h
    · subst h
      simp
    · have hx : ¬ x.addr = n.addr := fun e => hnd.1 (e ▸ List.mem_map_of_mem _ h)
      have hd : decide (x.addr = n.addr) = false := by simpa using hx
      rw [List.find?_cons, hd]
      exact ih h hnd.2

theorem eq_of_addr_eq (ns : List hash_node) (x y : hash_node) (hx : x ∈ ns) (hy : y ∈ ns)
    (hnd : (ns.map hash_node.addr).Nodup) (h : x.addr = y.addr) : x = y := by
  have h1 := find_addr_of_mem ns x hx hnd
  have h2 := find_addr_of_mem ns y hy hnd
  rw [h] at h1
  rw [h1] at h2
  exact Option.some.inj h2

/-! ### The index of a list -/

theorem indexed_eq_of_page_eq {ns : List hash_node} {t : List (Nat × Ptr)}
    (h : Indexed ns t) {x y : hash_node} (hx : x ∈ ns) (hy : y ∈ ns)
    (hv : x.vp_num = y.vp_num) : x = y := by
  have h1 : table_find t x.vp_num = some x.addr := (h.2.2 _ _).2 ⟨x, hx, rfl, rfl⟩
  have h2 : table_find t x.vp_num = some y.addr := (h.2.2 _ _).2 ⟨y, hy, rfl, hv.symm⟩
  rw [h1] at h2
  exact eq_of_addr_eq ns x y hx hy h.1 (Option.some.inj h2)

theorem indexed_not_mem_of_find_none {ns : List hash_node} {t : List (Nat × Ptr)}
    (h : Indexed ns t) {k : Nat} (hk : table_find t k = none) :
    k ∉ ns.map hash_node.vp_num := by
  intro hm
  obtain ⟨n, hn, hv⟩ := List.mem_map.1 hm
  have h1 : table_find t k = some n.addr := (h.2.2 _ _).2 ⟨n, hn, rfl, hv⟩
  rw [hk] at h1
  cases h1

theorem indexed_find_none_of_not_mem {ns : List hash_node} {t : List (Nat × Ptr)}
    (h : Indexed ns t) {k : Nat} (hk : k ∉ ns.map hash_node.vp_num) :
    table_find t k = none := by
  cases hf : table_find t k with
  | none => rfl
  | some p =>
    obtain ⟨n, hn, _, hv⟩ := (h.2.2 _ _).1 hf
    exact absurd (List.mem_map.2 ⟨n, hn, hv⟩) hk

theorem indexed_pages_nodup {ns : List hash_node} {t : List (Nat × Ptr)}
    (h : Indexed ns t) : (ns.map hash_node.vp_num).Nodup := by
  have hn : ns.Nodup := List.Nodup.of_map _ h.1
  refine List.Nodup.map_on ?_ hn
  intro x hx y hy hv
  exact indexed_eq_of_page_eq h hx hy hv

/-- Adding a node for a page that is not indexed, at a new address, anywhere in the list. -/
theorem indexed_insert {ns ns' : List hash_node} {t : List (Nat × Ptr)} (h : Indexed ns t)
    (new : hash_node) (hk : table_find t new.vp_num = none)
    (hnd : (ns'.map hash_node.addr).Nodup) (hmem : ∀ m, m ∈ ns' ↔ m = new ∨ m ∈ ns) :
    Indexed ns' (table_set t new.vp_num new.addr) := by
  refine ⟨hnd, table_set_keys_nodup t _ _ h.2.1, ?_⟩
  intro k p
  by_cases hkk : k = new.vp_num
  · subst hkk
    rw [table_find_set_self]
    constructor
    · intro hp
      exact ⟨new, (hmem new).2 (Or.inl rfl), Option.some.inj hp, rfl⟩
    · rintro ⟨m, hm, hma, hmv⟩
      rcases (hmem m).1 hm with e | e
      · rw [← hma, e]
      · exact absurd (List.mem_map.2 ⟨m, e, hmv⟩) (indexed_not_mem_of_find_none h hk)
  · rw [table_find_set_ne t _ _ _ hkk, h.2.2]
    constructor
    · rintro ⟨m, hm, hma, hmv⟩
      exact ⟨m, (hmem m).2 (Or.inr hm), hma, hmv⟩
    · rintro ⟨m, hm, hma, hmv⟩
      rcases (hmem m).1 hm with e | e
      · exact absurd (by rw [← hmv, e]) hkk
      · exact ⟨m, e, hma, hmv⟩

/-- Unlinking a node and erasing its page from the table. -/
theorem indexed_remove {ns : List hash_node} {t : List (Nat × Ptr)} (h : Indexed ns t)
    (ev : hash_node) (hev : ev ∈ ns) :
    Indexed (ns.filter (fun x => decide (x.addr ≠ ev.addr))) (table_erase t ev.vp_num) := by
  refine ⟨List.Nodup.sublist (List.Sublist.map _ (List.filter_sublist _)) h.1,
    table_erase_keys_nodup t _ h.2.1, ?_⟩
  intro k p
  by_cases hkk : k = ev.vp_num
  · subst hkk
    rw [table_find_erase_self]
    constructor
    · intro hp; cases hp
    · rintro ⟨m, hm, _, hmv⟩
      rw [List.mem_filter] at hm
      have := indexed_eq_of_page_eq h hm.1 hev hmv
      subst this
      simp at hm
  · rw [table_find_erase_ne t _ _ hkk, h.2.2]
    constructor
    · rintro ⟨m, hm, hma, hmv⟩
      refine ⟨m, ?_, hma, hmv⟩
      rw [List.mem_filter]
      refine ⟨hm, ?_⟩
      have : m.addr ≠ ev.addr := by
        intro e
        have := eq_of_addr_eq ns m ev hm hev h.1 e
        exact hkk (by rw [← hmv, this])
      simpa using this
    · rintro ⟨m, hm, hma, hmv⟩
      exact ⟨m, (List.mem_filter.1 hm).1, hma, hmv⟩

/-- Replacing the nodes by nodes with the same addresses and pages. -/
theorem indexed_congr {ns ns' : List hash_node} {t : List (Nat × Ptr)} (h : Indexed ns t)
    (hnd : (ns'.map hash_node.addr).Nodup)
    (hmem : ∀ k p, (∃ n ∈ ns', n.addr = p ∧ n.vp_num = k) ↔
      ∃ n ∈ ns, n.addr = p ∧ n.vp_num = k) :
    Indexed ns' t :=
  ⟨hnd, h.2.1, fun k p => (h.2.2 k p).trans (hmem k p).symm⟩

/-! ### `touch` on a well-formed list -/

theorem bumped_vp_num (x : hash_node) : x.bumped.vp_num = x.vp_num := rfl

theorem table_find_of_mem (l : HashLL) (hwf : l.WF) (n : hash_node) (hn : n ∈ l.nodes) :
    table_find l.table n.vp_num = some n.addr :=
  (hwf.indexed.2.2 _ _).2 ⟨n, hn, rfl, rfl⟩

theorem touch_of_found (l : HashLL) (a : Nat) (fresh : Ptr) (n : hash_node)
    (hfind : table_find l.table (addr_to_num a) = some n.addr) (hn : n ∈ l.nodes)
    (hnd : (l.nodes.map hash_node.addr).Nodup) :
    l.touch a fresh =
      { l with nodes := n.bumped :: l.nodes.filter (fun x => decide (x.addr ≠ n.addr)) } := by
  unfold HashLL.touch
  simp only [hfind]
  by_cases hh : (l.bump n.addr).head = some n.addr
  · rw [if_neg (not_not.2 hh)]
    cases hl : l.nodes with
    | nil => rw [hl] at hn; cases hn
    | cons x rest =>
      rw [hl] at hnd hn
      have hxa : x.addr = n.addr := by
        simp only [HashLL.head, HashLL.bump, hl, List.map_cons, List.head?_cons,
          Option.map_some', Option.some.injEq] at hh
        by_cases hx : x.addr = n.addr
        · exact hx
        · rw [if_neg hx] at hh; exact hh
      have hxn : x = n := eq_of_addr_eq (x :: rest) x n (List.mem_cons_self _ _) hn hnd hxa
      subst hxn
      rw [List.map_cons, List.nodup_cons] at hnd
      have hd : decide (x.addr ≠ x.addr) = false := by simp
      simp only [HashLL.bump, hl, List.map_cons, if_true, List.filter_cons, hd,
        map_bump_of_not_mem rest x.addr hnd.1, filter_addr_of_not_mem rest x.addr hnd.1]
      rfl
  · rw [if_pos hh]
    have hderef : (l.bump n.addr).deref n.addr = some n.bumped := by
      simp only [HashLL.deref, HashLL.bump]
      exact find_map_bump l.nodes n hn hnd
    rw [hderef]
    simp only [HashLL.unlink_node, HashLL.insert_at_head, HashLL.bump, filter_map_bump]

theorem touch_of_present (l : HashLL) (a : Nat) (fresh : Ptr) (n : hash_node) (hwf : l.WF)
    (hn : n ∈ l.nodes) (hv : n.vp_num = addr_to_num a) :
    l.touch a fresh =
      { l with nodes := n.bumped :: l.nodes.filter (fun x => decide (x.addr ≠ n.addr)) } :=
  touch_of_found l a fresh n (by rw [← hv]; exact table_find_of_mem l hwf n hn) hn
    hwf.indexed.1

theorem touch_of_absent_room (l : HashLL) (a : Nat) (fresh : Ptr)
    (hfind : table_find l.table (addr_to_num a) = none) (hroom : l.size < l.cap) :
    l.touch a fresh =
      { l with nodes := hash_node.create fresh a :: l.nodes, size := incr32 l.size,
               table := table_set l.table (addr_to_num a) fresh } := by
  unfold HashLL.touch
  simp only [hfind, HashLL.insert_at_head, if_pos hroom]

theorem filter_addr_concat (init : List hash_node) (ev : hash_node)
    (hnd : ((init ++ [ev]).map hash_node.addr).Nodup) :
    (init ++ [ev]).filter (fun x => decide (x.addr ≠ ev.addr)) = init := by
  have h1 : ev.addr ∉ init.map hash_node.addr := by
    rw [List.map_append, List.nodup_append] at hnd
    intro h
    exact hnd.2.2 h (by simp)
  have hd : decide (ev.addr ≠ ev.addr) = false := by simp
  rw [List.filter_append, filter_addr_of_not_mem init ev.addr h1, List.filter_cons, hd]
  simp

theorem touch_of_absent_full (l : HashLL) (a : Nat) (fresh : Ptr) (init : List hash_node)
    (ev : hash_node) (hfind : table_find l.table (addr_to_num a) = none)
    (hfull : ¬ l.size < l.cap) (hl : l.nodes = init ++ [ev])
    (hnd : (l.nodes.map hash_node.addr).Nodup) (hfresh : fresh ∉ l.nodes.map hash_node.addr) :
    l.touch a fresh =
      { l with nodes := hash_node.create fresh a :: init,
               table := table_erase (table_set l.table (addr_to_num a) fresh) ev.vp_num } := by
  have hlast : (hash_node.create fresh a :: l.nodes).getLast? = some ev := by
    rw [hl, ← List.cons_append, List.getLast?_append]
    simp
  have hne : ¬ fresh = ev.addr := by
    intro h
    apply hfresh
    rw [hl, h]
    simp
  have hd : decide ((hash_node.create fresh a).addr ≠ ev.addr) = true := by
    simpa [hash_node.create] using hne
  unfold HashLL.touch
  simp only [hfind, HashLL.insert_at_head, if_neg hfull, HashLL.lru_node, hlast,
    HashLL.unlink_node, List.filter_cons, hd, if_true]
  rw [hl] at hnd ⊢
  rw [filter_addr_concat init ev hnd]

theorem filter_addr_eq_erase (ns : List hash_node) (n : hash_node) (hn : n ∈ ns)
    (hnd : (ns.map hash_node.addr).Nodup) :
    ns.filter (fun x => decide (x.addr ≠ n.addr)) = ns.erase n := by
  rw [List.Nodup.erase_eq_filter (List.Nodup.of_map _ hnd)]
  apply List.filter_congr
  intro x hx
  by_cases e : x = n
  · subst e; simp
  · have : x.addr ≠ n.addr := fun h => e (eq_of_addr_eq ns x n hx hn hnd h)
    simp [e, this]

theorem addr_not_mem_filter (ns : List hash_node) (p : Ptr) :
    p ∉ (ns.filter (fun x => decide (x.addr ≠ p))).map hash_node.addr := by
  intro h
  obtain ⟨m, hm, hma⟩ := List.mem_map.1 h
  have := (List.mem_filter.1 hm).2
  simp [hma] at this

theorem wf_create (capacity : Nat) (hc : capacity < 2 ^ 32) : (HashLL.create capacity).WF := by
  refine ⟨⟨List.nodup_nil, List.nodup_nil, ?_⟩, rfl, hc, Nat.pos_pow_of_pos _ (by norm_num)⟩
  intro k p
  simp [HashLL.create, table_find]

/-- Moving an indexed node to the front with its count raised. -/
theorem indexed_touch_present {ns : List hash_node} {t : List (Nat × Ptr)} (h : Indexed ns t)
    (n : hash_node) (hn : n ∈ ns) :
    Indexed (n.bumped :: ns.filter (fun x => decide (x.addr ≠ n.addr))) t := by
  have hnd := h.1
  refine indexed_congr h ?_ ?_
  · rw [List.map_cons, List.nodup_cons]
    exact ⟨addr_not_mem_filter ns n.addr,
      List.Nodup.sublist (List.Sublist.map _ (List.filter_sublist _)) hnd⟩
  · intro k p
    constructor
    · rintro ⟨m, hm, hma, hmv⟩
      rcases List.mem_cons.1 hm with e | e
      · exact ⟨n, hn, by rw [← hma, e]; rfl, by rw [← hmv, e]; rfl⟩
      · exact ⟨m, (List.mem_filter.1 e).1, hma, hmv⟩
    · rintro ⟨m, hm, hma, hmv⟩
      by_cases e : m.addr = n.addr
      · have := eq_of_addr_eq ns m n hm hn hnd e
        subst this
        exact ⟨m.bumped, List.mem_cons_self _ _, hma, hmv⟩
      · refine ⟨m, List.mem_cons_of_mem _ (List.mem_filter.2 ⟨hm, ?_⟩), hma, hmv⟩
        simpa using e

theorem wf_touch_present (l : HashLL) (n : hash_node) (hwf : l.WF) (hn : n ∈ l.nodes) :
    HashLL.WF
      { l with nodes := n.bumped :: l.nodes.filter (fun x => decide (x.addr ≠ n.addr)) } := by
  have hnd := hwf.indexed.1
  refine ⟨indexed_touch_present hwf.indexed n hn, ?_, hwf.cap_u32, hwf.size_u32⟩
  · show l.size = (n.bumped :: l.nodes.filter (fun x => decide (x.addr ≠ n.addr))).length
    rw [filter_addr_eq_erase l.nodes n hn hnd, List.length_cons,
      List.length_erase_of_mem hn, hwf.size_eq]
    have : 0 < l.nodes.length := List.length_pos_of_mem hn
    omega

theorem incr32_of_lt (x c : Nat) (h : x < c) (hc : c < 2 ^ 32) : incr32 x = x + 1 := by
  unfold incr32
  exact Nat.mod_eq_of_lt (by omega)

theorem wf_touch_absent_room (l : HashLL) (a : Nat) (fresh : Ptr) (hwf : l.WF)
    (hfind : table_find l.table (addr_to_num a) = none) (hroom : l.size < l.cap)
    (hfresh : fresh ∉ l.nodes.map hash_node.addr) :
    HashLL.WF
      { l with nodes := hash_node.create fresh a :: l.nodes, size := incr32 l.size,
               table := table_set l.table (addr_to_num a) fresh } := by
  refine ⟨indexed_insert hwf.indexed (hash_node.create fresh a) hfind ?_ ?_, ?_, hwf.cap_u32,
    ?_⟩
  · rw [List.map_cons, List.nodup_cons]
    exact ⟨hfresh, hwf.indexed.1⟩
  · intro m
    exact List.mem_cons
  · show incr32 l.size = (hash_node.create fresh a :: l.nodes).length
    rw [incr32_of_lt l.size l.cap hroom hwf.cap_u32, List.length_cons, hwf.size_eq]
  · show incr32 l.size < 2 ^ 32
    exact Nat.mod_lt _ (by norm_num)

theorem wf_touch_absent_full (l : HashLL) (a : Nat) (fresh : Ptr) (init : List hash_node)
    (ev : hash_node) (hwf : l.WF) (hfind : table_find l.table (addr_to_num a) = none)
    (hl : l.nodes = init ++ [ev]) (hfresh : fresh ∉ l.nodes.map hash_node.addr) :
    HashLL.WF
      { l with nodes := hash_node.create fresh a :: init,
               table := table_erase (table_set l.table (addr_to_num a) fresh) ev.vp_num } := by
  have hnd := hwf.indexed.1
  have h1 : Indexed (hash_node.create fresh a :: l.nodes)
      (table_set l.table (addr_to_num a) fresh) := by
    refine indexed_insert hwf.indexed (hash_node.create fresh a) hfind ?_ (fun m => List.mem_cons)
    rw [List.map_cons, List.nodup_cons]
    exact ⟨hfresh, hnd⟩
  have hev : ev ∈ hash_node.create fresh a :: l.nodes := by
    rw [hl]; simp
  have h2 := indexed_remove h1 ev hev
  have hne : ¬ fresh = ev.addr := by
    intro h
    apply hfresh
    rw [hl, h]
    simp
  have hd : decide ((hash_node.create fresh a).addr ≠ ev.addr) = true := by
    simpa [hash_node.create] using hne
  rw [List.filter_cons, hd, if_pos rfl] at h2
  rw [hl] at hnd
  rw [hl, filter_addr_concat init ev hnd] at h2
  refine ⟨h2, ?_, hwf.cap_u32, hwf.size_u32⟩
  show l.size = (hash_node.create fresh a :: init).length
  rw [hwf.size_eq, hl]
  simp

theorem mem_get_nodes_iff (l : HashLL) (hwf : l.WF) (k : Nat) :
    k ∈ l.get_nodes ↔ table_find l.table k ≠ none := by
  constructor
  · intro h hnone
    exact indexed_not_mem_of_find_none hwf.indexed hnone h
  · intro h
    by_contra hk
    exact h (indexed_find_none_of_not_mem hwf.indexed hk)

/-- The three ways `touch` goes on a well-formed list of capacity at least 1. -/
theorem touch_cases (l : HashLL) (a : Nat) (fresh : Ptr) (hwf : l.WF) (hcap : 1 ≤ l.cap)
    (hfresh : fresh ∉ l.nodes.map hash_node.addr) :
    (∃ n, n ∈ l.nodes ∧ n.vp_num = addr_to_num a ∧
      l.touch a fresh =
        { l with nodes := n.bumped :: l.nodes.filter (fun x => decide (x.addr ≠ n.addr)) }) ∨
    (addr_to_num a ∉ l.get_nodes ∧ l.size < l.cap ∧
      l.touch a fresh =
        { l with nodes := hash_node.create fresh a :: l.nodes, size := incr32 l.size,
                 table := table_set l.table (addr_to_num a) fresh }) ∨
    (addr_to_num a ∉ l.get_nodes ∧ ¬ l.size < l.cap ∧ ∃ init ev, l.nodes = init ++ [ev] ∧
      l.touch a fresh =
        { l with nodes := hash_node.create fresh a :: init,
                 table := table_erase (table_set l.table (addr_to_num a) fresh) ev.vp_num }) := by
  by_cases hin : addr_to_num a ∈ l.get_nodes
  · left
    obtain ⟨n, hn, hv⟩ := List.mem_map.1 hin
    exact ⟨n, hn, hv, touch_of_present l a fresh n hwf hn hv⟩
  · right
    have hfind : table_find l.table (addr_to_num a) = none :=
      indexed_find_none_of_not_mem hwf.indexed hin
    by_cases hroom : l.size < l.cap
    · left
      exact ⟨hin, hroom, touch_of_absent_room l a fresh hfind hroom⟩
    · right
      have hne : l.nodes ≠ [] := by
        intro h
        have := hwf.size_eq
        rw [h] at this
        simp at this
        omega
      rcases List.eq_nil_or_concat l.nodes with h | ⟨init, ev, h⟩
      · exact absurd h hne
      · rw [List.concat_eq_append] at h
        exact ⟨hin, hroom, init, ev, h,
          touch_of_absent_full l a fresh init ev hfind hroom h hwf.indexed.1 hfresh⟩

theorem wf_touch (l : HashLL) (a : Nat) (fresh : Ptr) (hwf : l.WF) (hcap : 1 ≤ l.cap)
    (hfresh : fresh ∉ l.nodes.map hash_node.addr) : (l.touch a fresh).WF := by
  rcases touch_cases l a fresh hwf hcap hfresh with ⟨n, hn, _, e⟩ | ⟨hin, hroom, e⟩ |
    ⟨hin, _, init, ev, hl, e⟩
  · rw [e]; exact wf_touch_present l n hwf hn
  · rw [e]
    exact wf_touch_absent_room l a fresh hwf
      (indexed_find_none_of_not_mem hwf.indexed hin) hroom hfresh
  · rw [e]
    exact wf_touch_absent_full l a fresh init ev hwf
      (indexed_find_none_of_not_mem hwf.indexed hin) hl hfresh

theorem touch_cap (l : HashLL) (a : Nat) (fresh : Ptr) : (l.touch a fresh).cap = l.cap := by
  unfold HashLL.touch
  simp only [HashLL.bump, HashLL.unlink_node, HashLL.insert_at_head]
  split
  · split
    · split <;> rfl
    · rfl
  · split
    · rfl
    · split <;> rfl

theorem map_vp_erase (ns : List hash_node) (n : hash_node) (hn : n ∈ ns)
    (hnd : (ns.map hash_node.vp_num).Nodup) :
    (ns.erase n).map hash_node.vp_num = (ns.map hash_node.vp_num).erase n.vp_num := by
  induction ns with
  | nil => cases hn
  | cons x rest ih =>
    rw [List.map_cons, List.nodup_cons] at hnd
    by_cases e : x = n
    · subst e
      simp
    · have hn' : n ∈ rest := by
        rcases List.mem_cons.1 hn with h | h
        · exact absurd h.symm e
        · exact h
      have hv : x.vp_num ≠ n.vp_num := by
        intro h
        exact hnd.1 (h ▸ List.mem_map_of_mem _ hn')
      rw [List.erase_cons_tail (by simpa using e), List.map_cons, List.map_cons,
        List.erase_cons_tail (by simpa using hv), ih hn' hnd.2]

theorem wf_two_pages : two_pages.WF := by
  have h0 := wf_create 3 (by norm_num)
  have h1 := wf_touch (HashLL.create 3) 0x5000 1 h0 (by decide) (by decide)
  exact wf_touch _ 0x7000 2 h1 (by decide) (by decide)

theorem wf_full_two_pages : full_two_pages.WF := by
  have h0 := wf_create 2 (by norm_num)
  have h1 := wf_touch (HashLL.create 2) 0x5000 1 h0 (by decide) (by decide)
  exact wf_touch _ 0x7000 2 h1 (by decide) (by decide)

/-! ### Sizes and capacities -/

theorem incr32_lt (x : Nat) : incr32 x < 2 ^ 32 := Nat.mod_lt _ (by norm_num)

theorem decr32_lt (x : Nat) (h : x < 2 ^ 32) : decr32 x < 2 ^ 32 := by
  unfold decr32
  split <;> omega

theorem incr32_le (x : Nat) : incr32 x ≤ x + 1 := Nat.mod_le _ _

theorem incr32_decr32 (x : Nat) (h : x < 2 ^ 32) : incr32 (decr32 x) = x := by
  unfold incr32 decr32
  split <;> omega

theorem touch_size (l : HashLL) (a : Nat) (fresh : Ptr) :
    (l.touch a fresh).size = l.size ∨
    (l.size < l.cap ∧ (l.touch a fresh).size = incr32 l.size) := by
  unfold HashLL.touch
  simp only [HashLL.bump, HashLL.unlink_node, HashLL.insert_at_head]
  split
  · left
    split
    · split <;> rfl
    · rfl
  · split
    · right
      rename_i h
      exact ⟨h, rfl⟩
    · left
      split <;> rfl

theorem touch_size_of_full (l : HashLL) (a : Nat) (fresh : Ptr) (h : l.cap ≤ l.size) :
    (l.touch a fresh).size = l.size := by
  rcases touch_size l a fresh with e | ⟨hlt, _⟩
  · exact e
  · omega

theorem touch_size_le (l : HashLL) (a : Nat) (fresh : Ptr) (h : l.size ≤ l.cap) :
    (l.touch a fresh).size ≤ (l.touch a fresh).cap := by
  rw [touch_cap]
  rcases touch_size l a fresh with e | ⟨hlt, e⟩
  · rw [e]; exact h
  · rw [e]
    have := incr32_le l.size
    omega

theorem touch_size_lt (l : HashLL) (a : Nat) (fresh : Ptr) (h : l.size < 2 ^ 32) :
    (l.touch a fresh).size < 2 ^ 32 := by
  rcases touch_size l a fresh with e | ⟨_, e⟩
  · rw [e]; exact h
  · rw [e]; exact incr32_lt _

theorem increment_count_size (l : HashLL) (a : Nat) :
    (l.increment_count a).size = l.size ∧ (l.increment_count a).cap = l.cap ∧
    (l.increment_count a).table = l.table := by
  unfold HashLL.increment_count
  split <;> simp [HashLL.bump]

theorem swap_with_size_fst (this other : HashLL) (h1 : this.size < 2 ^ 32) :
    (this.swap_with other).1.size = this.size := by
  unfold HashLL.swap_with
  split
  · simp only [HashLL.insert_lru_node, HashLL.unlink_node]
    exact incr32_decr32 _ h1
  · rfl

theorem swap_with_size_snd (this other : HashLL) (h2 : other.size < 2 ^ 32) :
    (this.swap_with other).2.size = other.size := by
  unfold HashLL.swap_with
  split
  · simp only [HashLL.insert_mru_node, HashLL.unlink_node]
    exact incr32_decr32 _ h2
  · rfl

theorem swap_with_cap (this other : HashLL) :
    (this.swap_with other).1.cap = this.cap ∧ (this.swap_with other).2.cap = other.cap := by
  unfold HashLL.swap_with
  cases this.hottest_node with
  | none => exact ⟨rfl, rfl⟩
  | some hot =>
    cases other.lru_node with
    | none => exact ⟨rfl, rfl⟩
    | some cold =>
      simp only [HashLL.insert_lru_node, HashLL.insert_mru_node, HashLL.unlink_node]
      exact ⟨True.intro, True.intro⟩

/-! ### The CU-tier engine -/

theorem map_addr_bump (ns : List hash_node) (p : Ptr) :
    (ns.map (fun x => if x.addr = p then x.bumped else x)).map hash_node.addr =
      ns.map hash_node.addr := by
  rw [List.map_map]
  apply List.map_congr_left
  intro x _
  by_cases h : x.addr = p <;> simp [h, hash_node.bumped]

theorem map_vp_bump (ns : List hash_node) (p : Ptr) :
    (ns.map (fun x => if x.addr = p then x.bumped else x)).map hash_node.vp_num =
      ns.map hash_node.vp_num := by
  rw [List.map_map]
  apply List.map_congr_left
  intro x _
  by_cases h : x.addr = p <;> simp [h, hash_node.bumped]

theorem promotion_gate_frame (s : State) :
    (promotion_gate s).unclist_access = s.unclist_access ∧
    (promotion_gate s).clist_access = s.clist_access ∧
    (promotion_gate s).cpage_access = s.cpage_access ∧
    (promotion_gate s).unclist_freq = s.unclist_freq ∧
    (promotion_gate s).clist_freq = s.clist_freq ∧
    (promotion_gate s).cl_epoch = s.cl_epoch ∧
    (promotion_gate s).brk = s.brk := by
  unfold promotion_gate
  split
  · exact ⟨rfl, rfl, rfl, rfl, rfl, rfl, rfl⟩
  · exact ⟨rfl, rfl, rfl, rfl, rfl, rfl, rfl⟩

theorem promotion_gate_sizes (s : State) (h1 : s.clist.size < 2 ^ 32)
    (h2 : s.unclist.size < 2 ^ 32) :
    (promotion_gate s).clist.size = s.clist.size ∧
    (promotion_gate s).unclist.size = s.unclist.size ∧
    (promotion_gate s).clist.cap = s.clist.cap ∧
    (promotion_gate s).unclist.cap = s.unclist.cap := by
  unfold promotion_gate
  split
  · exact ⟨swap_with_size_fst _ _ h1, swap_with_size_snd _ _ h2,
      (swap_with_cap _ _).1, (swap_with_cap _ _).2⟩
  · exact ⟨rfl, rfl, rfl, rfl⟩

theorem cu_tier_of_full (s : State) (a : Nat) (hu : s.unclist.isFull = true)
    (hc : s.clist.isFull = true) : cu_tier s a = hit_checks (promotion_gate s) a := by
  unfold cu_tier
  rw [hu, hc]
  rfl

theorem hit_checks_unclist (g : State) (a : Nat) (p : Ptr)
    (h : g.unclist.find_node a = some p) :
    hit_checks g a =
      if g.uc_epoch ≥ g.unclist_freq then
        { g with unclist_access := incr64 g.unclist_access,
                 unclist := g.unclist.touch a g.brk, brk := g.brk + 1, uc_epoch := 0 }
      else
        { g with unclist_access := incr64 g.unclist_access,
                 unclist := g.unclist.increment_count a } := by
  unfold hit_checks
  rw [h]

theorem hit_checks_clist (g : State) (a : Nat) (p : Ptr)
    (hu : g.unclist.find_node a = none) (h : g.clist.find_node a = some p) :
    hit_checks g a =
      if g.cl_epoch ≥ g.clist_freq then
        { g with clist_access := incr64 g.clist_access,
                 clist := g.clist.touch a g.brk, brk := g.brk + 1, cl_epoch := 0 }
      else
        { g with clist_access := incr64 g.clist_access,
                 clist := g.clist.increment_count a } := by
  unfold hit_checks
  rw [hu, h]

theorem hit_checks_neither (g : State) (a : Nat)
    (hu : g.unclist.find_node a = none) (h : g.clist.find_node a = none) :
    hit_checks g a =
      if g.cl_epoch ≥ g.clist_freq then
        { g with clist := g.clist.touch a g.brk, brk := g.brk + 1,
                 cpage_access := incr64 g.cpage_access, cl_epoch := 0 }
      else
        { g with cpage_access := incr64 g.cpage_access } := by
  unfold hit_checks
  rw [hu, h]

theorem increment_count_of_found (l : HashLL) (a : Nat) (p : Ptr)
    (h : l.find_node a = some p) : l.increment_count a = l.bump p := by
  unfold HashLL.increment_count
  unfold HashLL.find_node at h
  rw [h]

/-! ### The sizes of the two lists along a run -/

theorem sizeInv_init (k : Knobs) : SizeInv k (State.init k) := by
  refine ⟨rfl, rfl, Nat.zero_le _, Nat.zero_le _, ?_, ?_⟩ <;>
    exact Nat.pos_pow_of_pos _ (by norm_num)

theorem sizeInv_of_lists (k : Knobs) (s t : State) (hu : t.unclist = s.unclist)
    (hc : t.clist = s.clist) (h : SizeInv k s) : SizeInv k t := by
  unfold SizeInv at h ⊢
  rw [hu, hc]
  exact h

theorem hit_checks_lists (g : State) (a : Nat) :
    ((hit_checks g a).unclist = g.unclist ∨
      (hit_checks g a).unclist = g.unclist.touch a g.brk ∨
      (hit_checks g a).unclist = g.unclist.increment_count a) ∧
    ((hit_checks g a).clist = g.clist ∨
      (hit_checks g a).clist = g.clist.touch a g.brk ∨
      (hit_checks g a).clist = g.clist.increment_count a) := by
  cases hu : g.unclist.find_node a with
  | some p =>
    rw [hit_checks_unclist g a p hu]
    by_cases he : g.uc_epoch ≥ g.unclist_freq
    · rw [if_pos he]
      exact ⟨Or.inr (Or.inl rfl), Or.inl rfl⟩
    · rw [if_neg he]
      exact ⟨Or.inr (Or.inr rfl), Or.inl rfl⟩
  | none =>
    cases hc : g.clist.find_node a with
    | some p =>
      rw [hit_checks_clist g a p hu hc]
      by_cases he : g.cl_epoch ≥ g.clist_freq
      · rw [if_pos he]
        exact ⟨Or.inl rfl, Or.inr (Or.inl rfl)⟩
      · rw [if_neg he]
        exact ⟨Or.inl rfl, Or.inr (Or.inr rfl)⟩
    | none =>
      rw [hit_checks_neither g a hu hc]
      by_cases he : g.cl_epoch ≥ g.clist_freq
      · rw [if_pos he]
        exact ⟨Or.inl rfl, Or.inr (Or.inl rfl)⟩
      · rw [if_neg he]
        exact ⟨Or.inl rfl, Or.inl rfl⟩

/-- What one list can go through in a step after warm-up keeps its capacity, and keeps its size
when the list is full. -/
theorem list_step_size (l l' : HashLL) (a : Nat) (fresh : Ptr)
    (h : l' = l ∨ l' = l.touch a fresh ∨ l' = l.increment_count a) :
    l'.cap = l.cap ∧ (l.cap ≤ l.size → l'.size = l.size) ∧
    (l.size ≤ l.cap → l'.size ≤ l'.cap) ∧ (l.size < 2 ^ 32 → l'.size < 2 ^ 32) := by
  rcases h with h | h | h
  · rw [h]
    exact ⟨rfl, fun _ => rfl, fun h => h, fun h => h⟩
  · rw [h]
    exact ⟨touch_cap l a fresh, touch_size_of_full l a fresh, touch_size_le l a fresh,
      touch_size_lt l a fresh⟩
  · rw [h]
    obtain ⟨h1, h2, _⟩ := increment_count_size l a
    rw [h1, h2]
    exact ⟨rfl, fun _ => rfl, fun h => h, fun h => h⟩

theorem sizeInv_cu_tier (k : Knobs) (s : State) (a : Nat) (h : SizeInv k s) :
    SizeInv k (cu_tier s a) := by
  obtain ⟨h1, h2, h3, h4, h5, h6⟩ := h
  unfold cu_tier
  split
  · exact ⟨(touch_cap _ _ _).trans h1, h2, touch_size_le _ _ _ h3, h4,
      touch_size_lt _ _ _ h5, h6⟩
  · split
    · exact ⟨h1, (touch_cap _ _ _).trans h2, h3, touch_size_le _ _ _ h4, h5,
        touch_size_lt _ _ _ h6⟩
    · obtain ⟨g1, g2, g3, g4⟩ := promotion_gate_sizes s h6 h5
      obtain ⟨hu, hc⟩ := hit_checks_lists (promotion_gate s) a
      obtain ⟨u1, _, u3, u4⟩ := list_step_size _ _ a _ hu
      obtain ⟨c1, _, c3, c4⟩ := list_step_size _ _ a _ hc
      refine ⟨by rw [u1, g4, h1], by rw [c1, g3, h2], u3 (by rw [g2, g4]; exact h3),
        c3 (by rw [g1, g3]; exact h4), u4 (by rw [g2]; exact h5), c4 (by rw [g1]; exact h6)⟩

theorem full_cu_tier (k : Knobs) (s : State) (a : Nat) (h : SizeInv k s)
    (hu : s.unclist.size = s.unclist.cap) (hc : s.clist.size = s.clist.cap) :
    (cu_tier s a).unclist.size = s.unclist.size ∧ (cu_tier s a).clist.size = s.clist.size := by
  obtain ⟨_, _, _, _, h5, h6⟩ := h
  have fu : s.unclist.isFull = true := by simp [HashLL.isFull, hu]
  have fc : s.clist.isFull = true := by simp [HashLL.isFull, hc]
  rw [cu_tier_of_full s a fu fc]
  obtain ⟨g1, g2, g3, g4⟩ := promotion_gate_sizes s h6 h5
  obtain ⟨lu, lc⟩ := hit_checks_lists (promotion_gate s) a
  obtain ⟨_, u2, _, _⟩ := list_step_size _ _ a _ lu
  obtain ⟨_, c2, _, _⟩ := list_step_size _ _ a _ lc
  exact ⟨(u2 (by rw [g2, g4, hu])).trans g2, (c2 (by rw [g1, g3, hc])).trans g1⟩

/-- Either `CacheCall` leaves the two lists alone or runs `cu_tier` on a state with the same
two lists. -/
theorem CacheCall_lists (s : State) (op blkAddr a : Nat) :
    ((CacheCall s op blkAddr a).unclist = s.unclist ∧
      (CacheCall s op blkAddr a).clist = s.clist) ∨
    ∃ s2 : State, s2.unclist = s.unclist ∧ s2.clist = s.clist ∧
      CacheCall s op blkAddr a = cu_tier s2 a := by
  unfold CacheCall
  simp only []
  split
  · exact Or.inl ⟨rfl, rfl⟩
  · split
    · refine Or.inr ⟨_, ?_, ?_, rfl⟩ <;> rfl
    · exact Or.inl ⟨rfl, rfl⟩

theorem step_lists (s : State) (e : MemEvent) :
    ((step s e).unclist = s.unclist ∧ (step s e).clist = s.clist) ∨
    ∃ s2 : State, ∃ a : Nat, s2.unclist = s.unclist ∧ s2.clist = s.clist ∧
      step s e = cu_tier s2 a := by
  cases e with
  | read a =>
    rcases CacheCall_lists
      { s with uc_epoch := incr64 s.uc_epoch, cl_epoch := incr64 s.cl_epoch,
               stats := { s.stats with memIns := incr64 s.stats.memIns,
                                       reads := incr64 s.stats.reads } }
      READ_OP (block_floor s.blk a) a with h | ⟨s2, h1, h2, h3⟩
    · exact Or.inl h
    · exact Or.inr ⟨s2, a, h1, h2, h3⟩
  | write a =>
    rcases CacheCall_lists
      { s with uc_epoch := incr64 s.uc_epoch, cl_epoch := incr64 s.cl_epoch,
               stats := { s.stats with memIns := incr64 s.stats.memIns,
                                       writes := incr64 s.stats.writes } }
      WRITE_OP (block_floor s.blk a) a with h | ⟨s2, h1, h2, h3⟩
    · exact Or.inl h
    · exact Or.inr ⟨s2, a, h1, h2, h3⟩

theorem sizeInv_step (k : Knobs) (s : State) (e : MemEvent) (h : SizeInv k s) :
    SizeInv k (step s e) := by
  rcases step_lists s e with ⟨h1, h2⟩ | ⟨s2, a, h1, h2, h3⟩
  · exact sizeInv_of_lists k s _ h1 h2 h
  · rw [h3]
    exact sizeInv_cu_tier k s2 a (sizeInv_of_lists k s s2 h1 h2 h)

theorem full_step (k : Knobs) (s : State) (e : MemEvent) (h : SizeInv k s)
    (hu : s.unclist.size = s.unclist.cap) (hc : s.clist.size = s.clist.cap) :
    (step s e).unclist.size = s.unclist.size ∧ (step s e).clist.size = s.clist.size := by
  rcases step_lists s e with ⟨h1, h2⟩ | ⟨s2, a, h1, h2, h3⟩
  · rw [h1, h2]
    exact ⟨rfl, rfl⟩
  · rw [h3]
    have := full_cu_tier k s2 a (sizeInv_of_lists k s s2 h1 h2 h) (by rw [h1]; exact hu)
      (by rw [h2]; exact hc)
    rw [h1, h2] at this
    exact this

theorem sizeInv_run (k : Knobs) (evs : List MemEvent) (s : State) (h : SizeInv k s) :
    SizeInv k (run s evs) := by
  induction evs generalizing s with
  | nil => exact h
  | cons e rest ih => exact ih (step s e) (sizeInv_step k s e h)

theorem full_run (k : Knobs) (evs : List MemEvent) (s : State) (h : SizeInv k s)
    (hu : s.unclist.size = s.unclist.cap) (hc : s.clist.size = s.clist.cap) :
    (run s evs).unclist.size = s.unclist.size ∧ (run s evs).clist.size = s.clist.size := by
  induction evs generalizing s with
  | nil => exact ⟨rfl, rfl⟩
  | cons e rest ih =>
    obtain ⟨e1, e2⟩ := full_step k s e h hu hc
    have h' := sizeInv_step k s e h
    have := ih (step s e) h' (by rw [e1, hu, h'.1, h.1]) (by rw [e2, hc, h'.2.1, h.2.1])
    exact ⟨this.1.trans e1, this.2.trans e2⟩

/-! ### The LRU reference model -/

theorem touch_all_concat (l : HashLL) (brk : Ptr) (addrs : List Nat) (a : Nat) :
    l.touch_all brk (addrs ++ [a]) = (l.touch_all brk addrs).touch a (brk + addrs.length) := by
  induction addrs generalizing l brk with
  | nil => rfl
  | cons b rest ih =>
    show (l.touch b brk).touch_all (brk + 1) (rest ++ [a]) = _
    rw [ih]
    show _ = ((l.touch b brk).touch_all (brk + 1) rest).touch a (brk + (rest.length + 1))
    rw [Nat.add_assoc, Nat.add_comm 1]

theorem mem_distinct_first (l : List Nat) (x : Nat) : x ∈ distinct_first l → x ∈ l := by
  induction l with
  | nil => intro h; cases h
  | cons y rest ih =>
    intro h
    unfold distinct_first at h
    rcases List.mem_cons.1 h with e | e
    · rw [e]; exact List.mem_cons_self _ _
    · exact List.mem_cons_of_mem _ (ih (List.mem_filter.1 e).1)

theorem distinct_first_nodup (l : List Nat) : (distinct_first l).Nodup := by
  induction l with
  | nil => exact List.nodup_nil
  | cons y rest ih =>
    unfold distinct_first
    rw [List.nodup_cons]
    refine ⟨?_, List.Nodup.sublist (List.filter_sublist _) ih⟩
    intro h
    have := (List.mem_filter.1 h).2
    simp at this

theorem filter_ne_of_not_mem (D : List Nat) (p : Nat) (h : p ∉ D) :
    D.filter (fun y => decide (y ≠ p)) = D := by
  rw [List.filter_eq_self]
  intro x hx
  have : x ≠ p := fun e => h (e ▸ hx)
  simpa using this

theorem take_filter_of_not_mem (D : List Nat) (p n : Nat) (h : p ∉ D.take n) :
    (D.filter (fun y => decide (y ≠ p))).take n = D.take n := by
  induction D generalizing n with
  | nil => rfl
  | cons x D ih =>
    cases n with
    | zero => simp
    | succ m =>
      rw [List.take_succ_cons, List.mem_cons, not_or] at h
      have hx : decide (x ≠ p) = true := by
        have : x ≠ p := fun e => h.1 e.symm
        simpa using this
      rw [List.filter_cons, if_pos hx, List.take_succ_cons, List.take_succ_cons, ih m h.2]

theorem take_filter_of_mem (D : List Nat) (p n : Nat) (hnd : D.Nodup)
    (h : p ∈ D.take (n + 1)) :
    (D.filter (fun y => decide (y ≠ p))).take n =
      (D.take (n + 1)).filter (fun y => decide (y ≠ p)) := by
  induction D generalizing n with
  | nil => simp at h
  | cons x D ih =>
    rw [List.nodup_cons] at hnd
    rw [List.take_succ_cons] at h ⊢
    by_cases e : x = p
    · subst e
      have hx : decide (x ≠ x) = false := by simp
      have h2 : x ∉ D.take n := fun hm => hnd.1 (List.mem_of_mem_take hm)
      rw [List.filter_cons, List.filter_cons, hx, filter_ne_of_not_mem D x hnd.1,
        filter_ne_of_not_mem _ x h2]
      simp
    · have hx : decide (x ≠ p) = true := by simpa using e
      have hp : p ∈ D.take n := by
        rcases List.mem_cons.1 h with h1 | h1
        · exact absurd h1.symm e
        · exact h1
      rw [List.filter_cons, List.filter_cons, if_pos hx, if_pos hx]
      cases n with
      | zero => simp at hp
      | succ m => rw [List.take_succ_cons, ih m hnd.2 hp]

theorem lru_step (D : List Nat) (p C : Nat) (hnd : D.Nodup) (hC : 1 ≤ C) :
    (p :: D.filter (fun y => decide (y ≠ p))).take C =
      if p ∈ D.take C then p :: (D.take C).filter (fun y => decide (y ≠ p))
      else if (D.take C).length < C then p :: D.take C
      else p :: (D.take C).dropLast := by
  obtain ⟨n, rfl⟩ : ∃ n, C = n + 1 := ⟨C - 1, by omega⟩
  rw [List.take_succ_cons]
  have htt : D.take n = (D.take (n + 1)).take n := by
    rw [List.take_take]
    congr 1
    omega
  by_cases hin : p ∈ D.take (n + 1)
  · rw [if_pos hin, take_filter_of_mem D p n hnd hin]
  · rw [if_neg hin]
    have h2 : p ∉ D.take n := by
      intro hm
      rw [htt] at hm
      exact hin (List.mem_of_mem_take hm)
    rw [take_filter_of_not_mem D p n h2]
    by_cases hlen : (D.take (n + 1)).length < n + 1
    · rw [if_pos hlen]
      rw [List.length_take] at hlen
      have h3 : D.length ≤ n := by omega
      rw [List.take_of_length_le h3, List.take_of_length_le (by omega)]
    · rw [if_neg hlen]
      rw [List.length_take] at hlen
      have hm : min (n + 1) D.length - 1 = n := by omega
      rw [List.dropLast_eq_take, List.length_take, hm, ← htt]

theorem map_vp_filter_addr (ns : List hash_node) (t : List (Nat × Ptr)) (n : hash_node)
    (h : Indexed ns t) (hn : n ∈ ns) :
    (ns.filter (fun x => decide (x.addr ≠ n.addr))).map hash_node.vp_num =
      (ns.map hash_node.vp_num).filter (fun y => decide (y ≠ n.vp_num)) := by
  rw [filter_addr_eq_erase ns n hn h.1, map_vp_erase ns n hn (indexed_pages_nodup h),
    List.Nodup.erase_eq_filter (indexed_pages_nodup h)]
  apply List.filter_congr
  intro x _
  by_cases e : x = n.vp_num <;> simp [e]

/-- The page order after `touch`, for a well-formed list of capacity at least 1. -/
theorem get_nodes_touch (l : HashLL) (a : Nat) (fresh : Ptr) (hwf : l.WF) (hcap : 1 ≤ l.cap)
    (hfresh : fresh ∉ l.nodes.map hash_node.addr) :
    (l.touch a fresh).get_nodes =
      if addr_to_num a ∈ l.get_nodes then
        addr_to_num a :: l.get_nodes.filter (fun y => decide (y ≠ addr_to_num a))
      else if l.get_nodes.length < l.cap then addr_to_num a :: l.get_nodes
      else addr_to_num a :: l.get_nodes.dropLast := by
  have hlen : l.get_nodes.length = l.size := by
    rw [hwf.size_eq]
    exact List.length_map _ _
  rcases touch_cases l a fresh hwf hcap hfresh with ⟨n, hn, hv, e⟩ | ⟨hin, hroom, e⟩ |
    ⟨hin, hfull, init, ev, hl, e⟩
  · rw [if_pos (show addr_to_num a ∈ l.get_nodes from List.mem_map.2 ⟨n, hn, hv⟩), e, ← hv]
    show (n.bumped :: l.nodes.filter (fun x => decide (x.addr ≠ n.addr))).map hash_node.vp_num
      = _
    rw [List.map_cons, map_vp_filter_addr l.nodes l.table n hwf.indexed hn]
    rfl
  · rw [if_neg hin, if_pos (by rw [hlen]; exact hroom), e]
    rfl
  · rw [if_neg hin, if_neg (by rw [hlen]; exact hfull), e]
    show (hash_node.create fresh a :: init).map hash_node.vp_num = _
    unfold HashLL.get_nodes
    rw [hl, List.map_append]
    simp only [List.map_cons, List.map_nil, List.dropLast_concat]
    rfl

theorem touch_addr_lt (l : HashLL) (a : Nat) (fresh : Ptr) (hwf : l.WF) (hcap : 1 ≤ l.cap)
    (hb : ∀ x ∈ l.nodes, x.addr < fresh) :
    ∀ x ∈ (l.touch a fresh).nodes, x.addr < fresh + 1 := by
  have hfresh : fresh ∉ l.nodes.map hash_node.addr := by
    intro h
    obtain ⟨x, hx, e⟩ := List.mem_map.1 h
    have := hb x hx
    rw [e] at this
    exact Nat.lt_irrefl _ this
  intro x hx
  rcases touch_cases l a fresh hwf hcap hfresh with ⟨n, hn, _, e⟩ | ⟨_, _, e⟩ |
    ⟨_, _, init, ev, hl, e⟩
  · rw [e] at hx
    rcases List.mem_cons.1 hx with h | h
    · rw [h]
      exact Nat.lt_succ_of_lt (hb n hn)
    · exact Nat.lt_succ_of_lt (hb x (List.mem_filter.1 h).1)
  · rw [e] at hx
    rcases List.mem_cons.1 hx with h | h
    · rw [h]
      exact Nat.lt_succ_self fresh
    · exact Nat.lt_succ_of_lt (hb x h)
  · rw [e] at hx
    rcases List.mem_cons.1 hx with h | h
    · rw [h]
      exact Nat.lt_succ_self fresh
    · exact Nat.lt_succ_of_lt (hb x (by rw [hl]; exact List.mem_append_left _ h))

theorem lru_reference_concat (C : Nat) (addrs : List Nat) (a : Nat) :
    lru_reference C (addrs ++ [a]) =
      (addr_to_num a :: (distinct_first (addrs.map addr_to_num).reverse).filter
        (fun y => decide (y ≠ addr_to_num a))).take C := by
  unfold lru_reference
  rw [List.map_append, List.reverse_append]
  rfl

/-- What holds after touching `addrs` on a new list of capacity `C`. -/
theorem touch_all_inv (C : Nat) (brk : Ptr) (addrs : List Nat) (hC : 1 ≤ C)
    (hC32 : C < 2 ^ 32) :
    ((HashLL.create C).touch_all brk addrs).WF ∧
    ((HashLL.create C).touch_all brk addrs).cap = C ∧
    (∀ x ∈ ((HashLL.create C).touch_all brk addrs).nodes, x.addr < brk + addrs.length) ∧
    ((HashLL.create C).touch_all brk addrs).get_nodes = lru_reference C addrs := by
  induction addrs using List.reverseRecOn with
  | nil =>
    refine ⟨wf_create C hC32, rfl, ?_, ?_⟩
    · intro x hx
      cases hx
    · simp [HashLL.touch_all, HashLL.create, HashLL.get_nodes, lru_reference, distinct_first]
  | append_singleton addrs a ih =>
    obtain ⟨hwf, hcap, hb, hg⟩ := ih
    rw [touch_all_concat]
    have hcap1 : 1 ≤ ((HashLL.create C).touch_all brk addrs).cap := by rw [hcap]; exact hC
    have hfresh : brk + addrs.length ∉
        ((HashLL.create C).touch_all brk addrs).nodes.map hash_node.addr := by
      intro h
      obtain ⟨x, hx, e⟩ := List.mem_map.1 h
      have := hb x hx
      rw [e] at this
      exact Nat.lt_irrefl _ this
    refine ⟨wf_touch _ a _ hwf hcap1 hfresh, (touch_cap _ _ _).trans hcap, ?_, ?_⟩
    · intro x hx
      have := touch_addr_lt _ a _ hwf hcap1 hb x hx
      rw [List.length_append, List.length_singleton, ← Nat.add_assoc]
      exact this
    · rw [get_nodes_touch _ a _ hwf hcap1 hfresh, lru_reference_concat,
        lru_step _ _ C (distinct_first_nodup _) hC, hg, hcap]
      rfl

/-! ### Page granularity -/

theorem create_congr (fresh : Ptr) (a b : Nat) (h : addr_to_num a = addr_to_num b) :
    hash_node.create fresh a = hash_node.create fresh b := by
  unfold hash_node.create
  rw [h]

theorem touch_congr (l : HashLL) (a b : Nat) (fresh : Ptr) (h : addr_to_num a = addr_to_num b) :
    l.touch a fresh = l.touch b fresh := by
  unfold HashLL.touch
  rw [create_congr fresh a b h, h]

theorem insert_lru_congr (l : HashLL) (a b : Nat) (fresh : Ptr)
    (h : addr_to_num a = addr_to_num b) : l.insert_lru a fresh = l.insert_lru b fresh := by
  unfold HashLL.insert_lru
  rw [create_congr fresh a b h, h]

theorem touch_single (C k : Nat) (q fresh : Ptr) (a : Nat) :
    HashLL.touch
      { cap := C, size := 1, nodes := [{ addr := q, vp_num := addr_to_num a, access_count := k }],
        table := [(addr_to_num a, q)] } a fresh =
      { cap := C, size := 1,
        nodes := [{ addr := q, vp_num := addr_to_num a, access_count := incr64 k }],
        table := [(addr_to_num a, q)] } := by
  simp [HashLL.touch, table_find, HashLL.bump, HashLL.head, hash_node.bumped]

theorem touch_create (C : Nat) (brk : Ptr) (a : Nat) (hC : 1 ≤ C) :
    (HashLL.create C).touch a brk =
      { cap := C, size := 1, nodes := [{ addr := brk, vp_num := addr_to_num a, access_count := 1 }],
        table := [(addr_to_num a, brk)] } := by
  have h0 : (0 : Nat) < C := hC
  have h1 : incr32 0 = 1 := by norm_num [incr32]
  simp [HashLL.touch, HashLL.create, table_find, HashLL.insert_at_head, h0, h1,
    hash_node.create, table_set, table_erase]

theorem touch_all_single (C k : Nat) (q brk : Ptr) (p : Nat) (addrs : List Nat)
    (hp : ∀ x ∈ addrs, addr_to_num x = p) (hk : k + addrs.length < 2 ^ 64) :
    HashLL.touch_all
      { cap := C, size := 1, nodes := [{ addr := q, vp_num := p, access_count := k }],
        table := [(p, q)] } brk addrs =
      { cap := C, size := 1,
        nodes := [{ addr := q, vp_num := p, access_count := k + addrs.length }],
        table := [(p, q)] } := by
  induction addrs generalizing k brk with
  | nil => rfl
  | cons a rest ih =>
    have ha : addr_to_num a = p := hp a (List.mem_cons_self _ _)
    subst ha
    rw [List.length_cons] at hk
    show HashLL.touch_all (HashLL.touch _ a brk) (brk + 1) rest = _
    rw [touch_single, incr64_small k (by omega),
      ih (k + 1) (brk + 1) (fun x hx => hp x (List.mem_cons_of_mem _ hx)) (by omega),
      List.length_cons]
    have : k + 1 + rest.length = k + (rest.length + 1) := by omega
    rw [this]

/-! ### `insert_lru`, `remove`, `make_recent`, `increment_count`, `reset_counters` -/

theorem make_recent_eq_touch (l : HashLL) (a : Nat) (fresh : Ptr)
    (h : l.find_node a ≠ none) : l.make_recent a = l.touch a fresh := by
  unfold HashLL.find_node at h
  cases hf : table_find l.table (addr_to_num a) with
  | none => exact absurd hf h
  | some n =>
    unfold HashLL.make_recent HashLL.touch
    simp only [hf]
    by_cases hh : (l.bump n).head = some n
    · rw [if_pos hh, if_neg (not_not.2 hh)]
    · rw [if_neg hh, if_pos hh]
      rfl

theorem remove_of_found (l : HashLL) (a : Nat) (n : hash_node)
    (hfind : table_find l.table (addr_to_num a) = some n.addr) :
    l.remove a =
      { l with nodes := l.nodes.filter (fun x => decide (x.addr ≠ n.addr)),
               table := table_erase l.table (addr_to_num a), size := decr32 l.size } := by
  unfold HashLL.remove
  simp only [hfind, HashLL.unlink_node]

theorem insert_lru_of_absent (l : HashLL) (a : Nat) (fresh : Ptr)
    (hfind : table_find l.table (addr_to_num a) = none) :
    l.insert_lru a fresh =
      { l with nodes := l.nodes ++ [hash_node.create fresh a], size := incr32 l.size,
               table := table_set l.table (addr_to_num a) fresh } := by
  unfold HashLL.insert_lru
  simp only [hfind]

theorem decr32_of_pos (x : Nat) (h : 0 < x) : decr32 x + 1 = x := by
  unfold decr32
  split <;> omega

/-- The loop of `hottest_node`: either no node beats `maxc` and `best` is returned, or the
result is the first node, from the head, of the maximal count, and that count is above
`maxc`. -/
theorem hottest_loop_spec (ns : List hash_node) (best : Option hash_node) (maxc : Nat) :
    (hottest_loop ns best maxc = best ∧ ∀ x ∈ ns, x.access_count ≤ maxc) ∨
    ∃ pre h post, ns = pre ++ h :: post ∧ hottest_loop ns best maxc = some h ∧
      maxc < h.access_count ∧ (∀ x ∈ pre, x.access_count < h.access_count) ∧
      ∀ x ∈ post, x.access_count ≤ h.access_count := by
  induction ns generalizing best maxc with
  | nil =>
    left
    exact ⟨rfl, fun x hx => by cases hx⟩
  | cons cur rest ih =>
    unfold hottest_loop
    by_cases hc : cur.access_count > maxc
    · rw [if_pos hc]
      right
      rcases ih (some cur) cur.access_count with ⟨e, hle⟩ | ⟨pre, h, post, e, r, hm, hpre, hpost⟩
      · exact ⟨[], cur, rest, rfl, e, hc, fun x hx => (by cases hx), hle⟩
      · refine ⟨cur :: pre, h, post, by rw [e]; rfl, r, by omega, ?_, hpost⟩
        intro x hx
        rcases List.mem_cons.1 hx with e1 | e1
        · rw [e1]; exact hm
        · exact hpre x e1
    · rw [if_neg hc]
      rcases ih best maxc with ⟨e, hle⟩ | ⟨pre, h, post, e, r, hm, hpre, hpost⟩
      · left
        refine ⟨e, ?_⟩
        intro x hx
        rcases List.mem_cons.1 hx with e1 | e1
        · rw [e1]; omega
        · exact hle x e1
      · right
        refine ⟨cur :: pre, h, post, by rw [e]; rfl, r, hm, ?_, hpost⟩
        intro x hx
        rcases List.mem_cons.1 hx with e1 | e1
        · rw [e1]; omega
        · exact hpre x e1

theorem hottest_node_spec (l : HashLL) (h : hash_node) (hh : l.hottest_node = some h) :
    ∃ pre post, l.nodes = pre ++ h :: post ∧ 0 < h.access_count ∧
      (∀ x ∈ pre, x.access_count < h.access_count) ∧
      ∀ x ∈ post, x.access_count ≤ h.access_count := by
  unfold HashLL.hottest_node at hh
  rcases hottest_loop_spec l.nodes none 0 with ⟨e, _⟩ | ⟨pre, h', post, e, r, hm, hpre, hpost⟩
  · rw [e] at hh
    cases hh
  · rw [r] at hh
    have : h' = h := Option.some.inj hh
    subst this
    exact ⟨pre, post, e, hm, hpre, hpost⟩

theorem wf_insert_lru_absent (l : HashLL) (a : Nat) (fresh : Ptr) (hwf : l.WF)
    (hfind : table_find l.table (addr_to_num a) = none) (hsz : l.size + 1 < 2 ^ 32)
    (hfresh : fresh ∉ l.nodes.map hash_node.addr) :
    HashLL.WF
      { l with nodes := l.nodes ++ [hash_node.create fresh a], size := incr32 l.size,
               table := table_set l.table (addr_to_num a) fresh } := by
  refine ⟨indexed_insert hwf.indexed (hash_node.create fresh a) hfind ?_ ?_, ?_, hwf.cap_u32,
    ?_⟩
  · rw [List.map_append, List.nodup_append]
    refine ⟨hwf.indexed.1, by simp, ?_⟩
    intro x hx hx'
    simp only [List.map_cons, List.map_nil, List.mem_singleton] at hx'
    rw [hx'] at hx
    exact hfresh hx
  · intro m
    simp only [List.mem_append, List.mem_singleton]
    exact Or.comm
  · show incr32 l.size = (l.nodes ++ [hash_node.create fresh a]).length
    rw [incr32_of_lt l.size (l.size + 1) (by omega) hsz, List.length_append, hwf.size_eq]
    rfl
  · show incr32 l.size < 2 ^ 32
    exact Nat.mod_lt _ (by norm_num)

theorem length_filter_addr (ns : List hash_node) (n : hash_node) (hn : n ∈ ns)
    (hnd : (ns.map hash_node.addr).Nodup) :
    (ns.filter (fun x => decide (x.addr ≠ n.addr))).length + 1 = ns.length := by
  rw [filter_addr_eq_erase ns n hn hnd, List.length_erase_of_mem hn]
  have : 0 < ns.length := List.length_pos_of_mem hn
  omega

theorem wf_remove_present (l : HashLL) (n : hash_node) (hwf : l.WF) (hn : n ∈ l.nodes) :
    HashLL.WF
      { l with nodes := l.nodes.filter (fun x => decide (x.addr ≠ n.addr)),
               table := table_erase l.table n.vp_num, size := decr32 l.size } := by
  have hlen := length_filter_addr l.nodes n hn hwf.indexed.1
  have hpos : 0 < l.size := by
    rw [hwf.size_eq]
    exact List.length_pos_of_mem hn
  have hd := decr32_of_pos l.size hpos
  refine ⟨indexed_remove hwf.indexed n hn, ?_, hwf.cap_u32, ?_⟩
  · show decr32 l.size = (l.nodes.filter (fun x => decide (x.addr ≠ n.addr))).length
    have := hwf.size_eq
    omega
  · show decr32 l.size < 2 ^ 32
    have := hwf.size_u32
    omega

/-! ### `swap_with` -/

theorem hottest_node_mem (l : HashLL) (h : hash_node) (hh : l.hottest_node = some h) :
    h ∈ l.nodes := by
  obtain ⟨pre, post, e, _⟩ := hottest_node_spec l h hh
  rw [e]
  simp

theorem lru_node_concat (l : HashLL) (cold : hash_node) (hc : l.lru_node = some cold) :
    ∃ init, l.nodes = init ++ [cold] := by
  unfold HashLL.lru_node at hc
  rcases List.eq_nil_or_concat l.nodes with h | ⟨init, ev, h⟩
  · rw [h] at hc
    cases hc
  · rw [List.concat_eq_append] at h
    rw [h, List.getLast?_append] at hc
    simp at hc
    exact ⟨init, by rw [h, hc]⟩

theorem swap_with_of_none (A B : HashLL) (h : A.hottest_node = none ∨ B.lru_node = none) :
    A.swap_with B = (A, B) := by
  unfold HashLL.swap_with
  rcases h with h | h
  · rw [h]
  · rw [h]
    cases A.hottest_node <;> rfl

theorem swap_with_eq (A B : HashLL) (hot cold : hash_node) (init : List hash_node)
    (hhot : A.hottest_node = some hot) (hl : B.nodes = init ++ [cold])
    (hnd : (B.nodes.map hash_node.addr).Nodup) :
    A.swap_with B =
      ({ A with nodes := A.nodes.filter (fun x => decide (x.addr ≠ hot.addr)) ++ [cold],
                table := table_set (table_erase A.table hot.vp_num) cold.vp_num cold.addr,
                size := incr32 (decr32 A.size) },
       { B with nodes := hot :: init,
                table := table_set (table_erase B.table cold.vp_num) hot.vp_num hot.addr,
                size := incr32 (decr32 B.size) }) := by
  have hc : B.lru_node = some cold := by
    unfold HashLL.lru_node
    rw [hl, List.getLast?_append]
    rfl
  have hf : B.nodes.filter (fun x => decide (x.addr ≠ cold.addr)) = init := by
    rw [hl] at hnd ⊢
    exact filter_addr_concat init cold hnd
  unfold HashLL.swap_with
  rw [hhot, hc]
  simp only [HashLL.unlink_node, HashLL.insert_lru_node, HashLL.insert_mru_node, hf]

theorem vp_ne_of_mem_filter (ns : List hash_node) (t : List (Nat × Ptr)) (n m : hash_node)
    (h : Indexed ns t) (hn : n ∈ ns)
    (hm : m ∈ ns.filter (fun x => decide (x.addr ≠ n.addr))) : m.vp_num ≠ n.vp_num := by
  intro e
  have hm' := List.mem_filter.1 hm
  have := indexed_eq_of_page_eq h hm'.1 hn e
  rw [this] at hm'
  simp at hm'

/-- The list that gives a node away and takes a node from another list at its tail. -/
theorem wf_swap_fst (A : HashLL) (hot cold : hash_node) (hA : A.WF) (hhot : hot ∈ A.nodes)
    (hpage : cold.vp_num ∉ A.get_nodes) (haddr : cold.addr ∉ A.nodes.map hash_node.addr) :
    HashLL.WF
      { A with nodes := A.nodes.filter (fun x => decide (x.addr ≠ hot.addr)) ++ [cold],
               table := table_set (table_erase A.table hot.vp_num) cold.vp_num cold.addr,
               size := incr32 (decr32 A.size) } := by
  have h1 := indexed_remove hA.indexed hot hhot
  have hk : table_find (table_erase A.table hot.vp_num) cold.vp_num = none := by
    by_cases e : cold.vp_num = hot.vp_num
    · rw [e]
      exact table_find_erase_self _ _
    · rw [table_find_erase_ne _ _ _ e]
      exact indexed_find_none_of_not_mem hA.indexed hpage
  have hsub : ∀ p, p ∈ (A.nodes.filter (fun x => decide (x.addr ≠ hot.addr))).map
      hash_node.addr → p ∈ A.nodes.map hash_node.addr := by
    intro p hp
    obtain ⟨m, hm, e⟩ := List.mem_map.1 hp
    exact List.mem_map.2 ⟨m, (List.mem_filter.1 hm).1, e⟩
  refine ⟨indexed_insert h1 cold hk ?_ ?_, ?_, hA.cap_u32, ?_⟩
  · rw [List.map_append, List.nodup_append]
    refine ⟨h1.1, by simp, ?_⟩
    intro x hx hx'
    simp only [List.map_cons, List.map_nil, List.mem_singleton] at hx'
    rw [hx'] at hx
    exact haddr (hsub _ hx)
  · intro m
    simp only [List.mem_append, List.mem_singleton]
    exact Or.comm
  · show incr32 (decr32 A.size) =
      (A.nodes.filter (fun x => decide (x.addr ≠ hot.addr)) ++ [cold]).length
    rw [incr32_decr32 _ hA.size_u32, List.length_append, hA.size_eq]
    exact (length_filter_addr A.nodes hot hhot hA.indexed.1).symm
  · show incr32 (decr32 A.size) < 2 ^ 32
    exact Nat.mod_lt _ (by norm_num)

/-- The list whose tail leaves and that takes a node from another list at its head. -/
theorem wf_swap_snd (B : HashLL) (hot cold : hash_node) (init : List hash_node) (hB : B.WF)
    (hl : B.nodes = init ++ [cold]) (hpage : hot.vp_num ∉ B.get_nodes)
    (haddr : hot.addr ∉ B.nodes.map hash_node.addr) :
    HashLL.WF
      { B with nodes := hot :: init,
               table := table_set (table_erase B.table cold.vp_num) hot.vp_num hot.addr,
               size := incr32 (decr32 B.size) } := by
  have hcold : cold ∈ B.nodes := by rw [hl]; simp
  have h1 := indexed_remove hB.indexed cold hcold
  have hf : B.nodes.filter (fun x => decide (x.addr ≠ cold.addr)) = init := by
    have hnd := hB.indexed.1
    rw [hl] at hnd ⊢
    exact filter_addr_concat init cold hnd
  rw [hf] at h1
  have hk : table_find (table_erase B.table cold.vp_num) hot.vp_num = none := by
    by_cases e : hot.vp_num = cold.vp_num
    · rw [e]
      exact table_find_erase_self _ _
    · rw [table_find_erase_ne _ _ _ e]
      exact indexed_find_none_of_not_mem hB.indexed hpage
  have hinit : ∀ m ∈ init, m ∈ B.nodes := by
    intro m hm
    rw [hl]
    exact List.mem_append_left _ hm
  refine ⟨indexed_insert h1 hot hk ?_ (fun m => List.mem_cons), ?_, hB.cap_u32, ?_⟩
  · rw [List.map_cons, List.nodup_cons]
    refine ⟨?_, h1.1⟩
    intro hx
    obtain ⟨m, hm, e⟩ := List.mem_map.1 hx
    exact haddr (List.mem_map.2 ⟨m, hinit m hm, e⟩)
  · show incr32 (decr32 B.size) = (hot :: init).length
    rw [incr32_decr32 _ hB.size_u32, hB.size_eq, hl]
    simp
  · show incr32 (decr32 B.size) < 2 ^ 32
    exact Nat.mod_lt _ (by norm_num)

theorem wf_other_two_pages : other_two_pages.WF := by
  have h0 := wf_create 2 (by norm_num)
  have h1 := wf_touch (HashLL.create 2) 0x2000 3 h0 (by decide) (by decide)
  exact wf_touch _ 0x3000 4 h1 (by decide) (by decide)

/-- What `swap_with` does to two well-formed lists with different pages and different node
addresses when both the hottest node and the LRU node exist. -/
theorem swap_with_spec (A B : HashLL) (hot cold : hash_node) (hA : A.WF) (hB : B.WF)
    (hpages : List.Disjoint A.get_nodes B.get_nodes)
    (haddr : List.Disjoint (A.nodes.map hash_node.addr) (B.nodes.map hash_node.addr))
    (hhot : A.hottest_node = some hot) (hcold : B.lru_node = some cold) :
    ∃ init, B.nodes = init ++ [cold] ∧ hot ∈ A.nodes ∧
      (A.swap_with B).1.nodes = A.nodes.erase hot ++ [cold] ∧
      (A.swap_with B).2.nodes = hot :: init ∧
      (A.swap_with B).1.table =
        table_set (table_erase A.table hot.vp_num) cold.vp_num cold.addr ∧
      (A.swap_with B).2.table =
        table_set (table_erase B.table cold.vp_num) hot.vp_num hot.addr ∧
      (A.swap_with B).1.size = A.size ∧ (A.swap_with B).2.size = B.size ∧
      (A.swap_with B).1.WF ∧ (A.swap_with B).2.WF ∧
      hot.vp_num ≠ cold.vp_num ∧ hot.addr ≠ cold.addr ∧
      cold.vp_num ∉ init.map hash_node.vp_num ∧ cold.addr ∉ init.map hash_node.addr ∧
      hot.vp_num ∉ (A.nodes.erase hot).map hash_node.vp_num ∧
      hot.addr ∉ (A.nodes.erase hot).map hash_node.addr := by
  obtain ⟨init, hl⟩ := lru_node_concat B cold hcold
  have hhm := hottest_node_mem A hot hhot
  have hcm : cold ∈ B.nodes := by rw [hl]; simp
  have e := swap_with_eq A B hot cold init hhot hl hB.indexed.1
  have hfe := filter_addr_eq_erase A.nodes hot hhm hA.indexed.1
  have hpc : cold.vp_num ∉ A.get_nodes := fun h => hpages h (List.mem_map_of_mem _ hcm)
  have hph : hot.vp_num ∉ B.get_nodes := fun h => hpages (List.mem_map_of_mem _ hhm) h
  have hac : cold.addr ∉ A.nodes.map hash_node.addr :=
    fun h => haddr h (List.mem_map_of_mem _ hcm)
  have hah : hot.addr ∉ B.nodes.map hash_node.addr :=
    fun h => haddr (List.mem_map_of_mem _ hhm) h
  have w1 := wf_swap_fst A hot cold hA hhm hpc hac
  have w2 := wf_swap_snd B hot cold init hB hl hph hah
  have hBp := indexed_pages_nodup hB.indexed
  have hBa := hB.indexed.1
  rw [hl, List.map_append, List.nodup_append] at hBp hBa
  refine ⟨init, hl, hhm, ?_, by rw [e], by rw [e], by rw [e], ?_, ?_, by rw [e]; exact w1,
    by rw [e]; exact w2, ?_, ?_, ?_, ?_, ?_, ?_⟩
  · rw [e, ← hfe]
  · rw [e]
    exact incr32_decr32 _ hA.size_u32
  · rw [e]
    exact incr32_decr32 _ hB.size_u32
  · intro h
    exact hph (h ▸ List.mem_map_of_mem _ hcm)
  · intro h
    exact hah (h ▸ List.mem_map_of_mem _ hcm)
  · intro h
    exact hBp.2.2 h (by simp)
  · intro h
    exact hBa.2.2 h (by simp)
  · intro h
    obtain ⟨m, hm, hv⟩ := List.mem_map.1 h
    rw [← hfe] at hm
    exact vp_ne_of_mem_filter A.nodes A.table hot m hA.indexed hhm hm hv
  · rw [← hfe]
    exact addr_not_mem_filter A.nodes hot.addr

/-! ### Sequences of operations -/

theorem indexed_map {ns : List hash_node} {t : List (Nat × Ptr)} (h : Indexed ns t)
    (f : hash_node → hash_node) (ha : ∀ x, (f x).addr = x.addr)
    (hv : ∀ x, (f x).vp_num = x.vp_num) : Indexed (ns.map f) t := by
  refine indexed_congr h ?_ ?_
  · have e : hash_node.addr ∘ f = hash_node.addr := funext ha
    rw [List.map_map, e]
    exact h.1
  · intro k p
    constructor
    · rintro ⟨n, hn, hna, hnv⟩
      obtain ⟨m, hm, e⟩ := List.mem_map.1 hn
      exact ⟨m, hm, by rw [← hna, ← e, ha], by rw [← hnv, ← e, hv]⟩
    · rintro ⟨m, hm, hma, hmv⟩
      exact ⟨f m, List.mem_map_of_mem _ hm, by rw [ha, hma], by rw [hv, hmv]⟩

theorem incr32_mod (n : Nat) : incr32 (n % 2 ^ 32) = (n + 1) % 2 ^ 32 := by
  unfold incr32
  omega

theorem decr32_mod (n : Nat) : decr32 ((n + 1) % 2 ^ 32) = n % 2 ^ 32 := by
  unfold decr32
  split <;> omega

theorem touch_of_absent_evict (l : HashLL) (a : Nat) (fresh : Ptr) (ev : hash_node)
    (hfind : table_find l.table (addr_to_num a) = none) (hfull : ¬ l.size < l.cap)
    (hlast : (hash_node.create fresh a :: l.nodes).getLast? = some ev) :
    l.touch a fresh =
      { l with nodes := (hash_node.create fresh a :: l.nodes).filter
                 (fun x => decide (x.addr ≠ ev.addr)),
               table := table_erase (table_set l.table (addr_to_num a) fresh) ev.vp_num } := by
  unfold HashLL.touch
  simp only [hfind, HashLL.insert_at_head, if_neg hfull, HashLL.lru_node, hlast,
    HashLL.unlink_node]

theorem stepOk_refl (l : HashLL) (fresh : Ptr) (h : l.Agree) : l.StepOk l fresh :=
  ⟨h, Nat.le_succ _, fun _ hp => Or.inr hp⟩

theorem stepOk_map (l : HashLL) (fresh : Ptr) (h : l.Agree) (f : hash_node → hash_node)
    (ha : ∀ x, (f x).addr = x.addr) (hv : ∀ x, (f x).vp_num = x.vp_num) :
    l.StepOk { l with nodes := l.nodes.map f } fresh := by
  refine ⟨⟨indexed_map h.1 f ha hv, ?_⟩, ?_, ?_⟩
  · show l.size = (l.nodes.map f).length % 2 ^ 32
    rw [List.length_map]
    exact h.2
  · show (l.nodes.map f).length ≤ l.nodes.length + 1
    rw [List.length_map]
    exact Nat.le_succ _
  · intro p hp
    have e : hash_node.addr ∘ f = hash_node.addr := funext ha
    have hp2 : p ∈ (l.nodes.map f).map hash_node.addr := hp
    rw [List.map_map, e] at hp2
    exact Or.inr hp2

theorem stepOk_touch (l : HashLL) (a : Nat) (fresh : Ptr) (h : l.Agree)
    (hfresh : fresh ∉ l.nodes.map hash_node.addr) : l.StepOk (l.touch a fresh) fresh := by
  cases hf : table_find l.table (addr_to_num a) with
  | some p =>
    obtain ⟨n, hn, hna, _⟩ := (h.1.2.2 _ _).1 hf
    rw [← hna] at hf
    rw [touch_of_found l a fresh n hf hn h.1.1]
    have hlen := length_filter_addr l.nodes n hn h.1.1
    refine ⟨⟨indexed_touch_present h.1 n hn, ?_⟩, ?_, ?_⟩
    · show l.size = (n.bumped :: l.nodes.filter (fun x => decide (x.addr ≠ n.addr))).length
        % 2 ^ 32
      rw [List.length_cons, hlen]
      exact h.2
    · show (n.bumped :: l.nodes.filter (fun x => decide (x.addr ≠ n.addr))).length
        ≤ l.nodes.length + 1
      rw [List.length_cons, hlen]
      exact Nat.le_succ _
    · intro q hq
      have hq2 : q ∈ (n.bumped :: l.nodes.filter (fun x => decide (x.addr ≠ n.addr))).map
        hash_node.addr := hq
      rw [List.map_cons, List.mem_cons] at hq2
      rcases hq2 with e | hq2
      · exact Or.inr (List.mem_map.2 ⟨n, hn, e.symm⟩)
      · obtain ⟨m, hm, e⟩ := List.mem_map.1 hq2
        exact Or.inr (List.mem_map.2 ⟨m, (List.mem_filter.1 hm).1, e⟩)
  | none =>
    have hnd : ((hash_node.create fresh a :: l.nodes).map hash_node.addr).Nodup := by
      rw [List.map_cons, List.nodup_cons]
      exact ⟨hfresh, h.1.1⟩
    have h1 : Indexed (hash_node.create fresh a :: l.nodes)
        (table_set l.table (addr_to_num a) fresh) :=
      indexed_insert h.1 (hash_node.create fresh a) hf hnd (fun m => List.mem_cons)
    by_cases hroom : l.size < l.cap
    · rw [touch_of_absent_room l a fresh hf hroom]
      refine ⟨⟨h1, ?_⟩, Nat.le_refl _, ?_⟩
      · show incr32 l.size = (hash_node.create fresh a :: l.nodes).length % 2 ^ 32
        rw [h.2, incr32_mod, List.length_cons]
      · intro q hq
        have hq2 : q ∈ (hash_node.create fresh a :: l.nodes).map hash_node.addr := hq
        rw [List.map_cons, List.mem_cons] at hq2
        exact hq2
    · cases hlast : (hash_node.create fresh a :: l.nodes).getLast? with
      | none => cases List.getLast?_eq_none_iff.1 hlast
      | some ev =>
        have hev := List.mem_of_getLast?_eq_some hlast
        have hlen := length_filter_addr _ ev hev hnd
        rw [List.length_cons] at hlen
        rw [touch_of_absent_evict l a fresh ev hf hroom hlast]
        refine ⟨⟨indexed_remove h1 ev hev, ?_⟩, ?_, ?_⟩
        · show l.size = ((hash_node.create fresh a :: l.nodes).filter
            (fun x => decide (x.addr ≠ ev.addr))).length % 2 ^ 32
          rw [Nat.add_right_cancel hlen]
          exact h.2
        · show ((hash_node.create fresh a :: l.nodes).filter
            (fun x => decide (x.addr ≠ ev.addr))).length ≤ l.nodes.length + 1
          rw [Nat.add_right_cancel hlen]
          exact Nat.le_succ _
        · intro q hq
          obtain ⟨m, hm, e⟩ := List.mem_map.1 hq
          have hm2 : m ∈ hash_node.create fresh a :: l.nodes := (List.mem_filter.1 hm).1
          rcases List.mem_cons.1 hm2 with e2 | e2
          · exact Or.inl (by rw [← e, e2]; rfl)
          · exact Or.inr (List.mem_map.2 ⟨m, e2, e⟩)

theorem stepOk_insert_lru (l : HashLL) (a : Nat) (fresh : Ptr) (h : l.Agree)
    (hfresh : fresh ∉ l.nodes.map hash_node.addr) :
    l.StepOk (l.insert_lru a fresh) fresh := by
  cases hf : table_find l.table (addr_to_num a) with
  | some p =>
    have e : l.insert_lru a fresh = l := by
      unfold HashLL.insert_lru
      simp only [hf]
    rw [e]
    exact stepOk_refl l fresh h
  | none =>
    rw [insert_lru_of_absent l a fresh hf]
    refine ⟨⟨indexed_insert h.1 (hash_node.create fresh a) hf ?_ ?_, ?_⟩, ?_, ?_⟩
    · rw [List.map_append, List.nodup_append]
      refine ⟨h.1.1, by simp, ?_⟩
      intro x hx hx'
      simp only [List.map_cons, List.map_nil, List.mem_singleton] at hx'
      rw [hx'] at hx
      exact hfresh hx
    · intro m
      simp only [List.mem_append, List.mem_singleton]
      exact Or.comm
    · show incr32 l.size = (l.nodes ++ [hash_node.create fresh a]).length % 2 ^ 32
      rw [h.2, incr32_mod, List.length_append]
      rfl
    · show (l.nodes ++ [hash_node.create fresh a]).length ≤ l.nodes.length + 1
      rw [List.length_append]
      exact Nat.le_refl _
    · intro q hq
      have hq2 : q ∈ (l.nodes ++ [hash_node.create fresh a]).map hash_node.addr := hq
      rw [List.map_append, List.mem_append] at hq2
      rcases hq2 with e | e
      · exact Or.inr e
      · simp only [List.map_cons, List.map_nil, List.mem_singleton] at e
        exact Or.inl e

theorem stepOk_remove (l : HashLL) (a : Nat) (fresh : Ptr) (h : l.Agree) :
    l.StepOk (l.remove a) fresh := by
  cases hf : table_find l.table (addr_to_num a) with
  | none =>
    have e : l.remove a = l := by
      unfold HashLL.remove
      simp only [hf]
    rw [e]
    exact stepOk_refl l fresh h
  | some p =>
    obtain ⟨n, hn, hna, hnv⟩ := (h.1.2.2 _ _).1 hf
    rw [← hna] at hf
    rw [remove_of_found l a n hf, ← hnv]
    have hlen := length_filter_addr l.nodes n hn h.1.1
    refine ⟨⟨indexed_remove h.1 n hn, ?_⟩, ?_, ?_⟩
    · show decr32 l.size =
        (l.nodes.filter (fun x => decide (x.addr ≠ n.addr))).length % 2 ^ 32
      rw [h.2, ← hlen, decr32_mod]
    · show (l.nodes.filter (fun x => decide (x.addr ≠ n.addr))).length ≤ l.nodes.length + 1
      omega
    · intro q hq
      obtain ⟨m, hm, e⟩ := List.mem_map.1 hq
      exact Or.inr (List.mem_map.2 ⟨m, (List.mem_filter.1 hm).1, e⟩)

theorem stepOk_increment_count (l : HashLL) (a : Nat) (fresh : Ptr) (h : l.Agree) :
    l.StepOk (l.increment_count a) fresh := by
  unfold HashLL.increment_count
  cases hf : table_find l.table (addr_to_num a) with
  | none => exact stepOk_refl l fresh h
  | some p =>
    exact stepOk_map l fresh h (fun x => if x.addr = p then x.bumped else x)
      (fun x => by dsimp only; split <;> rfl) (fun x => by dsimp only; split <;> rfl)

theorem stepOk_reset_counters (l : HashLL) (fresh : Ptr) (h : l.Agree) :
    l.StepOk l.reset_counters fresh :=
  stepOk_map l fresh h (fun x => { x with access_count := 0 }) (fun _ => rfl) (fun _ => rfl)

theorem stepOk_make_recent (l : HashLL) (a : Nat) (fresh : Ptr) (h : l.Agree)
    (hfresh : fresh ∉ l.nodes.map hash_node.addr) : l.StepOk (l.make_recent a) fresh := by
  cases hf : table_find l.table (addr_to_num a) with
  | none =>
    have e : l.make_recent a = l := by
      unfold HashLL.make_recent
      simp only [hf]
    rw [e]
    exact stepOk_refl l fresh h
  | some p =>
    have hne : l.find_node a ≠ none := by
      unfold HashLL.find_node
      rw [hf]
      exact Option.some_ne_none p
    rw [make_recent_eq_touch l a fresh hne]
    exact stepOk_touch l a fresh h hfresh

theorem stepOk_apply_op (l : HashLL) (fresh : Ptr) (op : ListOp) (h : l.Agree)
    (hfresh : fresh ∉ l.nodes.map hash_node.addr) : l.StepOk (apply_op l fresh op) fresh := by
  cases op with
  | touch a => exact stepOk_touch l a fresh h hfresh
  | insert_lru a => exact stepOk_insert_lru l a fresh h hfresh
  | remove a => exact stepOk_remove l a fresh h
  | make_recent a => exact stepOk_make_recent l a fresh h hfresh
  | increment_count a => exact stepOk_increment_count l a fresh h
  | reset_counters => exact stepOk_reset_counters l fresh h

theorem agree_create (C : Nat) : (HashLL.create C).Agree := by
  refine ⟨⟨List.nodup_nil, List.nodup_nil, ?_⟩, rfl⟩
  intro k p
  simp [HashLL.create, table_find]

theorem run_ops_agree (ops : List ListOp) : ∀ (l : HashLL) (brk : Ptr), l.Agree →
    (∀ p ∈ l.nodes.map hash_node.addr, p < brk) →
    (run_ops l brk ops).Agree ∧
      (run_ops l brk ops).nodes.length ≤ l.nodes.length + ops.length := by
  induction ops with
  | nil =>
    intro l brk h _
    exact ⟨h, Nat.le_refl _⟩
  | cons op rest ih =>
    intro l brk h hlt
    have hfresh : brk ∉ l.nodes.map hash_node.addr := fun hm => Nat.lt_irrefl _ (hlt brk hm)
    obtain ⟨h1, h2, h3⟩ := stepOk_apply_op l brk op h hfresh
    have hlt2 : ∀ p ∈ (apply_op l brk op).nodes.map hash_node.addr, p < brk + 1 := by
      intro p hp
      rcases h3 p hp with e | e
      · rw [e]
        exact Nat.lt_succ_self _
      · exact Nat.lt_succ_of_lt (hlt p e)
    obtain ⟨i1, i2⟩ := ih _ _ h1 hlt2
    refine ⟨i1, ?_⟩
    show (run_ops (apply_op l brk op) (brk + 1) rest).nodes.length
      ≤ l.nodes.length + (rest.length + 1)
    omega

/-! ### The caches in the engine -/

theorem hit_checks_caches (g : State) (a : Nat) :
    (hit_checks g a).l1 = g.l1 ∧ (hit_checks g a).L2 = g.L2 ∧ (hit_checks g a).blk = g.blk := by
  cases hu : g.unclist.find_node a with
  | some p =>
    rw [hit_checks_unclist g a p hu]
    by_cases he : g.uc_epoch ≥ g.unclist_freq
    · rw [if_pos he]
      exact ⟨rfl, rfl, rfl⟩
    · rw [if_neg he]
      exact ⟨rfl, rfl, rfl⟩
  | none =>
    cases hc : g.clist.find_node a with
    | some p =>
      rw [hit_checks_clist g a p hu hc]
      by_cases he : g.cl_epoch ≥ g.clist_freq
      · rw [if_pos he]
        exact ⟨rfl, rfl, rfl⟩
      · rw [if_neg he]
        exact ⟨rfl, rfl, rfl⟩
    | none =>
      rw [hit_checks_neither g a hu hc]
      by_cases he : g.cl_epoch ≥ g.clist_freq
      · rw [if_pos he]
        exact ⟨rfl, rfl, rfl⟩
      · rw [if_neg he]
        exact ⟨rfl, rfl, rfl⟩

theorem promotion_gate_caches (s : State) :
    (promotion_gate s).l1 = s.l1 ∧ (promotion_gate s).L2 = s.L2 ∧
    (promotion_gate s).blk = s.blk := by
  unfold promotion_gate
  split
  · exact ⟨rfl, rfl, rfl⟩
  · exact ⟨rfl, rfl, rfl⟩

theorem cu_tier_caches (s : State) (a : Nat) :
    (cu_tier s a).l1 = s.l1 ∧ (cu_tier s a).L2 = s.L2 ∧ (cu_tier s a).blk = s.blk := by
  unfold cu_tier
  split
  · exact ⟨rfl, rfl, rfl⟩
  · split
    · exact ⟨rfl, rfl, rfl⟩
    · have h := hit_checks_caches (promotion_gate s) a
      have g := promotion_gate_caches s
      exact ⟨h.1.trans g.1, h.2.1.trans g.2.1, h.2.2.trans g.2.2⟩

/-- The two caches after `CacheCall`, from the two caches before: the `L1` access, on an `L1`
miss the `L2` access, and the installs into `L1` that the `L2` access asks for. -/
theorem CacheCall_caches (s : State) (op blkAddr a : Nat) :
    (CacheCall s op blkAddr a).l1 =
      (if (s.l1.Access blkAddr (decide (op = WRITE_OP)) false false).1 then
        (s.l1.Access blkAddr (decide (op = WRITE_OP)) false false).2.1
      else
        run_L2_callbacks (s.l1.Access blkAddr (decide (op = WRITE_OP)) false false).2.1
          (s.L2.Access blkAddr (decide (op = WRITE_OP)) true true).2.2) ∧
    (CacheCall s op blkAddr a).L2 =
      (if (s.l1.Access blkAddr (decide (op = WRITE_OP)) false false).1 then s.L2
      else (s.L2.Access blkAddr (decide (op = WRITE_OP)) true true).2.1) ∧
    (CacheCall s op blkAddr a).blk = s.blk := by
  unfold CacheCall
  simp only []
  by_cases h1 : (s.l1.Access blkAddr (decide (op = WRITE_OP)) false false).1 = true
  · rw [if_pos h1, if_pos h1, if_pos h1]
    exact ⟨rfl, rfl, rfl⟩
  · rw [if_neg h1, if_neg h1, if_neg h1]
    split
    · exact cu_tier_caches _ a
    · exact ⟨rfl, rfl, rfl⟩

theorem step_caches_congr (s t : State) (e : MemEvent) (h1 : s.l1 = t.l1) (h2 : s.L2 = t.L2)
    (hb : s.blk = t.blk) :
    (step s e).l1 = (step t e).l1 ∧ (step s e).L2 = (step t e).L2 ∧
    (step s e).blk = (step t e).blk := by
  cases e with
  | read a =>
    unfold step RecordMemRead
    simp only []
    refine ⟨?_, ?_, ?_⟩
    · rw [(CacheCall_caches _ _ _ _).1, (CacheCall_caches _ _ _ _).1]
      simp only [h1, h2, hb]
    · rw [(CacheCall_caches _ _ _ _).2.1, (CacheCall_caches _ _ _ _).2.1]
      simp only [h1, h2, hb]
    · rw [(CacheCall_caches _ _ _ _).2.2, (CacheCall_caches _ _ _ _).2.2]
      exact hb
  | write a =>
    unfold step RecordMemWrite
    simp only []
    refine ⟨?_, ?_, ?_⟩
    · rw [(CacheCall_caches _ _ _ _).1, (CacheCall_caches _ _ _ _).1]
      simp only [h1, h2, hb]
    · rw [(CacheCall_caches _ _ _ _).2.1, (CacheCall_caches _ _ _ _).2.1]
      simp only [h1, h2, hb]
    · rw [(CacheCall_caches _ _ _ _).2.2, (CacheCall_caches _ _ _ _).2.2]
      exact hb

/-- The caches along a stream depend on the caches and the block size at the start only, not
on the lists or their knobs. -/
theorem run_caches_congr (evs : List MemEvent) : ∀ s t : State, s.l1 = t.l1 → s.L2 = t.L2 →
    s.blk = t.blk → (run s evs).l1 = (run t evs).l1 ∧ (run s evs).L2 = (run t evs).L2 := by
  induction evs with
  | nil =>
    intro s t h1 h2 _
    exact ⟨h1, h2⟩
  | cons e rest ih =>
    intro s t h1 h2 hb
    obtain ⟨g1, g2, g3⟩ := step_caches_congr s t e h1 h2 hb
    exact ih (step s e) (step t e) g1 g2 g3

/-! ### The capacity bound -/

theorem apply_op_cap (l : HashLL) (fresh : Ptr) (op : ListOp) :
    (apply_op l fresh op).cap = l.cap := by
  cases op with
  | touch a => exact touch_cap l a fresh
  | insert_lru a =>
    show (l.insert_lru a fresh).cap = l.cap
    unfold HashLL.insert_lru
    simp only []
    split <;> rfl
  | remove a =>
    show (l.remove a).cap = l.cap
    unfold HashLL.remove
    simp only []
    split <;> rfl
  | make_recent a =>
    show (l.make_recent a).cap = l.cap
    unfold HashLL.make_recent
    split
    · rfl
    · simp only []
      split
      · rfl
      · split <;> rfl
  | increment_count a =>
    show (l.increment_count a).cap = l.cap
    unfold HashLL.increment_count
    split <;> rfl
  | reset_counters => rfl

theorem touch_length_le (l : HashLL) (a : Nat) (fresh : Ptr) (h : l.Agree)
    (hfresh : fresh ∉ l.nodes.map hash_node.addr) (hle : l.nodes.length ≤ l.cap)
    (hcap : l.cap < 2 ^ 32) : (l.touch a fresh).nodes.length ≤ l.cap := by
  cases hf : table_find l.table (addr_to_num a) with
  | some p =>
    obtain ⟨n, hn, hna, _⟩ := (h.1.2.2 _ _).1 hf
    rw [← hna] at hf
    rw [touch_of_found l a fresh n hf hn h.1.1]
    have hlen := length_filter_addr l.nodes n hn h.1.1
    show (n.bumped :: l.nodes.filter (fun x => decide (x.addr ≠ n.addr))).length ≤ l.cap
    rw [List.length_cons, hlen]
    exact hle
  | none =>
    by_cases hroom : l.size < l.cap
    · rw [touch_of_absent_room l a fresh hf hroom]
      show (hash_node.create fresh a :: l.nodes).length ≤ l.cap
      have hs := h.2
      rw [Nat.mod_eq_of_lt (Nat.lt_of_le_of_lt hle hcap)] at hs
      rw [List.length_cons]
      omega
    · cases hlast : (hash_node.create fresh a :: l.nodes).getLast? with
      | none => cases List.getLast?_eq_none_iff.1 hlast
      | some ev =>
        have hnd : ((hash_node.create fresh a :: l.nodes).map hash_node.addr).Nodup := by
          rw [List.map_cons, List.nodup_cons]
          exact ⟨hfresh, h.1.1⟩
        have hlen := length_filter_addr _ ev (List.mem_of_getLast?_eq_some hlast) hnd
        rw [List.length_cons] at hlen
        rw [touch_of_absent_evict l a fresh ev hf hroom hlast]
        show ((hash_node.create fresh a :: l.nodes).filter
          (fun x => decide (x.addr ≠ ev.addr))).length ≤ l.cap
        rw [Nat.add_right_cancel hlen]
        exact hle

theorem apply_op_length_le (l : HashLL) (fresh : Ptr) (op : ListOp) (h : l.Agree)
    (hfresh : fresh ∉ l.nodes.map hash_node.addr) (hle : l.nodes.length ≤ l.cap)
    (hcap : l.cap < 2 ^ 32) (hop : ∀ a, op ≠ ListOp.insert_lru a) :
    (apply_op l fresh op).nodes.length ≤ l.cap := by
  cases op with
  | touch a => exact touch_length_le l a fresh h hfresh hle hcap
  | insert_lru a => exact absurd rfl (hop a)
  | remove a =>
    show (l.remove a).nodes.length ≤ l.cap
    unfold HashLL.remove
    simp only []
    split
    · exact hle
    · exact Nat.le_trans (List.length_filter_le _ _) hle
  | make_recent a =>
    show (l.make_recent a).nodes.length ≤ l.cap
    cases hf : table_find l.table (addr_to_num a) with
    | none =>
      have e : l.make_recent a = l := by
        unfold HashLL.make_recent
        simp only [hf]
      rw [e]
      exact hle
    | some p =>
      have hne : l.find_node a ≠ none := by
        unfold HashLL.find_node
        rw [hf]
        exact Option.some_ne_none p
      rw [make_recent_eq_touch l a fresh hne]
      exact touch_length_le l a fresh h hfresh hle hcap
  | increment_count a =>
    show (l.increment_count a).nodes.length ≤ l.cap
    unfold HashLL.increment_count
    split
    · exact hle
    · show (l.nodes.map _).length ≤ l.cap
      rw [List.length_map]
      exact hle
  | reset_counters =>
    show (l.nodes.map _).length ≤ l.cap
    rw [List.length_map]
    exact hle

theorem run_ops_length_le (ops : List ListOp) : ∀ (l : HashLL) (brk : Ptr), l.Agree →
    (∀ p ∈ l.nodes.map hash_node.addr, p < brk) → l.nodes.length ≤ l.cap →
    l.cap < 2 ^ 32 →
    (∀ a, ListOp.insert_lru a ∉ ops) →
    (run_ops l brk ops).nodes.length ≤ l.cap ∧ (run_ops l brk ops).cap = l.cap := by
  induction ops with
  | nil =>
    intro l brk _ _ hle _ _
    exact ⟨hle, rfl⟩
  | cons op rest ih =>
    intro l brk h hlt hle hcap hno
    have hfresh : brk ∉ l.nodes.map hash_node.addr := fun hm => Nat.lt_irrefl _ (hlt brk hm)
    obtain ⟨h1, _, h3⟩ := stepOk_apply_op l brk op h hfresh
    have hlt2 : ∀ p ∈ (apply_op l brk op).nodes.map hash_node.addr, p < brk + 1 := by
      intro p hp
      rcases h3 p hp with e | e
      · rw [e]
        exact Nat.lt_succ_self _
      · exact Nat.lt_succ_of_lt (hlt p e)
    have hop : ∀ a, op ≠ ListOp.insert_lru a := fun a e =>
      hno a (e ▸ List.mem_cons_self _ _)
    have hc := apply_op_cap l brk op
    have hl := apply_op_length_le l brk op h hfresh hle hcap hop
    have r := ih (apply_op l brk op) (brk + 1) h1 hlt2 (by rw [hc]; exact hl)
      (by rw [hc]; exact hcap) (fun a hm => hno a (List.mem_cons_of_mem _ hm))
    rw [hc] at r
    exact r

/-! ### Decode and Reconstruct -/

theorem highest_bit_pow (fuel K : Nat) (h : K ≤ fuel) : highest_bit fuel (2 ^ K) = K := by
  induction fuel generalizing K with
  | zero =>
    have e : K = 0 := Nat.le_zero.1 h
    subst e
    rfl
  | succ f ih =>
    cases K with
    | zero =>
      unfold highest_bit
      rw [if_neg (by norm_num)]
    | succ k =>
      have h2 : 2 ≤ 2 ^ (k + 1) := by
        rw [Nat.pow_succ]
        have := Nat.one_le_two_pow (n := k)
        omega
      unfold highest_bit
      rw [if_pos h2, Nat.pow_succ, Nat.mul_div_cancel _ (by norm_num : 0 < 2),
        ih k (Nat.le_of_succ_le_succ h)]

theorem geom_K_lt (c : SimpleCache) (B K : Nat) (g : c.Geom B K) : K < 32 := by
  have h : c.cfg.sets < 2 ^ 32 := Nat.mod_lt _ (by norm_num)
  rw [g.nsets] at h
  exact (Nat.pow_lt_pow_iff_right (by norm_num : 1 < 2)).1 h

theorem geom_mask (c : SimpleCache) (B K : Nat) (g : c.Geom B K) : c.mask = 2 ^ K - 1 := by
  rw [g.mask_eq, g.nsets]
  unfold decr32
  rw [if_neg (Nat.pos_iff_ne_zero.1 (Nat.two_pow_pos K))]

theorem geom_blockLog2 (c : SimpleCache) (B K : Nat) (g : c.Geom B K) :
    c.cfg.blockLog2 = B := by
  unfold SimpleCacheConfig.blockLog2
  rw [g.block]
  exact highest_bit_pow 64 B (by have := g.hB; omega)

theorem geom_setBits (c : SimpleCache) (B K : Nat) (g : c.Geom B K) : c.cfg.setBits = K := by
  unfold SimpleCacheConfig.setBits
  rw [g.nsets]
  exact highest_bit_pow 64 K (by have := geom_K_lt c B K g; omega)

/-- With power-of-two geometry `Decode` is division: the set is the block number modulo the
number of sets, the tag is the quotient. -/
theorem decode_eq (c : SimpleCache) (B K : Nat) (g : c.Geom B K) (a : Nat) :
    c.Decode a = ((a / 2 ^ B) % 2 ^ K, a / 2 ^ B / 2 ^ K) := by
  have hK := geom_K_lt c B K g
  have hlt : (a / 2 ^ B) % 2 ^ K < 2 ^ 32 :=
    Nat.lt_of_lt_of_le (Nat.mod_lt _ (Nat.two_pow_pos K))
      (Nat.pow_le_pow_right (by norm_num) (Nat.le_of_lt hK))
  simp only [SimpleCache.Decode, geom_blockLog2 c B K g, geom_setBits c B K g,
    geom_mask c B K g, Nat.shiftRight_eq_div_pow, Nat.and_pow_two_sub_one_eq_mod,
    Nat.mod_eq_of_lt hlt]

theorem reconstruct_eq (c : SimpleCache) (B K : Nat) (g : c.Geom B K) (s t : Nat) :
    c.Reconstruct s t = ((((t * 2 ^ K) % 2 ^ 64) ||| s) * 2 ^ B) % 2 ^ 64 := by
  simp only [SimpleCache.Reconstruct, geom_blockLog2 c B K g, geom_setBits c B K g,
    Nat.shiftLeft_eq]

/-- The set index of `Decode` is below the number of sets. -/
theorem decode_set_lt (c : SimpleCache) (B K : Nat) (g : c.Geom B K) (a : Nat) :
    (c.Decode a).1 < 2 ^ K := by
  rw [decode_eq c B K g a]
  exact Nat.mod_lt _ (Nat.two_pow_pos K)

theorem reconstruct_of_fits (c : SimpleCache) (B K : Nat) (g : c.Geom B K) (s t : Nat)
    (hs : s < 2 ^ K) (ht : (t * 2 ^ K + s) * 2 ^ B < 2 ^ 64) :
    c.Reconstruct s t = (t * 2 ^ K + s) * 2 ^ B := by
  have hB : 0 < 2 ^ B := Nat.two_pow_pos B
  have h1 : t * 2 ^ K + s < 2 ^ 64 :=
    Nat.lt_of_le_of_lt (Nat.le_mul_of_pos_right _ hB) ht
  have h2 : t * 2 ^ K < 2 ^ 64 := Nat.lt_of_le_of_lt (Nat.le_add_right _ _) h1
  rw [reconstruct_eq c B K g, Nat.mod_eq_of_lt h2, Nat.mul_comm t,
    ← Nat.mul_add_lt_is_or hs t, Nat.mod_eq_of_lt (by rw [Nat.mul_comm (2 ^ K)]; exact ht)]

/-- Reconstruct after Decode on a block-aligned 64-bit address. -/
theorem reconstruct_decode (c : SimpleCache) (B K : Nat) (g : c.Geom B K) (a : Nat)
    (ha : a < 2 ^ 64) (hal : a % 2 ^ B = 0) :
    c.Reconstruct (c.Decode a).1 (c.Decode a).2 = a := by
  have e1 : (a / 2 ^ B / 2 ^ K) * 2 ^ K + (a / 2 ^ B) % 2 ^ K = a / 2 ^ B := by
    rw [Nat.mul_comm]
    exact Nat.div_add_mod _ _
  have e2 : a / 2 ^ B * 2 ^ B = a := Nat.div_mul_cancel (Nat.dvd_of_mod_eq_zero hal)
  rw [decode_eq c B K g a]
  show c.Reconstruct ((a / 2 ^ B) % 2 ^ K) (a / 2 ^ B / 2 ^ K) = a
  rw [reconstruct_of_fits c B K g _ _ (Nat.mod_lt _ (Nat.two_pow_pos K))
    (by rw [e1, e2]; exact ha), e1, e2]

/-- Decode after Reconstruct for a set index below the number of sets and a tag that fits. -/
theorem decode_reconstruct (c : SimpleCache) (B K : Nat) (g : c.Geom B K) (s t : Nat)
    (hs : s < 2 ^ K) (ht : t < 2 ^ (64 - B - K)) :
    c.Decode (c.Reconstruct s t) = (s, t) := by
  have hK := geom_K_lt c B K g
  have hBl := g.hB
  have hfit : (t * 2 ^ K + s) * 2 ^ B < 2 ^ 64 := by
    have h1 : t * 2 ^ K + s < (t + 1) * 2 ^ K := by
      rw [Nat.add_mul, Nat.one_mul]
      omega
    have h2 : (t + 1) * 2 ^ K ≤ 2 ^ (64 - B - K) * 2 ^ K :=
      Nat.mul_le_mul_right _ ht
    have h3 : 2 ^ (64 - B - K) * 2 ^ K * 2 ^ B = 2 ^ 64 := by
      rw [← Nat.pow_add, ← Nat.pow_add]
      congr 1
      omega
    calc (t * 2 ^ K + s) * 2 ^ B < (t + 1) * 2 ^ K * 2 ^ B :=
          Nat.mul_lt_mul_of_pos_right h1 (Nat.two_pow_pos B)
      _ ≤ 2 ^ (64 - B - K) * 2 ^ K * 2 ^ B := Nat.mul_le_mul_right _ h2
      _ = 2 ^ 64 := h3
  rw [reconstruct_of_fits c B K g s t hs hfit, decode_eq c B K g,
    Nat.mul_div_cancel _ (Nat.two_pow_pos B), Nat.mul_comm t, Nat.mul_add_mod,
    Nat.mod_eq_of_lt hs, Nat.mul_add_div (Nat.two_pow_pos K), Nat.div_eq_of_lt hs,
    Nat.add_zero]

theorem geom_create (cfg : SimpleCacheConfig) (B K : Nat) (hb : cfg.blockBytes = 2 ^ B)
    (hB : B < 32) (hk : cfg.sets = 2 ^ K) : (SimpleCache.create cfg).Geom B K :=
  ⟨hb, hk, rfl, hB⟩

/-! ### The cache: victim choice -/

/-- The loop of `PickVictim` on the remaining lines `w`, at way `i`: it returns the way of the
first invalid line if there is one; if not and no line reaches `maxAge`, the current `idx`;
otherwise the way of the last line among those of maximal age. -/
theorem PickVictim_loop_spec (w : List Line) : ∀ i idx maxAge : Nat,
    (∃ pre x post, w = pre ++ x :: post ∧ (∀ l ∈ pre, l.valid = true) ∧
      x.valid = false ∧
      PickVictim_loop w i idx maxAge = i + pre.length) ∨
    ((∀ l ∈ w, l.valid = true) ∧
      ((PickVictim_loop w i idx maxAge = idx ∧ ∀ l ∈ w, l.age < maxAge) ∨
       (∃ pre x post, w = pre ++ x :: post ∧
          PickVictim_loop w i idx maxAge = i + pre.length ∧ maxAge ≤ x.age ∧
          (∀ l ∈ pre, l.age ≤ x.age) ∧ (∀ l ∈ post, l.age < x.age)))) := by
  induction w with
  | nil =>
    intro i idx maxAge
    exact Or.inr ⟨fun l hl => (by cases hl), Or.inl ⟨rfl, fun l hl => (by cases hl)⟩⟩
  | cons l rest ih =>
    intro i idx maxAge
    unfold PickVictim_loop
    by_cases hv : l.valid = true
    · have hnv : (!l.valid) = false := by rw [hv]; rfl
      rw [hnv]
      simp only [Bool.false_eq_true, if_false]
      by_cases hge : l.age ≥ maxAge
      · rw [if_pos hge]
        rcases ih (i + 1) i l.age with ⟨pre, x, post, e, hp, hx, r⟩ |
          ⟨hall, ⟨r, hlt⟩ | ⟨pre, x, post, e, r, hm, hp, hq⟩⟩
        · refine Or.inl ⟨l :: pre, x, post, by rw [e]; rfl, ?_, hx, ?_⟩
          · intro y hy
            rcases List.mem_cons.1 hy with h | h
            · rw [h]; exact hv
            · exact hp y h
          · rw [r, List.length_cons]
            omega
        · refine Or.inr ⟨?_, Or.inr ⟨[], l, rest, rfl, by rw [r]; rfl, hge,
            fun y hy => (by cases hy), hlt⟩⟩
          intro y hy
          rcases List.mem_cons.1 hy with h | h
          · rw [h]; exact hv
          · exact hall y h
        · refine Or.inr ⟨?_, Or.inr ⟨l :: pre, x, post, by rw [e]; rfl, ?_,
            Nat.le_trans hge hm, ?_, hq⟩⟩
          · intro y hy
            rcases List.mem_cons.1 hy with h | h
            · rw [h]; exact hv
            · exact hall y h
          · rw [r, List.length_cons]
            omega
          · intro y hy
            rcases List.mem_cons.1 hy with h | h
            · rw [h]; exact hm
            · exact hp y h
      · rw [if_neg hge]
        have hlt : l.age < maxAge := Nat.lt_of_not_le hge
        rcases ih (i + 1) idx maxAge with ⟨pre, x, post, e, hp, hx, r⟩ |
          ⟨hall, ⟨r, hl⟩ | ⟨pre, x, post, e, r, hm, hp, hq⟩⟩
        · refine Or.inl ⟨l :: pre, x, post, by rw [e]; rfl, ?_, hx, ?_⟩
          · intro y hy
            rcases List.mem_cons.1 hy with h | h
            · rw [h]; exact hv
            · exact hp y h
          · rw [r, List.length_cons]
            omega
        · refine Or.inr ⟨?_, Or.inl ⟨r, ?_⟩⟩
          · intro y hy
            rcases List.mem_cons.1 hy with h | h
            · rw [h]; exact hv
            · exact hall y h
          · intro y hy
            rcases List.mem_cons.1 hy with h | h
            · rw [h]; exact hlt
            · exact hl y h
        · refine Or.inr ⟨?_, Or.inr ⟨l :: pre, x, post, by rw [e]; rfl, ?_, hm, ?_, hq⟩⟩
          · intro y hy
            rcases List.mem_cons.1 hy with h | h
            · rw [h]; exact hv
            · exact hall y h
          · rw [r, List.length_cons]
            omega
          · intro y hy
            rcases List.mem_cons.1 hy with h | h
            · rw [h]; exact Nat.le_of_lt (Nat.lt_of_lt_of_le hlt hm)
            · exact hp y h
    · have hf : l.valid = false := by
        cases h : l.valid
        · rfl
        · exact absurd h hv
      have hnv : (!l.valid) = true := by rw [hf]; rfl
      rw [hnv, if_pos rfl]
      exact Or.inl ⟨[], l, rest, rfl, fun y hy => (by cases hy), hf, rfl⟩

/-- Source `PickVictim` on a non-empty vector: the way of the first invalid line, or, when all
lines are valid, the way of the last line among those of maximal age. -/
theorem PickVictim_spec (w : List Line) (hne : w ≠ []) :
    (∃ pre x post, w = pre ++ x :: post ∧ (∀ l ∈ pre, l.valid = true) ∧
      x.valid = false ∧
      PickVictim w = pre.length) ∨
    ((∀ l ∈ w, l.valid = true) ∧
      ∃ pre x post, w = pre ++ x :: post ∧ PickVictim w = pre.length ∧
        (∀ l ∈ pre, l.age ≤ x.age) ∧ (∀ l ∈ post, l.age < x.age)) := by
  unfold PickVictim
  rcases PickVictim_loop_spec w 0 0 0 with ⟨pre, x, post, e, hp, hx, r⟩ |
    ⟨hall, ⟨_, hlt⟩ | ⟨pre, x, post, e, r, _, hp, hq⟩⟩
  · exact Or.inl ⟨pre, x, post, e, hp, hx, by rw [r, Nat.zero_add]⟩
  · cases w with
    | nil => exact absurd rfl hne
    | cons y rest => exact absurd (hlt y (List.mem_cons_self _ _)) (Nat.not_lt_zero _)
  · exact Or.inr ⟨hall, pre, x, post, e, by rw [r, Nat.zero_add], hp, hq⟩

theorem PickVictim_lt (w : List Line) (hne : w ≠ []) : PickVictim w < w.length := by
  rcases PickVictim_spec w hne with ⟨pre, x, post, e, _, _, r⟩ |
    ⟨_, pre, x, post, e, r, _, _⟩
  · rw [r, e, List.length_append, List.length_cons]
    omega
  · rw [r, e, List.length_append, List.length_cons]
    omega

/-! ### The cache: lines of a set -/

theorem getD_set_self {α : Type} (w : List α) (i : Nat) (x d : α) (h : i < w.length) :
    (w.set i x).getD i d = x := by
  rw [List.getD_eq_getElem?_getD, List.getElem?_set_self h]
  rfl

theorem getD_set_ne {α : Type} (w : List α) (i j : Nat) (x d : α) (h : i ≠ j) :
    (w.set i x).getD j d = w.getD j d := by
  rw [List.getD_eq_getElem?_getD, List.getD_eq_getElem?_getD, List.getElem?_set_ne h]

theorem getD_map_fix {α : Type} (f : α → α) (w : List α) (j : Nat) (d : α) (hd : f d = d) :
    (w.map f).getD j d = f (w.getD j d) := by
  rw [List.getD_eq_getElem?_getD, List.getD_eq_getElem?_getD, List.getElem?_map]
  cases w[j]? with
  | none => exact hd.symm
  | some x => rfl

theorem getD_append_cons {α : Type} (pre : List α) (x : α) (post : List α) (d : α) :
    (pre ++ x :: post).getD pre.length d = x := by
  rw [List.getD_eq_getElem?_getD, List.getElem?_append_right (Nat.le_refl _), Nat.sub_self,
    List.getElem?_cons_zero]
  rfl

theorem getD_append_lt {α : Type} (pre post : List α) (j : Nat) (d : α) (h : j < pre.length) :
    (pre ++ post).getD j d = pre.getD j d := by
  rw [List.getD_eq_getElem?_getD, List.getD_eq_getElem?_getD, List.getElem?_append_left h]

theorem getD_mem {α : Type} (w : List α) (j : Nat) (d : α) (h : j < w.length) :
    w.getD j d ∈ w := by
  rw [List.getD_eq_getElem?_getD, List.getElem?_eq_getElem h]
  exact List.getElem_mem h

theorem mem_getD {α : Type} (w : List α) (x d : α) (h : x ∈ w) :
    ∃ j, j < w.length ∧ w.getD j d = x := by
  obtain ⟨j, hj, e⟩ := List.mem_iff_getElem.1 h
  exact ⟨j, hj, by rw [List.getD_eq_getElem?_getD, List.getElem?_eq_getElem hj]; exact e⟩

theorem getD_age_younger (w : List Line) (a j : Nat) :
    (age_younger w a).getD j Line.empty =
      if (w.getD j Line.empty).valid && decide ((w.getD j Line.empty).age < a) then
        { (w.getD j Line.empty) with age := incr32 (w.getD j Line.empty).age }
      else w.getD j Line.empty := by
  unfold age_younger
  exact getD_map_fix _ w j Line.empty rfl

theorem getD_age_all (w : List Line) (j : Nat) :
    (age_all w).getD j Line.empty =
      if (w.getD j Line.empty).valid then
        { (w.getD j Line.empty) with age := incr32 (w.getD j Line.empty).age }
      else w.getD j Line.empty := by
  unfold age_all
  exact getD_map_fix _ w j Line.empty rfl

theorem length_age_younger (w : List Line) (a : Nat) : (age_younger w a).length = w.length :=
  List.length_map _ _

theorem length_age_all (w : List Line) : (age_all w).length = w.length := List.length_map _ _

theorem length_TouchLRU (w : List Line) (i : Nat) : (TouchLRU w i).length = w.length := by
  unfold TouchLRU
  simp only [List.length_set]
  exact length_age_younger w _

/-- The lines after `TouchLRU(w, i)`: the line `i` with age 0, every other line through the
ageing loop. -/
theorem getD_TouchLRU (w : List Line) (i j : Nat) (hi : i < w.length) :
    (TouchLRU w i).getD j Line.empty =
      if j = i then { (w.getD i Line.empty) with age := 0 }
      else if (w.getD j Line.empty).valid &&
          decide ((w.getD j Line.empty).age < (w.getD i Line.empty).age) then
        { (w.getD j Line.empty) with age := incr32 (w.getD j Line.empty).age }
      else w.getD j Line.empty := by
  unfold TouchLRU
  simp only []
  by_cases e : j = i
  · subst e
    rw [if_pos rfl, getD_set_self _ _ _ _ (by rw [length_age_younger]; exact hi),
      getD_age_younger]
    have hd : ((w.getD j Line.empty).valid &&
        decide ((w.getD j Line.empty).age < (w.getD j Line.empty).age)) = false := by
      rw [decide_eq_false (Nat.lt_irrefl _), Bool.and_false]
    rw [hd]
    rfl
  · rw [if_neg e, getD_set_ne _ _ _ _ _ (fun h => e h.symm), getD_age_younger]

/-- The lookup loop returns the first way that is valid and holds the tag. -/
theorem lookup_way_some (w : List Line) (tag : Nat) : ∀ j i : Nat,
    lookup_way w tag j = some i →
    ∃ pre x post, w = pre ++ x :: post ∧ i = j + pre.length ∧ x.valid = true ∧
      x.tag = tag ∧
      ∀ l ∈ pre, ¬ (l.valid = true ∧ l.tag = tag) := by
  induction w with
  | nil =>
    intro j i h
    cases h
  | cons l rest ih =>
    intro j i h
    unfold lookup_way at h
    by_cases hc : (l.valid && decide (l.tag = tag)) = true
    · rw [if_pos hc] at h
      rw [Bool.and_eq_true, decide_eq_true_eq] at hc
      exact ⟨[], l, rest, rfl, (Option.some.inj h).symm, hc.1, hc.2, fun y hy => (by cases hy)⟩
    · rw [if_neg hc] at h
      obtain ⟨pre, x, post, e, hi, hv, ht, hp⟩ := ih (j + 1) i h
      refine ⟨l :: pre, x, post, by rw [e]; rfl, ?_, hv, ht, ?_⟩
      · rw [hi, List.length_cons]
        omega
      · intro y hy
        rcases List.mem_cons.1 hy with e2 | e2
        · rw [e2]
          intro hl
          apply hc
          rw [Bool.and_eq_true, decide_eq_true_eq]
          exact hl
        · exact hp y e2

theorem lookup_way_none (w : List Line) (tag : Nat) : ∀ j : Nat,
    lookup_way w tag j = none ↔ ∀ l ∈ w, ¬ (l.valid = true ∧ l.tag = tag) := by
  induction w with
  | nil =>
    intro j
    exact ⟨fun _ l hl => (by cases hl), fun _ => rfl⟩
  | cons l rest ih =>
    intro j
    unfold lookup_way
    by_cases hc : (l.valid && decide (l.tag = tag)) = true
    · rw [if_pos hc]
      rw [Bool.and_eq_true, decide_eq_true_eq] at hc
      constructor
      · intro h
        cases h
      · intro h
        exact absurd hc (h l (List.mem_cons_self _ _))
    · rw [if_neg hc, ih (j + 1)]
      constructor
      · intro h y hy
        rcases List.mem_cons.1 hy with e | e
        · rw [e]
          intro hl
          apply hc
          rw [Bool.and_eq_true, decide_eq_true_eq]
          exact hl
        · exact h y e
      · intro h y hy
        exact h y (List.mem_cons_of_mem _ hy)

/-! ### The cache: `Access` and `Install` -/

theorem Access_hit (c : SimpleCache) (addr : Nat) (isWrite hasUp hasWB : Bool) (i : Nat)
    (h : lookup_way (c.sets.getD (c.Decode addr).1 []) (c.Decode addr).2 0 = some i) :
    c.Access addr isWrite hasUp hasWB =
      (true,
       { c with
         acc := incr64 c.acc,
         sets := c.sets.set (c.Decode addr).1
           (if isWrite then
             (TouchLRU (c.sets.getD (c.Decode addr).1 []) i).set i
               { ((TouchLRU (c.sets.getD (c.Decode addr).1 []) i).getD i Line.empty) with
                 dirty := true }
           else TouchLRU (c.sets.getD (c.Decode addr).1 []) i) },
       []) := by
  unfold SimpleCache.Access
  simp only [h]

theorem Access_miss (c : SimpleCache) (addr : Nat) (isWrite hasUp hasWB : Bool)
    (h : lookup_way (c.sets.getD (c.Decode addr).1 []) (c.Decode addr).2 0 = none) :
    c.Access addr isWrite hasUp hasWB =
      (false,
       { c with
         acc := incr64 c.acc, miss := incr64 c.miss,
         sets := c.sets.set (c.Decode addr).1
           ((age_all (c.sets.getD (c.Decode addr).1 [])).set
             (PickVictim (c.sets.getD (c.Decode addr).1 []))
             { tag := (c.Decode addr).2, age := 0, valid := true, dirty := isWrite }) },
       if ((c.sets.getD (c.Decode addr).1 []).getD
            (PickVictim (c.sets.getD (c.Decode addr).1 [])) Line.empty).valid then
         (if hasUp then
           [Callback.up
             (c.Reconstruct (c.Decode addr).1
               ((c.sets.getD (c.Decode addr).1 []).getD
                 (PickVictim (c.sets.getD (c.Decode addr).1 [])) Line.empty).tag)
             ((c.sets.getD (c.Decode addr).1 []).getD
               (PickVictim (c.sets.getD (c.Decode addr).1 [])) Line.empty).dirty]
          else []) ++
         (if hasWB && ((c.sets.getD (c.Decode addr).1 []).getD
              (PickVictim (c.sets.getD (c.Decode addr).1 [])) Line.empty).dirty then
           [Callback.wb
             (c.Reconstruct (c.Decode addr).1
               ((c.sets.getD (c.Decode addr).1 []).getD
                 (PickVictim (c.sets.getD (c.Decode addr).1 [])) Line.empty).tag)]
          else [])
       else []) := by
  unfold SimpleCache.Access
  simp only [h]

/-- The result flag of `Access` is the outcome of the lookup loop. -/
theorem Access_hit_iff (c : SimpleCache) (addr : Nat) (isWrite hasUp hasWB : Bool) :
    (c.Access addr isWrite hasUp hasWB).1 = true ↔
      lookup_way (c.sets.getD (c.Decode addr).1 []) (c.Decode addr).2 0 ≠ none := by
  cases h : lookup_way (c.sets.getD (c.Decode addr).1 []) (c.Decode addr).2 0 with
  | none =>
    rw [Access_miss c addr isWrite hasUp hasWB h]
    exact ⟨fun e => (by cases e), fun e => absurd rfl e⟩
  | some i =>
    rw [Access_hit c addr isWrite hasUp hasWB i h]
    exact ⟨fun _ => Option.some_ne_none i, fun _ => rfl⟩

/-- The lines of the set after a hit at way `i`. -/
theorem hit_lines (w : List Line) (i : Nat) (isWrite : Bool) (hi : i < w.length) (j : Nat) :
    (if isWrite then
        (TouchLRU w i).set i { ((TouchLRU w i).getD i Line.empty) with dirty := true }
      else TouchLRU w i).getD j Line.empty =
      if j = i then
        { (w.getD i Line.empty) with
          age := 0, dirty := (w.getD i Line.empty).dirty || isWrite }
      else if (w.getD j Line.empty).valid &&
          decide ((w.getD j Line.empty).age < (w.getD i Line.empty).age) then
        { (w.getD j Line.empty) with age := incr32 (w.getD j Line.empty).age }
      else w.getD j Line.empty := by
  cases isWrite with
  | false =>
    rw [if_neg (by decide), getD_TouchLRU w i j hi, Bool.or_false]
  | true =>
    rw [if_pos rfl, Bool.or_true]
    by_cases e : j = i
    · subst e
      rw [if_pos rfl, getD_set_self _ _ _ _ (by rw [length_TouchLRU]; exact hi),
        getD_TouchLRU w j j hi, if_pos rfl]
    · rw [if_neg e, getD_set_ne _ _ _ _ _ (fun h => e h.symm), getD_TouchLRU w i j hi,
        if_neg e]

theorem hit_lines_length (w : List Line) (i : Nat) (isWrite : Bool) :
    (if isWrite then
        (TouchLRU w i).set i { ((TouchLRU w i).getD i Line.empty) with dirty := true }
      else TouchLRU w i).length = w.length := by
  cases isWrite with
  | false => rw [if_neg (by decide), length_TouchLRU]
  | true => rw [if_pos rfl, List.length_set, length_TouchLRU]

/-- The lines of the set after a miss or an `Install` that puts `new` at way `v`. -/
theorem fill_lines (w : List Line) (v : Nat) (new : Line) (hv : v < w.length) (j : Nat) :
    ((age_all w).set v new).getD j Line.empty =
      if j = v then new
      else if (w.getD j Line.empty).valid then
        { (w.getD j Line.empty) with age := incr32 (w.getD j Line.empty).age }
      else w.getD j Line.empty := by
  by_cases e : j = v
  · subst e
    rw [if_pos rfl, getD_set_self _ _ _ _ (by rw [length_age_all]; exact hv)]
  · rw [if_neg e, getD_set_ne _ _ _ _ _ (fun h => e h.symm), getD_age_all]

theorem fill_lines_length (w : List Line) (v : Nat) (new : Line) :
    ((age_all w).set v new).length = w.length := by
  rw [List.length_set, length_age_all]

/-- The set of `addr` after a hit at way `i`. -/
theorem Access_hit_set (c : SimpleCache) (addr : Nat) (isWrite hasUp hasWB : Bool) (i : Nat)
    (hs : (c.Decode addr).1 < c.sets.length)
    (h : lookup_way (c.sets.getD (c.Decode addr).1 []) (c.Decode addr).2 0 = some i) :
    (c.Access addr isWrite hasUp hasWB).2.1.sets.getD (c.Decode addr).1 [] =
      (if isWrite then
        (TouchLRU (c.sets.getD (c.Decode addr).1 []) i).set i
          { ((TouchLRU (c.sets.getD (c.Decode addr).1 []) i).getD i Line.empty) with
            dirty := true }
      else TouchLRU (c.sets.getD (c.Decode addr).1 []) i) := by
  rw [Access_hit c addr isWrite hasUp hasWB i h]
  exact getD_set_self _ _ _ _ hs

/-- The set of `addr` after a miss. -/
theorem Access_miss_set (c : SimpleCache) (addr : Nat) (isWrite hasUp hasWB : Bool)
    (hs : (c.Decode addr).1 < c.sets.length)
    (h : lookup_way (c.sets.getD (c.Decode addr).1 []) (c.Decode addr).2 0 = none) :
    (c.Access addr isWrite hasUp hasWB).2.1.sets.getD (c.Decode addr).1 [] =
      (age_all (c.sets.getD (c.Decode addr).1 [])).set
        (PickVictim (c.sets.getD (c.Decode addr).1 []))
        { tag := (c.Decode addr).2, age := 0, valid := true, dirty := isWrite } := by
  rw [Access_miss c addr isWrite hasUp hasWB h]
  exact getD_set_self _ _ _ _ hs

/-- An access changes the set of its address only, and keeps the configuration, the mask and
the number of sets. -/
theorem Access_frame (c : SimpleCache) (addr : Nat) (isWrite hasUp hasWB : Bool) :
    (c.Access addr isWrite hasUp hasWB).2.1.cfg = c.cfg ∧
    (c.Access addr isWrite hasUp hasWB).2.1.mask = c.mask ∧
    (c.Access addr isWrite hasUp hasWB).2.1.sets.length = c.sets.length ∧
    (c.Access addr isWrite hasUp hasWB).2.1.hasWbInstall = c.hasWbInstall ∧
    ∀ s', s' ≠ (c.Decode addr).1 →
      (c.Access addr isWrite hasUp hasWB).2.1.sets.getD s' [] = c.sets.getD s' [] := by
  cases h : lookup_way (c.sets.getD (c.Decode addr).1 []) (c.Decode addr).2 0 with
  | none =>
    rw [Access_miss c addr isWrite hasUp hasWB h]
    exact ⟨rfl, rfl, List.length_set _ _ _, rfl,
      fun s' hs' => getD_set_ne _ _ _ _ _ (fun e => hs' e.symm)⟩
  | some i =>
    rw [Access_hit c addr isWrite hasUp hasWB i h]
    exact ⟨rfl, rfl, List.length_set _ _ _, rfl,
      fun s' hs' => getD_set_ne _ _ _ _ _ (fun e => hs' e.symm)⟩

theorem Access_counters (c : SimpleCache) (addr : Nat) (isWrite hasUp hasWB : Bool) :
    (c.Access addr isWrite hasUp hasWB).2.1.acc = incr64 c.acc ∧
    (c.Access addr isWrite hasUp hasWB).2.1.miss =
      (if (c.Access addr isWrite hasUp hasWB).1 then c.miss else incr64 c.miss) := by
  cases h : lookup_way (c.sets.getD (c.Decode addr).1 []) (c.Decode addr).2 0 with
  | none =>
    rw [Access_miss c addr isWrite hasUp hasWB h]
    exact ⟨rfl, rfl⟩
  | some i =>
    rw [Access_hit c addr isWrite hasUp hasWB i h]
    exact ⟨rfl, rfl⟩

theorem apply_cache_op_counters (c : SimpleCache) (op : CacheOp) (h : c.miss ≤ c.acc)
    (hb : c.acc + 1 < 2 ^ 64) :
    (apply_cache_op c op).miss ≤ (apply_cache_op c op).acc ∧
    (apply_cache_op c op).acc ≤ c.acc + 1 := by
  cases op with
  | Access r =>
    have hc := Access_counters c r.addr r.isWrite r.hasUp r.hasWB
    show (c.Access r.addr r.isWrite r.hasUp r.hasWB).2.1.miss ≤
        (c.Access r.addr r.isWrite r.hasUp r.hasWB).2.1.acc ∧
      (c.Access r.addr r.isWrite r.hasUp r.hasWB).2.1.acc ≤ c.acc + 1
    rw [hc.1, hc.2, incr64_small c.acc hb]
    have hm := incr64_le c.miss
    split <;> omega
  | Install a d => exact ⟨h, Nat.le_succ _⟩
  | ResetStats => exact ⟨Nat.le_refl 0, Nat.zero_le _⟩

theorem run_cache_ops_counters (ops : List CacheOp) : ∀ c : SimpleCache, c.miss ≤ c.acc →
    c.acc + ops.length < 2 ^ 64 →
    (run_cache_ops c ops).miss ≤ (run_cache_ops c ops).acc := by
  induction ops with
  | nil =>
    intro c h _
    exact h
  | cons op rest ih =>
    intro c h hb
    rw [List.length_cons] at hb
    have h2 := apply_cache_op_counters c op h (by omega)
    exact ih (apply_cache_op c op) h2.1 (by omega)

/-! ### The cache: the LRU stack of a set -/

theorem filter_ne_eq_eraseIdx (S : List Nat) : ∀ a, S.Nodup → a < S.length →
    S.filter (fun y => decide (y ≠ S.getD a 0)) = S.eraseIdx a := by
  induction S with
  | nil =>
    intro a _ h
    cases h
  | cons x rest ih =>
    intro a hnd ha
    rw [List.nodup_cons] at hnd
    cases a with
    | zero =>
      have hd : decide (x ≠ x) = false := by simp
      show (x :: rest).filter (fun y => decide (y ≠ x)) = rest
      rw [List.filter_cons, hd, filter_ne_of_not_mem rest x hnd.1]
      rfl
    | succ a' =>
      have ha' : a' < rest.length := Nat.lt_of_succ_lt_succ ha
      have hmem : rest.getD a' 0 ∈ rest := getD_mem rest a' 0 ha'
      have hd : decide (x ≠ rest.getD a' 0) = true := by
        have : x ≠ rest.getD a' 0 := fun e => hnd.1 (e ▸ hmem)
        simpa using this
      show (x :: rest).filter (fun y => decide (y ≠ rest.getD a' 0)) = x :: rest.eraseIdx a'
      rw [List.filter_cons, if_pos hd, ih a' hnd.2 ha']

theorem getD_eraseIdx (S : List Nat) (a b : Nat) :
    (S.eraseIdx a).getD b 0 = if b < a then S.getD b 0 else S.getD (b + 1) 0 := by
  rw [List.getD_eq_getElem?_getD, List.getElem?_eraseIdx]
  by_cases h : b < a
  · rw [if_pos h, if_pos h, List.getD_eq_getElem?_getD]
  · rw [if_neg h, if_neg h, List.getD_eq_getElem?_getD]

theorem getD_dropLast (S : List Nat) (b : Nat) (h : b + 1 < S.length) :
    S.dropLast.getD b 0 = S.getD b 0 := by
  rw [List.getD_eq_getElem?_getD, List.getD_eq_getElem?_getD, List.dropLast_eq_take,
    List.getElem?_take_of_lt (by omega)]

/-- What the stack of a set is after an access to tag `t`, when the tag is at position `a`. -/
theorem getD_move_front (S : List Nat) (a b : Nat) (hnd : S.Nodup) (ha : a < S.length) :
    (S.getD a 0 :: S.filter (fun y => decide (y ≠ S.getD a 0))).getD b 0 =
      if b = 0 then S.getD a 0 else if b ≤ a then S.getD (b - 1) 0 else S.getD b 0 := by
  rw [filter_ne_eq_eraseIdx S a hnd ha]
  cases b with
  | zero => rfl
  | succ b' =>
    rw [List.getD_cons_succ, getD_eraseIdx, if_neg (Nat.succ_ne_zero b')]
    by_cases h : b' < a
    · rw [if_pos h, if_pos (Nat.succ_le_of_lt h), Nat.add_sub_cancel]
    · rw [if_neg h, if_neg (fun h2 => h (Nat.lt_of_succ_le h2))]

theorem length_move_front (S : List Nat) (a : Nat) (hnd : S.Nodup) (ha : a < S.length) :
    (S.getD a 0 :: S.filter (fun y => decide (y ≠ S.getD a 0))).length = S.length := by
  rw [filter_ne_eq_eraseIdx S a hnd ha, List.length_cons, List.length_eraseIdx_of_lt ha]
  omega

theorem nodup_move_front (S : List Nat) (t : Nat) (hnd : S.Nodup) :
    (t :: S.filter (fun y => decide (y ≠ t))).Nodup := by
  rw [List.nodup_cons]
  refine ⟨?_, List.Nodup.sublist (List.filter_sublist _) hnd⟩
  intro h
  have := (List.mem_filter.1 h).2
  simp at this

/-- With the stack invariant the lookup loop finds the tag exactly when it is in the stack. -/
theorem setInv_lookup (w : List Line) (S : List Nat) (t : Nat) (h : SetInv w S) :
    lookup_way w t 0 ≠ none ↔ t ∈ S := by
  constructor
  · intro hne
    cases hl : lookup_way w t 0 with
    | none => exact absurd hl hne
    | some i =>
      obtain ⟨pre, x, post, e, hi, hxv, hxt, _⟩ := lookup_way_some w t 0 i hl
      rw [Nat.zero_add] at hi
      have hx : w.getD i Line.empty = x := by rw [e, hi]; exact getD_append_cons pre x post _
      have hik : i < S.length := (h.valid_iff i).1 (by rw [hx]; exact hxv)
      have ht := h.tag_eq i hik
      rw [hx, hxt] at ht
      rw [← ht]
      exact getD_mem S _ 0 (by have := h.age_lt i hik; rw [hx] at this; exact this)
  · intro hm hnone
    obtain ⟨a, ha, ea⟩ := mem_getD S t 0 hm
    obtain ⟨j, hj, ej⟩ := h.surj a ha
    have ht := h.tag_eq j hj
    rw [ej, ea] at ht
    have hv := (h.valid_iff j).2 hj
    have hmem : w.getD j Line.empty ∈ w := getD_mem w j _ (Nat.lt_of_lt_of_le hj h.len_le)
    exact (lookup_way_none w t 0).1 hnone _ hmem ⟨hv, ht.symm⟩

theorem hit_lines_facts (w : List Line) (i : Nat) (isWrite : Bool) (hi : i < w.length)
    (j : Nat) (hj : j ≠ i) :
    ((if isWrite then
        (TouchLRU w i).set i { ((TouchLRU w i).getD i Line.empty) with dirty := true }
      else TouchLRU w i).getD j Line.empty).tag = (w.getD j Line.empty).tag ∧
    ((if isWrite then
        (TouchLRU w i).set i { ((TouchLRU w i).getD i Line.empty) with dirty := true }
      else TouchLRU w i).getD j Line.empty).valid = (w.getD j Line.empty).valid ∧
    ((w.getD j Line.empty).valid = true →
      (w.getD j Line.empty).age < (w.getD i Line.empty).age →
      ((if isWrite then
          (TouchLRU w i).set i { ((TouchLRU w i).getD i Line.empty) with dirty := true }
        else TouchLRU w i).getD j Line.empty).age = incr32 (w.getD j Line.empty).age) ∧
    ((w.getD i Line.empty).age ≤ (w.getD j Line.empty).age →
      ((if isWrite then
          (TouchLRU w i).set i { ((TouchLRU w i).getD i Line.empty) with dirty := true }
        else TouchLRU w i).getD j Line.empty).age = (w.getD j Line.empty).age) := by
  rw [hit_lines w i isWrite hi j, if_neg hj]
  refine ⟨by split_ifs <;> rfl, by split_ifs <;> rfl, ?_, ?_⟩
  · intro hv hlt
    have hc : ((w.getD j Line.empty).valid &&
        decide ((w.getD j Line.empty).age < (w.getD i Line.empty).age)) = true := by
      rw [hv, decide_eq_true hlt]
      rfl
    rw [if_pos hc]
  · intro hge
    have hc : ¬ ((w.getD j Line.empty).valid &&
        decide ((w.getD j Line.empty).age < (w.getD i Line.empty).age)) = true := by
      rw [decide_eq_false (Nat.not_lt.2 hge), Bool.and_false]
      exact Bool.false_ne_true
    rw [if_neg hc]

theorem incr32_small (x k : Nat) (h : x < k) (hk : k < 2 ^ 32) : incr32 x = x + 1 := by
  unfold incr32
  exact Nat.mod_eq_of_lt (by omega)

/-- A hit at way `i` moves the tag of that way to the front of the stack. -/
theorem setInv_hit (w : List Line) (S : List Nat) (i : Nat) (isWrite : Bool) (h : SetInv w S)
    (hi : i < S.length) (h32 : w.length < 2 ^ 32) :
    SetInv
      (if isWrite then
        (TouchLRU w i).set i { ((TouchLRU w i).getD i Line.empty) with dirty := true }
      else TouchLRU w i)
      ((w.getD i Line.empty).tag ::
        S.filter (fun y => decide (y ≠ (w.getD i Line.empty).tag))) := by
  have hiw : i < w.length := Nat.lt_of_lt_of_le hi h.len_le
  have hai := h.age_lt i hi
  have hta := h.tag_eq i hi
  have hk32 : S.length < 2 ^ 32 := Nat.lt_of_le_of_lt h.len_le h32
  have hNi : (if isWrite then
        (TouchLRU w i).set i { ((TouchLRU w i).getD i Line.empty) with dirty := true }
      else TouchLRU w i).getD i Line.empty =
      { (w.getD i Line.empty) with
        age := 0, dirty := (w.getD i Line.empty).dirty || isWrite } := by
    rw [hit_lines w i isWrite hiw i, if_pos rfl]
  have hN := fun j hj => hit_lines_facts w i isWrite hiw j hj
  have hne : ∀ j, j ≠ i → j < S.length →
      (w.getD j Line.empty).age ≠ (w.getD i Line.empty).age :=
    fun j hj hjk e => hj (h.inj j i hjk hi e)
  have hlen : ((w.getD i Line.empty).tag ::
      S.filter (fun y => decide (y ≠ (w.getD i Line.empty).tag))).length = S.length := by
    rw [← hta]
    exact length_move_front S _ h.nodup hai
  have hS : ∀ b, ((w.getD i Line.empty).tag ::
      S.filter (fun y => decide (y ≠ (w.getD i Line.empty).tag))).getD b 0 =
      if b = 0 then (w.getD i Line.empty).tag
      else if b ≤ (w.getD i Line.empty).age then S.getD (b - 1) 0 else S.getD b 0 := by
    rw [← hta]
    exact fun b => getD_move_front S _ b h.nodup hai
  refine ⟨nodup_move_front S _ h.nodup, ?_, ?_, ?_, ?_, ?_, ?_⟩
  · rw [hlen, hit_lines_length]
    exact h.len_le
  · intro j
    rw [hlen]
    by_cases e : j = i
    · subst e
      rw [hNi]
      exact h.valid_iff j
    · rw [(hN j e).2.1]
      exact h.valid_iff j
  · intro j hj
    rw [hlen] at hj ⊢
    by_cases e : j = i
    · subst e
      rw [hNi]
      exact Nat.lt_of_le_of_lt (Nat.zero_le _) hj
    · have hv := (h.valid_iff j).2 hj
      have haj := h.age_lt j hj
      by_cases hlt : (w.getD j Line.empty).age < (w.getD i Line.empty).age
      · rw [(hN j e).2.2.1 hv hlt, incr32_small _ _ haj hk32]
        omega
      · rw [(hN j e).2.2.2 (Nat.le_of_not_lt hlt)]
        exact haj
  · intro j hj
    rw [hlen] at hj
    rw [hS]
    by_cases e : j = i
    · subst e
      rw [hNi, if_pos rfl]
    · have hv := (h.valid_iff j).2 hj
      have haj := h.age_lt j hj
      rw [(hN j e).1]
      by_cases hlt : (w.getD j Line.empty).age < (w.getD i Line.empty).age
      · rw [(hN j e).2.2.1 hv hlt, incr32_small _ _ haj hk32, if_neg (Nat.succ_ne_zero _),
          if_pos (Nat.succ_le_of_lt hlt), Nat.add_sub_cancel]
        exact h.tag_eq j hj
      · have hgt : (w.getD i Line.empty).age < (w.getD j Line.empty).age :=
          Nat.lt_of_le_of_ne (Nat.le_of_not_lt hlt) (fun e2 => hne j e hj e2.symm)
        rw [(hN j e).2.2.2 (Nat.le_of_not_lt hlt), if_neg (by omega), if_neg (by omega)]
        exact h.tag_eq j hj
  · intro j j' hj hj'
    rw [hlen] at hj hj'
    have age_of : ∀ m, m < S.length →
        (m = i ∧ ((if isWrite then
          (TouchLRU w i).set i { ((TouchLRU w i).getD i Line.empty) with dirty := true }
          else TouchLRU w i).getD m Line.empty).age = 0) ∨
        (m ≠ i ∧ (w.getD m Line.empty).age < (w.getD i Line.empty).age ∧
          ((if isWrite then
          (TouchLRU w i).set i { ((TouchLRU w i).getD i Line.empty) with dirty := true }
          else TouchLRU w i).getD m Line.empty).age = (w.getD m Line.empty).age + 1) ∨
        (m ≠ i ∧ (w.getD i Line.empty).age < (w.getD m Line.empty).age ∧
          ((if isWrite then
          (TouchLRU w i).set i { ((TouchLRU w i).getD i Line.empty) with dirty := true }
          else TouchLRU w i).getD m Line.empty).age = (w.getD m Line.empty).age) := by
      intro m hm
      by_cases e : m = i
      · left
        subst e
        exact ⟨rfl, by rw [hNi]⟩
      · right
        have hv := (h.valid_iff m).2 hm
        have ham := h.age_lt m hm
        by_cases hlt : (w.getD m Line.empty).age < (w.getD i Line.empty).age
        · left
          exact ⟨e, hlt, by rw [(hN m e).2.2.1 hv hlt, incr32_small _ _ ham hk32]⟩
        · right
          exact ⟨e, Nat.lt_of_le_of_ne (Nat.le_of_not_lt hlt) (fun e2 => hne m e hm e2.symm),
            (hN m e).2.2.2 (Nat.le_of_not_lt hlt)⟩
    intro heq
    rcases age_of j hj with ⟨e1, a1⟩ | ⟨e1, l1, a1⟩ | ⟨e1, l1, a1⟩ <;>
      rcases age_of j' hj' with ⟨e2, a2⟩ | ⟨e2, l2, a2⟩ | ⟨e2, l2, a2⟩ <;>
      rw [a1, a2] at heq
    · rw [e1, e2]
    · omega
    · omega
    · omega
    · exact h.inj j j' hj hj' (by omega)
    · omega
    · omega
    · omega
    · exact h.inj j j' hj hj' heq
  · intro b hb
    rw [hlen] at hb ⊢
    by_cases hb0 : b = 0
    · exact ⟨i, hi, by rw [hNi, hb0]⟩
    · by_cases hba : b ≤ (w.getD i Line.empty).age
      · obtain ⟨j, hj, ej⟩ := h.surj (b - 1) (by omega)
        have e : j ≠ i := fun e => by rw [e] at ej; omega
        have hv := (h.valid_iff j).2 hj
        refine ⟨j, hj, ?_⟩
        rw [(hN j e).2.2.1 hv (by omega), incr32_small _ _ (h.age_lt j hj) hk32]
        omega
      · obtain ⟨j, hj, ej⟩ := h.surj b hb
        have e : j ≠ i := fun e => by rw [e] at ej; omega
        refine ⟨j, hj, ?_⟩
        rw [(hN j e).2.2.2 (by omega)]
        exact ej

theorem fill_lines_facts (w : List Line) (v : Nat) (new : Line) (hv : v < w.length)
    (j : Nat) (hj : j ≠ v) :
    (((age_all w).set v new).getD j Line.empty).tag = (w.getD j Line.empty).tag ∧
    (((age_all w).set v new).getD j Line.empty).valid = (w.getD j Line.empty).valid ∧
    ((w.getD j Line.empty).valid = true →
      (((age_all w).set v new).getD j Line.empty).age = incr32 (w.getD j Line.empty).age) := by
  rw [fill_lines w v new hv j, if_neg hj]
  refine ⟨by split_ifs <;> rfl, by split_ifs <;> rfl, ?_⟩
  intro hval
  rw [if_pos hval]

/-- With room in the set the victim is the first way after the valid ones, an invalid line. -/
theorem victim_room (w : List Line) (S : List Nat) (h : SetInv w S)
    (hroom : S.length < w.length) : PickVictim w = S.length := by
  have hne : w ≠ [] := fun e => by rw [e] at hroom; exact Nat.not_lt_zero _ hroom
  have hinv : (w.getD S.length Line.empty).valid ≠ true :=
    fun hv => Nat.lt_irrefl _ ((h.valid_iff S.length).1 hv)
  rcases PickVictim_spec w hne with ⟨pre, x, post, e, hp, hx, r⟩ | ⟨hall, _⟩
  · rw [r]
    have hxg : w.getD pre.length Line.empty = x := by rw [e]; exact getD_append_cons pre x post _
    have h1 : ¬ pre.length < S.length := by
      intro hlt
      have := (h.valid_iff pre.length).2 hlt
      rw [hxg, hx] at this
      cases this
    have h2 : ¬ S.length < pre.length := by
      intro hlt
      apply hinv
      rw [e, getD_append_lt pre _ _ _ hlt]
      exact hp _ (getD_mem pre _ _ hlt)
    omega
  · exact absurd (hall _ (getD_mem w _ _ hroom)) hinv

/-- In a full set the victim is the valid line of the greatest age, the last of the stack. -/
theorem victim_full (w : List Line) (S : List Nat) (h : SetInv w S)
    (hfull : S.length = w.length) (hne : w ≠ []) :
    PickVictim w < S.length ∧ (w.getD (PickVictim w) Line.empty).age + 1 = S.length := by
  have hv := PickVictim_lt w hne
  rw [← hfull] at hv
  refine ⟨hv, ?_⟩
  have hpos : 0 < S.length := Nat.lt_of_le_of_lt (Nat.zero_le _) hv
  rcases PickVictim_spec w hne with ⟨pre, x, post, e, _, hx, r⟩ |
    ⟨_, pre, x, post, e, r, hp, hq⟩
  · have hxg : w.getD pre.length Line.empty = x := by rw [e]; exact getD_append_cons pre x post _
    have := (h.valid_iff pre.length).2 (by rw [← r]; exact hv)
    rw [hxg, hx] at this
    cases this
  · have hxg : w.getD (PickVictim w) Line.empty = x := by
      rw [r, e]
      exact getD_append_cons pre x post _
    obtain ⟨j, hj, ej⟩ := h.surj (S.length - 1) (by omega)
    have hmem : w.getD j Line.empty ∈ w := getD_mem w j _ (by rw [← hfull]; exact hj)
    have hall : ∀ l ∈ w, l.age ≤ x.age := by
      intro l hl
      rw [e, List.mem_append, List.mem_cons] at hl
      rcases hl with m | m | m
      · exact hp _ m
      · rw [m]
      · exact Nat.le_of_lt (hq _ m)
    have hle := hall _ hmem
    have hlt := h.age_lt _ hv
    rw [hxg] at hlt ⊢
    omega

/-- A miss in a set with room puts the tag in front of the stack. -/
theorem setInv_fill_room (w : List Line) (S : List Nat) (t : Nat) (d : Bool) (h : SetInv w S)
    (ht : t ∉ S) (hroom : S.length < w.length) (h32 : w.length < 2 ^ 32) :
    SetInv ((age_all w).set S.length { tag := t, age := 0, valid := true, dirty := d })
      (t :: S) := by
  have hk32 : S.length < 2 ^ 32 := Nat.lt_trans hroom h32
  have hNk : ((age_all w).set S.length
      { tag := t, age := 0, valid := true, dirty := d }).getD S.length Line.empty =
      { tag := t, age := 0, valid := true, dirty := d } := by
    rw [fill_lines w _ _ hroom, if_pos rfl]
  have hN := fun j hj => fill_lines_facts w S.length
    { tag := t, age := 0, valid := true, dirty := d } hroom j hj
  have hage : ∀ j, j < S.length →
      (((age_all w).set S.length
        { tag := t, age := 0, valid := true, dirty := d }).getD j Line.empty).age =
        (w.getD j Line.empty).age + 1 := by
    intro j hj
    rw [(hN j (Nat.ne_of_lt hj)).2.2 ((h.valid_iff j).2 hj), incr32_small _ _ (h.age_lt j hj) hk32]
  refine ⟨List.nodup_cons.2 ⟨ht, h.nodup⟩, ?_, ?_, ?_, ?_, ?_, ?_⟩
  · rw [fill_lines_length, List.length_cons]
    exact hroom
  · intro j
    rw [List.length_cons]
    by_cases e : j = S.length
    · rw [e, hNk]
      exact ⟨fun _ => Nat.lt_succ_self _, fun _ => rfl⟩
    · rw [(hN j e).2.1, h.valid_iff j]
      omega
  · intro j hj
    rw [List.length_cons] at hj ⊢
    by_cases e : j = S.length
    · rw [e, hNk]
      exact Nat.succ_pos _
    · rw [hage j (by omega)]
      have := h.age_lt j (by omega)
      omega
  · intro j hj
    rw [List.length_cons] at hj
    by_cases e : j = S.length
    · rw [e, hNk]
      rfl
    · rw [hage j (by omega), (hN j e).1, List.getD_cons_succ]
      exact h.tag_eq j (by omega)
  · intro j j' hj hj' heq
    rw [List.length_cons] at hj hj'
    by_cases e : j = S.length
    · by_cases e' : j' = S.length
      · rw [e, e']
      · rw [e, hNk, hage j' (by omega)] at heq
        exact absurd heq (Nat.succ_ne_zero _).symm
    · by_cases e' : j' = S.length
      · rw [e', hNk, hage j (by omega)] at heq
        exact absurd heq (Nat.succ_ne_zero _)
      · rw [hage j (by omega), hage j' (by omega)] at heq
        exact h.inj j j' (by omega) (by omega) (by omega)
  · intro b hb
    rw [List.length_cons] at hb ⊢
    cases b with
    | zero => exact ⟨S.length, Nat.lt_succ_self _, by rw [hNk]⟩
    | succ b' =>
      obtain ⟨j, hj, ej⟩ := h.surj b' (by omega)
      exact ⟨j, by omega, by rw [hage j hj, ej]⟩

/-- A miss in a full set replaces the line of the last tag of the stack: the tag comes in
front and the last tag is dropped. -/
theorem setInv_fill_full (w : List Line) (S : List Nat) (t : Nat) (d : Bool) (v : Nat)
    (h : SetInv w S) (ht : t ∉ S) (hfull : S.length = w.length) (hv : v < S.length)
    (hva : (w.getD v Line.empty).age + 1 = S.length) (h32 : w.length < 2 ^ 32) :
    SetInv ((age_all w).set v { tag := t, age := 0, valid := true, dirty := d })
      (t :: S.dropLast) := by
  have hk32 : S.length < 2 ^ 32 := by rw [hfull]; exact h32
  have hvw : v < w.length := by rw [← hfull]; exact hv
  have hNv : ((age_all w).set v
      { tag := t, age := 0, valid := true, dirty := d }).getD v Line.empty =
      { tag := t, age := 0, valid := true, dirty := d } := by
    rw [fill_lines w _ _ hvw, if_pos rfl]
  have hN := fun j hj => fill_lines_facts w v
    { tag := t, age := 0, valid := true, dirty := d } hvw j hj
  have hlen : (t :: S.dropLast).length = S.length := by
    rw [List.length_cons, List.length_dropLast]
    omega
  have hage : ∀ j, j < S.length → j ≠ v →
      (((age_all w).set v
        { tag := t, age := 0, valid := true, dirty := d }).getD j Line.empty).age =
        (w.getD j Line.empty).age + 1 ∧ (w.getD j Line.empty).age + 1 < S.length := by
    intro j hj e
    have h1 := h.age_lt j hj
    have h2 : (w.getD j Line.empty).age ≠ (w.getD v Line.empty).age :=
      fun e2 => e (h.inj j v hj hv e2)
    refine ⟨?_, by omega⟩
    rw [(hN j e).2.2 ((h.valid_iff j).2 hj), incr32_small _ _ h1 hk32]
  refine ⟨List.nodup_cons.2 ⟨fun hm => ht (List.mem_of_mem_dropLast hm),
    List.Nodup.sublist (List.dropLast_sublist S) h.nodup⟩, ?_, ?_, ?_, ?_, ?_, ?_⟩
  · rw [fill_lines_length, hlen]
    exact h.len_le
  · intro j
    rw [hlen]
    by_cases e : j = v
    · rw [e, hNv]
      exact ⟨fun _ => hv, fun _ => rfl⟩
    · rw [(hN j e).2.1]
      exact h.valid_iff j
  · intro j hj
    rw [hlen] at hj ⊢
    by_cases e : j = v
    · rw [e, hNv]
      exact Nat.lt_of_le_of_lt (Nat.zero_le _) hv
    · rw [(hage j hj e).1]
      exact (hage j hj e).2
  · intro j hj
    rw [hlen] at hj
    by_cases e : j = v
    · rw [e, hNv]
      rfl
    · rw [(hage j hj e).1, (hN j e).1, List.getD_cons_succ,
        getD_dropLast S _ (hage j hj e).2]
      exact h.tag_eq j hj
  · intro j j' hj hj' heq
    rw [hlen] at hj hj'
    by_cases e : j = v
    · by_cases e' : j' = v
      · rw [e, e']
      · rw [e, hNv, (hage j' hj' e').1] at heq
        exact absurd heq (Nat.succ_ne_zero _).symm
    · by_cases e' : j' = v
      · rw [e', hNv, (hage j hj e).1] at heq
        exact absurd heq (Nat.succ_ne_zero _)
      · rw [(hage j hj e).1, (hage j' hj' e').1] at heq
        exact h.inj j j' hj hj' (by omega)
  · intro b hb
    rw [hlen] at hb ⊢
    cases b with
    | zero => exact ⟨v, hv, by rw [hNv]⟩
    | succ b' =>
      obtain ⟨j, hj, ej⟩ := h.surj b' (by omega)
      have e : j ≠ v := fun e => by rw [e] at ej; omega
      exact ⟨j, hj, by rw [(hage j hj e).1, ej]⟩

/-- The empty stack of a new set. -/
theorem setInv_new (ways : Nat) : SetInv (List.replicate ways Line.empty) [] := by
  have hE : ∀ j, (List.replicate ways Line.empty).getD j Line.empty = Line.empty := by
    intro j
    rw [List.getD_eq_getElem?_getD, List.getElem?_replicate]
    split <;> rfl
  refine ⟨List.nodup_nil, Nat.zero_le _, ?_, ?_, ?_, ?_, ?_⟩
  · intro j
    rw [hE]
    exact ⟨fun hv => (by cases hv), fun hj => absurd hj (Nat.not_lt_zero _)⟩
  · intro j hj
    exact absurd hj (Nat.not_lt_zero _)
  · intro j hj
    exact absurd hj (Nat.not_lt_zero _)
  · intro j j' hj
    exact absurd hj (Nat.not_lt_zero _)
  · intro a ha
    exact absurd ha (Nat.not_lt_zero _)

/-! ### The cache: all sets -/

theorem Decode_congr (c c0 : SimpleCache) (h1 : c.cfg = c0.cfg) (h2 : c.mask = c0.mask)
    (a : Nat) : c.Decode a = c0.Decode a := by
  unfold SimpleCache.Decode
  rw [h1, h2]

theorem Reconstruct_congr (c c0 : SimpleCache) (h1 : c.cfg = c0.cfg) (s t : Nat) :
    c.Reconstruct s t = c0.Reconstruct s t := by
  unfold SimpleCache.Reconstruct
  rw [h1]

theorem tag_stack_other (c : SimpleCache) (hist : List Nat) (a s : Nat)
    (h : (c.Decode a).1 ≠ s) : tag_stack c (hist ++ [a]) s = tag_stack c hist s := by
  unfold tag_stack
  have hd : decide ((c.Decode a).1 = s) = false := by simpa using h
  rw [List.filter_append, List.filter_cons, hd]
  simp only [Bool.false_eq_true, if_false, List.filter_nil, List.append_nil]

theorem tag_stack_same (c : SimpleCache) (hist : List Nat) (a : Nat) (hw : 1 ≤ c.cfg.ways) :
    tag_stack c (hist ++ [a]) (c.Decode a).1 =
      if (c.Decode a).2 ∈ tag_stack c hist (c.Decode a).1 then
        (c.Decode a).2 :: (tag_stack c hist (c.Decode a).1).filter
          (fun y => decide (y ≠ (c.Decode a).2))
      else if (tag_stack c hist (c.Decode a).1).length < c.cfg.ways then
        (c.Decode a).2 :: tag_stack c hist (c.Decode a).1
      else (c.Decode a).2 :: (tag_stack c hist (c.Decode a).1).dropLast := by
  have hd : decide ((c.Decode a).1 = (c.Decode a).1) = true := by simp
  have e : tag_stack c (hist ++ [a]) (c.Decode a).1 =
      ((c.Decode a).2 :: (distinct_first
        (((hist.filter (fun b => decide ((c.Decode b).1 = (c.Decode a).1))).map
          (fun b => (c.Decode b).2)).reverse)).filter
            (fun y => decide (y ≠ (c.Decode a).2))).take c.cfg.ways := by
    unfold tag_stack
    rw [List.filter_append, List.filter_cons, hd, if_pos rfl, List.filter_nil, List.map_append,
      List.reverse_append]
    rfl
  rw [e, lru_step _ _ _ (distinct_first_nodup _) hw]
  rfl

/-- One access keeps the stacks: the set of the address goes through the LRU step, the other
sets and their stacks stay. -/
theorem cacheInv_access (c0 c : SimpleCache) (hist : List Nat) (a : Nat)
    (isWrite hasUp hasWB : Bool) (B K : Nat) (g : c0.Geom B K) (hw : 1 ≤ c0.cfg.ways)
    (h32 : c0.cfg.ways < 2 ^ 32) (h : CacheInv c0 c hist) :
    CacheInv c0 (c.Access a isWrite hasUp hasWB).2.1 (hist ++ [a]) := by
  have hdec := Decode_congr c c0 h.cfg_eq h.mask_eq a
  have hs0 : (c0.Decode a).1 < c0.cfg.sets := by
    rw [g.nsets]
    exact decode_set_lt c0 B K g a
  have hs : (c.Decode a).1 < c.sets.length := by rw [hdec, h.nsets]; exact hs0
  obtain ⟨hf1, hf2, hf3, _, hf5⟩ := Access_frame c a isWrite hasUp hasWB
  refine ⟨hf1.trans h.cfg_eq, hf2.trans h.mask_eq, hf3.trans h.nsets, ?_⟩
  intro s hslt
  by_cases es : s = (c0.Decode a).1
  · obtain ⟨hlen, hinv⟩ := h.sets_ok _ hs0
    have hw32 : (c.sets.getD (c0.Decode a).1 []).length < 2 ^ 32 := by rw [hlen]; exact h32
    rw [es, tag_stack_same c0 hist a hw]
    cases hl : lookup_way (c.sets.getD (c.Decode a).1 []) (c.Decode a).2 0 with
    | some i =>
      have hset := Access_hit_set c a isWrite hasUp hasWB i hs hl
      rw [hdec] at hset hl
      rw [hset]
      obtain ⟨pre, x, post, e, hi, hxv, hxt, _⟩ := lookup_way_some _ _ 0 i hl
      rw [Nat.zero_add] at hi
      have hx : (c.sets.getD (c0.Decode a).1 []).getD i Line.empty = x := by
        rw [e, hi]
        exact getD_append_cons pre x post _
      have hik : i < (tag_stack c0 hist (c0.Decode a).1).length :=
        (hinv.valid_iff i).1 (by rw [hx]; exact hxv)
      have hin : (c0.Decode a).2 ∈ tag_stack c0 hist (c0.Decode a).1 :=
        (setInv_lookup _ _ _ hinv).1 (by rw [hl]; exact Option.some_ne_none i)
      rw [if_pos hin]
      have r := setInv_hit _ _ i isWrite hinv hik hw32
      rw [hx, hxt] at r
      exact ⟨by rw [hit_lines_length]; exact hlen, r⟩
    | none =>
      have hset := Access_miss_set c a isWrite hasUp hasWB hs hl
      rw [hdec] at hset hl
      rw [hset]
      have hout : (c0.Decode a).2 ∉ tag_stack c0 hist (c0.Decode a).1 :=
        fun hm => (setInv_lookup _ _ _ hinv).2 hm hl
      rw [if_neg hout]
      refine ⟨by rw [fill_lines_length]; exact hlen, ?_⟩
      by_cases hroom : (tag_stack c0 hist (c0.Decode a).1).length < c0.cfg.ways
      · rw [if_pos hroom]
        rw [← hlen] at hroom
        rw [victim_room _ _ hinv hroom]
        exact setInv_fill_room _ _ _ isWrite hinv hout hroom hw32
      · rw [if_neg hroom]
        have hfull : (tag_stack c0 hist (c0.Decode a).1).length =
            (c.sets.getD (c0.Decode a).1 []).length := by
          have := hinv.len_le
          omega
        have hne : c.sets.getD (c0.Decode a).1 [] ≠ [] := by
          intro e
          rw [e] at hlen
          have : c0.cfg.ways = 0 := hlen.symm
          omega
        obtain ⟨v1, v2⟩ := victim_full _ _ hinv hfull hne
        exact setInv_fill_full _ _ _ isWrite _ hinv hout hfull v1 v2 hw32
  · have hne : s ≠ (c.Decode a).1 := by rw [hdec]; exact es
    rw [hf5 s hne, tag_stack_other c0 hist a s (fun e => es e.symm)]
    exact h.sets_ok s hslt

theorem cacheInv_create (cfg : SimpleCacheConfig) :
    CacheInv (SimpleCache.create cfg) (SimpleCache.create cfg) [] := by
  refine ⟨rfl, rfl, List.length_replicate _ _, ?_⟩
  intro s hs
  have e : (SimpleCache.create cfg).sets.getD s [] = List.replicate cfg.ways Line.empty := by
    show (List.replicate cfg.sets (List.replicate cfg.ways Line.empty)).getD s [] = _
    have hs2 : s < cfg.sets := hs
    rw [List.getD_eq_getElem?_getD, List.getElem?_replicate, if_pos hs2]
    rfl
  have e2 : tag_stack (SimpleCache.create cfg) [] s = [] := by
    unfold tag_stack
    exact List.take_nil
  rw [e, e2]
  exact ⟨List.length_replicate _ _, setInv_new cfg.ways⟩

theorem cacheInv_access_all (c0 : SimpleCache) (B K : Nat) (g : c0.Geom B K)
    (hw : 1 ≤ c0.cfg.ways) (h32 : c0.cfg.ways < 2 ^ 32) (reqs : List CacheReq) :
    ∀ (c : SimpleCache) (hist : List Nat), CacheInv c0 c hist →
      CacheInv c0 (c.access_all reqs) (hist ++ reqs.map CacheReq.addr) := by
  induction reqs with
  | nil =>
    intro c hist h
    rw [List.map_nil, List.append_nil]
    exact h
  | cons r rest ih =>
    intro c hist h
    have h1 := cacheInv_access c0 c hist r.addr r.isWrite r.hasUp r.hasWB B K g hw h32 h
    have h2 := ih _ _ h1
    rw [List.append_assoc] at h2
    exact h2

/-- A map that is injective on a list commutes with taking the distinct elements. -/
theorem distinct_first_map (f : Nat → Nat) (L : List Nat)
    (hinj : ∀ x ∈ L, ∀ y ∈ L, f x = f y → x = y) :
    (distinct_first L).map f = distinct_first (L.map f) := by
  induction L with
  | nil => rfl
  | cons x rest ih =>
    have ih2 := ih (fun a ha b hb => hinj a (List.mem_cons_of_mem _ ha) b
      (List.mem_cons_of_mem _ hb))
    show (x :: (distinct_first rest).filter (fun y => decide (y ≠ x))).map f =
      f x :: (distinct_first (rest.map f)).filter (fun y => decide (y ≠ f x))
    rw [List.map_cons, ← ih2, List.filter_map]
    congr 2
    apply List.filter_congr
    intro y hy
    have hy2 : y ∈ x :: rest := List.mem_cons_of_mem _ (mem_distinct_first rest y hy)
    show decide (y ≠ x) = decide (f y ≠ f x)
    by_cases e : y = x
    · rw [e]
      simp
    · have : f y ≠ f x := fun e2 => e (hinj y hy2 x (List.mem_cons_self _ _) e2)
      simp [e, this]

/-- With power-of-two geometry the set index of the spec is the set index of `Decode`. -/
theorem set_index_ref_eq (c : SimpleCache) (B K : Nat) (g : c.Geom B K) (a : Nat) :
    set_index_ref c.cfg a = (c.Decode a).1 := by
  unfold set_index_ref
  rw [decode_eq c B K g a, g.block, g.nsets]

/-- Block-aligned 64-bit addresses with the same set and tag are the same address. -/
theorem decode_inj (c : SimpleCache) (B K : Nat) (g : c.Geom B K) (a b : Nat)
    (ha : a < 2 ^ 64) (hal : a % 2 ^ B = 0) (hb : b < 2 ^ 64) (hbl : b % 2 ^ B = 0)
    (h : c.Decode a = c.Decode b) : a = b := by
  rw [← reconstruct_decode c B K g a ha hal, ← reconstruct_decode c B K g b hb hbl, h]

/-- The stack of tags of a set is the image of the reference of block addresses. -/
theorem tag_stack_eq_map (c : SimpleCache) (B K : Nat) (g : c.Geom B K) (hist : List Nat)
    (a : Nat) (hal : ∀ b ∈ hist, b % 2 ^ B = 0 ∧ b < 2 ^ 64) :
    tag_stack c hist (c.Decode a).1 =
      (cache_lru_reference c.cfg hist a).map (fun b => (c.Decode b).2) := by
  unfold tag_stack cache_lru_reference
  have hf : hist.filter (fun b => decide (set_index_ref c.cfg b = set_index_ref c.cfg a)) =
      hist.filter (fun b => decide ((c.Decode b).1 = (c.Decode a).1)) := by
    apply List.filter_congr
    intro b _
    rw [set_index_ref_eq c B K g b, set_index_ref_eq c B K g a]
  rw [hf, List.map_take, ← List.map_reverse]
  congr 1
  symm
  apply distinct_first_map
  intro x hx y hy hxy
  rw [List.mem_reverse, List.mem_filter, decide_eq_true_eq] at hx hy
  exact decode_inj c B K g x y (hal x hx.1).2 (hal x hx.1).1 (hal y hy.1).2 (hal y hy.1).1
    (Prod.ext (hx.2.trans hy.2.symm) hxy)

theorem mem_cache_lru_reference (c : SimpleCache) (B K : Nat) (g : c.Geom B K)
    (hist : List Nat) (a b : Nat) (h : b ∈ cache_lru_reference c.cfg hist a) :
    b ∈ hist ∧ (c.Decode b).1 = (c.Decode a).1 := by
  unfold cache_lru_reference at h
  have h2 := mem_distinct_first _ _ (List.mem_of_mem_take h)
  rw [List.mem_reverse, List.mem_filter, decide_eq_true_eq, set_index_ref_eq c B K g b,
    set_index_ref_eq c B K g a] at h2
  exact h2

/-- The tag of an address is in the stack of its set exactly when the address is in the
reference. -/
theorem mem_tag_stack_iff (c : SimpleCache) (B K : Nat) (g : c.Geom B K) (hist : List Nat)
    (a : Nat) (hal : ∀ b ∈ hist, b % 2 ^ B = 0 ∧ b < 2 ^ 64)
    (ha : a % 2 ^ B = 0 ∧ a < 2 ^ 64) :
    (c.Decode a).2 ∈ tag_stack c hist (c.Decode a).1 ↔
      a ∈ cache_lru_reference c.cfg hist a := by
  rw [tag_stack_eq_map c B K g hist a hal]
  constructor
  · intro h
    obtain ⟨b, hb, e⟩ := List.mem_map.1 h
    obtain ⟨hbh, hbs⟩ := mem_cache_lru_reference c B K g hist a b hb
    have : b = a := decode_inj c B K g b a (hal b hbh).2 (hal b hbh).1 ha.2 ha.1
      (Prod.ext hbs e)
    rw [this] at hb
    exact hb
  · intro h
    exact List.mem_map.2 ⟨a, h, rfl⟩

theorem Access_calls_of_hit (c : SimpleCache) (addr : Nat) (isWrite hasUp hasWB : Bool)
    (h : (c.Access addr isWrite hasUp hasWB).1 = true) :
    (c.Access addr isWrite hasUp hasWB).2.2 = [] := by
  cases hl : lookup_way (c.sets.getD (c.Decode addr).1 []) (c.Decode addr).2 0 with
  | none =>
    rw [Access_miss c addr isWrite hasUp hasWB hl] at h
    cases h
  | some i => rw [Access_hit c addr isWrite hasUp hasWB i hl]

theorem Access_calls_of_miss (c : SimpleCache) (addr : Nat) (isWrite : Bool)
    (h : (c.Access addr isWrite true true).1 = false) :
    lookup_way (c.sets.getD (c.Decode addr).1 []) (c.Decode addr).2 0 = none ∧
    (c.Access addr isWrite true true).2.2 =
      if ((c.sets.getD (c.Decode addr).1 []).getD
            (PickVictim (c.sets.getD (c.Decode addr).1 [])) Line.empty).valid then
        Callback.up
          (c.Reconstruct (c.Decode addr).1
            ((c.sets.getD (c.Decode addr).1 []).getD
              (PickVictim (c.sets.getD (c.Decode addr).1 [])) Line.empty).tag)
          ((c.sets.getD (c.Decode addr).1 []).getD
            (PickVictim (c.sets.getD (c.Decode addr).1 [])) Line.empty).dirty ::
        (if ((c.sets.getD (c.Decode addr).1 []).getD
            (PickVictim (c.sets.getD (c.Decode addr).1 [])) Line.empty).dirty then
          [Callback.wb
            (c.Reconstruct (c.Decode addr).1
              ((c.sets.getD (c.Decode addr).1 []).getD
                (PickVictim (c.sets.getD (c.Decode addr).1 [])) Line.empty).tag)]
        else [])
      else [] := by
  cases hl : lookup_way (c.sets.getD (c.Decode addr).1 []) (c.Decode addr).2 0 with
  | none =>
    rw [Access_miss c addr isWrite true true hl]
    refine ⟨rfl, ?_⟩
    simp only [if_true, Bool.true_and, List.singleton_append]
  | some i =>
    rw [Access_hit c addr isWrite true true i hl] at h
    cases h

/-! ### Access counts across `swap_with` -/

theorem count_at_of_mem (l : HashLL) (hwf : l.WF) (n : hash_node) (hn : n ∈ l.nodes) :
    l.count_at n.vp_num = some n.access_count := by
  unfold HashLL.count_at
  rw [table_find_of_mem l hwf n hn]
  show (l.deref n.addr).map hash_node.access_count = some n.access_count
  unfold HashLL.deref
  rw [find_addr_of_mem l.nodes n hn hwf.indexed.1]
  rfl

theorem swap_with_perm (A B : HashLL) (hot cold : hash_node) (init : List hash_node)
    (hhm : hot ∈ A.nodes) (hl : B.nodes = init ++ [cold])
    (n1 : (A.swap_with B).1.nodes = A.nodes.erase hot ++ [cold])
    (n2 : (A.swap_with B).2.nodes = hot :: init) :
    List.Perm ((A.swap_with B).1.nodes ++ (A.swap_with B).2.nodes) (A.nodes ++ B.nodes) := by
  rw [n1, n2, hl]
  have p1 : List.Perm ((A.nodes.erase hot ++ [cold]) ++ hot :: init)
      (hot :: ((A.nodes.erase hot ++ [cold]) ++ init)) := List.perm_middle
  have p2 : List.Perm ((A.nodes.erase hot ++ [cold]) ++ init)
      (A.nodes.erase hot ++ (init ++ [cold])) := by
    rw [List.append_assoc]
    exact List.Perm.append_left _ List.perm_append_comm
  have p3 : List.Perm (hot :: (A.nodes.erase hot ++ (init ++ [cold])))
      (A.nodes ++ (init ++ [cold])) := by
    rw [← List.cons_append]
    exact List.Perm.append_right _ (List.perm_cons_erase hhm).symm
  exact p1.trans ((List.Perm.cons hot p2).trans p3)

/-! ### The CU-tier counters and the refresh -/

/-- The three ways through `CacheCall`: hit in `L1`; miss in `L1` and hit in `L2`; miss in
both, followed by the CU tier. -/
theorem CacheCall_cases (s : State) (op blkAddr a : Nat) :
    ((s.l1.Access blkAddr (decide (op = WRITE_OP)) false false).1 = true ∧
      CacheCall s op blkAddr a =
        { s with l1 := (s.l1.Access blkAddr (decide (op = WRITE_OP)) false false).2.1 }) ∨
    ((s.l1.Access blkAddr (decide (op = WRITE_OP)) false false).1 = false ∧
      (s.L2.Access blkAddr (decide (op = WRITE_OP)) true true).1 = true ∧
      CacheCall s op blkAddr a =
        { s with
          L2 := (s.L2.Access blkAddr (decide (op = WRITE_OP)) true true).2.1,
          l1 := run_L2_callbacks
            (s.l1.Access blkAddr (decide (op = WRITE_OP)) false false).2.1
            (s.L2.Access blkAddr (decide (op = WRITE_OP)) true true).2.2 }) ∨
    ((s.l1.Access blkAddr (decide (op = WRITE_OP)) false false).1 = false ∧
      (s.L2.Access blkAddr (decide (op = WRITE_OP)) true true).1 = false ∧
      CacheCall s op blkAddr a =
        cu_tier
          { s with
            L2 := (s.L2.Access blkAddr (decide (op = WRITE_OP)) true true).2.1,
            l1 := run_L2_callbacks
              (s.l1.Access blkAddr (decide (op = WRITE_OP)) false false).2.1
              (s.L2.Access blkAddr (decide (op = WRITE_OP)) true true).2.2 } a) := by
  unfold CacheCall
  simp only []
  by_cases h1 : (s.l1.Access blkAddr (decide (op = WRITE_OP)) false false).1 = true
  · rw [if_pos h1]
    exact Or.inl ⟨h1, rfl⟩
  · rw [if_neg h1]
    have h1f : (s.l1.Access blkAddr (decide (op = WRITE_OP)) false false).1 = false := by
      simpa using h1
    by_cases h2 : (s.L2.Access blkAddr (decide (op = WRITE_OP)) true true).1 = true
    · have hn : ¬ ((!(s.L2.Access blkAddr (decide (op = WRITE_OP)) true true).1) = true) := by
        rw [h2]
        exact Bool.false_ne_true
      rw [if_neg hn]
      exact Or.inr (Or.inl ⟨h1f, h2, rfl⟩)
    · have h2f : (s.L2.Access blkAddr (decide (op = WRITE_OP)) true true).1 = false := by
        simpa using h2
      have hn : (!(s.L2.Access blkAddr (decide (op = WRITE_OP)) true true).1) = true := by
        rw [h2f]
        rfl
      rw [if_pos hn]
      exact Or.inr (Or.inr ⟨h1f, h2f, rfl⟩)

theorem hit_checks_counted (g : State) (a : Nat)
    (hb : g.unclist_access + 1 < 2 ^ 64 ∧ g.clist_access + 1 < 2 ^ 64 ∧
      g.cpage_access + 1 < 2 ^ 64) : counted_once g (hit_checks g a) := by
  cases hu : g.unclist.find_node a with
  | some p =>
    rw [hit_checks_unclist g a p hu]
    by_cases he : g.uc_epoch ≥ g.unclist_freq
    · rw [if_pos he]
      exact Or.inl ⟨incr64_small _ hb.1, rfl, rfl⟩
    · rw [if_neg he]
      exact Or.inl ⟨incr64_small _ hb.1, rfl, rfl⟩
  | none =>
    cases hc : g.clist.find_node a with
    | some p =>
      rw [hit_checks_clist g a p hu hc]
      by_cases he : g.cl_epoch ≥ g.clist_freq
      · rw [if_pos he]
        exact Or.inr (Or.inl ⟨rfl, incr64_small _ hb.2.1, rfl⟩)
      · rw [if_neg he]
        exact Or.inr (Or.inl ⟨rfl, incr64_small _ hb.2.1, rfl⟩)
    | none =>
      rw [hit_checks_neither g a hu hc]
      by_cases he : g.cl_epoch ≥ g.clist_freq
      · rw [if_pos he]
        exact Or.inr (Or.inr ⟨rfl, rfl, incr64_small _ hb.2.2⟩)
      · rw [if_neg he]
        exact Or.inr (Or.inr ⟨rfl, rfl, incr64_small _ hb.2.2⟩)

theorem cu_tier_counted (s : State) (a : Nat)
    (hb : s.unclist_access + 1 < 2 ^ 64 ∧ s.clist_access + 1 < 2 ^ 64 ∧
      s.cpage_access + 1 < 2 ^ 64) : counted_once s (cu_tier s a) := by
  unfold cu_tier
  split
  · exact Or.inl ⟨incr64_small _ hb.1, rfl, rfl⟩
  · split
    · exact Or.inr (Or.inl ⟨rfl, incr64_small _ hb.2.1, rfl⟩)
    · obtain ⟨g1, g2, g3, _⟩ := promotion_gate_frame s
      have h := hit_checks_counted (promotion_gate s) a (by rw [g1, g2, g3]; exact hb)
      unfold counted_once at h ⊢
      rw [g1, g2, g3] at h
      exact h

theorem counted_once_total (s t : State) (h : counted_once s t) :
    t.tier_total = s.tier_total + 1 := by
  unfold State.tier_total
  rcases h with ⟨h1, h2, h3⟩ | ⟨h1, h2, h3⟩ | ⟨h1, h2, h3⟩ <;> omega

/-- A call of `CacheCall` leaves the three counters and the `L2` miss count as they are, or it
misses in `L1` and in `L2`, the `L2` miss count is one more and exactly one counter is one
more; no counter being at `2^64 - 1`. -/
theorem CacheCall_counted (s : State) (op blkAddr a : Nat)
    (hb : s.unclist_access + 1 < 2 ^ 64 ∧ s.clist_access + 1 < 2 ^ 64 ∧
      s.cpage_access + 1 < 2 ^ 64) (hm : s.L2.miss + 1 < 2 ^ 64) :
    (((s.l1.Access blkAddr (decide (op = WRITE_OP)) false false).1 = true ∨
        (s.L2.Access blkAddr (decide (op = WRITE_OP)) true true).1 = true) ∧
      counters_same s (CacheCall s op blkAddr a) ∧
      (CacheCall s op blkAddr a).L2.miss = s.L2.miss) ∨
    ((s.l1.Access blkAddr (decide (op = WRITE_OP)) false false).1 = false ∧
      (s.L2.Access blkAddr (decide (op = WRITE_OP)) true true).1 = false ∧
      counted_once s (CacheCall s op blkAddr a) ∧
      (CacheCall s op blkAddr a).L2.miss = s.L2.miss + 1) := by
  have hc := Access_counters s.L2 blkAddr (decide (op = WRITE_OP)) true true
  rcases CacheCall_cases s op blkAddr a with ⟨h1, e⟩ | ⟨h1, h2, e⟩ | ⟨h1, h2, e⟩
  · rw [e]
    exact Or.inl ⟨Or.inl h1, ⟨rfl, rfl, rfl⟩, rfl⟩
  · rw [e]
    refine Or.inl ⟨Or.inr h2, ⟨rfl, rfl, rfl⟩, ?_⟩
    show (s.L2.Access blkAddr (decide (op = WRITE_OP)) true true).2.1.miss = s.L2.miss
    rw [hc.2, h2]
    rfl
  · rw [e]
    refine Or.inr ⟨h1, h2, cu_tier_counted _ a hb, ?_⟩
    rw [(cu_tier_caches _ a).2.1]
    show (s.L2.Access blkAddr (decide (op = WRITE_OP)) true true).2.1.miss = s.L2.miss + 1
    rw [hc.2, h2]
    exact incr64_small _ hm

/-- A call of `CacheCall` that hits in `L1` or in `L2` leaves the three counters and the `L2`
miss count as they are. -/
theorem CacheCall_same (s : State) (op blkAddr a : Nat)
    (h : (s.l1.Access blkAddr (decide (op = WRITE_OP)) false false).1 = true ∨
      (s.L2.Access blkAddr (decide (op = WRITE_OP)) true true).1 = true) :
    counters_same s (CacheCall s op blkAddr a) ∧
    (CacheCall s op blkAddr a).L2.miss = s.L2.miss := by
  have hc := Access_counters s.L2 blkAddr (decide (op = WRITE_OP)) true true
  rcases CacheCall_cases s op blkAddr a with ⟨h1, e⟩ | ⟨h1, h2, e⟩ | ⟨h1, h2, e⟩
  · rw [e]
    exact ⟨⟨rfl, rfl, rfl⟩, rfl⟩
  · rw [e]
    refine ⟨⟨rfl, rfl, rfl⟩, ?_⟩
    show (s.L2.Access blkAddr (decide (op = WRITE_OP)) true true).2.1.miss = s.L2.miss
    rw [hc.2, h2]
    rfl
  · rcases h with h | h
    · rw [h1] at h
      cases h
    · rw [h2] at h
      cases h

theorem CacheCall_total (s : State) (op blkAddr a : Nat) (h : s.tier_total = s.L2.miss)
    (hm : s.L2.miss + 1 < 2 ^ 64) :
    (CacheCall s op blkAddr a).tier_total = (CacheCall s op blkAddr a).L2.miss ∧
    (CacheCall s op blkAddr a).L2.miss ≤ s.L2.miss + 1 := by
  have hb : s.unclist_access + 1 < 2 ^ 64 ∧ s.clist_access + 1 < 2 ^ 64 ∧
      s.cpage_access + 1 < 2 ^ 64 := by
    unfold State.tier_total at h
    omega
  rcases CacheCall_counted s op blkAddr a hb hm with ⟨_, ⟨h1, h2, h3⟩, h4⟩ | ⟨_, _, hc, h4⟩
  · refine ⟨?_, by omega⟩
    unfold State.tier_total at h ⊢
    rw [h1, h2, h3, h4]
    exact h
  · rw [counted_once_total s _ hc, h4]
    omega

theorem step_total (s : State) (e : MemEvent) (h : s.tier_total = s.L2.miss)
    (hm : s.L2.miss + 1 < 2 ^ 64) :
    (step s e).tier_total = (step s e).L2.miss ∧ (step s e).L2.miss ≤ s.L2.miss + 1 := by
  cases e with
  | read a =>
    exact CacheCall_total
      { s with uc_epoch := incr64 s.uc_epoch, cl_epoch := incr64 s.cl_epoch,
               stats := { s.stats with memIns := incr64 s.stats.memIns,
                                       reads := incr64 s.stats.reads } }
      READ_OP (block_floor s.blk a) a h hm
  | write a =>
    exact CacheCall_total
      { s with uc_epoch := incr64 s.uc_epoch, cl_epoch := incr64 s.cl_epoch,
               stats := { s.stats with memIns := incr64 s.stats.memIns,
                                       writes := incr64 s.stats.writes } }
      WRITE_OP (block_floor s.blk a) a h hm

theorem run_total (evs : List MemEvent) : ∀ s : State, s.tier_total = s.L2.miss →
    s.L2.miss + evs.length < 2 ^ 64 →
    (run s evs).tier_total = (run s evs).L2.miss := by
  induction evs with
  | nil =>
    intro s h _
    exact h
  | cons e rest ih =>
    intro s h hm
    rw [List.length_cons] at hm
    have h2 := step_total s e h (by omega)
    exact ih (step s e) h2.1 (by omega)

/-- After the promotion gate the refresh of `unclist` is not due, if `exfreq <= unclfreq` and
`unclfreq >= 1`. -/
theorem gate_no_refresh (s : State) (h1 : s.expansionFrequency ≤ s.unclist_freq)
    (h2 : 1 ≤ s.unclist_freq) :
    ¬ ((promotion_gate s).uc_epoch ≥ (promotion_gate s).unclist_freq) := by
  unfold promotion_gate
  split
  · show ¬ (0 ≥ s.unclist_freq)
    omega
  · omega

theorem get_nodes_increment_count (l : HashLL) (a : Nat) :
    (l.increment_count a).get_nodes = l.get_nodes := by
  unfold HashLL.increment_count
  split
  · rfl
  · exact map_vp_bump l.nodes _

theorem promotion_gate_unclist (s : State) :
    (promotion_gate s).unclist = s.unclist ∨
    (promotion_gate s).unclist = (s.clist.swap_with s.unclist).2 := by
  unfold promotion_gate
  split
  · exact Or.inr rfl
  · exact Or.inl rfl

theorem hit_checks_freqs (g : State) (a : Nat) :
    (hit_checks g a).expansionFrequency = g.expansionFrequency ∧
    (hit_checks g a).unclist_freq = g.unclist_freq ∧
    (hit_checks g a).clist_freq = g.clist_freq := by
  cases hu : g.unclist.find_node a with
  | some p =>
    rw [hit_checks_unclist g a p hu]
    by_cases he : g.uc_epoch ≥ g.unclist_freq
    · rw [if_pos he]
      exact ⟨rfl, rfl, rfl⟩
    · rw [if_neg he]
      exact ⟨rfl, rfl, rfl⟩
  | none =>
    cases hc : g.clist.find_node a with
    | some p =>
      rw [hit_checks_clist g a p hu hc]
      by_cases he : g.cl_epoch ≥ g.clist_freq
      · rw [if_pos he]
        exact ⟨rfl, rfl, rfl⟩
      · rw [if_neg he]
        exact ⟨rfl, rfl, rfl⟩
    | none =>
      rw [hit_checks_neither g a hu hc]
      by_cases he : g.cl_epoch ≥ g.clist_freq
      · rw [if_pos he]
        exact ⟨rfl, rfl, rfl⟩
      · rw [if_neg he]
        exact ⟨rfl, rfl, rfl⟩

theorem cu_tier_freqs (s : State) (a : Nat) :
    (cu_tier s a).expansionFrequency = s.expansionFrequency ∧
    (cu_tier s a).unclist_freq = s.unclist_freq ∧
    (cu_tier s a).clist_freq = s.clist_freq := by
  unfold cu_tier
  split
  · exact ⟨rfl, rfl, rfl⟩
  · split
    · exact ⟨rfl, rfl, rfl⟩
    · have h := hit_checks_freqs (promotion_gate s) a
      have g : (promotion_gate s).expansionFrequency = s.expansionFrequency ∧
          (promotion_gate s).unclist_freq = s.unclist_freq ∧
          (promotion_gate s).clist_freq = s.clist_freq := by
        unfold promotion_gate
        split
        · exact ⟨rfl, rfl, rfl⟩
        · exact ⟨rfl, rfl, rfl⟩
      exact ⟨h.1.trans g.1, h.2.1.trans g.2.1, h.2.2.trans g.2.2⟩

theorem CacheCall_freqs (s : State) (op blkAddr a : Nat) :
    (CacheCall s op blkAddr a).expansionFrequency = s.expansionFrequency ∧
    (CacheCall s op blkAddr a).unclist_freq = s.unclist_freq ∧
    (CacheCall s op blkAddr a).clist_freq = s.clist_freq := by
  rcases CacheCall_cases s op blkAddr a with ⟨_, e⟩ | ⟨_, _, e⟩ | ⟨_, _, e⟩
  · rw [e]
    exact ⟨rfl, rfl, rfl⟩
  · rw [e]
    exact ⟨rfl, rfl, rfl⟩
  · rw [e]
    exact cu_tier_freqs _ a

theorem step_freqs (s : State) (e : MemEvent) :
    (step s e).expansionFrequency = s.expansionFrequency ∧
    (step s e).unclist_freq = s.unclist_freq ∧ (step s e).clist_freq = s.clist_freq := by
  cases e with
  | read a =>
    exact CacheCall_freqs
      { s with uc_epoch := incr64 s.uc_epoch, cl_epoch := incr64 s.cl_epoch,
               stats := { s.stats with memIns := incr64 s.stats.memIns,
                                       reads := incr64 s.stats.reads } }
      READ_OP (block_floor s.blk a) a
  | write a =>
    exact CacheCall_freqs
      { s with uc_epoch := incr64 s.uc_epoch, cl_epoch := incr64 s.cl_epoch,
               stats := { s.stats with memIns := incr64 s.stats.memIns,
                                       writes := incr64 s.stats.writes } }
      WRITE_OP (block_floor s.blk a) a

theorem run_freqs (evs : List MemEvent) : ∀ s : State,
    (run s evs).expansionFrequency = s.expansionFrequency ∧
    (run s evs).unclist_freq = s.unclist_freq ∧ (run s evs).clist_freq = s.clist_freq := by
  induction evs with
  | nil =>
    intro s
    exact ⟨rfl, rfl, rfl⟩
  | cons e rest ih =>
    intro s
    obtain ⟨h1, h2, h3⟩ := ih (step s e)
    obtain ⟨g1, g2, g3⟩ := step_freqs s e
    exact ⟨h1.trans g1, h2.trans g2, h3.trans g3⟩

/-- With both lists full, `exfreq <= unclfreq` and `unclfreq >= 1`: the refresh test of the
uncompressed-hit step fails, the step runs `increment_count`, and the pages of `unclist` stay
as the promotion gate leaves them. -/
theorem cu_tier_no_refresh (s : State) (a : Nat) (hu : s.unclist.isFull = true)
    (hc : s.clist.isFull = true) (h1 : s.expansionFrequency ≤ s.unclist_freq)
    (h2 : 1 ≤ s.unclist_freq) :
    ¬ ((promotion_gate s).uc_epoch ≥ (promotion_gate s).unclist_freq) ∧
    (∀ p, (promotion_gate s).unclist.find_node a = some p →
      cu_tier s a =
        { (promotion_gate s) with
          unclist_access := incr64 (promotion_gate s).unclist_access,
          unclist := (promotion_gate s).unclist.increment_count a }) ∧
    ((promotion_gate s).unclist.find_node a = none →
      (cu_tier s a).unclist = (promotion_gate s).unclist) ∧
    (cu_tier s a).unclist.get_nodes = (promotion_gate s).unclist.get_nodes := by
  have hg := gate_no_refresh s h1 h2
  rw [cu_tier_of_full s a hu hc]
  have hfound : ∀ p, (promotion_gate s).unclist.find_node a = some p →
      hit_checks (promotion_gate s) a =
        { (promotion_gate s) with
          unclist_access := incr64 (promotion_gate s).unclist_access,
          unclist := (promotion_gate s).unclist.increment_count a } := by
    intro p hp
    rw [hit_checks_unclist _ a p hp, if_neg hg]
  have hnone : (promotion_gate s).unclist.find_node a = none →
      (hit_checks (promotion_gate s) a).unclist = (promotion_gate s).unclist := by
    intro hn
    cases hcl : (promotion_gate s).clist.find_node a with
    | some p =>
      rw [hit_checks_clist _ a p hn hcl]
      split <;> rfl
    | none =>
      rw [hit_checks_neither _ a hn hcl]
      split <;> rfl
  refine ⟨hg, hfound, hnone, ?_⟩
  cases hf : (promotion_gate s).unclist.find_node a with
  | some p =>
    rw [hfound p hf]
    exact get_nodes_increment_count _ a
  | none => rw [hnone hf]

/-! ### The per-instruction call -/

theorem incr64_lt (x : Nat) : incr64 x < 2 ^ 64 := Nat.mod_lt _ (by norm_num)

theorem sub64_le (x y : Nat) (hx : x < 2 ^ 64) : sub64 x y ≤ 2 ^ 64 - 1 := by
  unfold sub64
  split <;> omega

theorem sub64_self (x : Nat) : sub64 x x = 0 := by
  unfold sub64
  rw [if_pos (Nat.le_refl x)]
  omega

theorem not_max_interval (x y : Nat) (hx : x < 2 ^ 64) : ¬ (sub64 x y > MAX_INTERVAL) := by
  have h := sub64_le x y hx
  unfold MAX_INTERVAL MAXVAL
  omega

theorem cas_fails (obj cur : Nat) (h : obj ≠ cur) :
    compare_exchange_strong obj cur cur = (false, obj, obj) := by
  unfold compare_exchange_strong
  rw [if_neg h]

theorem report_due_ne (cur last : Nat) (h : sub64 cur last > REPORT_INTERVAL) : last ≠ cur := by
  intro e
  rw [e, sub64_self] at h
  exact absurd h (by decide)

/-! ### The locks of `CacheCall` -/

theorem hit_checks_locks_paths (s : State) (a : Nat) :
    hit_checks_locks s a = [LockOp.get Lock.unc_lock, LockOp.release Lock.unc_lock] ∨
    hit_checks_locks s a =
      [LockOp.get Lock.unc_lock, LockOp.release Lock.unc_lock,
       LockOp.get Lock.c_lock, LockOp.release Lock.c_lock] ∨
    hit_checks_locks s a =
      [LockOp.get Lock.unc_lock, LockOp.release Lock.unc_lock,
       LockOp.get Lock.c_lock, LockOp.release Lock.c_lock,
       LockOp.get Lock.cpage_lock, LockOp.release Lock.cpage_lock] := by
  unfold hit_checks_locks
  cases s.unclist.find_node a with
  | some p => exact Or.inl rfl
  | none =>
    cases s.clist.find_node a with
    | some p => exact Or.inr (Or.inl rfl)
    | none =>
      by_cases h : s.cl_epoch ≥ s.clist_freq
      · right; left
        simp only [if_pos h]
        rfl
      · right; right
        simp only [if_neg h]
        rfl

theorem cu_tier_locks_paths (s : State) (a : Nat) :
    [LockOp.get Lock.l2Lock, LockOp.release Lock.l2Lock] ++ cu_tier_locks s a ∈ lock_paths := by
  unfold cu_tier_locks
  split
  · simp [lock_paths]
  · split
    · simp [lock_paths]
    · rcases hit_checks_locks_paths (promotion_gate s) a with h | h | h <;> rw [h] <;>
        simp [lock_paths]

theorem CacheCall_locks_paths (s : State) (op b a : Nat) :
    CacheCall_locks s op b a ∈ lock_paths := by
  unfold CacheCall_locks
  simp only []
  split
  · simp [lock_paths]
  · split
    · exact cu_tier_locks_paths _ _
    · simp [lock_paths]

theorem lock_paths_discipline : ∀ t ∈ lock_paths, LockDiscipline t := by
  decide

/-! ### The cache: the age invariant under `Access` and `Install` -/

theorem ageInv_new (ways : Nat) : AgeInv (List.replicate ways Line.empty) 0 := by
  have hE : ∀ j, (List.replicate ways Line.empty).getD j Line.empty = Line.empty := by
    intro j
    rw [List.getD_eq_getElem?_getD, List.getElem?_replicate]
    split <;> rfl
  refine ⟨Nat.zero_le _, ?_, ?_, ?_, ?_⟩
  · intro j
    rw [hE]
    exact ⟨fun hv => (by cases hv), fun hj => absurd hj (Nat.not_lt_zero _)⟩
  · intro j hj
    exact absurd hj (Nat.not_lt_zero _)
  · intro j j' hj
    exact absurd hj (Nat.not_lt_zero _)
  · intro a ha
    exact absurd ha (Nat.not_lt_zero _)

/-- With room in the set the victim is the first way after the valid ones. -/
theorem age_victim_room (w : List Line) (k : Nat) (h : AgeInv w k) (hroom : k < w.length) :
    PickVictim w = k := by
  have hne : w ≠ [] := fun e => by rw [e] at hroom; exact Nat.not_lt_zero _ hroom
  have hinv : (w.getD k Line.empty).valid ≠ true :=
    fun hv => Nat.lt_irrefl _ ((h.valid_iff k).1 hv)
  rcases PickVictim_spec w hne with ⟨pre, x, post, e, hp, hx, r⟩ | ⟨hall, _⟩
  · rw [r]
    have hxg : w.getD pre.length Line.empty = x := by rw [e]; exact getD_append_cons pre x post _
    have h1 : ¬ pre.length < k := by
      intro hlt
      have := (h.valid_iff pre.length).2 hlt
      rw [hxg, hx] at this
      cases this
    have h2 : ¬ k < pre.length := by
      intro hlt
      apply hinv
      rw [e, getD_append_lt pre _ _ _ hlt]
      exact hp _ (getD_mem pre _ _ hlt)
    omega
  · exact absurd (hall _ (getD_mem w _ _ hroom)) hinv

/-- In a full set the victim is the valid line of the greatest age. -/
theorem age_victim_full (w : List Line) (k : Nat) (h : AgeInv w k) (hfull : k = w.length)
    (hne : w ≠ []) :
    PickVictim w < k ∧ (w.getD (PickVictim w) Line.empty).age + 1 = k := by
  have hv := PickVictim_lt w hne
  rw [← hfull] at hv
  refine ⟨hv, ?_⟩
  have hpos : 0 < k := Nat.lt_of_le_of_lt (Nat.zero_le _) hv
  rcases PickVictim_spec w hne with ⟨pre, x, post, e, _, hx, r⟩ |
    ⟨_, pre, x, post, e, r, hp, hq⟩
  · have hxg : w.getD pre.length Line.empty = x := by rw [e]; exact getD_append_cons pre x post _
    have := (h.valid_iff pre.length).2 (by rw [← r]; exact hv)
    rw [hxg, hx] at this
    cases this
  · have hxg : w.getD (PickVictim w) Line.empty = x := by
      rw [r, e]
      exact getD_append_cons pre x post _
    obtain ⟨j, hj, ej⟩ := h.surj (k - 1) (by omega)
    have hmem : w.getD j Line.empty ∈ w := getD_mem w j _ (by rw [← hfull]; exact hj)
    have hall : ∀ l ∈ w, l.age ≤ x.age := by
      intro l hl
      rw [e, List.mem_append, List.mem_cons] at hl
      rcases hl with m | m | m
      · exact hp _ m
      · rw [m]
      · exact Nat.le_of_lt (hq _ m)
    have hle := hall _ hmem
    have hlt := h.age_lt _ hv
    rw [hxg] at hlt ⊢
    omega

/-- The age invariant after the line at way `i` became the youngest and the lines that were
younger aged by one. -/
theorem age_move (w w2 : List Line) (k i : Nat) (h : AgeInv w k) (hi : i < k)
    (hk32 : k < 2 ^ 32) (hlen : w2.length = w.length)
    (hiv : (w2.getD i Line.empty).valid = (w.getD i Line.empty).valid)
    (hia : (w2.getD i Line.empty).age = 0)
    (hv : ∀ j, j ≠ i → (w2.getD j Line.empty).valid = (w.getD j Line.empty).valid)
    (hlt : ∀ j, j ≠ i → (w.getD j Line.empty).valid = true →
      (w.getD j Line.empty).age < (w.getD i Line.empty).age →
      (w2.getD j Line.empty).age = incr32 (w.getD j Line.empty).age)
    (hge : ∀ j, j ≠ i → (w.getD i Line.empty).age ≤ (w.getD j Line.empty).age →
      (w2.getD j Line.empty).age = (w.getD j Line.empty).age) : AgeInv w2 k := by
  have hai := h.age_lt i hi
  have hage : ∀ j, j < k → j ≠ i →
      ((w.getD j Line.empty).age < (w.getD i Line.empty).age ∧
        (w2.getD j Line.empty).age = (w.getD j Line.empty).age + 1) ∨
      ((w.getD i Line.empty).age < (w.getD j Line.empty).age ∧
        (w2.getD j Line.empty).age = (w.getD j Line.empty).age) := by
    intro j hj hne
    have hne2 : (w.getD j Line.empty).age ≠ (w.getD i Line.empty).age :=
      fun e => hne (h.inj j i hj hi e)
    by_cases hc : (w.getD j Line.empty).age < (w.getD i Line.empty).age
    · left
      refine ⟨hc, ?_⟩
      rw [hlt j hne ((h.valid_iff j).2 hj) hc]
      exact incr32_small _ k (h.age_lt j hj) hk32
    · right
      exact ⟨by omega, hge j hne (by omega)⟩
  refine ⟨by rw [hlen]; exact h.len_le, ?_, ?_, ?_, ?_⟩
  · intro j
    by_cases e : j = i
    · rw [e, hiv]
      exact h.valid_iff i
    · rw [hv j e]
      exact h.valid_iff j
  · intro j hj
    by_cases e : j = i
    · rw [e, hia]
      omega
    · have := h.age_lt j hj
      rcases hage j hj e with ⟨h1, h2⟩ | ⟨h1, h2⟩ <;> omega
  · intro j j' hj hj' he
    by_cases e : j = i
    · by_cases e' : j' = i
      · rw [e, e']
      · rw [e, hia] at he
        rcases hage j' hj' e' with ⟨h1, h2⟩ | ⟨h1, h2⟩ <;> omega
    · by_cases e' : j' = i
      · rw [e', hia] at he
        rcases hage j hj e with ⟨h1, h2⟩ | ⟨h1, h2⟩ <;> omega
      · apply h.inj j j' hj hj'
        rcases hage j hj e with ⟨h1, h2⟩ | ⟨h1, h2⟩ <;>
          rcases hage j' hj' e' with ⟨h3, h4⟩ | ⟨h3, h4⟩ <;> omega
  · intro a ha
    by_cases e0 : a = 0
    · exact ⟨i, hi, by rw [hia, e0]⟩
    · by_cases hc : a ≤ (w.getD i Line.empty).age
      · obtain ⟨j, hj, ej⟩ := h.surj (a - 1) (by omega)
        have hne : j ≠ i := fun e => by rw [e] at ej; omega
        refine ⟨j, hj, ?_⟩
        rcases hage j hj hne with ⟨h1, h2⟩ | ⟨h1, h2⟩ <;> omega
      · obtain ⟨j, hj, ej⟩ := h.surj a ha
        have hne : j ≠ i := fun e => by rw [e] at ej; omega
        refine ⟨j, hj, ?_⟩
        rcases hage j hj hne with ⟨h1, h2⟩ | ⟨h1, h2⟩ <;> omega

/-- The age invariant after a fill of the first free way. -/
theorem age_push_room (w w2 : List Line) (k : Nat) (h : AgeInv w k) (hroom : k < w.length)
    (h32 : w.length < 2 ^ 32) (hlen : w2.length = w.length)
    (hkv : (w2.getD k Line.empty).valid = true) (hka : (w2.getD k Line.empty).age = 0)
    (hv : ∀ j, j ≠ k → (w2.getD j Line.empty).valid = (w.getD j Line.empty).valid)
    (ha : ∀ j, j ≠ k → (w.getD j Line.empty).valid = true →
      (w2.getD j Line.empty).age = incr32 (w.getD j Line.empty).age) :
    AgeInv w2 (k + 1) := by
  have hage : ∀ j, j < k → (w2.getD j Line.empty).age = (w.getD j Line.empty).age + 1 := by
    intro j hj
    rw [ha j (by omega) ((h.valid_iff j).2 hj)]
    exact incr32_small _ k (h.age_lt j hj) (by omega)
  refine ⟨by rw [hlen]; omega, ?_, ?_, ?_, ?_⟩
  · intro j
    by_cases e : j = k
    · rw [e, hkv]
      exact ⟨fun _ => Nat.lt_succ_self k, fun _ => rfl⟩
    · rw [hv j e, h.valid_iff j]
      omega
  · intro j hj
    by_cases e : j = k
    · rw [e, hka]
      omega
    · have := h.age_lt j (by omega)
      rw [hage j (by omega)]
      omega
  · intro j j' hj hj' he
    by_cases e : j = k
    · by_cases e' : j' = k
      · rw [e, e']
      · rw [e, hka, hage j' (by omega)] at he
        omega
    · by_cases e' : j' = k
      · rw [e', hka, hage j (by omega)] at he
        omega
      · rw [hage j (by omega), hage j' (by omega)] at he
        exact h.inj j j' (by omega) (by omega) (by omega)
  · intro a ha2
    by_cases e0 : a = 0
    · exact ⟨k, Nat.lt_succ_self k, by rw [hka, e0]⟩
    · obtain ⟨j, hj, ej⟩ := h.surj (a - 1) (by omega)
      refine ⟨j, by omega, ?_⟩
      rw [hage j hj]
      omega

/-- The age invariant after a fill of the way of the oldest line of a full set. -/
theorem age_push_full (w w2 : List Line) (k v : Nat) (h : AgeInv w k) (hv : v < k)
    (hva : (w.getD v Line.empty).age + 1 = k) (hk32 : k < 2 ^ 32)
    (hlen : w2.length = w.length)
    (hvv : (w2.getD v Line.empty).valid = true) (hv0 : (w2.getD v Line.empty).age = 0)
    (hval : ∀ j, j ≠ v → (w2.getD j Line.empty).valid = (w.getD j Line.empty).valid)
    (ha : ∀ j, j ≠ v → (w.getD j Line.empty).valid = true →
      (w2.getD j Line.empty).age = incr32 (w.getD j Line.empty).age) :
    AgeInv w2 k := by
  have hage : ∀ j, j < k → j ≠ v →
      (w2.getD j Line.empty).age = (w.getD j Line.empty).age + 1 ∧
      (w.getD j Line.empty).age + 1 < k := by
    intro j hj hne
    have hne2 : (w.getD j Line.empty).age ≠ (w.getD v Line.empty).age :=
      fun e => hne (h.inj j v hj hv e)
    have := h.age_lt j hj
    refine ⟨?_, by omega⟩
    rw [ha j hne ((h.valid_iff j).2 hj)]
    exact incr32_small _ k (h.age_lt j hj) hk32
  refine ⟨by rw [hlen]; exact h.len_le, ?_, ?_, ?_, ?_⟩
  · intro j
    by_cases e : j = v
    · rw [e, hvv]
      exact ⟨fun _ => hv, fun _ => rfl⟩
    · rw [hval j e]
      exact h.valid_iff j
  · intro j hj
    by_cases e : j = v
    · rw [e, hv0]
      omega
    · have := hage j hj e
      omega
  · intro j j' hj hj' he
    by_cases e : j = v
    · by_cases e' : j' = v
      · rw [e, e']
      · rw [e, hv0, (hage j' hj' e').1] at he
        omega
    · by_cases e' : j' = v
      · rw [e', hv0, (hage j hj e).1] at he
        omega
      · rw [(hage j hj e).1, (hage j' hj' e').1] at he
        exact h.inj j j' hj hj' (by omega)
  · intro a ha2
    by_cases e0 : a = 0
    · exact ⟨v, hv, by rw [hv0, e0]⟩
    · obtain ⟨j, hj, ej⟩ := h.surj (a - 1) (by omega)
      have hne : j ≠ v := fun e => by rw [e] at ej; omega
      refine ⟨j, hj, ?_⟩
      rw [(hage j hj hne).1]
      omega

/-- A hit keeps the age invariant of the set. -/
theorem ageInv_hit (w : List Line) (k i : Nat) (isWrite : Bool) (h : AgeInv w k)
    (hi : i < k) (h32 : w.length < 2 ^ 32) :
    AgeInv
      (if isWrite then
        (TouchLRU w i).set i { ((TouchLRU w i).getD i Line.empty) with dirty := true }
      else TouchLRU w i) k := by
  have hiw : i < w.length := Nat.lt_of_lt_of_le hi h.len_le
  have hNi := hit_lines w i isWrite hiw i
  rw [if_pos rfl] at hNi
  have hN := fun j hj => hit_lines_facts w i isWrite hiw j hj
  exact age_move w _ k i h hi (Nat.lt_of_le_of_lt h.len_le h32) (hit_lines_length w i isWrite)
    (by rw [hNi]) (by rw [hNi]) (fun j hj => (hN j hj).2.1) (fun j hj => (hN j hj).2.2.1)
    (fun j hj => (hN j hj).2.2.2)

/-- A miss or an `Install` keeps the age invariant of the set, with one more valid line when
there was room. -/
theorem ageInv_fill (w : List Line) (k : Nat) (t : Nat) (d : Bool) (h : AgeInv w k)
    (hne : w ≠ []) (h32 : w.length < 2 ^ 32) :
    ∃ k2, AgeInv
      ((age_all w).set (PickVictim w) { tag := t, age := 0, valid := true, dirty := d }) k2 := by
  have hvw := PickVictim_lt w hne
  have hNv := fill_lines w (PickVictim w) { tag := t, age := 0, valid := true, dirty := d }
    hvw (PickVictim w)
  rw [if_pos rfl] at hNv
  have hN := fun j hj => fill_lines_facts w (PickVictim w)
    { tag := t, age := 0, valid := true, dirty := d } hvw j hj
  by_cases hroom : k < w.length
  · have e := age_victim_room w k h hroom
    rw [e] at hNv hN ⊢
    exact ⟨k + 1, age_push_room w _ k h hroom h32 (fill_lines_length w _ _) (by rw [hNv])
      (by rw [hNv]) (fun j hj => (hN j hj).2.1) (fun j hj => (hN j hj).2.2)⟩
  · have hfull : k = w.length := Nat.le_antisymm h.len_le (Nat.le_of_not_lt hroom)
    obtain ⟨hv, hva⟩ := age_victim_full w k h hfull hne
    exact ⟨k, age_push_full w _ k _ h hv hva (by rw [hfull]; exact h32)
      (fill_lines_length w _ _) (by rw [hNv]) (by rw [hNv]) (fun j hj => (hN j hj).2.1)
      (fun j hj => (hN j hj).2.2)⟩

theorem Install_eq (c : SimpleCache) (addr : Nat) (dirty : Bool) :
    (c.Install addr dirty).1 =
      { c with
        sets := c.sets.set (c.Decode addr).1
          ((age_all (c.sets.getD (c.Decode addr).1 [])).set
            (PickVictim (c.sets.getD (c.Decode addr).1 []))
            { tag := (c.Decode addr).2, age := 0, valid := true, dirty := dirty }) } := rfl

theorem ageOk_create (cfg : SimpleCacheConfig) : (SimpleCache.create cfg).AgeOk cfg.ways := by
  intro w hw
  have e : w = List.replicate cfg.ways Line.empty := List.eq_of_mem_replicate hw
  rw [e]
  exact ⟨List.length_replicate _ _, 0, ageInv_new _⟩

theorem ageOk_set (sets : List (List Line)) (ways s : Nat) (w2 : List Line)
    (h : ∀ w ∈ sets, w.length = ways ∧ ∃ k, AgeInv w k)
    (h2 : s < sets.length → w2.length = ways ∧ ∃ k, AgeInv w2 k) :
    ∀ w ∈ sets.set s w2, w.length = ways ∧ ∃ k, AgeInv w k := by
  intro w hw
  by_cases hs : s < sets.length
  · rcases List.mem_or_eq_of_mem_set hw with m | e
    · exact h w m
    · rw [e]
      exact h2 hs
  · rw [List.set_eq_of_length_le (Nat.le_of_not_lt hs)] at hw
    exact h w hw

/-- An `Access` keeps the age invariant of every set. -/
theorem ageOk_access (c : SimpleCache) (ways : Nat) (addr : Nat) (isWrite hasUp hasWB : Bool)
    (h : c.AgeOk ways) (h1 : 1 ≤ ways) (h32 : ways < 2 ^ 32) :
    (c.Access addr isWrite hasUp hasWB).2.1.AgeOk ways := by
  cases hl : lookup_way (c.sets.getD (c.Decode addr).1 []) (c.Decode addr).2 0 with
  | some i =>
    rw [Access_hit c addr isWrite hasUp hasWB i hl]
    apply ageOk_set c.sets ways _ _ h
    intro hs
    obtain ⟨hlen, k, hk⟩ := h _ (getD_mem c.sets _ [] hs)
    obtain ⟨pre, x, post, e, hi, hxv, _, _⟩ := lookup_way_some _ _ 0 i hl
    rw [Nat.zero_add] at hi
    have hx : (c.sets.getD (c.Decode addr).1 []).getD i Line.empty = x := by
      rw [e, hi]
      exact getD_append_cons pre x post _
    have hik : i < k := (hk.valid_iff i).1 (by rw [hx]; exact hxv)
    exact ⟨by rw [hit_lines_length]; exact hlen, k,
      ageInv_hit _ k i isWrite hk hik (by rw [hlen]; exact h32)⟩
  | none =>
    rw [Access_miss c addr isWrite hasUp hasWB hl]
    apply ageOk_set c.sets ways _ _ h
    intro hs
    obtain ⟨hlen, k, hk⟩ := h _ (getD_mem c.sets _ [] hs)
    have hne : c.sets.getD (c.Decode addr).1 [] ≠ [] := by
      intro e
      rw [e] at hlen
      rw [← hlen] at h1
      exact absurd h1 (by decide)
    exact ⟨by rw [fill_lines_length]; exact hlen,
      ageInv_fill _ k _ _ hk hne (by rw [hlen]; exact h32)⟩

/-- An `Install` keeps the age invariant of every set. -/
theorem ageOk_install (c : SimpleCache) (ways : Nat) (addr : Nat) (dirty : Bool)
    (h : c.AgeOk ways) (h1 : 1 ≤ ways) (h32 : ways < 2 ^ 32) :
    (c.Install addr dirty).1.AgeOk ways := by
  rw [Install_eq]
  apply ageOk_set c.sets ways _ _ h
  intro hs
  obtain ⟨hlen, k, hk⟩ := h _ (getD_mem c.sets _ [] hs)
  have hne : c.sets.getD (c.Decode addr).1 [] ≠ [] := by
    intro e
    rw [e] at hlen
    rw [← hlen] at h1
    exact absurd h1 (by decide)
  exact ⟨by rw [fill_lines_length]; exact hlen,
    ageInv_fill _ k _ _ hk hne (by rw [hlen]; exact h32)⟩

theorem ageOk_apply (c : SimpleCache) (ways : Nat) (op : CacheOp) (h : c.AgeOk ways)
    (h1 : 1 ≤ ways) (h32 : ways < 2 ^ 32) : (apply_cache_op c op).AgeOk ways := by
  cases op with
  | Access r => exact ageOk_access c ways _ _ _ _ h h1 h32
  | Install a d => exact ageOk_install c ways a d h h1 h32
  | ResetStats => exact h

theorem ageOk_run (ways : Nat) (h1 : 1 ≤ ways) (h32 : ways < 2 ^ 32) (ops : List CacheOp) :
    ∀ c : SimpleCache, c.AgeOk ways → (run_cache_ops c ops).AgeOk ways := by
  induction ops with
  | nil =>
    intro c h
    exact h
  | cons op rest ih =>
    intro c h
    exact ih _ (ageOk_apply c ways op h h1 h32)

/-- With the age invariant the valid lines of a set have ages below the number of lines and
pairwise different ages. -/
theorem ageInv_distinct (w : List Line) (k : Nat) (h : AgeInv w k) (j j2 : Nat)
    (hv : (w.getD j Line.empty).valid = true) (hv2 : (w.getD j2 Line.empty).valid = true) :
    (w.getD j Line.empty).age < w.length ∧
    ((w.getD j Line.empty).age = (w.getD j2 Line.empty).age → j = j2) :=
  ⟨Nat.lt_of_lt_of_le (h.age_lt j ((h.valid_iff j).1 hv)) h.len_le,
   h.inj j j2 ((h.valid_iff j).1 hv) ((h.valid_iff j2).1 hv2)⟩

/-! ### The caches of the engine -/

theorem shaped_create (cfg : SimpleCacheConfig) :
    (SimpleCache.create cfg).Shaped cfg.sets cfg.ways :=
  ⟨rfl, List.length_replicate _ _, ageOk_create cfg⟩

theorem shaped_access (c : SimpleCache) (n ways : Nat) (addr : Nat)
    (isWrite hasUp hasWB : Bool) (h : c.Shaped n ways) (h1 : 1 ≤ ways) (h32 : ways < 2 ^ 32) :
    (c.Access addr isWrite hasUp hasWB).2.1.Shaped n ways := by
  obtain ⟨_, hm, hl, _, _⟩ := Access_frame c addr isWrite hasUp hasWB
  exact ⟨by rw [hm]; exact h.mask_eq, by rw [hl]; exact h.nsets,
    ageOk_access c ways addr isWrite hasUp hasWB h.ages h1 h32⟩

theorem shaped_install (c : SimpleCache) (n ways : Nat) (addr : Nat) (dirty : Bool)
    (h : c.Shaped n ways) (h1 : 1 ≤ ways) (h32 : ways < 2 ^ 32) :
    (c.Install addr dirty).1.Shaped n ways :=
  ⟨h.mask_eq, by rw [Install_eq, List.length_set]; exact h.nsets,
    ageOk_install c ways addr dirty h.ages h1 h32⟩

/-- With at least one set the set index that `Decode` gives is an index of `sets`. -/
theorem decode_in_range (c : SimpleCache) (n ways : Nat) (h : c.Shaped n ways) (hn : 1 ≤ n)
    (a : Nat) : (c.Decode a).1 < c.sets.length := by
  unfold SimpleCache.Decode
  simp only []
  rw [h.nsets, h.mask_eq]
  unfold decr32
  rw [if_neg (by omega)]
  have h1 : (a >>> c.cfg.blockLog2) &&& (n - 1) ≤ n - 1 := Nat.and_le_right
  have h2 := Nat.mod_le ((a >>> c.cfg.blockLog2) &&& (n - 1)) (2 ^ 32)
  omega

theorem shaped_set (c : SimpleCache) (n ways : Nat) (h : c.Shaped n ways) (s : Nat)
    (hs : s < c.sets.length) :
    (c.sets.getD s []).length = ways ∧ ∃ k, AgeInv (c.sets.getD s []) k :=
  h.ages _ (getD_mem c.sets s [] hs)

theorem shaped_set_ne (c : SimpleCache) (n ways : Nat) (h : c.Shaped n ways) (h1 : 1 ≤ ways)
    (s : Nat) (hs : s < c.sets.length) : c.sets.getD s [] ≠ [] := by
  intro e
  have hl := (shaped_set c n ways h s hs).1
  rw [e] at hl
  rw [← hl] at h1
  exact absurd h1 (by decide)

/-- A valid line with the tag of the address makes the cache hold the block. -/
theorem holds_of_line (c : SimpleCache) (a p : Nat)
    (h : has_line (c.sets.getD (c.Decode a).1 []) (c.Decode a).2 p) : c.holds a = true := by
  unfold SimpleCache.holds
  cases hl : lookup_way (c.sets.getD (c.Decode a).1 []) (c.Decode a).2 0 with
  | some i => rfl
  | none =>
    exact absurd ⟨h.2.1, h.2.2⟩ ((lookup_way_none _ _ 0).1 hl _ (getD_mem _ p _ h.1))

/-- After an `Access` the set of the address has a valid line of age 0 with its tag. -/
theorem access_youngest (c : SimpleCache) (a : Nat) (isWrite hasUp hasWB : Bool)
    (hs : (c.Decode a).1 < c.sets.length) (hne : c.sets.getD (c.Decode a).1 [] ≠ []) :
    ∃ p, has_line ((c.Access a isWrite hasUp hasWB).2.1.sets.getD (c.Decode a).1 [])
        (c.Decode a).2 p ∧
      (((c.Access a isWrite hasUp hasWB).2.1.sets.getD (c.Decode a).1 []).getD p
        Line.empty).age = 0 := by
  cases hl : lookup_way (c.sets.getD (c.Decode a).1 []) (c.Decode a).2 0 with
  | some i =>
    rw [Access_hit_set c a isWrite hasUp hasWB i hs hl]
    obtain ⟨pre, x, post, e, hi, hxv, hxt, _⟩ := lookup_way_some _ _ 0 i hl
    rw [Nat.zero_add] at hi
    have hx : (c.sets.getD (c.Decode a).1 []).getD i Line.empty = x := by
      rw [e, hi]
      exact getD_append_cons pre x post _
    have hiw : i < (c.sets.getD (c.Decode a).1 []).length := by
      rw [e, hi, List.length_append, List.length_cons]
      omega
    have hN := hit_lines (c.sets.getD (c.Decode a).1 []) i isWrite hiw i
    rw [if_pos rfl, hx] at hN
    refine ⟨i, ⟨by rw [hit_lines_length]; exact hiw, ?_, ?_⟩, ?_⟩
    · rw [hN]
      exact hxv
    · rw [hN]
      exact hxt
    · rw [hN]
  | none =>
    rw [Access_miss_set c a isWrite hasUp hasWB hs hl]
    have hv := PickVictim_lt _ hne
    have hN := fill_lines (c.sets.getD (c.Decode a).1 [])
      (PickVictim (c.sets.getD (c.Decode a).1 []))
      { tag := (c.Decode a).2, age := 0, valid := true, dirty := isWrite } hv
      (PickVictim (c.sets.getD (c.Decode a).1 []))
    rw [if_pos rfl] at hN
    refine ⟨_, ⟨by rw [fill_lines_length]; exact hv, ?_, ?_⟩, ?_⟩
    · rw [hN]
    · rw [hN]
    · rw [hN]

/-- After `Install(a, d)` the cache holds the block of `a`. -/
theorem install_holds (c : SimpleCache) (n ways : Nat) (h : c.Shaped n ways) (hn : 1 ≤ n)
    (h1 : 1 ≤ ways) (a : Nat) (d : Bool) : (c.Install a d).1.holds a = true := by
  have hs := decode_in_range c n ways h hn a
  have hv := PickVictim_lt _ (shaped_set_ne c n ways h h1 _ hs)
  have hN := fill_lines (c.sets.getD (c.Decode a).1 [])
    (PickVictim (c.sets.getD (c.Decode a).1 []))
    { tag := (c.Decode a).2, age := 0, valid := true, dirty := d } hv
    (PickVictim (c.sets.getD (c.Decode a).1 []))
  rw [if_pos rfl] at hN
  apply holds_of_line _ a (PickVictim (c.sets.getD (c.Decode a).1 []))
  have hd : (c.Install a d).1.Decode a = c.Decode a := rfl
  rw [hd, Install_eq]
  show has_line ((c.sets.set _ _).getD _ []) _ _
  rw [getD_set_self _ _ _ _ hs]
  exact ⟨by rw [fill_lines_length]; exact hv, by rw [hN], by rw [hN]⟩

/-- With two ways or more an `Install` does not replace the youngest line of a set. -/
theorem install_keeps_youngest (c : SimpleCache) (n ways : Nat) (h : c.Shaped n ways)
    (hw : 2 ≤ ways) (h32 : ways < 2 ^ 32) (a2 : Nat) (d : Bool) (s t p : Nat)
    (hs : s < c.sets.length) (hp : has_line (c.sets.getD s []) t p)
    (hp0 : ((c.sets.getD s []).getD p Line.empty).age = 0) :
    has_line ((c.Install a2 d).1.sets.getD s []) t p := by
  rw [Install_eq]
  show has_line ((c.sets.set _ _).getD s []) t p
  by_cases e : (c.Decode a2).1 = s
  · rw [e, getD_set_self _ _ _ _ hs]
    obtain ⟨hlen, k, hk⟩ := shaped_set c n ways h s hs
    have hne : c.sets.getD s [] ≠ [] := shaped_set_ne c n ways h (by omega) s hs
    have hv := PickVictim_lt _ hne
    have hpk : p < k := (hk.valid_iff p).1 hp.2.1
    have hpv : p ≠ PickVictim (c.sets.getD s []) := by
      by_cases hroom : k < (c.sets.getD s []).length
      · rw [age_victim_room _ k hk hroom]
        omega
      · have hfull : k = (c.sets.getD s []).length :=
          Nat.le_antisymm hk.len_le (Nat.le_of_not_lt hroom)
        obtain ⟨_, hva⟩ := age_victim_full _ k hk hfull hne
        intro e2
        rw [← e2, hp0] at hva
        omega
    have hN := fill_lines_facts (c.sets.getD s []) (PickVictim (c.sets.getD s []))
      { tag := (c.Decode a2).2, age := 0, valid := true, dirty := d } hv p hpv
    exact ⟨by rw [fill_lines_length]; exact hp.1, by rw [hN.2.1]; exact hp.2.1,
      by rw [hN.1]; exact hp.2.2⟩
  · rw [getD_set_ne _ _ _ _ _ e]
    exact hp

/-- The callbacks of an `L2` access leave `L1` as it is or install one block in it. -/
theorem run_L2_callbacks_access (l1 c2 : SimpleCache) (b : Nat) (wr : Bool) :
    run_L2_callbacks l1 (c2.Access b wr true true).2.2 = l1 ∨
    ∃ a2 d, Callback.up a2 d ∈ (c2.Access b wr true true).2.2 ∧
      run_L2_callbacks l1 (c2.Access b wr true true).2.2 = (l1.Install a2 d).1 := by
  cases hh : (c2.Access b wr true true).1 with
  | true =>
    rw [Access_calls_of_hit c2 b wr true true hh]
    exact Or.inl rfl
  | false =>
    rw [(Access_calls_of_miss c2 b wr hh).2]
    split
    · right
      refine ⟨_, _, List.mem_cons_self _ _, ?_⟩
      split <;> rfl
    · exact Or.inl rfl

/-- The caches after one memory event. -/
theorem step_caches (s : State) (ev : MemEvent) :
    (step s ev).l1 =
      (if (s.l1.Access (block_floor s.blk ev.addr) (decide (ev.op = WRITE_OP)) false false).1
      then (s.l1.Access (block_floor s.blk ev.addr) (decide (ev.op = WRITE_OP)) false false).2.1
      else
        run_L2_callbacks
          (s.l1.Access (block_floor s.blk ev.addr) (decide (ev.op = WRITE_OP)) false false).2.1
          (s.L2.Access (block_floor s.blk ev.addr) (decide (ev.op = WRITE_OP)) true true).2.2) ∧
    (step s ev).L2 =
      (if (s.l1.Access (block_floor s.blk ev.addr) (decide (ev.op = WRITE_OP)) false false).1
      then s.L2
      else (s.L2.Access (block_floor s.blk ev.addr) (decide (ev.op = WRITE_OP)) true true).2.1) ∧
    (step s ev).blk = s.blk := by
  cases ev with
  | read a => exact CacheCall_caches _ _ _ _
  | write a => exact CacheCall_caches _ _ _ _

theorem run_snoc (s : State) (evs : List MemEvent) (ev : MemEvent) :
    run s (evs ++ [ev]) = step (run s evs) ev := by
  unfold run
  rw [List.foldl_append]
  rfl

theorem run_blk (evs : List MemEvent) : ∀ s : State, (run s evs).blk = s.blk := by
  induction evs with
  | nil =>
    intro s
    rfl
  | cons ev rest ih =>
    intro s
    show (run (step s ev) rest).blk = s.blk
    rw [ih, (step_caches s ev).2.2]

theorem step_l1_shaped (s : State) (ev : MemEvent) (n ways : Nat) (h : s.l1.Shaped n ways)
    (h1 : 1 ≤ ways) (h32 : ways < 2 ^ 32) : (step s ev).l1.Shaped n ways := by
  rw [(step_caches s ev).1]
  have ha := shaped_access s.l1 n ways (block_floor s.blk ev.addr) (decide (ev.op = WRITE_OP))
    false false h h1 h32
  split
  · exact ha
  · rcases run_L2_callbacks_access
      (s.l1.Access (block_floor s.blk ev.addr) (decide (ev.op = WRITE_OP)) false false).2.1
      s.L2 (block_floor s.blk ev.addr) (decide (ev.op = WRITE_OP)) with e | ⟨a2, d, _, e⟩
    · rw [e]
      exact ha
    · rw [e]
      exact shaped_install _ n ways a2 d ha h1 h32

theorem run_l1_shaped (n ways : Nat) (h1 : 1 ≤ ways) (h32 : ways < 2 ^ 32)
    (evs : List MemEvent) :
    ∀ s : State, s.l1.Shaped n ways → (run s evs).l1.Shaped n ways := by
  induction evs with
  | nil =>
    intro s h
    exact h
  | cons ev rest ih =>
    intro s h
    exact ih _ (step_l1_shaped s ev n ways h h1 h32)

/-- With an `L1` of two ways or more, after a memory event `L1` holds the block accessed. -/
theorem step_l1_holds (s : State) (ev : MemEvent) (n ways : Nat) (h : s.l1.Shaped n ways)
    (hn : 1 ≤ n) (hw : 2 ≤ ways) (h32 : ways < 2 ^ 32) :
    (step s ev).l1.holds (block_floor s.blk ev.addr) = true := by
  have hs := decode_in_range s.l1 n ways h hn (block_floor s.blk ev.addr)
  have hne := shaped_set_ne s.l1 n ways h (by omega) _ hs
  obtain ⟨p, hp, hp0⟩ := access_youngest s.l1 (block_floor s.blk ev.addr)
    (decide (ev.op = WRITE_OP)) false false hs hne
  have ha := shaped_access s.l1 n ways (block_floor s.blk ev.addr) (decide (ev.op = WRITE_OP))
    false false h (by omega) h32
  obtain ⟨hcfg, hm, hl, _, _⟩ := Access_frame s.l1 (block_floor s.blk ev.addr)
    (decide (ev.op = WRITE_OP)) false false
  have hd := Decode_congr _ s.l1 hcfg hm (block_floor s.blk ev.addr)
  have hin : has_line
      ((s.l1.Access (block_floor s.blk ev.addr) (decide (ev.op = WRITE_OP)) false
        false).2.1.sets.getD
        ((s.l1.Access (block_floor s.blk ev.addr) (decide (ev.op = WRITE_OP)) false
          false).2.1.Decode (block_floor s.blk ev.addr)).1 [])
      ((s.l1.Access (block_floor s.blk ev.addr) (decide (ev.op = WRITE_OP)) false
          false).2.1.Decode (block_floor s.blk ev.addr)).2 p := by
    rw [hd]
    exact hp
  rw [(step_caches s ev).1]
  split
  · exact holds_of_line _ _ p hin
  · rcases run_L2_callbacks_access
      (s.l1.Access (block_floor s.blk ev.addr) (decide (ev.op = WRITE_OP)) false false).2.1
      s.L2 (block_floor s.blk ev.addr) (decide (ev.op = WRITE_OP)) with e | ⟨a2, d, _, e⟩
    · rw [e]
      exact holds_of_line _ _ p hin
    · rw [e]
      apply holds_of_line _ _ p
      have hd2 : ((s.l1.Access (block_floor s.blk ev.addr) (decide (ev.op = WRITE_OP)) false
          false).2.1.Install a2 d).1.Decode (block_floor s.blk ev.addr) =
          s.l1.Decode (block_floor s.blk ev.addr) := hd
      rw [hd2]
      exact install_keeps_youngest _ n ways ha hw h32 a2 d _ _ p (by rw [hl]; exact hs) hp hp0

/-! ### The victim of an `L2` access -/

theorem last_not_mem_dropLast (S : List Nat) (hnd : S.Nodup) (hpos : 0 < S.length) :
    S.getD (S.length - 1) 0 ∉ S.dropLast := by
  intro hm
  obtain ⟨j, hj, ej⟩ := mem_getD S.dropLast _ 0 hm
  rw [List.length_dropLast] at hj
  rw [getD_dropLast S j (by omega), List.getD_eq_getElem S 0 (by omega : j < S.length),
    List.getD_eq_getElem S 0 (by omega : S.length - 1 < S.length)] at ej
  have := (hnd.getElem_inj_iff).1 ej
  omega

/-- Every tag of a stack is the tag of an address of the history. -/
theorem mem_tag_stack_decode (c : SimpleCache) (hist : List Nat) (s t : Nat)
    (h : t ∈ tag_stack c hist s) : ∃ b ∈ hist, (c.Decode b).2 = t := by
  unfold tag_stack at h
  have h1 := mem_distinct_first _ _ (List.mem_of_mem_take h)
  rw [List.mem_reverse, List.mem_map] at h1
  obtain ⟨b, hb, e⟩ := h1
  exact ⟨b, (List.mem_filter.1 hb).1, e⟩

theorem decode_tag_lt (c : SimpleCache) (B K : Nat) (g : c.Geom B K) (b : Nat)
    (hb : b < 2 ^ 64) : (c.Decode b).2 < 2 ^ (64 - B - K) := by
  rw [decode_eq c B K g b]
  show b / 2 ^ B / 2 ^ K < 2 ^ (64 - B - K)
  have hK := geom_K_lt c B K g
  have hB := g.hB
  have h3 : 2 ^ (64 - B - K) * 2 ^ K * 2 ^ B = 2 ^ 64 := by
    rw [← Nat.pow_add, ← Nat.pow_add]
    congr 1
    omega
  rw [Nat.div_lt_iff_lt_mul (Nat.two_pow_pos K), Nat.div_lt_iff_lt_mul (Nat.two_pow_pos B), h3]
  exact hb

/-- The block that an access evicts (the argument of its `up` call) is not valid in the cache
afterwards. -/
theorem evicted_not_held (c0 c : SimpleCache) (hist : List Nat) (B K : Nat)
    (g : c0.Geom B K) (hw : 1 ≤ c0.cfg.ways) (h32 : c0.cfg.ways < 2 ^ 32)
    (h : CacheInv c0 c hist) (hh : ∀ b ∈ hist, b < 2 ^ 64) (b : Nat) (wr : Bool)
    (a2 : Nat) (d : Bool) (hup : Callback.up a2 d ∈ (c.Access b wr true true).2.2) :
    (c.Access b wr true true).2.1.holds a2 = false := by
  have hmiss : (c.Access b wr true true).1 = false := by
    cases hh2 : (c.Access b wr true true).1 with
    | false => rfl
    | true =>
      rw [Access_calls_of_hit c b wr true true hh2] at hup
      cases hup
  obtain ⟨hlook, hcalls⟩ := Access_calls_of_miss c b wr hmiss
  have hd : c.Decode b = c0.Decode b := Decode_congr c c0 h.cfg_eq h.mask_eq b
  have hs0 : (c.Decode b).1 < c0.cfg.sets := by
    rw [hd, g.nsets]
    exact decode_set_lt c0 B K g b
  obtain ⟨hlen, hS⟩ := h.sets_ok _ hs0
  rw [hcalls] at hup
  by_cases hval : ((c.sets.getD (c.Decode b).1 []).getD
      (PickVictim (c.sets.getD (c.Decode b).1 [])) Line.empty).valid = true
  · rw [if_pos hval] at hup
    have ha2 : a2 = c.Reconstruct (c.Decode b).1
        ((c.sets.getD (c.Decode b).1 []).getD
          (PickVictim (c.sets.getD (c.Decode b).1 [])) Line.empty).tag := by
      rcases List.mem_cons.1 hup with e | e
      · cases e
        rfl
      · split at e
        · rcases List.mem_cons.1 e with e2 | e2
          · cases e2
          · cases e2
        · cases e
    have hvk := (hS.valid_iff _).1 hval
    have hfull : (tag_stack c0 hist (c.Decode b).1).length =
        (c.sets.getD (c.Decode b).1 []).length := by
      apply Nat.le_antisymm hS.len_le
      apply Nat.le_of_not_lt
      intro hroom
      rw [victim_room _ _ hS hroom] at hvk
      exact Nat.lt_irrefl _ hvk
    have hne : c.sets.getD (c.Decode b).1 [] ≠ [] := by
      intro e
      rw [e] at hlen
      rw [← hlen] at hw
      exact absurd hw (by decide)
    obtain ⟨_, hva⟩ := victim_full _ _ hS hfull hne
    have htag := hS.tag_eq _ hvk
    have hage : ((c.sets.getD (c.Decode b).1 []).getD
        (PickVictim (c.sets.getD (c.Decode b).1 [])) Line.empty).age =
        (tag_stack c0 hist (c.Decode b).1).length - 1 := by omega
    rw [hage] at htag
    have hpos : 0 < (tag_stack c0 hist (c.Decode b).1).length := by omega
    have hmemS : ((c.sets.getD (c.Decode b).1 []).getD
        (PickVictim (c.sets.getD (c.Decode b).1 [])) Line.empty).tag ∈
        tag_stack c0 hist (c.Decode b).1 := by
      rw [← htag]
      exact getD_mem _ _ 0 (by omega)
    have htnot : (c.Decode b).2 ∉ tag_stack c0 hist (c.Decode b).1 := by
      intro hm
      exact (setInv_lookup _ _ _ hS).2 hm hlook
    obtain ⟨b2, hb2, eb2⟩ := mem_tag_stack_decode c0 hist _ _ hmemS
    have htv := decode_tag_lt c0 B K g b2 (hh b2 hb2)
    rw [eb2] at htv
    have hinv2 := cacheInv_access c0 c hist b wr true true B K g hw h32 h
    have hS2 := (hinv2.sets_ok _ hs0).2
    have hst := tag_stack_same c0 hist b hw
    rw [← hd, if_neg htnot, if_neg (by rw [hfull, hlen]; exact Nat.lt_irrefl _)] at hst
    rw [hst] at hS2
    have hdec : (c.Access b wr true true).2.1.Decode a2 =
        ((c.Decode b).1,
          ((c.sets.getD (c.Decode b).1 []).getD
            (PickVictim (c.sets.getD (c.Decode b).1 [])) Line.empty).tag) := by
      rw [Decode_congr _ c0 hinv2.cfg_eq hinv2.mask_eq, ha2,
        Reconstruct_congr c c0 h.cfg_eq]
      exact decode_reconstruct c0 B K g _ _ (by rw [← g.nsets]; exact hs0) htv
    unfold SimpleCache.holds
    rw [hdec]
    cases hl : lookup_way ((c.Access b wr true true).2.1.sets.getD (c.Decode b).1 [])
        ((c.sets.getD (c.Decode b).1 []).getD
          (PickVictim (c.sets.getD (c.Decode b).1 [])) Line.empty).tag 0 with
    | none => rfl
    | some i =>
      exfalso
      have hin := (setInv_lookup _ _ _ hS2).1 (by rw [hl]; exact Option.some_ne_none i)
      rcases List.mem_cons.1 hin with e | e
      · exact htnot (by rw [← e]; exact hmemS)
      · rw [← htag] at e
        exact last_not_mem_dropLast _ hS.nodup hpos e
  · rw [if_neg hval] at hup
    cases hup

theorem block_floor_lt (blk a : Nat) : block_floor blk a < 2 ^ 64 := by
  unfold block_floor
  have h1 : (a % 2 ^ 64) &&& (2 ^ 64 - 1 - decr32 blk) ≤ a % 2 ^ 64 := Nat.and_le_left
  have h2 : a % 2 ^ 64 < 2 ^ 64 := Nat.mod_lt _ (by norm_num)
  omega

/-- When the `L2` access evicts a block, its callbacks install that block in `L1`. -/
theorem run_L2_callbacks_of_up (l1 c2 : SimpleCache) (b : Nat) (wr : Bool) (a2 : Nat)
    (d : Bool) (hup : Callback.up a2 d ∈ (c2.Access b wr true true).2.2) :
    run_L2_callbacks l1 (c2.Access b wr true true).2.2 = (l1.Install a2 d).1 := by
  have hmiss : (c2.Access b wr true true).1 = false := by
    cases hh2 : (c2.Access b wr true true).1 with
    | false => rfl
    | true =>
      rw [Access_calls_of_hit c2 b wr true true hh2] at hup
      cases hup
  rw [(Access_calls_of_miss c2 b wr hmiss).2] at hup ⊢
  split at hup
  · rename_i hval
    rw [if_pos hval]
    have e : Callback.up a2 d = Callback.up
        (c2.Reconstruct (c2.Decode b).1
          ((c2.sets.getD (c2.Decode b).1 []).getD
            (PickVictim (c2.sets.getD (c2.Decode b).1 [])) Line.empty).tag)
        ((c2.sets.getD (c2.Decode b).1 []).getD
          (PickVictim (c2.sets.getD (c2.Decode b).1 [])) Line.empty).dirty := by
      rcases List.mem_cons.1 hup with e | e
      · exact e
      · split at e
        · rcases List.mem_cons.1 e with e2 | e2
          · cases e2
          · cases e2
        · cases e
    rw [← e]
    split <;> rfl
  · cases hup

theorem step_L2_inv (c0 : SimpleCache) (B K : Nat) (g : c0.Geom B K) (hw : 1 ≤ c0.cfg.ways)
    (h32 : c0.cfg.ways < 2 ^ 32) (s : State) (ev : MemEvent)
    (h : ∃ hist, CacheInv c0 s.L2 hist ∧ ∀ b ∈ hist, b < 2 ^ 64) :
    ∃ hist, CacheInv c0 (step s ev).L2 hist ∧ ∀ b ∈ hist, b < 2 ^ 64 := by
  obtain ⟨hist, hi, hh⟩ := h
  rw [(step_caches s ev).2.1]
  split
  · exact ⟨hist, hi, hh⟩
  · refine ⟨hist ++ [block_floor s.blk ev.addr],
      cacheInv_access c0 s.L2 hist _ _ true true B K g hw h32 hi, ?_⟩
    intro b hb
    rcases List.mem_append.1 hb with m | m
    · exact hh b m
    · rw [List.mem_singleton.1 m]
      exact block_floor_lt _ _

theorem run_L2_inv (c0 : SimpleCache) (B K : Nat) (g : c0.Geom B K) (hw : 1 ≤ c0.cfg.ways)
    (h32 : c0.cfg.ways < 2 ^ 32) (evs : List MemEvent) :
    ∀ s : State, (∃ hist, CacheInv c0 s.L2 hist ∧ ∀ b ∈ hist, b < 2 ^ 64) →
      ∃ hist, CacheInv c0 (run s evs).L2 hist ∧ ∀ b ∈ hist, b < 2 ^ 64 := by
  induction evs with
  | nil =>
    intro s h
    exact h
  | cons ev rest ih =>
    intro s h
    exact ih _ (step_L2_inv c0 B K g hw h32 s ev h)

/-- C1 (fails on the code): with `unclsize = clsize = 1` the reads `0x0000`, `0x0040` both miss
`L2` (two misses counted), every knob is at least 1, and after the second CU-tier step page 0 is
in `unclist` and in `clist`: the warm-up fill of `clist` does not look the page up in
`unclist`. -/
theorem C1_page_in_both_lists :
    (run (State.init tiny_knobs) same_page_reads).L2.Misses = 2 ∧
    0 ∈ (run (State.init tiny_knobs) same_page_reads).unclist.get_nodes ∧
    0 ∈ (run (State.init tiny_knobs) same_page_reads).clist.get_nodes ∧
    (run (State.init tiny_knobs) same_page_reads).unclist.find_node 0x0040 ≠ none ∧
    (run (State.init tiny_knobs) same_page_reads).clist.find_node 0x0040 ≠ none := by
  decide

/-- C2 as stated fails: after the five reads of scenario 1 the counters are not
`unclist_access = 1`, `clist_access = 0`, `cpage_access = 0`. -/
theorem C2_scenario1_counters_as_stated_fail :
    ¬ ((run (State.init scenario1_knobs) scenario1_reads).unclist_access = 1 ∧
       (run (State.init scenario1_knobs) scenario1_reads).clist_access = 0 ∧
       (run (State.init scenario1_knobs) scenario1_reads).cpage_access = 0) := by
  decide

/-- C2 (amended): in scenario 1 all five reads miss `L1` and `L2`, the lists end as
`unclist = [1, 0]` and `clist = [3, 2]`, and the counters are `unclist_access = 3`,
`clist_access = 2`, `cpage_access = 0`: each warm-up fill counts as an access of the list it
fills, and the fifth read is the one hit in `unclist`. -/
theorem C2_scenario1_counters :
    (run (State.init scenario1_knobs) scenario1_reads).l1.Misses = 5 ∧
    (run (State.init scenario1_knobs) scenario1_reads).L2.Misses = 5 ∧
    (run (State.init scenario1_knobs) scenario1_reads).unclist.get_nodes = [1, 0] ∧
    (run (State.init scenario1_knobs) scenario1_reads).clist.get_nodes = [3, 2] ∧
    (run (State.init scenario1_knobs) scenario1_reads).unclist_access = 3 ∧
    (run (State.init scenario1_knobs) scenario1_reads).clist_access = 2 ∧
    (run (State.init scenario1_knobs) scenario1_reads).cpage_access = 0 := by
  decide

/-- C8: `touch` on a present page.  For a well-formed list that holds page `a >> 12`, the list
has a node `n` of that page, and after `touch(a)` the nodes are `n` with `access_count`
incremented as a `uint64_t` (so one higher unless it was `2^64 - 1`) at the head (MRU),
followed by all other nodes in their previous order and with their previous contents;
`get_nodes()` is the page followed by the other pages in their previous order; size and table
are unchanged, the list is still well-formed, and when the page was already the head the order
of the pages is the same as before. -/
theorem C8_touch_present (l : HashLL) (a : Nat) (fresh : Ptr) (hwf : l.WF)
    (hin : addr_to_num a ∈ l.get_nodes) :
    ∃ n, n ∈ l.nodes ∧ n.vp_num = addr_to_num a ∧
      (l.touch a fresh).nodes =
        { addr := n.addr, vp_num := n.vp_num, access_count := incr64 n.access_count } ::
          l.nodes.erase n ∧
      (n.access_count + 1 < 2 ^ 64 →
        (l.touch a fresh).nodes =
          { addr := n.addr, vp_num := n.vp_num, access_count := n.access_count + 1 } ::
            l.nodes.erase n) ∧
      (l.touch a fresh).get_nodes = addr_to_num a :: l.get_nodes.erase (addr_to_num a) ∧
      (l.touch a fresh).get_size = l.get_size ∧
      (l.touch a fresh).table = l.table ∧
      (l.touch a fresh).WF ∧
      (l.get_nodes.head? = some (addr_to_num a) →
        (l.touch a fresh).get_nodes = l.get_nodes) := by
  obtain ⟨n, hn, hv⟩ := List.mem_map.1 hin
  have e := touch_of_present l a fresh n hwf hn hv
  have hw := wf_touch_present l n hwf hn
  rw [← e] at hw
  have hnodes : (l.touch a fresh).nodes = n.bumped :: l.nodes.erase n := by
    rw [e, ← filter_addr_eq_erase l.nodes n hn hwf.indexed.1]
  have hpages : (l.touch a fresh).get_nodes =
      addr_to_num a :: l.get_nodes.erase (addr_to_num a) := by
    unfold HashLL.get_nodes
    rw [hnodes, List.map_cons, map_vp_erase l.nodes n hn (indexed_pages_nodup hwf.indexed),
      bumped_vp_num, hv]
  refine ⟨n, hn, hv, hnodes, ?_, hpages, by rw [e]; rfl, by rw [e], hw, ?_⟩
  · intro hb
    rw [hnodes]
    show ({ n with access_count := incr64 n.access_count } : hash_node) :: _ = _
    rw [incr64_small _ hb]
  intro hh
  rw [hpages]
  cases hg : l.get_nodes with
  | nil => rw [hg] at hh; cases hh
  | cons x rest =>
    rw [hg] at hh
    simp only [List.head?_cons, Option.some.injEq] at hh
    rw [hh]
    simp

/-- C8 at a list holding pages 7 and 5 (capacity 3), touching an address of page 5. -/
theorem C8_touch_present_witness :
    two_pages.WF ∧ addr_to_num 0x5abc ∈ two_pages.get_nodes ∧
    ∃ n, n ∈ two_pages.nodes ∧ n.vp_num = addr_to_num 0x5abc ∧
      (two_pages.touch 0x5abc 3).nodes =
        { addr := n.addr, vp_num := n.vp_num, access_count := incr64 n.access_count } ::
          two_pages.nodes.erase n ∧
      (n.access_count + 1 < 2 ^ 64 →
        (two_pages.touch 0x5abc 3).nodes =
          { addr := n.addr, vp_num := n.vp_num, access_count := n.access_count + 1 } ::
            two_pages.nodes.erase n) ∧
      (two_pages.touch 0x5abc 3).get_nodes =
        addr_to_num 0x5abc :: two_pages.get_nodes.erase (addr_to_num 0x5abc) ∧
      (two_pages.touch 0x5abc 3).get_size = two_pages.get_size ∧
      (two_pages.touch 0x5abc 3).table = two_pages.table ∧
      (two_pages.touch 0x5abc 3).WF ∧
      (two_pages.get_nodes.head? = some (addr_to_num 0x5abc) →
        (two_pages.touch 0x5abc 3).get_nodes = two_pages.get_nodes) :=
  ⟨wf_two_pages, by decide, C8_touch_present two_pages 0x5abc 3 wf_two_pages (by decide)⟩

/-- C9: `touch` on an absent page.  For a well-formed list of capacity at least 1 with
`size ≤ cap`, an address `a` whose page is not in the list and the address `fresh` of the newly
allocated node: when `size < cap` the nodes afterwards are the new node (page `a >> 12`,
`access_count` 1) followed by all previous nodes; when `size = cap` they are the new node
followed by the previous nodes without the previous tail, and the previous tail is no longer in
the list and its page no longer in the table; in both cases the size is `min (size + 1) cap`,
the table maps the new page to the new node, and the list is well-formed (the table indexes
exactly the nodes of the list). -/
theorem C9_touch_absent (l : HashLL) (a : Nat) (fresh : Ptr) (hwf : l.WF) (hcap : 1 ≤ l.cap)
    (hsz : l.size ≤ l.cap) (hfresh : fresh ∉ l.nodes.map hash_node.addr)
    (hout : addr_to_num a ∉ l.get_nodes) :
    (l.size < l.cap →
      (l.touch a fresh).nodes =
        { addr := fresh, vp_num := addr_to_num a, access_count := 1 } :: l.nodes) ∧
    (l.size = l.cap →
      (l.touch a fresh).nodes =
        { addr := fresh, vp_num := addr_to_num a, access_count := 1 } :: l.nodes.dropLast ∧
      ∀ ev, l.lru_node = some ev →
        ev ∉ (l.touch a fresh).nodes ∧ table_find (l.touch a fresh).table ev.vp_num = none) ∧
    (l.touch a fresh).get_size = min (l.size + 1) l.cap ∧
    (l.touch a fresh).find_node a = some fresh ∧
    (l.touch a fresh).WF := by
  have hw := wf_touch l a fresh hwf hcap hfresh
  rcases touch_cases l a fresh hwf hcap hfresh with ⟨n, hn, hv, _⟩ | ⟨_, hroom, e⟩ |
    ⟨_, hfull, init, ev, hl, e⟩
  · exact absurd (List.mem_map.2 ⟨n, hn, hv⟩) hout
  · refine ⟨fun _ => by rw [e]; rfl, fun h => by omega, ?_, ?_, hw⟩
    · rw [e]
      show incr32 l.size = min (l.size + 1) l.cap
      rw [incr32_of_lt l.size l.cap hroom hwf.cap_u32]
      omega
    · rw [e]
      exact table_find_set_self _ _ _
  · have hfind : table_find l.table (addr_to_num a) = none :=
      indexed_find_none_of_not_mem hwf.indexed hout
    have hnd := hwf.indexed.1
    have hne : ¬ fresh = ev.addr := by
      intro h
      apply hfresh
      rw [hl, h]
      simp
    refine ⟨fun h => absurd h hfull, fun _ => ⟨?_, ?_⟩, ?_, ?_, hw⟩
    · rw [e, hl, List.dropLast_concat]
      rfl
    · intro ev' hev'
      have : ev' = ev := by
        rw [HashLL.lru_node, hl, List.getLast?_append] at hev'
        simpa using hev'.symm
      subst this
      rw [e]
      refine ⟨?_, table_find_erase_self _ _⟩
      show ev' ∉ hash_node.create fresh a :: init
      rw [hl, List.map_append, List.nodup_append] at hnd
      intro hm
      rcases List.mem_cons.1 hm with h | h
      · exact hne (by rw [h]; rfl)
      · exact hnd.2.2 (List.mem_map_of_mem _ h) (by simp)
    · rw [e]
      show l.size = min (l.size + 1) l.cap
      omega
    · rw [e]
      show table_find (table_erase (table_set l.table (addr_to_num a) fresh) ev.vp_num)
        (addr_to_num a) = some fresh
      have hk : addr_to_num a ≠ ev.vp_num := by
        intro h
        apply hout
        rw [h]
        exact List.mem_map_of_mem _ (by rw [hl]; simp)
      rw [table_find_erase_ne _ _ _ hk, table_find_set_self]

/-- C9 at a full list of capacity 2 holding pages 7 and 5, touching an address of page 9. -/
theorem C9_touch_absent_witness :
    (full_two_pages.touch 0x9010 3).get_nodes = [9, 7] ∧
    (full_two_pages.touch 0x9010 3).get_size = min (full_two_pages.size + 1) full_two_pages.cap ∧
    (full_two_pages.touch 0x9010 3).find_node 0x9010 = some 3 ∧
    (full_two_pages.touch 0x9010 3).WF :=
  have h := C9_touch_absent full_two_pages 0x9010 3 wf_full_two_pages (by decide) (by decide)
    (by decide) (by decide)
  ⟨by decide, h.2.2.1, h.2.2.2.1, h.2.2.2.2⟩

/-- C3: the promotion gate.  In a CU-tier step with both lists full the step is the hit checks
applied to the state the gate leaves.  If `uc_epoch ≥ exfreq` the gate replaces the two lists by
the result of one `clist.swap_with(unclist)` and sets `uc_epoch` to 0, changing nothing else; if
`uc_epoch < exfreq` the gate changes nothing (no page moves, `uc_epoch` stays); in both cases
`cl_epoch` is as before. -/
theorem C3_promotion_gate (s : State) (a : Nat) (hu : s.unclist.isFull = true)
    (hc : s.clist.isFull = true) :
    cu_tier s a = hit_checks (promotion_gate s) a ∧
    (s.uc_epoch ≥ s.expansionFrequency →
      promotion_gate s =
        { s with clist := (s.clist.swap_with s.unclist).1,
                 unclist := (s.clist.swap_with s.unclist).2, uc_epoch := 0 }) ∧
    (s.uc_epoch < s.expansionFrequency → promotion_gate s = s) ∧
    (promotion_gate s).cl_epoch = s.cl_epoch := by
  refine ⟨cu_tier_of_full s a hu hc, ?_, ?_, (promotion_gate_frame s).2.2.2.2.2.1⟩
  · intro h
    unfold promotion_gate
    rw [if_pos h]
  · intro h
    unfold promotion_gate
    rw [if_neg (by omega)]

/-- C3 at scenario 2 after warm-up with `uc_epoch = 5 ≥ exfreq = 4`: the gate swaps page 3 (from
`clist`) with page 0 (the LRU of `unclist`) and resets `uc_epoch`. -/
theorem C3_promotion_gate_witness :
    gate_open_state.unclist.isFull = true ∧ gate_open_state.clist.isFull = true ∧
    gate_open_state.uc_epoch ≥ gate_open_state.expansionFrequency ∧
    cu_tier gate_open_state 0x2000 = hit_checks (promotion_gate gate_open_state) 0x2000 ∧
    (promotion_gate gate_open_state).unclist.get_nodes = [3, 1] ∧
    (promotion_gate gate_open_state).clist.get_nodes = [2, 0] ∧
    (promotion_gate gate_open_state).uc_epoch = 0 ∧
    (promotion_gate gate_open_state).cl_epoch = gate_open_state.cl_epoch :=
  have h := C3_promotion_gate gate_open_state 0x2000 (by decide) (by decide)
  ⟨by decide, by decide, by decide, h.1, by decide, by decide, by decide, h.2.2.2⟩

/-- C4: the uncompressed hit.  In a CU-tier step with both lists full in which, after the
promotion gate, `unclist.find_node` gives the node `n` of `unclist` (the nodes of `unclist` having
pairwise different addresses): `unclist_access` is incremented as a `uint64_t` (it grows by 1
unless it was `2^64 - 1`) and `clist_access`, `cpage_access` stay; afterwards the node at that
address is `n` with `access_count` incremented as a `uint64_t` (one higher unless it was
`2^64 - 1`); if `uc_epoch ≥ unclfreq` (the value the gate leaves) that node is the head of
`unclist`, followed by the other nodes in their previous order, and `uc_epoch` is 0; otherwise the
sequence of nodes of `unclist` (addresses and pages) and `uc_epoch` are as the gate left them;
`clist` and `cl_epoch` are as the gate left them. -/
theorem C4_unclist_hit (s : State) (a : Nat) (n : hash_node)
    (hu : s.unclist.isFull = true) (hc : s.clist.isFull = true)
    (hfind : (promotion_gate s).unclist.find_node a = some n.addr)
    (hn : n ∈ (promotion_gate s).unclist.nodes)
    (hnd : ((promotion_gate s).unclist.nodes.map hash_node.addr).Nodup) :
    ((cu_tier s a).unclist_access = incr64 s.unclist_access ∧
      (s.unclist_access + 1 < 2 ^ 64 →
        (cu_tier s a).unclist_access = s.unclist_access + 1)) ∧
    (cu_tier s a).clist_access = s.clist_access ∧
    (cu_tier s a).cpage_access = s.cpage_access ∧
    ((cu_tier s a).unclist.deref n.addr =
        some { addr := n.addr, vp_num := n.vp_num, access_count := incr64 n.access_count } ∧
      (n.access_count + 1 < 2 ^ 64 →
        (cu_tier s a).unclist.deref n.addr =
          some { addr := n.addr, vp_num := n.vp_num, access_count := n.access_count + 1 })) ∧
    ((promotion_gate s).uc_epoch ≥ s.unclist_freq →
      (cu_tier s a).unclist.nodes =
        { addr := n.addr, vp_num := n.vp_num, access_count := incr64 n.access_count } ::
          (promotion_gate s).unclist.nodes.erase n ∧
      (cu_tier s a).uc_epoch = 0) ∧
    ((promotion_gate s).uc_epoch < s.unclist_freq →
      (cu_tier s a).unclist.nodes.map hash_node.addr =
        (promotion_gate s).unclist.nodes.map hash_node.addr ∧
      (cu_tier s a).unclist.get_nodes = (promotion_gate s).unclist.get_nodes ∧
      (cu_tier s a).uc_epoch = (promotion_gate s).uc_epoch) ∧
    (cu_tier s a).clist = (promotion_gate s).clist ∧
    (cu_tier s a).cl_epoch = s.cl_epoch := by
  obtain ⟨f1, f2, f3, f4, _, f6, _⟩ := promotion_gate_frame s
  rw [cu_tier_of_full s a hu hc, hit_checks_unclist _ a n.addr hfind, f4]
  have ht := touch_of_found (promotion_gate s).unclist a (promotion_gate s).brk n hfind hn hnd
  have hi := increment_count_of_found (promotion_gate s).unclist a n.addr hfind
  by_cases he : (promotion_gate s).uc_epoch ≥ s.unclist_freq
  · rw [if_pos he]
    have h4 : ((promotion_gate s).unclist.touch a (promotion_gate s).brk).deref n.addr =
        some { addr := n.addr, vp_num := n.vp_num,
               access_count := incr64 n.access_count } := by
      rw [ht]
      simp [HashLL.deref, hash_node.bumped]
    refine ⟨⟨by rw [← f1], fun hb => by rw [← incr64_small _ hb, ← f1]⟩, f2, f3,
      ⟨h4, fun hb => by rw [← incr64_small _ hb]; exact h4⟩,
      fun _ => ⟨?_, rfl⟩, fun h => absurd he (by omega), rfl, f6⟩
    · show ((promotion_gate s).unclist.touch a (promotion_gate s).brk).nodes = _
      rw [ht, ← filter_addr_eq_erase _ n hn hnd]
      rfl
  · rw [if_neg he]
    have h4 : ((promotion_gate s).unclist.increment_count a).deref n.addr =
        some { addr := n.addr, vp_num := n.vp_num,
               access_count := incr64 n.access_count } := by
      rw [hi]
      exact find_map_bump _ n hn hnd
    refine ⟨⟨by rw [← f1], fun hb => by rw [← incr64_small _ hb, ← f1]⟩, f2, f3,
      ⟨h4, fun hb => by rw [← incr64_small _ hb]; exact h4⟩,
      fun h => absurd h he, fun _ => ⟨?_, ?_, rfl⟩, rfl, f6⟩
    · show ((promotion_gate s).unclist.increment_count a).nodes.map hash_node.addr = _
      rw [hi]
      exact map_addr_bump _ _
    · show ((promotion_gate s).unclist.increment_count a).get_nodes = _
      rw [hi]
      exact map_vp_bump _ _

/-- C4 at scenario 1 after warm-up with `unclfreq = 1`: a miss on page 0, the tail of
`unclist = [1, 0]`, makes it the head with `access_count` 2. -/
theorem C4_unclist_hit_witness :
    (cu_tier refresh_state 0x0000).unclist_access = refresh_state.unclist_access + 1 ∧
    (cu_tier refresh_state 0x0000).unclist.nodes =
      [{ addr := 1, vp_num := 0, access_count := 2 },
       { addr := 2, vp_num := 1, access_count := 1 }] ∧
    (cu_tier refresh_state 0x0000).uc_epoch = 0 ∧
    (cu_tier refresh_state 0x0000).clist = (promotion_gate refresh_state).clist :=
  have h := C4_unclist_hit refresh_state 0x0000 { addr := 1, vp_num := 0, access_count := 1 }
    (by decide) (by decide) (by decide) (by decide) (by decide)
  ⟨h.1.2 (by decide), (h.2.2.2.2.1 (by decide)).1, (h.2.2.2.2.1 (by decide)).2,
    h.2.2.2.2.2.2.1⟩

/-- C5: the compressed hit.  In a CU-tier step with both lists full in which, after the promotion
gate, the page is not in the table of `unclist` and `clist.find_node` gives the node `n` of
`clist` (the nodes of `clist` having pairwise different addresses): `clist_access` is incremented
as a `uint64_t` (it grows by 1 unless it was `2^64 - 1`) and `unclist_access`, `cpage_access`
stay; afterwards the node at that address is `n` with `access_count` incremented as a `uint64_t`
(one higher unless it was `2^64 - 1`); if `cl_epoch ≥ clfreq` that node is the head of `clist`,
followed by the other nodes in their previous order, and `cl_epoch` is 0; otherwise the sequence
of nodes of `clist` (addresses and pages) and `cl_epoch` are unchanged; `unclist` and `uc_epoch`
are as the gate left them. -/
theorem C5_clist_hit (s : State) (a : Nat) (n : hash_node)
    (hu : s.unclist.isFull = true) (hc : s.clist.isFull = true)
    (hnone : (promotion_gate s).unclist.find_node a = none)
    (hfind : (promotion_gate s).clist.find_node a = some n.addr)
    (hn : n ∈ (promotion_gate s).clist.nodes)
    (hnd : ((promotion_gate s).clist.nodes.map hash_node.addr).Nodup) :
    ((cu_tier s a).clist_access = incr64 s.clist_access ∧
      (s.clist_access + 1 < 2 ^ 64 → (cu_tier s a).clist_access = s.clist_access + 1)) ∧
    (cu_tier s a).unclist_access = s.unclist_access ∧
    (cu_tier s a).cpage_access = s.cpage_access ∧
    ((cu_tier s a).clist.deref n.addr =
        some { addr := n.addr, vp_num := n.vp_num, access_count := incr64 n.access_count } ∧
      (n.access_count + 1 < 2 ^ 64 →
        (cu_tier s a).clist.deref n.addr =
          some { addr := n.addr, vp_num := n.vp_num, access_count := n.access_count + 1 })) ∧
    (s.cl_epoch ≥ s.clist_freq →
      (cu_tier s a).clist.nodes =
        { addr := n.addr, vp_num := n.vp_num, access_count := incr64 n.access_count } ::
          (promotion_gate s).clist.nodes.erase n ∧
      (cu_tier s a).cl_epoch = 0) ∧
    (s.cl_epoch < s.clist_freq →
      (cu_tier s a).clist.nodes.map hash_node.addr =
        (promotion_gate s).clist.nodes.map hash_node.addr ∧
      (cu_tier s a).clist.get_nodes = (promotion_gate s).clist.get_nodes ∧
      (cu_tier s a).cl_epoch = s.cl_epoch) ∧
    (cu_tier s a).unclist = (promotion_gate s).unclist ∧
    (cu_tier s a).uc_epoch = (promotion_gate s).uc_epoch := by
  obtain ⟨f1, f2, f3, _, f5, f6, _⟩ := promotion_gate_frame s
  rw [cu_tier_of_full s a hu hc, hit_checks_clist _ a n.addr hnone hfind, f5, f6]
  have ht := touch_of_found (promotion_gate s).clist a (promotion_gate s).brk n hfind hn hnd
  have hi := increment_count_of_found (promotion_gate s).clist a n.addr hfind
  by_cases he : s.cl_epoch ≥ s.clist_freq
  · rw [if_pos he]
    have h4 : ((promotion_gate s).clist.touch a (promotion_gate s).brk).deref n.addr =
        some { addr := n.addr, vp_num := n.vp_num,
               access_count := incr64 n.access_count } := by
      rw [ht]
      simp [HashLL.deref, hash_node.bumped]
    refine ⟨⟨by rw [← f2], fun hb => by rw [← incr64_small _ hb, ← f2]⟩, f1, f3,
      ⟨h4, fun hb => by rw [← incr64_small _ hb]; exact h4⟩,
      fun _ => ⟨?_, rfl⟩, fun h => absurd he (by omega), rfl, rfl⟩
    · show ((promotion_gate s).clist.touch a (promotion_gate s).brk).nodes = _
      rw [ht, ← filter_addr_eq_erase _ n hn hnd]
      rfl
  · rw [if_neg he]
    have h4 : ((promotion_gate s).clist.increment_count a).deref n.addr =
        some { addr := n.addr, vp_num := n.vp_num,
               access_count := incr64 n.access_count } := by
      rw [hi]
      exact find_map_bump _ n hn hnd
    refine ⟨⟨by rw [← f2], fun hb => by rw [← incr64_small _ hb, ← f2]⟩, f1, f3,
      ⟨h4, fun hb => by rw [← incr64_small _ hb]; exact h4⟩,
      fun h => absurd h he, fun _ => ⟨?_, ?_, rfl⟩, rfl, rfl⟩
    · show ((promotion_gate s).clist.increment_count a).nodes.map hash_node.addr = _
      rw [hi]
      exact map_addr_bump _ _
    · show ((promotion_gate s).clist.increment_count a).get_nodes = _
      rw [hi]
      exact map_vp_bump _ _

/-- C5 at scenario 1 after warm-up with `clfreq = 1`: a miss on page 2, the tail of
`clist = [3, 2]`, makes it the head with `access_count` 2. -/
theorem C5_clist_hit_witness :
    (cu_tier refresh_state 0x2000).clist_access = refresh_state.clist_access + 1 ∧
    (cu_tier refresh_state 0x2000).clist.nodes =
      [{ addr := 3, vp_num := 2, access_count := 2 },
       { addr := 4, vp_num := 3, access_count := 1 }] ∧
    (cu_tier refresh_state 0x2000).cl_epoch = 0 ∧
    (cu_tier refresh_state 0x2000).unclist = (promotion_gate refresh_state).unclist :=
  have h := C5_clist_hit refresh_state 0x2000 { addr := 3, vp_num := 2, access_count := 1 }
    (by decide) (by decide) (by decide) (by decide) (by decide) (by decide)
  ⟨h.1.2 (by decide), (h.2.2.2.2.1 (by decide)).1, (h.2.2.2.2.1 (by decide)).2,
    h.2.2.2.2.2.2.1⟩

/-- C6: the off-tier access.  In a CU-tier step with both lists full (sizes being `uint32_t`
values) in which, after the promotion gate, the page is in neither table, the nodes of `clist` are
`init` followed by the tail `ev` with pairwise different addresses, and `brk` is the address of
the node `new` would allocate: `cpage_access` is incremented as a `uint64_t` (it grows by 1 unless
it was `2^64 - 1`) and `unclist_access`, `clist_access` stay; if `cl_epoch ≥ clfreq` the nodes of
`clist` become the new node (page `a >> 12`, `access_count` 1) followed by `init`, the old tail
`ev` is no longer in the list and its page no longer in the table, the table maps the new page
(when it is not the page of `ev`) to the new node, the size is unchanged and `cl_epoch` is 0;
otherwise `clist` and `cl_epoch` are unchanged; `unclist` is as the gate left it in both cases. -/
theorem C6_off_tier (s : State) (a : Nat) (init : List hash_node) (ev : hash_node)
    (hu : s.unclist.isFull = true) (hc : s.clist.isFull = true)
    (hsz : s.clist.size < 2 ^ 32) (hsz' : s.unclist.size < 2 ^ 32)
    (hnu : (promotion_gate s).unclist.find_node a = none)
    (hnc : (promotion_gate s).clist.find_node a = none)
    (hl : (promotion_gate s).clist.nodes = init ++ [ev])
    (hnd : ((promotion_gate s).clist.nodes.map hash_node.addr).Nodup)
    (hfresh : s.brk ∉ (promotion_gate s).clist.nodes.map hash_node.addr) :
    ((cu_tier s a).cpage_access = incr64 s.cpage_access ∧
      (s.cpage_access + 1 < 2 ^ 64 → (cu_tier s a).cpage_access = s.cpage_access + 1)) ∧
    (cu_tier s a).unclist_access = s.unclist_access ∧
    (cu_tier s a).clist_access = s.clist_access ∧
    (s.cl_epoch ≥ s.clist_freq →
      (cu_tier s a).clist.nodes =
        { addr := s.brk, vp_num := addr_to_num a, access_count := 1 } :: init ∧
      ev ∉ (cu_tier s a).clist.nodes ∧
      table_find (cu_tier s a).clist.table ev.vp_num = none ∧
      (addr_to_num a ≠ ev.vp_num → (cu_tier s a).clist.find_node a = some s.brk) ∧
      (cu_tier s a).clist.get_size = s.clist.get_size ∧
      (cu_tier s a).cl_epoch = 0) ∧
    (s.cl_epoch < s.clist_freq →
      (cu_tier s a).clist = (promotion_gate s).clist ∧
      (cu_tier s a).cl_epoch = s.cl_epoch) ∧
    (cu_tier s a).unclist = (promotion_gate s).unclist := by
  obtain ⟨f1, f2, f3, _, f5, f6, f7⟩ := promotion_gate_frame s
  obtain ⟨g1, _, g3, _⟩ := promotion_gate_sizes s hsz hsz'
  rw [cu_tier_of_full s a hu hc, hit_checks_neither _ a hnu hnc, f5, f6]
  have hfull : ¬ (promotion_gate s).clist.size < (promotion_gate s).clist.cap := by
    rw [g1, g3]
    simp only [HashLL.isFull, decide_eq_true_eq] at hc
    omega
  rw [← f7] at hfresh
  have ht := touch_of_absent_full (promotion_gate s).clist a (promotion_gate s).brk init ev
    hnc hfull hl hnd hfresh
  by_cases he : s.cl_epoch ≥ s.clist_freq
  · rw [if_pos he]
    refine ⟨⟨by rw [← f3], fun hb => by rw [← incr64_small _ hb, ← f3]⟩, f1, f2,
      fun _ => ?_, fun h => absurd he (by omega), rfl⟩
    have hne : ¬ (promotion_gate s).brk = ev.addr := by
      intro h
      apply hfresh
      rw [hl, h]
      simp
    refine ⟨?_, ?_, ?_, ?_, ?_, rfl⟩
    · show ((promotion_gate s).clist.touch a (promotion_gate s).brk).nodes = _
      rw [ht, f7]
      rfl
    · show ev ∉ ((promotion_gate s).clist.touch a (promotion_gate s).brk).nodes
      rw [ht]
      show ev ∉ hash_node.create (promotion_gate s).brk a :: init
      rw [hl, List.map_append, List.nodup_append] at hnd
      intro hm
      rcases List.mem_cons.1 hm with h | h
      · exact hne (by rw [h]; rfl)
      · exact hnd.2.2 (List.mem_map_of_mem _ h) (by simp)
    · show table_find ((promotion_gate s).clist.touch a (promotion_gate s).brk).table _ = none
      rw [ht]
      exact table_find_erase_self _ _
    · intro hk
      show table_find ((promotion_gate s).clist.touch a (promotion_gate s).brk).table
        (addr_to_num a) = some s.brk
      rw [ht, ← f7]
      show table_find (table_erase (table_set (promotion_gate s).clist.table (addr_to_num a)
        (promotion_gate s).brk) ev.vp_num) (addr_to_num a) = some (promotion_gate s).brk
      rw [table_find_erase_ne _ _ _ hk, table_find_set_self]
    · show ((promotion_gate s).clist.touch a (promotion_gate s).brk).size = s.clist.size
      rw [ht]
      exact g1
  · rw [if_neg he]
    exact ⟨⟨by rw [← f3], fun hb => by rw [← incr64_small _ hb, ← f3]⟩, f1, f2,
      fun h => absurd h he, fun _ => ⟨rfl, rfl⟩, rfl⟩

/-- C6 at scenario 1 after warm-up with `clfreq = 1`: a miss on page 9, which is in neither
list, replaces the tail (page 2) of `clist = [3, 2]`. -/
theorem C6_off_tier_witness :
    (cu_tier refresh_state 0x9000).cpage_access = refresh_state.cpage_access + 1 ∧
    (cu_tier refresh_state 0x9000).clist.nodes =
      [{ addr := 5, vp_num := 9, access_count := 1 },
       { addr := 4, vp_num := 3, access_count := 1 }] ∧
    (cu_tier refresh_state 0x9000).clist.find_node 0x2000 = none ∧
    (cu_tier refresh_state 0x9000).cl_epoch = 0 ∧
    (cu_tier refresh_state 0x9000).unclist = (promotion_gate refresh_state).unclist :=
  have h := C6_off_tier refresh_state 0x9000 [{ addr := 4, vp_num := 3, access_count := 1 }]
    { addr := 3, vp_num := 2, access_count := 1 }
    (by decide) (by decide) (by decide) (by decide) (by decide) (by decide) (by decide)
    (by decide) (by decide)
  ⟨h.1.2 (by decide), (h.2.2.2.1 (by decide)).1, (h.2.2.2.1 (by decide)).2.2.1,
    (h.2.2.2.1 (by decide)).2.2.2.2.2, h.2.2.2.2.2⟩

/-- C7: the sizes of the two lists.  After every stream of memory events from the initial state
(two empty lists) `unclist.get_size() ≤ unclsize` and `clist.get_size() ≤ clsize`; and if both
lists are full after the stream `evs`, then after every longer stream `evs ++ later` both are
full and the sum of the sizes is `unclsize + clsize`. -/
theorem C7_list_sizes (k : Knobs) (evs later : List MemEvent) :
    (run (State.init k) evs).unclist.get_size ≤ k.unclsize ∧
    (run (State.init k) evs).clist.get_size ≤ k.clsize ∧
    ((run (State.init k) evs).unclist.isFull = true ∧
      (run (State.init k) evs).clist.isFull = true →
      (run (State.init k) (evs ++ later)).unclist.isFull = true ∧
      (run (State.init k) (evs ++ later)).clist.isFull = true ∧
      (run (State.init k) (evs ++ later)).unclist.get_size +
        (run (State.init k) (evs ++ later)).clist.get_size = k.unclsize + k.clsize) := by
  have h := sizeInv_run k evs (State.init k) (sizeInv_init k)
  obtain ⟨h1, h2, h3, h4, _, _⟩ := id h
  refine ⟨by rw [← h1]; exact h3, by rw [← h2]; exact h4, ?_⟩
  rintro ⟨fu, fc⟩
  simp only [HashLL.isFull, decide_eq_true_eq] at fu fc
  have eu : (run (State.init k) evs).unclist.size = (run (State.init k) evs).unclist.cap := by
    omega
  have ec : (run (State.init k) evs).clist.size = (run (State.init k) evs).clist.cap := by
    omega
  have hr : run (State.init k) (evs ++ later) = run (run (State.init k) evs) later := by
    unfold run
    rw [List.foldl_append]
  obtain ⟨r1, r2⟩ := full_run k later _ h eu ec
  obtain ⟨q1, q2, _⟩ := sizeInv_run k later _ h
  rw [hr]
  simp only [HashLL.isFull, HashLL.get_size, decide_eq_true_eq]
  omega

/-- C7 at scenario 1: both lists are full after the four warm-up reads and still full, with
sizes 2 + 2, after the fifth read. -/
theorem C7_list_sizes_witness :
    (run (State.init scenario1_knobs) scenario1_warmup).unclist.isFull = true ∧
    (run (State.init scenario1_knobs) scenario1_warmup).clist.isFull = true ∧
    (run (State.init scenario1_knobs) (scenario1_warmup ++ [MemEvent.read 0x0000])).unclist.get_size
      + (run (State.init scenario1_knobs)
          (scenario1_warmup ++ [MemEvent.read 0x0000])).clist.get_size =
      scenario1_knobs.unclsize + scenario1_knobs.clsize :=
  have h := (C7_list_sizes scenario1_knobs scenario1_warmup [MemEvent.read 0x0000]).2.2
    ⟨by decide, by decide⟩
  ⟨by decide, by decide, h.2.2⟩

/-- C10: the LRU reference model.  For every capacity `1 ≤ C` (a `uint32_t`) and every list of
addresses touched in order on a new `HashLL(C)`, the nodes being allocated at consecutive
addresses from any `brk` on, `get_nodes()` is the list of the distinct page numbers of the
addresses from the most recently touched to the least recently touched, truncated to its first
`C` elements, and `get_size()` is the length of that list. -/
theorem C10_lru_reference (C : Nat) (brk : Ptr) (addrs : List Nat) (hC : 1 ≤ C)
    (hC32 : C < 2 ^ 32) :
    ((HashLL.create C).touch_all brk addrs).get_nodes = lru_reference C addrs ∧
    ((HashLL.create C).touch_all brk addrs).get_size = (lru_reference C addrs).length := by
  obtain ⟨hwf, _, _, hg⟩ := touch_all_inv C brk addrs hC hC32
  refine ⟨hg, ?_⟩
  rw [← hg]
  show ((HashLL.create C).touch_all brk addrs).size = _
  rw [hwf.size_eq]
  exact (List.length_map _ _).symm

/-- C10 at the test of `hashll_test.cpp`: capacity 10 and pages 1, ..., 19 touched in order
give `[19, 18, ..., 10]` and size 10. -/
theorem C10_lru_reference_witness :
    lru_reference 10 diffbucket_addrs = [19, 18, 17, 16, 15, 14, 13, 12, 11, 10] ∧
    ((HashLL.create 10).touch_all 1 diffbucket_addrs).get_nodes =
      lru_reference 10 diffbucket_addrs ∧
    ((HashLL.create 10).touch_all 1 diffbucket_addrs).get_size =
      (lru_reference 10 diffbucket_addrs).length ∧
    ((HashLL.create 10).touch_all 1 diffbucket_addrs).get_size = 10 :=
  have h := C10_lru_reference 10 1 diffbucket_addrs (by decide) (by norm_num)
  ⟨by decide, h.1, h.2, by decide⟩

/-- C11: page granularity.  For addresses `a`, `b` with `a >> 12 = b >> 12`, each operation of
`HashLL` that takes an address gives the same result for `a` and for `b` (`touch`,
`insert_lru`, `remove`, `make_recent`, `increment_count`, `find_node`); and touching the
addresses `addrs` (at least one and fewer than `2^64`, the range of the `uint64_t` count), all
of the page of `a`, in order on a new list of capacity at least 1 leaves exactly one node, of
page `a >> 12`, with `access_count` the number of touches, and size 1. -/
theorem C11_page_granularity (l : HashLL) (a b : Nat) (fresh : Ptr) (C : Nat) (brk : Ptr)
    (addrs : List Nat) (hab : addr_to_num a = addr_to_num b) (hC : 1 ≤ C) (hne : addrs ≠ [])
    (hpage : ∀ x ∈ addrs, addr_to_num x = addr_to_num a) (hlen : addrs.length < 2 ^ 64) :
    l.touch a fresh = l.touch b fresh ∧
    l.insert_lru a fresh = l.insert_lru b fresh ∧
    l.remove a = l.remove b ∧
    l.make_recent a = l.make_recent b ∧
    l.increment_count a = l.increment_count b ∧
    l.find_node a = l.find_node b ∧
    (HashLL.create C).touch_all brk addrs =
      { cap := C, size := 1,
        nodes := [{ addr := brk, vp_num := addr_to_num a, access_count := addrs.length }],
        table := [(addr_to_num a, brk)] } ∧
    ((HashLL.create C).touch_all brk addrs).get_nodes = [addr_to_num a] ∧
    ((HashLL.create C).touch_all brk addrs).get_size = 1 := by
  have hall : (HashLL.create C).touch_all brk addrs =
      { cap := C, size := 1,
        nodes := [{ addr := brk, vp_num := addr_to_num a, access_count := addrs.length }],
        table := [(addr_to_num a, brk)] } := by
    cases addrs with
    | nil => exact absurd rfl hne
    | cons x rest =>
      have hx : addr_to_num x = addr_to_num a := hpage x (List.mem_cons_self _ _)
      rw [List.length_cons] at hlen
      show HashLL.touch_all ((HashLL.create C).touch x brk) (brk + 1) rest = _
      rw [touch_create C brk x hC, hx,
        touch_all_single C 1 brk (brk + 1) (addr_to_num a) rest
          (fun y hy => hpage y (List.mem_cons_of_mem _ hy)) (by omega),
        List.length_cons, Nat.add_comm]
  refine ⟨touch_congr l a b fresh hab, insert_lru_congr l a b fresh hab, ?_, ?_, ?_, ?_,
    hall, by rw [hall]; rfl, by rw [hall]; rfl⟩
  · unfold HashLL.remove
    rw [hab]
  · unfold HashLL.make_recent
    rw [hab]
  · unfold HashLL.increment_count
    rw [hab]
  · unfold HashLL.find_node
    rw [hab]

/-- C11 at the test of `hashll_test.cpp`: the eleven touches `0x1000 + i`, `i = 0, ..., 10`, on
a list of capacity 10 leave one node for page 1 with `access_count` 11; `0x1000` and `0x100A`
give the same `touch` on the list that holds pages 7 and 5. -/
theorem C11_page_granularity_witness :
    two_pages.touch 0x1000 3 = two_pages.touch 0x100A 3 ∧
    (HashLL.create 10).touch_all 1 samebucket_addrs =
      { cap := 10, size := 1, nodes := [{ addr := 1, vp_num := 1, access_count := 11 }],
        table := [(1, 1)] } ∧
    ((HashLL.create 10).touch_all 1 samebucket_addrs).get_nodes = [1] ∧
    ((HashLL.create 10).touch_all 1 samebucket_addrs).get_size = 1 :=
  have h := C11_page_granularity two_pages 0x1000 0x100A 3 10 1 samebucket_addrs
    (by decide) (by decide) (by decide) (by decide) (by decide)
  ⟨h.1, h.2.2.2.2.2.2.1, h.2.2.2.2.2.2.2.1, h.2.2.2.2.2.2.2.2⟩

/-- C12: `insert_lru`.  For a well-formed list: if the page of `a` is in the list,
`insert_lru(a)` leaves the list as it is; if it is not, the nodes afterwards are the previous
nodes, in order and unchanged, followed by a new node (page `a >> 12`, `access_count` 1) at the
tail, nothing is evicted, the capacity is not looked at, the table maps the page to the new
node, and the size has grown by exactly 1 (the sum being a `uint32_t` value), also when the list
was at capacity; with a new address the list is again well-formed. -/
theorem C12_insert_lru (l : HashLL) (a : Nat) (fresh : Ptr) (hwf : l.WF) :
    (addr_to_num a ∈ l.get_nodes → l.insert_lru a fresh = l) ∧
    (addr_to_num a ∉ l.get_nodes →
      (l.insert_lru a fresh).nodes =
        l.nodes ++ [{ addr := fresh, vp_num := addr_to_num a, access_count := 1 }] ∧
      (l.insert_lru a fresh).get_nodes = l.get_nodes ++ [addr_to_num a] ∧
      (l.insert_lru a fresh).get_cap = l.get_cap ∧
      (l.insert_lru a fresh).find_node a = some fresh ∧
      (l.size + 1 < 2 ^ 32 → (l.insert_lru a fresh).get_size = l.get_size + 1) ∧
      (l.size + 1 < 2 ^ 32 → fresh ∉ l.nodes.map hash_node.addr →
        (l.insert_lru a fresh).WF)) := by
  constructor
  · intro hin
    obtain ⟨n, hn, hv⟩ := List.mem_map.1 hin
    have hf : table_find l.table (addr_to_num a) = some n.addr := by
      rw [← hv]; exact table_find_of_mem l hwf n hn
    unfold HashLL.insert_lru
    simp only [hf]
  · intro hout
    have hfind := indexed_find_none_of_not_mem hwf.indexed hout
    have e := insert_lru_of_absent l a fresh hfind
    refine ⟨by rw [e]; rfl, ?_, by rw [e]; rfl, ?_, ?_, ?_⟩
    · rw [e]
      show (l.nodes ++ [hash_node.create fresh a]).map hash_node.vp_num = _
      rw [List.map_append]
      rfl
    · rw [e]
      exact table_find_set_self _ _ _
    · intro hsz
      rw [e]
      exact incr32_of_lt l.size (l.size + 1) (by omega) hsz
    · intro hsz hfresh
      rw [e]
      exact wf_insert_lru_absent l a fresh hwf hfind hsz hfresh

/-- C12 at the full list of capacity 2 that holds pages 7 and 5: `insert_lru` of page 9 gives
the pages `[7, 5, 9]` and size 3, and `insert_lru` of page 5 changes nothing. -/
theorem C12_insert_lru_witness :
    full_two_pages.WF ∧
    full_two_pages.insert_lru 0x5000 3 = full_two_pages ∧
    (full_two_pages.insert_lru 0x9000 3).get_nodes = full_two_pages.get_nodes ++ [9] ∧
    (full_two_pages.insert_lru 0x9000 3).get_size = full_two_pages.get_size + 1 ∧
    (full_two_pages.insert_lru 0x9000 3).WF :=
  have h := C12_insert_lru full_two_pages 0x9000 3 wf_full_two_pages
  have h' := C12_insert_lru full_two_pages 0x5000 3 wf_full_two_pages
  ⟨wf_full_two_pages, h'.1 (by decide), (h.2 (by decide)).2.1,
    (h.2 (by decide)).2.2.2.2.1 (by decide),
    (h.2 (by decide)).2.2.2.2.2 (by decide) (by decide)⟩

/-- C13: `remove` on a present page.  For a well-formed list that holds page `a >> 12` in the
node `n`, with the nodes `pre` before `n` and the nodes `post` after it: after `remove(a)` the
nodes are `pre` followed by `post`, unchanged and in order; `find_node(a)` is null; the size is
one less; the list is well-formed; when `n` was the head the new head is the first node of
`post`, when `n` was the tail the new tail is the last node of `pre`, and when `n` was the only
node head and tail are null. -/
theorem C13_remove_present (l : HashLL) (a : Nat) (hwf : l.WF)
    (hin : addr_to_num a ∈ l.get_nodes) :
    ∃ n pre post, l.nodes = pre ++ n :: post ∧ n.vp_num = addr_to_num a ∧
      (l.remove a).nodes = pre ++ post ∧
      (l.remove a).nodes = l.nodes.erase n ∧
      (l.remove a).get_nodes = l.get_nodes.erase (addr_to_num a) ∧
      (l.remove a).find_node a = none ∧
      (l.remove a).get_size + 1 = l.get_size ∧
      (l.remove a).WF ∧
      (pre = [] → (l.remove a).head = post.head?.map hash_node.addr) ∧
      (post = [] → (l.remove a).tail = pre.getLast?.map hash_node.addr) ∧
      (pre = [] → post = [] → (l.remove a).head = none ∧ (l.remove a).tail = none) := by
  obtain ⟨n, hn, hv⟩ := List.mem_map.1 hin
  obtain ⟨pre, post, hl⟩ := List.append_of_mem hn
  have hnd := hwf.indexed.1
  have hf : table_find l.table (addr_to_num a) = some n.addr := by
    rw [← hv]; exact table_find_of_mem l hwf n hn
  have e := remove_of_found l a n hf
  have hw := wf_remove_present l n hwf hn
  rw [hv, ← e] at hw
  have hnodes : (l.remove a).nodes = l.nodes.erase n := by
    rw [e, ← filter_addr_eq_erase l.nodes n hn hnd]
  have hpp : (l.remove a).nodes = pre ++ post := by
    rw [hnodes, hl]
    have hnot : n ∉ pre := by
      intro hm
      have hnn : l.nodes.Nodup := List.Nodup.of_map _ hnd
      rw [hl, List.nodup_append] at hnn
      exact hnn.2.2 hm (List.mem_cons_self _ _)
    rw [List.erase_append_right _ hnot, List.erase_cons_head]
  have hpos : 0 < l.size := by
    rw [hwf.size_eq]
    exact List.length_pos_of_mem hn
  refine ⟨n, pre, post, hl, hv, hpp, hnodes, ?_, ?_, ?_, hw, ?_, ?_, ?_⟩
  · unfold HashLL.get_nodes
    rw [hnodes, map_vp_erase l.nodes n hn (indexed_pages_nodup hwf.indexed), hv]
  · rw [e]
    exact table_find_erase_self _ _
  · rw [e]
    exact decr32_of_pos l.size hpos
  · intro hp
    unfold HashLL.head
    rw [hpp, hp]
    rfl
  · intro hp
    unfold HashLL.tail
    rw [hpp, hp, List.append_nil]
  · intro hp hq
    unfold HashLL.head HashLL.tail
    rw [hpp, hp, hq]
    exact ⟨rfl, rfl⟩

/-- C13 at the list that holds pages 7 (head) and 5 (tail): removing page 7 leaves `[5]`, and
removing page 5 from that leaves the empty list with null head and tail. -/
theorem C13_remove_present_witness :
    (two_pages.remove 0x7123).get_nodes = [5] ∧
    (two_pages.remove 0x7123).find_node 0x7123 = none ∧
    (two_pages.remove 0x7123).get_size + 1 = two_pages.get_size ∧
    ((two_pages.remove 0x7123).remove 0x5000).head = none ∧
    ((two_pages.remove 0x7123).remove 0x5000).tail = none :=
  have h := C13_remove_present two_pages 0x7123 wf_two_pages (by decide)
  ⟨by decide, h.choose_spec.choose_spec.choose_spec.2.2.2.2.2.1,
    h.choose_spec.choose_spec.choose_spec.2.2.2.2.2.2.1, by decide, by decide⟩

/-- C14: soft errors.  For every list and every address `a` whose page is not in the table
(`find_node(a)` is null), `remove(a)`, `make_recent(a)` and `increment_count(a)` each return
the list as it was (order, access counts, size, table); for a well-formed list this is the case
for every address whose page is not among `get_nodes()`. -/
theorem C14_soft_errors (l : HashLL) (a : Nat) :
    (l.find_node a = none →
      l.remove a = l ∧ l.make_recent a = l ∧ l.increment_count a = l) ∧
    (l.WF → addr_to_num a ∉ l.get_nodes →
      l.remove a = l ∧ l.make_recent a = l ∧ l.increment_count a = l) := by
  have key : table_find l.table (addr_to_num a) = none →
      l.remove a = l ∧ l.make_recent a = l ∧ l.increment_count a = l := by
    intro h
    refine ⟨?_, ?_, ?_⟩
    · unfold HashLL.remove
      simp only [h]
    · unfold HashLL.make_recent
      simp only [h]
    · unfold HashLL.increment_count
      simp only [h]
  exact ⟨key, fun hwf hout => key (indexed_find_none_of_not_mem hwf.indexed hout)⟩

/-- C14 at the list that holds pages 7 and 5, for an address of page 9. -/
theorem C14_soft_errors_witness :
    two_pages.find_node 0x9000 = none ∧ addr_to_num 0x9000 ∉ two_pages.get_nodes ∧
    two_pages.remove 0x9000 = two_pages ∧ two_pages.make_recent 0x9000 = two_pages ∧
    two_pages.increment_count 0x9000 = two_pages :=
  ⟨by decide, by decide, (C14_soft_errors two_pages 0x9000).1 (by decide)⟩

/-- C15: `make_recent` agrees with `touch` on present pages.  For a well-formed list that
holds page `a >> 12`, `make_recent(a)` and `touch(a)` give the same list: the same nodes in the
same order with the same access counts, the same size and table, hence the same head and
tail. -/
theorem C15_make_recent_touch (l : HashLL) (a : Nat) (fresh : Ptr) (hwf : l.WF)
    (hin : addr_to_num a ∈ l.get_nodes) :
    l.make_recent a = l.touch a fresh ∧
    (l.make_recent a).head = (l.touch a fresh).head ∧
    (l.make_recent a).tail = (l.touch a fresh).tail ∧
    (l.make_recent a).get_nodes = addr_to_num a :: l.get_nodes.erase (addr_to_num a) := by
  have h : l.find_node a ≠ none := (mem_get_nodes_iff l hwf (addr_to_num a)).1 hin
  have e := make_recent_eq_touch l a fresh h
  refine ⟨e, by rw [e], by rw [e], ?_⟩
  rw [e]
  obtain ⟨n, hn, hv⟩ := List.mem_map.1 hin
  rw [touch_of_present l a fresh n hwf hn hv]
  show (n.bumped :: l.nodes.filter (fun x => decide (x.addr ≠ n.addr))).map hash_node.vp_num = _
  rw [filter_addr_eq_erase l.nodes n hn hwf.indexed.1, List.map_cons,
    map_vp_erase l.nodes n hn (indexed_pages_nodup hwf.indexed), bumped_vp_num, hv]
  rfl

/-- C15 at the list that holds pages 7 (head) and 5 (tail), for an address of page 5. -/
theorem C15_make_recent_touch_witness :
    two_pages.make_recent 0x5abc = two_pages.touch 0x5abc 3 ∧
    (two_pages.make_recent 0x5abc).get_nodes = [5, 7] :=
  ⟨(C15_make_recent_touch two_pages 0x5abc 3 wf_two_pages (by decide)).1, by decide⟩

/-- C16: the hottest selection.  Whenever `hottest_node()` returns a node `h`, `h` is a node
of the list, every node nearer the head has a strictly smaller `access_count`, every node
nearer the tail has an `access_count` at most that of `h`, and so no node of the list has a
greater `access_count` than `h`. -/
theorem C16_hottest_selection (l : HashLL) (h : hash_node) (hh : l.hottest_node = some h) :
    ∃ pre post, l.nodes = pre ++ h :: post ∧
      (∀ x ∈ pre, x.access_count < h.access_count) ∧
      (∀ x ∈ post, x.access_count ≤ h.access_count) ∧
      (∀ x ∈ l.nodes, x.access_count ≤ h.access_count) := by
  obtain ⟨pre, post, e, _, hpre, hpost⟩ := hottest_node_spec l h hh
  refine ⟨pre, post, e, hpre, hpost, ?_⟩
  intro x hx
  rw [e] at hx
  rcases List.mem_append.1 hx with h1 | h1
  · exact Nat.le_of_lt (hpre x h1)
  · rcases List.mem_cons.1 h1 with h2 | h2
    · rw [h2]
    · exact hpost x h2

/-- C16 at a list with the counts 1, 2, 2 from the head: the hottest node is the first of the
two nodes with count 2. -/
theorem C16_hottest_selection_witness :
    tied_counts.hottest_node = some { addr := 2, vp_num := 7, access_count := 2 } ∧
    ∃ pre post, tied_counts.nodes = pre ++ { addr := 2, vp_num := 7, access_count := 2 } :: post ∧
      (∀ x ∈ pre, x.access_count < 2) ∧ (∀ x ∈ post, x.access_count ≤ 2) ∧
      (∀ x ∈ tied_counts.nodes, x.access_count ≤ 2) :=
  ⟨by decide,
    C16_hottest_selection tied_counts { addr := 2, vp_num := 7, access_count := 2 } (by decide)⟩

/-- C17 (fails on the code): after `touch(0x1000)` and `reset_counters()` on a new list of
capacity 2 the list has one node (size 1, page 1) and `hottest_node()` returns null: the scan
starts from `maxc = 0` and takes a node only when its count is greater. -/
theorem C17_hottest_null_on_nonempty :
    reset_one_page.get_nodes = [1] ∧ reset_one_page.get_size = 1 ∧
    reset_one_page.hottest_node = none := by
  decide

/-- C18: `swap_with` preserves sizes and invariants.  For two well-formed lists `A` and `B`
(two objects: no node address is in both) with disjoint page sets, after `A.swap_with(B)` both
sizes are as before, both lists are well-formed (the table indexes exactly the linked nodes,
the size is the number of nodes), no page appears twice in either list, the page sets are
still disjoint and so are the node addresses; and when `A` has no hottest node or `B` has no
LRU node nothing changes. -/
theorem C18_swap_with_invariants (A B : HashLL) (hA : A.WF) (hB : B.WF)
    (hpages : List.Disjoint A.get_nodes B.get_nodes)
    (haddr : List.Disjoint (A.nodes.map hash_node.addr) (B.nodes.map hash_node.addr)) :
    (A.swap_with B).1.get_size = A.get_size ∧
    (A.swap_with B).2.get_size = B.get_size ∧
    (A.swap_with B).1.WF ∧ (A.swap_with B).2.WF ∧
    (A.swap_with B).1.get_nodes.Nodup ∧ (A.swap_with B).2.get_nodes.Nodup ∧
    (A.swap_with B).1.get_size = (A.swap_with B).1.get_nodes.length ∧
    (A.swap_with B).2.get_size = (A.swap_with B).2.get_nodes.length ∧
    List.Disjoint (A.swap_with B).1.get_nodes (A.swap_with B).2.get_nodes ∧
    List.Disjoint ((A.swap_with B).1.nodes.map hash_node.addr)
      ((A.swap_with B).2.nodes.map hash_node.addr) ∧
    ((A.hottest_node = none ∨ B.lru_node = none) → A.swap_with B = (A, B)) := by
  have hwf : ∀ l : HashLL, l.WF → l.get_nodes.Nodup ∧ l.get_size = l.get_nodes.length :=
    fun l h => ⟨indexed_pages_nodup h.indexed, by
      unfold HashLL.get_size HashLL.get_nodes
      rw [h.size_eq, List.length_map]⟩
  cases hh : A.hottest_node with
  | none =>
    rw [swap_with_of_none A B (Or.inl hh)]
    exact ⟨rfl, rfl, hA, hB, (hwf A hA).1, (hwf B hB).1, (hwf A hA).2, (hwf B hB).2, hpages,
      haddr, fun _ => rfl⟩
  | some hot =>
    cases hc : B.lru_node with
    | none =>
      rw [swap_with_of_none A B (Or.inr hc)]
      exact ⟨rfl, rfl, hA, hB, (hwf A hA).1, (hwf B hB).1, (hwf A hA).2, (hwf B hB).2, hpages,
        haddr, fun _ => rfl⟩
    | some cold =>
      obtain ⟨init, hl, hhm, n1, n2, _, _, s1, s2, w1, w2, hv, ha, hci, hcia, hhe, hhea⟩ :=
        swap_with_spec A B hot cold hA hB hpages haddr hh hc
      have hsubA : ∀ m ∈ A.nodes.erase hot, m ∈ A.nodes := fun m hm => List.mem_of_mem_erase hm
      have hsubB : ∀ m ∈ init, m ∈ B.nodes := fun m hm => by
        rw [hl]; exact List.mem_append_left _ hm
      refine ⟨s1, s2, w1, w2, (hwf _ w1).1, (hwf _ w2).1, (hwf _ w1).2, (hwf _ w2).2, ?_, ?_,
        ?_⟩
      · unfold HashLL.get_nodes
        rw [n1, n2]
        intro k h1 h2
        rw [List.map_append, List.mem_append] at h1
        rw [List.map_cons, List.mem_cons] at h2
        rcases h1 with h1 | h1
        · rcases h2 with h2 | h2
          · exact hhe (h2 ▸ h1)
          · obtain ⟨m, hm, e⟩ := List.mem_map.1 h1
            obtain ⟨m', hm', e'⟩ := List.mem_map.1 h2
            exact hpages (List.mem_map.2 ⟨m, hsubA m hm, e⟩)
              (List.mem_map.2 ⟨m', hsubB m' hm', e'⟩)
        · simp only [List.map_cons, List.map_nil, List.mem_singleton] at h1
          rcases h2 with h2 | h2
          · exact hv (h2.symm.trans h1)
          · exact hci (h1 ▸ h2)
      · rw [n1, n2]
        intro k h1 h2
        rw [List.map_append, List.mem_append] at h1
        rw [List.map_cons, List.mem_cons] at h2
        rcases h1 with h1 | h1
        · rcases h2 with h2 | h2
          · exact hhea (h2 ▸ h1)
          · obtain ⟨m, hm, e⟩ := List.mem_map.1 h1
            obtain ⟨m', hm', e'⟩ := List.mem_map.1 h2
            exact haddr (List.mem_map.2 ⟨m, hsubA m hm, e⟩)
              (List.mem_map.2 ⟨m', hsubB m' hm', e'⟩)
        · simp only [List.map_cons, List.map_nil, List.mem_singleton] at h1
          rcases h2 with h2 | h2
          · exact ha (h2.symm.trans h1)
          · exact hcia (h1 ▸ h2)
      · intro h
        rcases h with h | h
        · cases h
        · cases h

/-- C18 at the lists with pages `[3, 2]` and `[7, 5]`: after the swap both have size 2, the
pages are `[2, 5]` and `[3, 7]`, and both lists are well-formed. -/
theorem C18_swap_with_invariants_witness :
    (other_two_pages.swap_with full_two_pages).1.get_nodes = [2, 5] ∧
    (other_two_pages.swap_with full_two_pages).2.get_nodes = [3, 7] ∧
    (other_two_pages.swap_with full_two_pages).1.get_size = other_two_pages.get_size ∧
    (other_two_pages.swap_with full_two_pages).2.get_size = full_two_pages.get_size ∧
    (other_two_pages.swap_with full_two_pages).1.WF ∧
    (other_two_pages.swap_with full_two_pages).2.WF :=
  have h := C18_swap_with_invariants other_two_pages full_two_pages wf_other_two_pages
    wf_full_two_pages (List.disjoint_left.2 (by decide)) (List.disjoint_left.2 (by decide))
  ⟨by decide, by decide, h.1, h.2.1, h.2.2.1, h.2.2.2.1⟩

/-- C19: `swap_with` placement.  For two well-formed lists `A` and `B` (no node address in
both) with disjoint page sets, `hot = A.hottest_node()` and `cold = B.lru_node()`: after
`A.swap_with(B)` the nodes of `B` are `hot` followed by the previous nodes of `B` without the
tail `cold`, in their order, and the nodes of `A` are the previous nodes of `A` without `hot`,
in their order, followed by `cold`; so the page of `hot` is the head of `B`, is indexed there
and is neither among the pages nor in the table of `A`, and the page of `cold` is the tail of
`A`, is indexed there and is neither among the pages nor in the table of `B`. -/
theorem C19_swap_with_placement (A B : HashLL) (hot cold : hash_node) (hA : A.WF) (hB : B.WF)
    (hpages : List.Disjoint A.get_nodes B.get_nodes)
    (haddr : List.Disjoint (A.nodes.map hash_node.addr) (B.nodes.map hash_node.addr))
    (hhot : A.hottest_node = some hot) (hcold : B.lru_node = some cold) :
    (A.swap_with B).2.nodes = hot :: B.nodes.dropLast ∧
    (A.swap_with B).1.nodes = A.nodes.erase hot ++ [cold] ∧
    (A.swap_with B).2.get_nodes = hot.vp_num :: B.get_nodes.dropLast ∧
    (A.swap_with B).1.get_nodes = A.get_nodes.erase hot.vp_num ++ [cold.vp_num] ∧
    (A.swap_with B).2.get_nodes.head? = some hot.vp_num ∧
    (A.swap_with B).1.get_nodes.getLast? = some cold.vp_num ∧
    hot.vp_num ∉ (A.swap_with B).1.get_nodes ∧
    cold.vp_num ∉ (A.swap_with B).2.get_nodes ∧
    table_find (A.swap_with B).1.table hot.vp_num = none ∧
    table_find (A.swap_with B).2.table cold.vp_num = none ∧
    table_find (A.swap_with B).2.table hot.vp_num = some hot.addr ∧
    table_find (A.swap_with B).1.table cold.vp_num = some cold.addr := by
  obtain ⟨init, hl, hhm, n1, n2, t1, t2, _, _, w1, w2, hv, _, hci, _, hhe, _⟩ :=
    swap_with_spec A B hot cold hA hB hpages haddr hhot hcold
  have hdl : B.nodes.dropLast = init := by rw [hl, List.dropLast_concat]
  have g2 : (A.swap_with B).2.get_nodes = hot.vp_num :: B.get_nodes.dropLast := by
    unfold HashLL.get_nodes
    rw [n2, hl, List.map_append, List.map_cons]
    simp only [List.map_cons, List.map_nil, List.dropLast_concat]
  have g1 : (A.swap_with B).1.get_nodes = A.get_nodes.erase hot.vp_num ++ [cold.vp_num] := by
    unfold HashLL.get_nodes
    rw [n1, List.map_append, map_vp_erase A.nodes hot hhm (indexed_pages_nodup hA.indexed)]
    rfl
  have h1 : hot.vp_num ∉ (A.swap_with B).1.get_nodes := by
    unfold HashLL.get_nodes
    rw [n1, List.map_append, List.mem_append]
    rintro (h | h)
    · exact hhe h
    · simp only [List.map_cons, List.map_nil, List.mem_singleton] at h
      exact hv h
  have h2 : cold.vp_num ∉ (A.swap_with B).2.get_nodes := by
    unfold HashLL.get_nodes
    rw [n2, List.map_cons, List.mem_cons]
    rintro (h | h)
    · exact hv h.symm
    · exact hci h
  refine ⟨by rw [n2, hdl], n1, g2, g1, by rw [g2]; rfl, by rw [g1]; simp, h1, h2,
    indexed_find_none_of_not_mem w1.indexed h1, indexed_find_none_of_not_mem w2.indexed h2,
    ?_, ?_⟩
  · rw [t2]
    exact table_find_set_self _ _ _
  · rw [t1]
    exact table_find_set_self _ _ _

/-- C19 at the lists with pages `[3, 2]` and `[7, 5]`: page 3 becomes the head of the second
list, page 5 the tail of the first. -/
theorem C19_swap_with_placement_witness :
    (other_two_pages.swap_with full_two_pages).2.get_nodes = [3, 7] ∧
    (other_two_pages.swap_with full_two_pages).1.get_nodes = [2, 5] ∧
    (other_two_pages.swap_with full_two_pages).2.get_nodes.head? = some 3 ∧
    (other_two_pages.swap_with full_two_pages).1.get_nodes.getLast? = some 5 :=
  have h := C19_swap_with_placement other_two_pages full_two_pages
    { addr := 4, vp_num := 3, access_count := 1 } { addr := 1, vp_num := 5, access_count := 1 }
    wf_other_two_pages wf_full_two_pages (List.disjoint_left.2 (by decide))
    (List.disjoint_left.2 (by decide)) (by decide) (by decide)
  ⟨h.2.2.1, h.2.2.2.1, h.2.2.2.2.1, h.2.2.2.2.2.1⟩

/-- C20: index/list agreement.  For the list reached from a new empty `HashLL` of any capacity
by any sequence of `touch`, `insert_lru`, `remove`, `make_recent`, `increment_count` and
`reset_counters`: `get_size()`, a `uint32_t` counter, is the number of entries of `get_nodes()`
modulo `2^32`; there are at most as many entries as calls, so the two are equal after fewer
than `2^32` calls; no page number occurs twice in `get_nodes()`; `find_node(a)` is non-null
exactly when `a >> 12` occurs in `get_nodes()`; and the node it returns is a linked node of
the list with `vp_num = a >> 12`. -/
theorem C20_index_list_agreement (C : Nat) (brk : Ptr) (ops : List ListOp) :
    (run_ops (HashLL.create C) brk ops).get_size =
      (run_ops (HashLL.create C) brk ops).get_nodes.length % 2 ^ 32 ∧
    (run_ops (HashLL.create C) brk ops).get_nodes.length ≤ ops.length ∧
    (ops.length < 2 ^ 32 →
      (run_ops (HashLL.create C) brk ops).get_size =
        (run_ops (HashLL.create C) brk ops).get_nodes.length) ∧
    (run_ops (HashLL.create C) brk ops).get_nodes.Nodup ∧
    (∀ a, (run_ops (HashLL.create C) brk ops).find_node a ≠ none ↔
      addr_to_num a ∈ (run_ops (HashLL.create C) brk ops).get_nodes) ∧
    (∀ a p, (run_ops (HashLL.create C) brk ops).find_node a = some p →
      ∃ n, (run_ops (HashLL.create C) brk ops).deref p = some n ∧
        n ∈ (run_ops (HashLL.create C) brk ops).nodes ∧ n.addr = p ∧
        n.vp_num = addr_to_num a) := by
  obtain ⟨⟨hi, hs⟩, hl⟩ := run_ops_agree ops (HashLL.create C) brk (agree_create C)
    (fun p hp => by cases hp)
  have hlen : (run_ops (HashLL.create C) brk ops).get_nodes.length ≤ ops.length := by
    unfold HashLL.get_nodes
    rw [List.length_map]
    have e : (HashLL.create C).nodes.length = 0 := rfl
    omega
  have hsz : (run_ops (HashLL.create C) brk ops).get_size =
      (run_ops (HashLL.create C) brk ops).get_nodes.length % 2 ^ 32 := by
    unfold HashLL.get_size HashLL.get_nodes
    rw [List.length_map]
    exact hs
  refine ⟨hsz, hlen, ?_, indexed_pages_nodup hi, ?_, ?_⟩
  · intro h
    rw [hsz]
    exact Nat.mod_eq_of_lt (Nat.lt_of_le_of_lt hlen h)
  · intro a
    unfold HashLL.find_node
    constructor
    · intro h
      by_contra hk
      exact h (indexed_find_none_of_not_mem hi hk)
    · intro h hnone
      exact indexed_not_mem_of_find_none hi hnone h
  · intro a p hf
    unfold HashLL.find_node at hf
    obtain ⟨n, hn, hna, hnv⟩ := (hi.2.2 _ _).1 hf
    refine ⟨n, ?_, hn, hna, hnv⟩
    unfold HashLL.deref
    rw [← hna]
    exact find_addr_of_mem _ n hn hi.1

/-- C20 at a sequence with each of the six operations on a list of capacity 2: the pages are
`[2, 5, 4]`, the size is 3, and page 4 is found while the removed page 1 is not. -/
theorem C20_index_list_agreement_witness :
    (run_ops (HashLL.create 2) 1 mixed_ops).get_nodes = [2, 5, 4] ∧
    (run_ops (HashLL.create 2) 1 mixed_ops).get_size = 3 ∧
    (run_ops (HashLL.create 2) 1 mixed_ops).find_node 0x4fff ≠ none ∧
    (run_ops (HashLL.create 2) 1 mixed_ops).find_node 0x1000 = none ∧
    (run_ops (HashLL.create 2) 1 mixed_ops).get_size =
      (run_ops (HashLL.create 2) 1 mixed_ops).get_nodes.length :=
  ⟨by decide, by decide, by decide, by decide,
    (C20_index_list_agreement 2 1 mixed_ops).2.2.1 (by norm_num [mixed_ops])⟩

/-- C30 as stated fails: after the three writes of scenario 3 the shared `L2` does not report
2 accesses and 2 misses. -/
theorem C30_scenario3_counters_as_stated_fail :
    ¬ ((run (State.init scenario3_knobs) scenario3_writes).L2.Accesses = 2 ∧
       (run (State.init scenario3_knobs) scenario3_writes).L2.Misses = 2) := by
  decide

/-- C30 (amended): with `L1` = 64 bytes 1-way, `L2` = 128 bytes 1-way, block = 64, whatever the
list knobs, one thread and a fresh state, after the memory writes `0x0`, `0x40`, `0x80` the
shared `L2` reports exactly 3 accesses and exactly 3 misses, and the `L1` reports 3 accesses
and 3 misses: each write misses the one-line `L1` and goes to `L2`, where it misses too. -/
theorem C30_scenario3_counters (k : Knobs) (h1 : k.l1size = 64) (h2 : k.l1assoc = 1)
    (h3 : k.l2size = 128) (h4 : k.l2assoc = 1) (h5 : k.blk = 64) :
    (run (State.init k) scenario3_writes).L2.Accesses = 3 ∧
    (run (State.init k) scenario3_writes).L2.Misses = 3 ∧
    (run (State.init k) scenario3_writes).l1.Accesses = 3 ∧
    (run (State.init k) scenario3_writes).l1.Misses = 3 := by
  have e := run_caches_congr scenario3_writes (State.init k) (State.init scenario3_knobs)
    (by simp only [State.init, h1, h2, h5]; rfl) (by simp only [State.init, h3, h4, h5]; rfl)
    (by simp only [State.init, h5]; rfl)
  rw [e.1, e.2]
  decide

/-- C30 (amended) at the knobs of scenario 3 with the list knobs of scenario 1; after the
first two writes the `L2` has 2 accesses and 2 misses. -/
theorem C30_scenario3_counters_witness :
    ((run (State.init scenario3_knobs) scenario3_writes).L2.Accesses = 3 ∧
     (run (State.init scenario3_knobs) scenario3_writes).L2.Misses = 3 ∧
     (run (State.init scenario3_knobs) scenario3_writes).l1.Accesses = 3 ∧
     (run (State.init scenario3_knobs) scenario3_writes).l1.Misses = 3) ∧
    (run (State.init scenario3_knobs) (scenario3_writes.take 2)).L2.Accesses = 2 ∧
    (run (State.init scenario3_knobs) (scenario3_writes.take 2)).L2.Misses = 2 :=
  ⟨C30_scenario3_counters scenario3_knobs rfl rfl rfl rfl rfl, by decide, by decide⟩

/-- C21 as stated fails: two calls of `insert_lru` for different pages on a new list of
capacity 1 leave two entries, `get_size() = 2`, above the capacity. -/
theorem C21_capacity_bound_as_stated_fails :
    (run_ops (HashLL.create 1) 1 two_inserts).get_cap = 1 ∧
    (run_ops (HashLL.create 1) 1 two_inserts).get_nodes = [1, 2] ∧
    (run_ops (HashLL.create 1) 1 two_inserts).get_size = 2 ∧
    ¬ ((run_ops (HashLL.create 1) 1 two_inserts).get_size ≤ 1) := by
  decide

/-- C21 (amended): capacity bound without `insert_lru`.  For every list reached from a new
empty `HashLL` of capacity `C` (a `uint32_t`) by any sequence of `touch`, `remove`,
`make_recent`, `increment_count` and `reset_counters`, the capacity is still `C`, and
`get_size()`, which is the number of entries of `get_nodes()`, is at most `C`. -/
theorem C21_capacity_bound (C : Nat) (brk : Ptr) (ops : List ListOp) (hC : C < 2 ^ 32)
    (hno : ∀ a, ListOp.insert_lru a ∉ ops) :
    (run_ops (HashLL.create C) brk ops).get_cap = C ∧
    (run_ops (HashLL.create C) brk ops).get_size =
      (run_ops (HashLL.create C) brk ops).get_nodes.length ∧
    (run_ops (HashLL.create C) brk ops).get_size ≤ C := by
  obtain ⟨⟨_, hs⟩, _⟩ := run_ops_agree ops (HashLL.create C) brk (agree_create C)
    (fun p hp => by cases hp)
  obtain ⟨hl, hc⟩ := run_ops_length_le ops (HashLL.create C) brk (agree_create C)
    (fun p hp => by cases hp) (Nat.zero_le _) hC hno
  have hl2 : (run_ops (HashLL.create C) brk ops).nodes.length ≤ C := hl
  have hsz : (run_ops (HashLL.create C) brk ops).size =
      (run_ops (HashLL.create C) brk ops).nodes.length := by
    rw [hs]
    exact Nat.mod_eq_of_lt (Nat.lt_of_le_of_lt hl2 hC)
  refine ⟨hc, ?_, ?_⟩
  · unfold HashLL.get_size HashLL.get_nodes
    rw [List.length_map]
    exact hsz
  · unfold HashLL.get_size
    rw [hsz]
    exact hl2

/-- C21 (amended) at a sequence of ten calls on a list of capacity 2: five pages are
touched, the list ends with the two most recent, `[5, 4]`. -/
theorem C21_capacity_bound_witness :
    (run_ops (HashLL.create 2) 1 no_insert_ops).get_nodes = [5, 4] ∧
    (run_ops (HashLL.create 2) 1 no_insert_ops).get_cap = 2 ∧
    (run_ops (HashLL.create 2) 1 no_insert_ops).get_size =
      (run_ops (HashLL.create 2) 1 no_insert_ops).get_nodes.length ∧
    (run_ops (HashLL.create 2) 1 no_insert_ops).get_size ≤ 2 :=
  ⟨by decide, C21_capacity_bound 2 1 no_insert_ops (by norm_num)
    (fun a h => by simp [no_insert_ops] at h)⟩

/-- C29: Decode/Reconstruct round trip.  For a cache constructed from a configuration whose
block size is `2^B` (a `uint32_t`) and whose number of sets is `2^K`: every block-aligned
64-bit address `a` has `Reconstruct(Decode(a)) = a`, with a set index below the number of sets;
and every set index `s` below the number of sets and tag `t < 2^(64 - B - K)` have
`Decode(Reconstruct(s, t)) = (s, t)`. -/
theorem C29_decode_reconstruct (cfg : SimpleCacheConfig) (B K : Nat)
    (hb : cfg.blockBytes = 2 ^ B) (hB : B < 32) (hk : cfg.sets = 2 ^ K) :
    (∀ a, a < 2 ^ 64 → a % cfg.blockBytes = 0 →
      (SimpleCache.create cfg).Reconstruct ((SimpleCache.create cfg).Decode a).1
        ((SimpleCache.create cfg).Decode a).2 = a ∧
      ((SimpleCache.create cfg).Decode a).1 < cfg.sets) ∧
    (∀ s t, s < cfg.sets → t < 2 ^ (64 - B - K) →
      (SimpleCache.create cfg).Decode ((SimpleCache.create cfg).Reconstruct s t) = (s, t)) := by
  have g := geom_create cfg B K hb hB hk
  refine ⟨fun a ha hal => ⟨?_, ?_⟩, fun s t hs ht => ?_⟩
  · rw [hb] at hal
    exact reconstruct_decode _ B K g a ha hal
  · rw [hk]
    exact decode_set_lt _ B K g a
  · rw [hk] at hs
    exact decode_reconstruct _ B K g s t hs ht

/-- C29 at the `L2` of scenario 1 (64-byte blocks, 4 sets): address `0x1040` decodes to set 1
and tag `0x10`, and both round trips hold there. -/
theorem C29_decode_reconstruct_witness :
    (SimpleCache.create l2_config).Decode 0x1040 = (1, 0x10) ∧
    (SimpleCache.create l2_config).Reconstruct 1 0x10 = 0x1040 ∧
    (SimpleCache.create l2_config).Reconstruct ((SimpleCache.create l2_config).Decode 0x1040).1
      ((SimpleCache.create l2_config).Decode 0x1040).2 = 0x1040 ∧
    (SimpleCache.create l2_config).Decode ((SimpleCache.create l2_config).Reconstruct 1 0x10) =
      (1, 0x10) :=
  have h := C29_decode_reconstruct l2_config 6 2 (by decide) (by decide) (by decide)
  ⟨by decide, by decide, ((h.1 0x1040 (by norm_num) (by decide)).1),
    h.2 1 0x10 (by decide) (by norm_num)⟩

/-- C23 as stated fails: with the valid lines of ages 1, 1, 0 the maximal age 1 is at ways 0
and 1, and `PickVictim` returns way 1, not the lowest way 0. -/
theorem C23_victim_tie_as_stated_fails :
    (∀ l ∈ tied_ages, l.valid = true ∧ l.age ≤ 1) ∧
    (tied_ages.getD 0 Line.empty).age = 1 ∧ (tied_ages.getD 1 Line.empty).age = 1 ∧
    PickVictim tied_ages = 1 ∧ PickVictim tied_ages ≠ 0 := by
  decide

/-- C23 (amended): victim choice.  For every non-empty vector of lines `PickVictim` returns a
way of the vector.  If some line is invalid it is the way of the first invalid line (all lines
before it are valid).  Otherwise it is the way of a line of maximal age, and among the lines
tied at the maximal age the one of the highest way: every line after it has a strictly
smaller age. -/
theorem C23_victim_choice (w : List Line) (hne : w ≠ []) :
    PickVictim w < w.length ∧
    ((∃ l ∈ w, l.valid = false) →
      ∃ pre x post, w = pre ++ x :: post ∧ PickVictim w = pre.length ∧
        (∀ l ∈ pre, l.valid = true) ∧ x.valid = false) ∧
    ((∀ l ∈ w, l.valid = true) →
      ∃ pre x post, w = pre ++ x :: post ∧ PickVictim w = pre.length ∧
        (∀ l ∈ w, l.age ≤ x.age) ∧ (∀ l ∈ post, l.age < x.age)) := by
  refine ⟨PickVictim_lt w hne, ?_, ?_⟩
  · rintro ⟨l, hl, hlv⟩
    rcases PickVictim_spec w hne with ⟨pre, x, post, e, hp, hx, r⟩ | ⟨hall, _⟩
    · exact ⟨pre, x, post, e, r, hp, hx⟩
    · rw [hall l hl] at hlv
      cases hlv
  · intro hall
    rcases PickVictim_spec w hne with ⟨pre, x, post, e, _, hx, _⟩ |
      ⟨_, pre, x, post, e, r, hp, hq⟩
    · have hxm : x ∈ w := by rw [e]; simp
      rw [hall x hxm] at hx
      cases hx
    · refine ⟨pre, x, post, e, r, ?_, hq⟩
      intro l hl
      rw [e, List.mem_append, List.mem_cons] at hl
      rcases hl with h | h | h
      · exact hp l h
      · rw [h]
      · exact Nat.le_of_lt (hq l h)

/-- C23 (amended) at two vectors: with an invalid line at way 1 the victim is way 1; with
the ages 1, 1, 0 the victim is way 1, the last of the two lines of age 1. -/
theorem C23_victim_choice_witness :
    PickVictim with_invalid = 1 ∧ PickVictim tied_ages = 1 ∧
    PickVictim tied_ages < tied_ages.length ∧
    (∃ pre x post, with_invalid = pre ++ x :: post ∧ PickVictim with_invalid = pre.length ∧
      (∀ l ∈ pre, l.valid = true) ∧ x.valid = false) ∧
    (∃ pre x post, tied_ages = pre ++ x :: post ∧ PickVictim tied_ages = pre.length ∧
      (∀ l ∈ tied_ages, l.age ≤ x.age) ∧ (∀ l ∈ post, l.age < x.age)) :=
  ⟨by decide, by decide, (C23_victim_choice tied_ages (by decide)).1,
    (C23_victim_choice with_invalid (by decide)).2.1 ⟨Line.empty, by decide, rfl⟩,
    (C23_victim_choice tied_ages (by decide)).2.2 (by decide)⟩

/-- C24: hit path.  When the lookup loop of `Access` finds way `i` of the set `w` of `addr` (a
valid line with the tag of `addr`; its age `a` is a `uint32_t`): the result is true, no callback
is invoked, `Misses()` is unchanged and `Accesses()` is incremented as a `uint64_t` (one more
unless it was `2^64 - 1`), the other sets are unchanged,
and in the set afterwards (`w'`) no tag or valid flag has changed, the hit line has age 0 and
dirty flag `dirty || isWrite`, and every other line keeps its dirty flag and has its age
increased by exactly 1 if it is valid with age below `a`, and unchanged if its age is at least
`a` or if it is invalid. -/
theorem C24_hit_path (c : SimpleCache) (addr : Nat) (isWrite hasUp hasWB : Bool) (i : Nat)
    (w w' : List Line) (hw : w = c.sets.getD (c.Decode addr).1 [])
    (hw' : w' = (c.Access addr isWrite hasUp hasWB).2.1.sets.getD (c.Decode addr).1 [])
    (hs : (c.Decode addr).1 < c.sets.length)
    (hfound : lookup_way w (c.Decode addr).2 0 = some i)
    (hage : (w.getD i Line.empty).age < 2 ^ 32) :
    (i < w.length ∧ (w.getD i Line.empty).valid = true ∧
      (w.getD i Line.empty).tag = (c.Decode addr).2) ∧
    (c.Access addr isWrite hasUp hasWB).1 = true ∧
    (c.Access addr isWrite hasUp hasWB).2.2 = [] ∧
    (c.Access addr isWrite hasUp hasWB).2.1.Misses = c.Misses ∧
    ((c.Access addr isWrite hasUp hasWB).2.1.Accesses = incr64 c.Accesses ∧
      (c.Accesses + 1 < 2 ^ 64 →
        (c.Access addr isWrite hasUp hasWB).2.1.Accesses = c.Accesses + 1)) ∧
    (∀ s', s' ≠ (c.Decode addr).1 →
      (c.Access addr isWrite hasUp hasWB).2.1.sets.getD s' [] = c.sets.getD s' []) ∧
    w'.length = w.length ∧
    (w'.getD i Line.empty).age = 0 ∧
    (w'.getD i Line.empty).dirty = ((w.getD i Line.empty).dirty || isWrite) ∧
    (∀ j, (w'.getD j Line.empty).tag = (w.getD j Line.empty).tag ∧
      (w'.getD j Line.empty).valid = (w.getD j Line.empty).valid) ∧
    (∀ j, j ≠ i →
      (w'.getD j Line.empty).dirty = (w.getD j Line.empty).dirty ∧
      ((w.getD j Line.empty).valid = true →
        (w.getD j Line.empty).age < (w.getD i Line.empty).age →
        (w'.getD j Line.empty).age = (w.getD j Line.empty).age + 1) ∧
      ((w.getD i Line.empty).age ≤ (w.getD j Line.empty).age →
        (w'.getD j Line.empty).age = (w.getD j Line.empty).age) ∧
      ((w.getD j Line.empty).valid = false →
        (w'.getD j Line.empty).age = (w.getD j Line.empty).age)) := by
  obtain ⟨pre, x, post, e, hi, hxv, hxt, _⟩ := lookup_way_some w _ 0 i hfound
  rw [Nat.zero_add] at hi
  have hx : w.getD i Line.empty = x := by rw [e, hi]; exact getD_append_cons pre x post _
  have hlen : i < w.length := by
    rw [e, hi, List.length_append, List.length_cons]
    omega
  rw [hw] at hfound
  have ea := Access_hit c addr isWrite hasUp hasWB i hfound
  rw [ea] at hw'
  rw [ea]
  have hw2 : w' = (if isWrite then
      (TouchLRU w i).set i { ((TouchLRU w i).getD i Line.empty) with dirty := true }
    else TouchLRU w i) := by
    rw [hw']
    show (c.sets.set (c.Decode addr).1 _).getD (c.Decode addr).1 [] = _
    rw [getD_set_self _ _ _ _ hs, hw]
  have hl := fun j => hit_lines w i isWrite hlen j
  rw [hw2]
  refine ⟨⟨hlen, by rw [hx]; exact hxv, by rw [hx]; exact hxt⟩, rfl, rfl, rfl,
    ⟨rfl, fun hb => (incr64_small c.acc hb)⟩, ?_, ?_, ?_, ?_, ?_, ?_⟩
  · intro s' hs'
    exact getD_set_ne _ _ _ _ _ (fun h => hs' h.symm)
  · exact hit_lines_length w i isWrite
  · rw [hl i, if_pos rfl]
  · rw [hl i, if_pos rfl]
  · intro j
    rw [hl j]
    split_ifs with h1 <;> first | exact ⟨rfl, rfl⟩ | exact ⟨by rw [h1], by rw [h1]⟩
  · intro j hj
    rw [hl j, if_neg hj]
    refine ⟨?_, ?_, ?_, ?_⟩
    · split_ifs <;> rfl
    · intro hv hlt
      have hc : ((w.getD j Line.empty).valid &&
          decide ((w.getD j Line.empty).age < (w.getD i Line.empty).age)) = true := by
        rw [hv, decide_eq_true hlt]
        rfl
      rw [if_pos hc]
      show incr32 (w.getD j Line.empty).age = (w.getD j Line.empty).age + 1
      unfold incr32
      exact Nat.mod_eq_of_lt (by omega)
    · intro hge
      have hc : ¬ ((w.getD j Line.empty).valid &&
          decide ((w.getD j Line.empty).age < (w.getD i Line.empty).age)) = true := by
        rw [decide_eq_false (Nat.not_lt.2 hge), Bool.and_false]
        exact Bool.false_ne_true
      rw [if_neg hc]
    · intro hv
      have hc : ¬ ((w.getD j Line.empty).valid &&
          decide ((w.getD j Line.empty).age < (w.getD i Line.empty).age)) = true := by
        rw [hv, Bool.false_and]
        exact Bool.false_ne_true
      rw [if_neg hc]

/-- C24 at the two-way cache whose set 0 holds tag 0 (age 1, dirty) at way 0 and tag 1 (age 0)
at way 1: a read of block `0x0` hits way 0; afterwards way 0 has age 0 and is still dirty, and
way 1 has age 1. -/
theorem C24_hit_path_witness :
    (warm_cache.Access 0x0 false true true).1 = true ∧
    (warm_cache.Access 0x0 false true true).2.2 = [] ∧
    (warm_cache.Access 0x0 false true true).2.1.Misses = warm_cache.Misses ∧
    (((warm_cache.Access 0x0 false true true).2.1.sets.getD 0 []).getD 0 Line.empty).age = 0 ∧
    (((warm_cache.Access 0x0 false true true).2.1.sets.getD 0 []).getD 0 Line.empty).dirty =
      true ∧
    (((warm_cache.Access 0x0 false true true).2.1.sets.getD 0 []).getD 1 Line.empty).age = 1 :=
  have h := C24_hit_path warm_cache 0x0 false true true 0
    (warm_cache.sets.getD (warm_cache.Decode 0x0).1 [])
    ((warm_cache.Access 0x0 false true true).2.1.sets.getD (warm_cache.Decode 0x0).1 [])
    rfl rfl (by decide) (by decide) (by decide)
  ⟨h.2.1, h.2.2.1, h.2.2.2.1, h.2.2.2.2.2.2.2.1, by decide, by decide⟩

/-- C26: write-back / write-allocate dirty bit.  For an access to a set `w` with at least one
way: if it misses, the set afterwards (`w'`) holds at the victim's way the line with the tag of
`addr`, age 0, valid, and dirty flag `isWrite`; if it hits, at way `i`, the line afterwards is
valid with the same tag and its dirty flag is the previous flag or `isWrite`, so a read hit
leaves the flag as it was. -/
theorem C26_dirty_bit (c : SimpleCache) (addr : Nat) (isWrite hasUp hasWB : Bool)
    (w w' : List Line) (hw : w = c.sets.getD (c.Decode addr).1 [])
    (hw' : w' = (c.Access addr isWrite hasUp hasWB).2.1.sets.getD (c.Decode addr).1 [])
    (hs : (c.Decode addr).1 < c.sets.length) (hne : w ≠ []) :
    ((c.Access addr isWrite hasUp hasWB).1 = false →
      PickVictim w < w'.length ∧
      w'.getD (PickVictim w) Line.empty =
        { tag := (c.Decode addr).2, age := 0, valid := true, dirty := isWrite } ∧
      { tag := (c.Decode addr).2, age := 0, valid := true, dirty := isWrite } ∈ w') ∧
    ((c.Access addr isWrite hasUp hasWB).1 = true →
      ∃ i, lookup_way w (c.Decode addr).2 0 = some i ∧ i < w.length ∧
        (w.getD i Line.empty).valid = true ∧ (w.getD i Line.empty).tag = (c.Decode addr).2 ∧
        (w'.getD i Line.empty).valid = true ∧ (w'.getD i Line.empty).tag = (c.Decode addr).2 ∧
        (w'.getD i Line.empty).dirty = ((w.getD i Line.empty).dirty || isWrite) ∧
        (isWrite = false → (w'.getD i Line.empty).dirty = (w.getD i Line.empty).dirty)) := by
  cases h : lookup_way (c.sets.getD (c.Decode addr).1 []) (c.Decode addr).2 0 with
  | none =>
    have hm := Access_miss_set c addr isWrite hasUp hasWB hs h
    rw [← hw', ← hw] at hm
    have hv := PickVictim_lt w hne
    have hv2 : PickVictim w < w'.length := by rw [hm, fill_lines_length]; exact hv
    have hline : w'.getD (PickVictim w) Line.empty =
        { tag := (c.Decode addr).2, age := 0, valid := true, dirty := isWrite } := by
      rw [hm, fill_lines w _ _ hv, if_pos rfl]
    constructor
    · intro _
      exact ⟨hv2, hline, by rw [← hline]; exact getD_mem w' _ _ hv2⟩
    · intro ht
      rw [Access_miss c addr isWrite hasUp hasWB h] at ht
      cases ht
  | some i =>
    have hm := Access_hit_set c addr isWrite hasUp hasWB i hs h
    rw [← hw', ← hw] at hm
    rw [← hw] at h
    obtain ⟨pre, x, post, e, hi, hxv, hxt, _⟩ := lookup_way_some w _ 0 i h
    rw [Nat.zero_add] at hi
    have hx : w.getD i Line.empty = x := by rw [e, hi]; exact getD_append_cons pre x post _
    have hlen : i < w.length := by
      rw [e, hi, List.length_append, List.length_cons]
      omega
    have hl : w'.getD i Line.empty =
        { (w.getD i Line.empty) with
          age := 0, dirty := (w.getD i Line.empty).dirty || isWrite } := by
      rw [hm, hit_lines w i isWrite hlen i, if_pos rfl]
    constructor
    · intro hf
      rw [hw] at h
      rw [Access_hit c addr isWrite hasUp hasWB i h] at hf
      cases hf
    · intro _
      refine ⟨i, h, hlen, by rw [hx]; exact hxv, by rw [hx]; exact hxt, ?_, ?_, ?_, ?_⟩
      · rw [hl, hx]; exact hxv
      · rw [hl, hx]; exact hxt
      · rw [hl]
      · intro hr
        rw [hl, hr, Bool.or_false]

/-- C26 at the two-way cache whose set 0 holds tags 0 (dirty) and 1 (clean): a write of block
`0x100` (tag 2) misses and leaves the line (tag 2, age 0, valid, dirty) in set 0; a read of
block `0x80` (tag 1) hits way 1 and leaves it clean. -/
theorem C26_dirty_bit_witness :
    (warm_cache.Access 0x100 true true true).1 = false ∧
    ({ tag := 2, age := 0, valid := true, dirty := true } : Line) ∈
      (warm_cache.Access 0x100 true true true).2.1.sets.getD 0 [] ∧
    (warm_cache.Access 0x80 false true true).1 = true ∧
    (((warm_cache.Access 0x80 false true true).2.1.sets.getD 0 []).getD 1 Line.empty).dirty =
      false :=
  have h := C26_dirty_bit warm_cache 0x100 true true true
    (warm_cache.sets.getD (warm_cache.Decode 0x100).1 [])
    ((warm_cache.Access 0x100 true true true).2.1.sets.getD (warm_cache.Decode 0x100).1 [])
    rfl rfl (by decide) (by decide)
  ⟨by decide, (h.1 (by decide)).2.2, by decide, by decide⟩

/-- C27: cache counters.  `Access` increments `Accesses()` as a `uint64_t` (by exactly 1 unless
it was `2^64 - 1`), and `Misses()` likewise if it returns false, and leaves `Misses()` as it
is if it returns true; `Install` changes neither counter; `ResetStats` sets both to 0; hence
`Misses() <= Accesses()` in every state reached by fewer than `2^64` calls of `Access`,
`Install` and `ResetStats` from a new cache, or from any cache where it holds and whose
`Accesses()` plus the number of calls is less than `2^64`. -/
theorem C27_cache_counters (c : SimpleCache) (r : CacheReq) (a : Nat) (d : Bool)
    (cfg : SimpleCacheConfig) (ops : List CacheOp) :
    ((c.Access r.addr r.isWrite r.hasUp r.hasWB).2.1.Accesses = incr64 c.Accesses ∧
      (c.Accesses + 1 < 2 ^ 64 →
        (c.Access r.addr r.isWrite r.hasUp r.hasWB).2.1.Accesses = c.Accesses + 1)) ∧
    ((c.Access r.addr r.isWrite r.hasUp r.hasWB).1 = false →
      (c.Access r.addr r.isWrite r.hasUp r.hasWB).2.1.Misses = incr64 c.Misses ∧
      (c.Misses + 1 < 2 ^ 64 →
        (c.Access r.addr r.isWrite r.hasUp r.hasWB).2.1.Misses = c.Misses + 1)) ∧
    ((c.Access r.addr r.isWrite r.hasUp r.hasWB).1 = true →
      (c.Access r.addr r.isWrite r.hasUp r.hasWB).2.1.Misses = c.Misses) ∧
    (c.Install a d).1.Accesses = c.Accesses ∧ (c.Install a d).1.Misses = c.Misses ∧
    c.ResetStats.Accesses = 0 ∧ c.ResetStats.Misses = 0 ∧
    (ops.length < 2 ^ 64 →
      (run_cache_ops (SimpleCache.create cfg) ops).Misses ≤
        (run_cache_ops (SimpleCache.create cfg) ops).Accesses) ∧
    (c.Misses ≤ c.Accesses → c.Accesses + ops.length < 2 ^ 64 →
      (run_cache_ops c ops).Misses ≤ (run_cache_ops c ops).Accesses) := by
  have hc := Access_counters c r.addr r.isWrite r.hasUp r.hasWB
  refine ⟨⟨hc.1, fun hb => hc.1.trans (incr64_small c.acc hb)⟩, ?_, ?_, rfl, rfl, rfl, rfl,
    fun hl => run_cache_ops_counters ops (SimpleCache.create cfg) (Nat.le_refl 0)
      (by show 0 + ops.length < 2 ^ 64; omega),
    run_cache_ops_counters ops c⟩
  · intro h
    have h2 := hc.2
    rw [h] at h2
    exact ⟨h2, fun hb => h2.trans (incr64_small c.miss hb)⟩
  · intro h
    have h2 := hc.2
    rw [h] at h2
    exact h2

/-- C27 at a sequence of eight calls on the two-way cache: before the reset there are 4
accesses and 3 misses, at the end 1 access and 1 miss. -/
theorem C27_cache_counters_witness :
    (run_cache_ops (SimpleCache.create two_way_config) (mixed_cache_ops.take 5)).Accesses = 4 ∧
    (run_cache_ops (SimpleCache.create two_way_config) (mixed_cache_ops.take 5)).Misses = 3 ∧
    (run_cache_ops (SimpleCache.create two_way_config) mixed_cache_ops).Accesses = 1 ∧
    (run_cache_ops (SimpleCache.create two_way_config) mixed_cache_ops).Misses = 1 ∧
    (run_cache_ops warm_cache mixed_cache_ops).Misses ≤
      (run_cache_ops warm_cache mixed_cache_ops).Accesses :=
  ⟨by decide, by decide, by decide, by decide,
    (C27_cache_counters warm_cache (read_req 0) 0 false two_way_config
      mixed_cache_ops).2.2.2.2.2.2.2.2 (by decide) (by decide)⟩

/-- C22: true LRU per set.  For a configuration whose block size is `2^B` (a `uint32_t`),
whose number of sets is `2^K` and whose number of ways is at least 1 (a `uint32_t`), and a
sequence of `Access` calls with block-aligned 64-bit addresses on a newly constructed cache:
the next `Access` returns hit exactly when its block address is among the `ways` most recently
accessed distinct block addresses of its set among the earlier accesses. -/
theorem C22_true_lru (cfg : SimpleCacheConfig) (B K : Nat) (earlier : List CacheReq)
    (r : CacheReq) (hb : cfg.blockBytes = 2 ^ B) (hB : B < 32) (hk : cfg.sets = 2 ^ K)
    (hw : 1 ≤ cfg.ways) (hw32 : cfg.ways < 2 ^ 32)
    (hal : ∀ q ∈ r :: earlier, q.addr % cfg.blockBytes = 0 ∧ q.addr < 2 ^ 64) :
    (((SimpleCache.create cfg).access_all earlier).Access
        r.addr r.isWrite r.hasUp r.hasWB).1 = true ↔
      r.addr ∈ cache_lru_reference cfg (earlier.map CacheReq.addr) r.addr := by
  have g := geom_create cfg B K hb hB hk
  have hinv := cacheInv_access_all (SimpleCache.create cfg) B K g hw hw32 earlier
    (SimpleCache.create cfg) [] (cacheInv_create cfg)
  rw [List.nil_append] at hinv
  have hdec := Decode_congr _ _ hinv.cfg_eq hinv.mask_eq r.addr
  have hs0 : ((SimpleCache.create cfg).Decode r.addr).1 < cfg.sets := by
    rw [hk]
    exact decode_set_lt _ B K g r.addr
  obtain ⟨_, hset⟩ := hinv.sets_ok _ hs0
  rw [Access_hit_iff, hdec, setInv_lookup _ _ _ hset]
  have hal2 : ∀ b ∈ earlier.map CacheReq.addr, b % 2 ^ B = 0 ∧ b < 2 ^ 64 := by
    intro b hbm
    obtain ⟨q, hq, e⟩ := List.mem_map.1 hbm
    have := hal q (List.mem_cons_of_mem _ hq)
    rw [hb, e] at this
    exact this
  have ha2 : r.addr % 2 ^ B = 0 ∧ r.addr < 2 ^ 64 := by
    have := hal r (List.mem_cons_self _ _)
    rw [hb] at this
    exact this
  exact mem_tag_stack_iff (SimpleCache.create cfg) B K g _ r.addr hal2 ha2

/-- C22 at the two-way cache with two sets after accesses to the blocks `0x0`, `0x80`,
`0x100` of set 0: the two most recent are `0x100` and `0x80`, so an access to `0x80` hits and
an access to `0x0` misses. -/
theorem C22_true_lru_witness :
    cache_lru_reference two_way_config (set0_reqs.map CacheReq.addr) 0x80 = [0x100, 0x80] ∧
    (((SimpleCache.create two_way_config).access_all set0_reqs).Access 0x80 false true
      true).1 = true ∧
    (((SimpleCache.create two_way_config).access_all set0_reqs).Access 0x0 false true
      true).1 = false :=
  ⟨by decide,
    (C22_true_lru two_way_config 6 1 set0_reqs (read_req 0x80) (by decide) (by decide)
      (by decide) (by decide) (by decide) (by decide)).2 (by decide),
    by decide⟩

/-- C25: eviction callbacks.  For a cache with power-of-two geometry (block size `2^B`, `2^K`
sets, at least one way) built up from a new cache by `Access` calls with block-aligned 64-bit
addresses, and an `Access` with both callbacks supplied, `ev` being the line at the way that
`PickVictim` chooses in the set of the address: on a hit no callback is invoked; on a miss with
`ev` invalid no callback is invoked; on a miss with `ev` valid there is an earlier accessed
block address `a'` of that set with the tag of `ev`, the only block-aligned address with that
set and tag, and the callbacks invoked are the upper installer once with `(a', ev.dirty)`,
followed by the write-back sink once with `a'` if `ev` is dirty and by nothing otherwise. -/
theorem C25_eviction_callbacks (cfg : SimpleCacheConfig) (B K : Nat) (earlier : List CacheReq)
    (a : Nat) (isWrite : Bool) (c : SimpleCache) (w : List Line) (ev : Line)
    (hb : cfg.blockBytes = 2 ^ B) (hB : B < 32) (hk : cfg.sets = 2 ^ K)
    (hways : 1 ≤ cfg.ways) (hways32 : cfg.ways < 2 ^ 32)
    (hal : ∀ q ∈ earlier, q.addr % cfg.blockBytes = 0 ∧ q.addr < 2 ^ 64)
    (hc : c = (SimpleCache.create cfg).access_all earlier)
    (hw : w = c.sets.getD (c.Decode a).1 [])
    (hev : ev = w.getD (PickVictim w) Line.empty) :
    ((c.Access a isWrite true true).1 = true → (c.Access a isWrite true true).2.2 = []) ∧
    ((c.Access a isWrite true true).1 = false → ev.valid = false →
      (c.Access a isWrite true true).2.2 = []) ∧
    ((c.Access a isWrite true true).1 = false → ev.valid = true →
      ∃ a', a' ∈ earlier.map CacheReq.addr ∧ c.Decode a' = ((c.Decode a).1, ev.tag) ∧
        (∀ b, b < 2 ^ 64 → b % cfg.blockBytes = 0 →
          c.Decode b = ((c.Decode a).1, ev.tag) → b = a') ∧
        (c.Access a isWrite true true).2.2 =
          Callback.up a' ev.dirty :: (if ev.dirty then [Callback.wb a'] else [])) := by
  have g := geom_create cfg B K hb hB hk
  have hinv := cacheInv_access_all (SimpleCache.create cfg) B K g hways hways32 earlier
    (SimpleCache.create cfg) [] (cacheInv_create cfg)
  rw [List.nil_append, ← hc] at hinv
  have hD := Decode_congr c _ hinv.cfg_eq hinv.mask_eq
  have hs0 : ((SimpleCache.create cfg).Decode a).1 < cfg.sets := by
    rw [hk]
    exact decode_set_lt _ B K g a
  obtain ⟨_, hset⟩ := hinv.sets_ok _ hs0
  rw [← hD a, ← hw] at hset
  have hal2 : ∀ b ∈ earlier.map CacheReq.addr, b % 2 ^ B = 0 ∧ b < 2 ^ 64 := by
    intro b hbm
    obtain ⟨q, hq, e⟩ := List.mem_map.1 hbm
    have := hal q hq
    rw [hb, e] at this
    exact this
  have hevw : ev = (c.sets.getD (c.Decode a).1 []).getD
      (PickVictim (c.sets.getD (c.Decode a).1 [])) Line.empty := by rw [hev, hw]
  refine ⟨Access_calls_of_hit c a isWrite true true, ?_, ?_⟩
  · intro hm hv
    rw [(Access_calls_of_miss c a isWrite hm).2, ← hevw, hv]
    rfl
  · intro hm hv
    have hvk : PickVictim w < (tag_stack (SimpleCache.create cfg)
        (earlier.map CacheReq.addr) (c.Decode a).1).length :=
      (hset.valid_iff _).1 (by rw [← hev]; exact hv)
    have htag := hset.tag_eq _ hvk
    have hagelt := hset.age_lt _ hvk
    rw [← hev] at htag hagelt
    have hmem := getD_mem _ _ 0 hagelt
    rw [htag, hD a, tag_stack_eq_map _ B K g _ a hal2] at hmem
    obtain ⟨a', ha', et⟩ := List.mem_map.1 hmem
    obtain ⟨hah, has⟩ := mem_cache_lru_reference _ B K g _ a a' ha'
    have hdec' : (SimpleCache.create cfg).Decode a' =
        (((SimpleCache.create cfg).Decode a).1, ev.tag) := Prod.ext has et
    have hrec : c.Reconstruct (c.Decode a).1 ev.tag = a' := by
      rw [Reconstruct_congr c _ hinv.cfg_eq, hD a]
      have := reconstruct_decode _ B K g a' (hal2 a' hah).2 (hal2 a' hah).1
      rw [hdec'] at this
      exact this
    refine ⟨a', hah, by rw [hD a', hD a]; exact hdec', ?_, ?_⟩
    · intro b hb64 hbal hbd
      rw [hb] at hbal
      rw [hD b, hD a, ← hdec'] at hbd
      exact decode_inj _ B K g b a' hb64 hbal (hal2 a' hah).2 (hal2 a' hah).1 hbd
    · rw [(Access_calls_of_miss c a isWrite hm).2, ← hevw, hv, if_pos rfl, hrec]

/-- C25 at the two-way cache after a write of block `0x0` and a read of block `0x80`: a write
of block `0x100` misses and evicts the dirty line of `0x0`, so the installer is called with
`(0x0, true)` and then the sink with `0x0`; a read of `0x80` hits and calls nothing; a read
of block `0x40`, of the empty set 1, misses and calls nothing. -/
theorem C25_eviction_callbacks_witness :
    (warm_cache.Access 0x100 true true true).2.2 = [Callback.up 0x0 true, Callback.wb 0x0] ∧
    (warm_cache.Access 0x80 false true true).2.2 = [] ∧
    (warm_cache.Access 0x40 false true true).2.2 = [] ∧
    ∃ a', a' ∈ [write_req 0x0, read_req 0x80].map CacheReq.addr ∧
      warm_cache.Decode a' = ((warm_cache.Decode 0x100).1, warm_victim.tag) ∧
      (∀ b, b < 2 ^ 64 → b % two_way_config.blockBytes = 0 →
        warm_cache.Decode b = ((warm_cache.Decode 0x100).1, warm_victim.tag) → b = a') ∧
      (warm_cache.Access 0x100 true true true).2.2 =
        Callback.up a' warm_victim.dirty ::
          (if warm_victim.dirty then [Callback.wb a'] else []) :=
  ⟨by decide, by decide, by decide,
    (C25_eviction_callbacks two_way_config 6 1 [write_req 0x0, read_req 0x80] 0x100 true
      warm_cache (warm_cache.sets.getD (warm_cache.Decode 0x100).1 []) warm_victim
      (by decide) (by decide) (by decide) (by decide) (by decide) (by decide) rfl rfl
      (by decide)).2.2 (by decide) (by decide)⟩

/-- C40: `swap_with` moves entries without altering them.  For two well-formed lists `A` and
`B` (no node address in both) with disjoint page sets, `hot = A.hottest_node()` and
`cold = B.lru_node()`: after `A.swap_with(B)` the entry of the page of `hot` has in `B` the
`access_count` it had in `A`, the entry of the page of `cold` has in `A` the `access_count` it
had in `B`, every other entry of `A` and of `B` is in the same list with the same
`access_count`, the nodes of both lists together are the same records as before, and so are
the pages of both lists together. -/
theorem C40_swap_with_frame (A B : HashLL) (hot cold : hash_node) (hA : A.WF) (hB : B.WF)
    (hpages : List.Disjoint A.get_nodes B.get_nodes)
    (haddr : List.Disjoint (A.nodes.map hash_node.addr) (B.nodes.map hash_node.addr))
    (hhot : A.hottest_node = some hot) (hcold : B.lru_node = some cold) :
    ((A.swap_with B).2.count_at hot.vp_num = some hot.access_count ∧
      A.count_at hot.vp_num = some hot.access_count) ∧
    ((A.swap_with B).1.count_at cold.vp_num = some cold.access_count ∧
      B.count_at cold.vp_num = some cold.access_count) ∧
    (∀ n ∈ A.nodes, n ≠ hot → n ∈ (A.swap_with B).1.nodes ∧
      (A.swap_with B).1.count_at n.vp_num = A.count_at n.vp_num) ∧
    (∀ n ∈ B.nodes, n ≠ cold → n ∈ (A.swap_with B).2.nodes ∧
      (A.swap_with B).2.count_at n.vp_num = B.count_at n.vp_num) ∧
    List.Perm ((A.swap_with B).1.nodes ++ (A.swap_with B).2.nodes) (A.nodes ++ B.nodes) ∧
    List.Perm ((A.swap_with B).1.get_nodes ++ (A.swap_with B).2.get_nodes)
      (A.get_nodes ++ B.get_nodes) ∧
    (∀ p, (p ∈ (A.swap_with B).1.get_nodes ∨ p ∈ (A.swap_with B).2.get_nodes) ↔
      (p ∈ A.get_nodes ∨ p ∈ B.get_nodes)) := by
  obtain ⟨init, hl, hhm, n1, n2, _, _, _, _, w1, w2, _⟩ :=
    swap_with_spec A B hot cold hA hB hpages haddr hhot hcold
  have hcm : cold ∈ B.nodes := by rw [hl]; simp
  have hperm := swap_with_perm A B hot cold init hhm hl n1 n2
  have hpp : List.Perm ((A.swap_with B).1.get_nodes ++ (A.swap_with B).2.get_nodes)
      (A.get_nodes ++ B.get_nodes) := by
    unfold HashLL.get_nodes
    rw [← List.map_append, ← List.map_append]
    exact hperm.map _
  refine ⟨⟨count_at_of_mem _ w2 hot (by rw [n2]; exact List.mem_cons_self _ _),
    count_at_of_mem A hA hot hhm⟩,
    ⟨count_at_of_mem _ w1 cold (by rw [n1]; simp), count_at_of_mem B hB cold hcm⟩,
    ?_, ?_, hperm, hpp, ?_⟩
  · intro n hn hne
    have hm : n ∈ (A.swap_with B).1.nodes := by
      rw [n1]
      exact List.mem_append_left _ ((List.mem_erase_of_ne hne).2 hn)
    exact ⟨hm, by rw [count_at_of_mem _ w1 n hm, count_at_of_mem A hA n hn]⟩
  · intro n hn hne
    have hm : n ∈ (A.swap_with B).2.nodes := by
      rw [n2]
      rw [hl, List.mem_append, List.mem_singleton] at hn
      rcases hn with h | h
      · exact List.mem_cons_of_mem _ h
      · exact absurd h hne
    exact ⟨hm, by rw [count_at_of_mem _ w2 n hm, count_at_of_mem B hB n hn]⟩
  · intro p
    have := hpp.mem_iff (a := p)
    rw [List.mem_append, List.mem_append] at this
    exact this

/-- C40 at the lists with pages `[3, 2]` and `[7, 5]`, all counts 1: page 3 has count 1 in
the second list after the swap and page 5 has count 1 in the first. -/
theorem C40_swap_with_frame_witness :
    (other_two_pages.swap_with full_two_pages).2.count_at 3 = some 1 ∧
    (other_two_pages.swap_with full_two_pages).1.count_at 5 = some 1 ∧
    List.Perm
      ((other_two_pages.swap_with full_two_pages).1.get_nodes ++
        (other_two_pages.swap_with full_two_pages).2.get_nodes)
      (other_two_pages.get_nodes ++ full_two_pages.get_nodes) :=
  have h := C40_swap_with_frame other_two_pages full_two_pages
    { addr := 4, vp_num := 3, access_count := 1 } { addr := 1, vp_num := 5, access_count := 1 }
    wf_other_two_pages wf_full_two_pages (List.disjoint_left.2 (by decide))
    (List.disjoint_left.2 (by decide)) (by decide) (by decide)
  ⟨h.1.1, h.2.1.1, h.2.2.2.2.2.1⟩

/-- C38: every `L2` miss is counted exactly once.  A `CacheCall` that misses in `L1` and in
`L2`, in a state where none of the `uint64_t` counters `unclist_access`, `clist_access`,
`cpage_access` and the `L2` miss count is `2^64 - 1`, increases exactly one of
`unclist_access`, `clist_access`, `cpage_access` by exactly 1, warm-up fills included, and the
`L2` miss count by 1; a `CacheCall` that hits in `L1` or in `L2` changes none of them; so for
one thread from a fresh state, with no reset, `unclist_access + clist_access + cpage_access`
is the `L2` miss count after every memory event of a stream of fewer than `2^64` events. -/
theorem C38_l2_miss_counted_once (s : State) (op blkAddr a : Nat) (k : Knobs)
    (evs : List MemEvent) :
    ((s.l1.Access blkAddr (decide (op = WRITE_OP)) false false).1 = false →
      (s.L2.Access blkAddr (decide (op = WRITE_OP)) true true).1 = false →
      s.unclist_access + 1 < 2 ^ 64 ∧ s.clist_access + 1 < 2 ^ 64 ∧
        s.cpage_access + 1 < 2 ^ 64 →
      s.L2.Misses + 1 < 2 ^ 64 →
      counted_once s (CacheCall s op blkAddr a) ∧
      (CacheCall s op blkAddr a).L2.Misses = s.L2.Misses + 1) ∧
    (((s.l1.Access blkAddr (decide (op = WRITE_OP)) false false).1 = true ∨
        (s.L2.Access blkAddr (decide (op = WRITE_OP)) true true).1 = true) →
      counters_same s (CacheCall s op blkAddr a) ∧
      (CacheCall s op blkAddr a).L2.Misses = s.L2.Misses) ∧
    (evs.length < 2 ^ 64 →
      (run (State.init k) evs).unclist_access + (run (State.init k) evs).clist_access +
        (run (State.init k) evs).cpage_access = (run (State.init k) evs).L2.Misses) := by
  refine ⟨?_, ?_, fun hl => run_total evs (State.init k) rfl
    (by show 0 + evs.length < 2 ^ 64; omega)⟩
  · intro h1 h2 hb hm
    rcases CacheCall_counted s op blkAddr a hb hm with ⟨h, _⟩ | ⟨_, _, h3, h4⟩
    · rcases h with h | h
      · rw [h1] at h
        cases h
      · rw [h2] at h
        cases h
    · exact ⟨h3, h4⟩
  · intro h
    exact CacheCall_same s op blkAddr a h

/-- C38 at scenario 1: the five reads miss `L2` five times and the counters are 3, 2, 0; the
first read, on the fresh state, misses both caches and counts as an access of `unclist`. -/
theorem C38_l2_miss_counted_once_witness :
    (run (State.init scenario1_knobs) scenario1_reads).L2.Misses = 5 ∧
    (run (State.init scenario1_knobs) scenario1_reads).unclist_access +
      (run (State.init scenario1_knobs) scenario1_reads).clist_access +
      (run (State.init scenario1_knobs) scenario1_reads).cpage_access =
      (run (State.init scenario1_knobs) scenario1_reads).L2.Misses ∧
    counted_once (State.init scenario1_knobs)
      (CacheCall (State.init scenario1_knobs) READ_OP 0 0) :=
  have h := C38_l2_miss_counted_once (State.init scenario1_knobs) READ_OP 0 0 scenario1_knobs
    scenario1_reads
  ⟨by decide, h.2.2 (by decide), (h.1 (by decide) (by decide) (by decide) (by decide)).1⟩

/-- C39: refresh starved by promotion.  With `exfreq <= unclfreq` and `unclfreq >= 1`: along
every stream from a fresh state `expansionFrequency` and `unclist_freq` are these knobs; and in
a CU-tier step at a state `s` with these values and both lists full, when the
uncompressed-hit step tests `uc_epoch >= unclist_freq`, after the promotion gate, the test is
false, so `unclist->touch` is not executed and a page found in `unclist` gets
`increment_count`; the pages of `unclist` after the step are in the order the gate leaves
them, which is the order before the step or the order after `swap_with`. -/
theorem C39_refresh_starved (k : Knobs) (evs : List MemEvent) (s : State) (a : Nat)
    (hk1 : k.exfreq ≤ k.unclfreq) (hk2 : 1 ≤ k.unclfreq)
    (hs : s.expansionFrequency = k.exfreq ∧ s.unclist_freq = k.unclfreq)
    (hu : s.unclist.isFull = true) (hc : s.clist.isFull = true) :
    ((run (State.init k) evs).expansionFrequency = k.exfreq ∧
      (run (State.init k) evs).unclist_freq = k.unclfreq) ∧
    ¬ ((promotion_gate s).uc_epoch ≥ (promotion_gate s).unclist_freq) ∧
    (∀ p, (promotion_gate s).unclist.find_node a = some p →
      cu_tier s a =
        { (promotion_gate s) with
          unclist_access := incr64 (promotion_gate s).unclist_access,
          unclist := (promotion_gate s).unclist.increment_count a }) ∧
    ((promotion_gate s).unclist.find_node a = none →
      (cu_tier s a).unclist = (promotion_gate s).unclist) ∧
    ((cu_tier s a).unclist.get_nodes = s.unclist.get_nodes ∨
      (cu_tier s a).unclist.get_nodes = (s.clist.swap_with s.unclist).2.get_nodes) := by
  obtain ⟨f1, f2, _⟩ := run_freqs evs (State.init k)
  have h1 : s.expansionFrequency ≤ s.unclist_freq := by
    rw [hs.1, hs.2]
    exact hk1
  have h2 : 1 ≤ s.unclist_freq := by
    rw [hs.2]
    exact hk2
  obtain ⟨g1, g2, g3, g4⟩ := cu_tier_no_refresh s a hu hc h1 h2
  refine ⟨⟨f1, f2⟩, g1, g2, g3, ?_⟩
  rw [g4]
  rcases promotion_gate_unclist s with e | e
  · exact Or.inl (by rw [e])
  · exact Or.inr (by rw [e])

/-- C39 at `exfreq = unclfreq = 4` after the warm-up of scenario 1, with `uc_epoch = 5`: both
the promotion and the refresh would be due; the gate swaps (pages of `unclist` become
`[3, 1]`) and resets `uc_epoch`, and the hit on page 1 runs `increment_count`, not `touch`:
page 1 stays behind page 3. -/
theorem C39_refresh_starved_witness :
    starved_state.unclist.get_nodes = [1, 0] ∧
    (promotion_gate starved_state).unclist.get_nodes = [3, 1] ∧
    (cu_tier starved_state 0x1000).unclist.get_nodes = [3, 1] ∧
    ¬ ((promotion_gate starved_state).uc_epoch ≥ (promotion_gate starved_state).unclist_freq) ∧
    ((cu_tier starved_state 0x1000).unclist.get_nodes = starved_state.unclist.get_nodes ∨
      (cu_tier starved_state 0x1000).unclist.get_nodes =
        (starved_state.clist.swap_with starved_state.unclist).2.get_nodes) :=
  have h := C39_refresh_starved starved_knobs scenario1_warmup starved_state 0x1000
    (by decide) (by decide) (by decide) (by decide) (by decide)
  ⟨by decide, by decide, by decide, h.2.1, h.2.2.2.2⟩

/-- C36: `MAX_INTERVAL` is `2^64 - 1`; for all unsigned 64-bit values `cur` and `last` the
wrapped difference `(cur - last) mod 2^64` is not greater than `MAX_INTERVAL`; so the
per-instruction call never takes the full-reset branch: it leaves the caches with their
statistics, the CU-tier lists and counters and the page access counts as they are, and of the
per-thread statistics it only increments the instruction count as a `uint64_t`, which adds
one to it unless it was `2^64 - 1`. -/
theorem C36_reset_branch_unreachable :
    MAX_INTERVAL = 2 ^ 64 - 1 ∧
    (∀ cur last : Nat, cur < 2 ^ 64 → last < 2 ^ 64 →
      ((sub64 cur last : Nat) : Int) = ((cur : Int) - (last : Int)) % 2 ^ 64 ∧
      ¬ (sub64 cur last > MAX_INTERVAL)) ∧
    (∀ p : Process,
      ¬ (sub64 (incr64 p.globalIns) p.lastReportIns > MAX_INTERVAL) ∧
      (instruction_call p).st =
        { p.st with stats := { p.st.stats with ins := incr64 p.st.stats.ins } } ∧
      (p.st.stats.ins + 1 < 2 ^ 64 →
        (instruction_call p).st.stats.ins = p.st.stats.ins + 1)) := by
  refine ⟨rfl, ?_, ?_⟩
  · intro cur last hc hl
    refine ⟨?_, not_max_interval cur last hc⟩
    unfold sub64
    split
    · omega
    · omega
  · intro p
    have hn := not_max_interval (incr64 p.globalIns) p.lastReportIns (incr64_lt _)
    have hst : (instruction_call p).st =
        { p.st with stats := { p.st.stats with ins := incr64 p.st.stats.ins } } := by
      unfold instruction_call
      simp only []
      rw [if_neg hn]
      split
      · split <;> rfl
      · rfl
    refine ⟨hn, hst, fun hb => ?_⟩
    rw [hst]
    exact incr64_small _ hb

theorem C36_reset_branch_unreachable_witness :
    sub64 0 1 = 2 ^ 64 - 1 ∧ ¬ (sub64 0 1 > MAX_INTERVAL) ∧
    (instruction_call report_due).st.stats =
      { ins := 1, memIns := 0, reads := 0, writes := 0 } ∧
    (instruction_call report_due).st.L2 = report_due.st.L2 :=
  ⟨by decide, (C36_reset_branch_unreachable.2.1 0 1 (by norm_num) (by norm_num)).2,
    by rw [(C36_reset_branch_unreachable.2.2 report_due).2.1]; rfl,
    by rw [(C36_reset_branch_unreachable.2.2 report_due).2.1]⟩

/-- C33 (fails on the code): with `10^9` instructions executed and no report yet, the next
instruction makes the report due (`cur - lastReportIns > REPORT_INTERVAL`), yet no report is
written and `lastReportIns` stays 0, because `compare_exchange_strong(cur, cur)` compares
`lastReportIns` with `cur` itself; and no per-instruction call ever writes a report or changes
`lastReportIns`. -/
theorem C33_report_never_written :
    sub64 (incr64 report_due.globalIns) report_due.lastReportIns > REPORT_INTERVAL ∧
    (instruction_call report_due).globalIns = 1000000001 ∧
    (instruction_call report_due).reports = [] ∧
    (instruction_call report_due).lastReportIns = 0 ∧
    (∀ p : Process, (instruction_call p).reports = p.reports ∧
      (instruction_call p).lastReportIns = p.lastReportIns) := by
  have hgen : ∀ p : Process, (instruction_call p).reports = p.reports ∧
      (instruction_call p).lastReportIns = p.lastReportIns := by
    intro p
    have hn := not_max_interval (incr64 p.globalIns) p.lastReportIns (incr64_lt _)
    unfold instruction_call
    simp only []
    rw [if_neg hn]
    by_cases h : sub64 (incr64 p.globalIns) p.lastReportIns > REPORT_INTERVAL
    · rw [if_pos h, cas_fails _ _ (report_due_ne _ _ h)]
      exact ⟨rfl, rfl⟩
    · rw [if_neg h]
      exact ⟨rfl, rfl⟩
  refine ⟨by decide, ?_, (hgen report_due).1, (hgen report_due).2, hgen⟩
  unfold instruction_call
  simp only []
  rw [if_neg (not_max_interval _ _ (incr64_lt _))]
  split
  · split <;> rfl
  · rfl

/-- C34 (as stated, fails on the code): with sizes and a block size that are no powers of two,
list capacities zero and frequencies zero, `main` does not fail: it constructs both lists and
`L2` and starts the program; and with block size zero both lists are constructed before the
division by zero in `sets()`. -/
theorem C34_invalid_configuration_accepted :
    tool_main false unchecked_knobs = Startup.started (State.init unchecked_knobs) ∧
    (State.init unchecked_knobs).clist = HashLL.create 0 ∧
    (State.init unchecked_knobs).unclist = HashLL.create 0 ∧
    (State.init unchecked_knobs).L2 =
      SimpleCache.create { sizeBytes := 1000, blockBytes := 48, ways := 5 } ∧
    tool_main false zero_block_knobs =
      Startup.division_by_zero (HashLL.create 2) (HashLL.create 2) := by
  decide

/-- C34 (amended): `main` validates nothing. When `PIN_Init` fails it returns 1; otherwise it
constructs `clist` and `unclist` with the capacities given, and, the `uint32_t` product
`blk * l2assoc` being non-zero, constructs `L2` from the sizes given, takes the three
frequencies as given and starts the program. -/
theorem C34_no_validation (k : Knobs) (h : (k.blk * k.l2assoc) % 2 ^ 32 ≠ 0) :
    tool_main true k = Startup.exit 1 ∧
    ∃ s, tool_main false k = Startup.started s ∧
      s.clist = HashLL.create k.clsize ∧ s.unclist = HashLL.create k.unclsize ∧
      s.L2 = SimpleCache.create
        { sizeBytes := k.l2size, blockBytes := k.blk, ways := k.l2assoc } ∧
      s.clist_freq = k.clfreq ∧ s.unclist_freq = k.unclfreq ∧
      s.expansionFrequency = k.exfreq := by
  refine ⟨rfl, State.init k, ?_, rfl, rfl, rfl, rfl, rfl, rfl⟩
  unfold tool_main
  simp only []
  rw [if_neg h]
  rfl

theorem C34_no_validation_witness :
    (unchecked_knobs.blk * unchecked_knobs.l2assoc) % 2 ^ 32 ≠ 0 ∧
    tool_main true unchecked_knobs = Startup.exit 1 ∧
    ∃ s, tool_main false unchecked_knobs = Startup.started s ∧
      s.clist = HashLL.create unchecked_knobs.clsize ∧
      s.unclist = HashLL.create unchecked_knobs.unclsize ∧
      s.L2 = SimpleCache.create
        { sizeBytes := unchecked_knobs.l2size, blockBytes := unchecked_knobs.blk,
          ways := unchecked_knobs.l2assoc } ∧
      s.clist_freq = unchecked_knobs.clfreq ∧ s.unclist_freq = unchecked_knobs.unclfreq ∧
      s.expansionFrequency = unchecked_knobs.exfreq :=
  ⟨by decide, C34_no_validation unchecked_knobs (by decide)⟩

/-- C37: on every control path through `CacheCall` the lock calls run with every acquired
lock (`l2Lock`, `unc_lock`, `c_lock`, `cpage_lock`) released before the return, `unc_lock` is
never requested while `c_lock` is held, and both list locks are held together only in the
promotion gate, which takes `unc_lock` first and `c_lock` second; the gate is reached, for
example by a read of a new page with both lists full. -/
theorem C37_lock_discipline :
    (∀ (s : State) (op blkAddr vp_addr : Nat),
      LockDiscipline (CacheCall_locks s op blkAddr vp_addr)) ∧
    CacheCall_locks starved_state READ_OP 0x5000 0x5000 =
      gate_entry ++ [LockOp.release Lock.c_lock, LockOp.release Lock.unc_lock,
        LockOp.get Lock.unc_lock, LockOp.release Lock.unc_lock,
        LockOp.get Lock.c_lock, LockOp.release Lock.c_lock,
        LockOp.get Lock.cpage_lock, LockOp.release Lock.cpage_lock] :=
  ⟨fun s op blkAddr vp_addr =>
    lock_paths_discipline _ (CacheCall_locks_paths s op blkAddr vp_addr), by decide⟩

/-- C35: in every state reached from a newly constructed cache with `1 ≤ ways` (a `uint32_t`)
by a sequence of `Access`, `Install` and `ResetStats` calls, every set has `ways` lines, every
valid line of a set has an age less than `ways`, and two valid lines at different ways of one
set have different ages. -/
theorem C35_cache_age_invariant (cfg : SimpleCacheConfig) (ops : List CacheOp)
    (h1 : 1 ≤ cfg.ways) (h32 : cfg.ways < 2 ^ 32) :
    ∀ w ∈ (run_cache_ops (SimpleCache.create cfg) ops).sets,
      w.length = cfg.ways ∧
      ∀ j j2 : Nat, (w.getD j Line.empty).valid = true → (w.getD j2 Line.empty).valid = true →
        (w.getD j Line.empty).age < cfg.ways ∧
        ((w.getD j Line.empty).age = (w.getD j2 Line.empty).age → j = j2) := by
  intro w hw
  obtain ⟨hlen, k, hk⟩ := ageOk_run cfg.ways h1 h32 ops _ (ageOk_create cfg) w hw
  refine ⟨hlen, fun j j2 hv hv2 => ?_⟩
  have := ageInv_distinct w k hk j j2 hv hv2
  rw [hlen] at this
  exact this

theorem C35_cache_age_invariant_witness :
    (run_cache_ops (SimpleCache.create three_way_config) aging_ops).sets =
      [[{ tag := 0, age := 2, valid := true, dirty := true },
        { tag := 1, age := 1, valid := true, dirty := false },
        { tag := 3, age := 0, valid := true, dirty := false }],
       [{ tag := 0, age := 0, valid := true, dirty := false }, Line.empty, Line.empty],
       [Line.empty, Line.empty, Line.empty], [Line.empty, Line.empty, Line.empty]] ∧
    ∀ w ∈ (run_cache_ops (SimpleCache.create three_way_config) aging_ops).sets,
      w.length = three_way_config.ways ∧
      ∀ j j2 : Nat, (w.getD j Line.empty).valid = true → (w.getD j2 Line.empty).valid = true →
        (w.getD j Line.empty).age < three_way_config.ways ∧
        ((w.getD j Line.empty).age = (w.getD j2 Line.empty).age → j = j2) :=
  ⟨by decide, C35_cache_age_invariant three_way_config aging_ops (by decide) (by decide)⟩

/-- C32 (as stated, fails on the code): in scenario 3, where `L1` has one way, the third write
(to `0x80`) misses in `L2`, `L2` evicts block `0x0` and installs it in `L1`, and afterwards
`L1` holds block `0x0` and does not hold block `0x80`, the block just accessed. -/
theorem C32_l1_copy_as_stated_fails :
    scenario3_knobs.l1assoc = 1 ∧
    (run (State.init scenario3_knobs) scenario3_writes).l1.holds
      (block_floor scenario3_knobs.blk 0x80) = false ∧
    (run (State.init scenario3_knobs) scenario3_writes).l1.holds 0x0 = true := by
  decide

/-- C32 (amended): for an `L1` with at least two ways (a `uint32_t`) and at least one set,
after every memory event for byte address `a` the block containing `a` is valid in `L1`, also
when `L2` evicted a valid victim and installed it in `L1`. -/
theorem C32_l1_copy (k : Knobs) (evs : List MemEvent) (ev : MemEvent)
    (hw : 2 ≤ k.l1assoc) (h32 : k.l1assoc < 2 ^ 32) (hn : 1 ≤ k.cfgL1.sets) :
    (run (State.init k) (evs ++ [ev])).l1.holds (block_floor k.blk ev.addr) = true := by
  have hsh : (run (State.init k) evs).l1.Shaped k.cfgL1.sets k.l1assoc :=
    run_l1_shaped _ _ (by omega) h32 evs _ (shaped_create k.cfgL1)
  have hb : (run (State.init k) evs).blk = k.blk := run_blk evs _
  rw [run_snoc, ← hb]
  exact step_l1_holds _ ev _ _ hsh hn hw h32

theorem C32_l1_copy_witness :
    Callback.up 0x0 true ∈
      ((run (State.init two_way_l1_knobs) [MemEvent.write 0x0, MemEvent.write 0x40]).L2.Access
        0x80 true true true).2.2 ∧
    (run (State.init two_way_l1_knobs)
      ([MemEvent.write 0x0, MemEvent.write 0x40] ++ [MemEvent.write 0x80])).l1.holds
        (block_floor two_way_l1_knobs.blk (MemEvent.write 0x80).addr) = true :=
  ⟨by decide, C32_l1_copy two_way_l1_knobs [MemEvent.write 0x0, MemEvent.write 0x40]
    (MemEvent.write 0x80) (by decide) (by decide) (by decide)⟩

/-- C31 (as stated, fails on the code): in scenario 3 the third write (to `0x80`) misses in
`L1` and in `L2`, `L2` evicts block `0x0`, and afterwards block `0x0` is valid in `L1` and
not valid in `L2`. -/
theorem C31_inclusion_as_stated_fails :
    Callback.up 0x0 true ∈
      ((run (State.init scenario3_knobs) [MemEvent.write 0x0, MemEvent.write 0x40]).L2.Access
        0x80 true true true).2.2 ∧
    (run (State.init scenario3_knobs) scenario3_writes).l1.holds 0x0 = true ∧
    (run (State.init scenario3_knobs) scenario3_writes).L2.holds 0x0 = false := by
  decide

/-- C31 (amended): the eviction callback of `L2` installs the victim in `L1`. For an `L1` with
at least one way and one set and an `L2` with a power-of-two block size, a power-of-two number
of sets and at least one way: after every memory event that misses in `L1` and whose `L2`
access evicts a valid block, that block is valid in `L1` and not valid in `L2`. -/
theorem C31_evicted_block_in_l1 (k : Knobs) (evs : List MemEvent) (ev : MemEvent)
    (a2 : Nat) (d : Bool) (B K : Nat)
    (h1w : 1 ≤ k.l1assoc) (h1w32 : k.l1assoc < 2 ^ 32) (h1n : 1 ≤ k.cfgL1.sets)
    (hb : k.blk = 2 ^ B) (hB : B < 32) (hK : k.cfgL2.sets = 2 ^ K)
    (h2w : 1 ≤ k.l2assoc) (h2w32 : k.l2assoc < 2 ^ 32)
    (hmiss : ((run (State.init k) evs).l1.Access (block_floor k.blk ev.addr)
      (decide (ev.op = WRITE_OP)) false false).1 = false)
    (hup : Callback.up a2 d ∈ ((run (State.init k) evs).L2.Access (block_floor k.blk ev.addr)
      (decide (ev.op = WRITE_OP)) true true).2.2) :
    (run (State.init k) (evs ++ [ev])).l1.holds a2 = true ∧
    (run (State.init k) (evs ++ [ev])).L2.holds a2 = false := by
  have hsh : (run (State.init k) evs).l1.Shaped k.cfgL1.sets k.l1assoc :=
    run_l1_shaped _ _ h1w h1w32 evs _ (shaped_create k.cfgL1)
  have hg : (SimpleCache.create k.cfgL2).Geom B K := geom_create k.cfgL2 B K hb hB hK
  obtain ⟨hist, hi, hh⟩ := run_L2_inv (SimpleCache.create k.cfgL2) B K hg h2w h2w32 evs
    (State.init k) ⟨[], cacheInv_create k.cfgL2, fun b hb => (by cases hb)⟩
  have hblk : (run (State.init k) evs).blk = k.blk := run_blk evs _
  rw [run_snoc]
  obtain ⟨e1, e2, _⟩ := step_caches (run (State.init k) evs) ev
  rw [hblk, hmiss] at e1 e2
  rw [e1, e2, if_neg Bool.false_ne_true, if_neg Bool.false_ne_true,
    run_L2_callbacks_of_up _ _ _ _ a2 d hup]
  exact ⟨install_holds _ _ _
      (shaped_access _ _ _ (block_floor k.blk ev.addr) (decide (ev.op = WRITE_OP)) false false
        hsh h1w h1w32) h1n h1w a2 d,
    evicted_not_held _ _ hist B K hg h2w h2w32 hi hh _ _ a2 d hup⟩

theorem C31_evicted_block_in_l1_witness :
    (run (State.init scenario3_knobs)
      ([MemEvent.write 0x0, MemEvent.write 0x40] ++ [MemEvent.write 0x80])).l1.holds 0x0 = true ∧
    (run (State.init scenario3_knobs)
      ([MemEvent.write 0x0, MemEvent.write 0x40] ++ [MemEvent.write 0x80])).L2.holds 0x0 =
        false :=
  C31_evicted_block_in_l1 scenario3_knobs [MemEvent.write 0x0, MemEvent.write 0x40]
    (MemEvent.write 0x80) 0x0 true 6 1 (by decide) (by decide) (by decide) (by decide)
    (by decide) (by decide) (by decide) (by decide) (by decide) (by decide)
